import Mathlib

/-!
Unix-Makefile-Model: a shallow embedding of `mymake2`

The development follows the C sources `header.h`, `parseMakeFile.c`,
`parseTargetFile.c` and `UnixMakefileModel.c`.

* C strings are lists of characters without the terminating NUL; reading the
  byte at the end of a string yields NUL, written `'\x00'`.
* The linked list `headLL` is a `List parentNode`; a pointer to a
  `parentNode` is the position of that node in `headLL` (nodes are only ever
  appended, so positions are stable), and the list of `childNode` edges of a
  node is the list of the positions its `to` pointers refer to.
* `stat` and `system` are external: they are taken from an environment over an
  arbitrary world type, and both may change the world.
* Memory is not modelled, with one exception: while the parser reads the rule
  file, `freeLL()` frees the line buffer `curLine` once for every node, and a
  second `free` of that buffer is undefined behaviour (the C library aborts the
  process), so the error paths of the parser that call `freeLL()` count these
  calls.  The fixed-size buffer `tempTarget[65]` is taken to be large enough.
-/

namespace UnixMakefileModel

/-- A C string: the characters before the terminating NUL. -/
abbrev CStr := List Char

/-! ## Data model (`header.h`) -/

/-- The C `struct parentNode`; `next` is the tail of the list holding the node and
`children` holds the positions of the nodes the edges point to. -/
structure parentNode where
  name : CStr
  cmds : List CStr
  children : List Nat
  visited : Bool
  doesExist : Bool
  mustBuild : Bool
  completed : Bool
  fileDate : Int
  target : Bool
deriving DecidableEq, Repr

/-- The field values given to a node allocated in `useActionLineAndAddNodes`. -/
def newNode (name : CStr) (target : Bool) : parentNode :=
  { name := name, cmds := [], children := [], visited := false, doesExist := false,
    mustBuild := false, completed := false, fileDate := -1, target := target }

instance : Inhabited parentNode := ⟨newNode [] false⟩

/-! ## Character classes and C library routines -/

/-- The C `isspace` in the "C" locale. -/
def isspace (c : Char) : Bool :=
  c = ' ' || c = '\t' || c = '\n' || c = '\x0b' || c = '\x0c' || c = '\r'

/-- The C string stored in a buffer: everything before the first NUL. -/
def cstr (buf : List Char) : CStr := buf.takeWhile (fun c => c ≠ '\x00')

/-- The byte `s[i]` of a C string, NUL at the terminator. -/
def charAt (s : CStr) (i : Nat) : Char := s.getD i '\x00'

/-- The lines `getline` delivers for a file: each line keeps its terminating
newline, the last line may lack one. -/
def getlines : List Char → List CStr
  | [] => []
  | c :: cs =>
    if c = '\n' then [c] :: getlines cs
    else match getlines cs with
      | [] => [[c]]
      | l :: ls => (c :: l) :: ls

/-- The conversion `%s` of `sscanf`: skip white space, then take the longest run of
non-white-space characters. -/
def scanToken (s : CStr) : CStr := (s.dropWhile isspace).takeWhile (fun c => !isspace c)

/-- The input left after the conversion `%s`. -/
def afterToken (s : CStr) : CStr := (s.dropWhile isspace).dropWhile (fun c => !isspace c)

/-- The call `sscanf(line, "%s : %[^\n]", tempTarget, tempPointers)` of
`useActionLineAndAddNodes`: `none` when no conversion succeeded (`retVal < 1`),
otherwise `tempTarget` and `tempPointers`, the latter left empty (it was
allocated by `calloc`) when only the first conversion succeeded. -/
def sscanfTarget (line : CStr) : Option (CStr × CStr) :=
  if scanToken line = [] then none
  else
    match (afterToken line).dropWhile isspace with
    | ':' :: rest => some (scanToken line, (rest.dropWhile isspace).takeWhile (fun c => c ≠ '\n'))
    | _ => some (scanToken line, [])

/-! ## The graph (`parseMakeFile.c`) -/

/-- The function `addParentNode`: append the node to `headLL`; the first node ever added
names the default target `targetNode`. -/
def addParentNode (headLL : List parentNode) (targetNode : Option CStr) (node : parentNode) :
    List parentNode × Option CStr :=
  match headLL with
  | [] => ([node], match targetNode with
                   | none => some node.name
                   | some t => some t)
  | _ :: _ => (headLL ++ [node], targetNode)

/-- The edge list after `addChildNode(parent, child)`, as a function of the edge
list of `parent`: the walk over the list returns early on an edge to `child`. -/
def addChildNode : List Nat → Nat → List Nat
  | [], child => [child]
  | [cur], child => if cur = child then [cur] else [cur, child]
  | cur :: nxt :: rest, child =>
    if cur = child then cur :: nxt :: rest else cur :: addChildNode (nxt :: rest) child

/-- The function `findParentNode`: the first node of `headLL` with the given name. -/
def findParentNode : List parentNode → CStr → Option Nat
  | [], _ => none
  | cur :: rest, name =>
    if cur.name = name then some 0 else (findParentNode rest name).map (fun i => i + 1)

/-- The function `searchHeadActionForDup`: whether the first node with the given name
has a dependency edge. -/
def searchHeadActionForDup : List parentNode → CStr → Bool
  | [], _ => false
  | cur :: rest, name =>
    if cur.name = name then (if cur.children ≠ [] then true else false)
    else searchHeadActionForDup rest name

/-- The node at a position of `headLL`. -/
def nodeAt (headLL : List parentNode) (i : Nat) : parentNode := headLL.getD i default

/-- Assignment through a node pointer. -/
def updNode (headLL : List parentNode) (i : Nat) (f : parentNode → parentNode) :
    List parentNode :=
  headLL.set i (f (nodeAt headLL i))

/-- The effect of `addChildNode(parent, child)` on the node `parent`. -/
def parentNode.addChild (child : Nat) (parent : parentNode) : parentNode :=
  { parent with children := addChildNode parent.children child }

/-- The assignment `temp->cmds = CMDS`. -/
def parentNode.setCmds (CMDS : List CStr) (temp : parentNode) : parentNode :=
  { temp with cmds := CMDS }

/-- The errors on which the parser prints a message and calls `exit(1)`. -/
inductive ParseError where
  /-- "Invalid Format. Commands Cannot be First." -/
  | commandsFirst
  /-- "Invalid Format, either no or one too many Colons." -/
  | colons
  /-- "Invalid Format." -/
  | invalidFormat
  /-- "Invalid Format. Node already exists." -/
  | nodeAlreadyExists
  /-- No message: the line buffer was freed a second time, which is undefined
  behaviour; the C library aborts the process. -/
  | doubleFree
deriving DecidableEq, Repr

/-- The calls `free(curLine)` made by `freeLL()` while `curLine` is set, as it is during
the whole `getline` loop of `parseMakeFileData`: one for every node of `headLL`
(`parseTargetFile.c`, lines 60-62). -/
def freeLL (headLL : List parentNode) : Nat := headLL.length

/-- How an error path of the parser ends once the line buffer was freed `frees` times:
with its message and `exit(1)` when that was at most once, and without a message
when the buffer was freed twice. -/
def exitAfter (frees : Nat) (e : ParseError) : ParseError :=
  if frees ≤ 1 then e else .doubleFree

/-- The dependency loop of `useActionLineAndAddNodes` (lines 229-266): while
`sscanf(restPointers, "%s", tempPointer)` converts a token, look the token up or
create its node, add the edge, then advance `restPointers` by the token length
and over the white space behind it.  The first argument bounds the number of
iterations; each iteration consumes a character, so the length of
`restPointers` suffices. -/
def depLoop : Nat → List parentNode → Option CStr → Nat → CStr → List parentNode × Option CStr
  | 0, headLL, targetNode, _, _ => (headLL, targetNode)
  | fuel + 1, headLL, targetNode, actionHead, restPointers =>
    let tempPointer := scanToken restPointers
    if tempPointer = [] then (headLL, targetNode)
    else
      let found := findParentNode headLL tempPointer
      let added := match found with
        | some _ => (headLL, targetNode)
        | none => addParentNode headLL targetNode (newNode tempPointer false)
      let action := match found with
        | some a => a
        | none => headLL.length
      let linked := updNode added.1 actionHead (parentNode.addChild action)
      depLoop fuel linked added.2 actionHead
        ((restPointers.drop tempPointer.length).dropWhile isspace)

/-- The function `useActionLineAndAddNodes` on the global `headLL` and `targetNode`, as
called from the `getline` loop of `parseMakeFileData`: the new globals and the
returned pointer `actionHead`.  Both error paths call `freeLL()` before they print
their message. -/
def useActionLineAndAddNodes (headLL : List parentNode) (targetNode : Option CStr)
    (line : CStr) : Except ParseError (List parentNode × Option CStr × Nat) :=
  match sscanfTarget line with
  | none => .error (exitAfter (freeLL headLL) .invalidFormat)
  | some (target, restPointers) =>
    if searchHeadActionForDup headLL target = true then
      .error (exitAfter (freeLL headLL) .nodeAlreadyExists)
    else
      let found := findParentNode headLL target
      let added := match found with
        | some _ => (headLL, targetNode)
        | none => addParentNode headLL targetNode (newNode target true)
      let actionHead := match found with
        | some a => a
        | none => headLL.length
      let done := depLoop restPointers.length added.1 added.2 actionHead restPointers
      .ok (done.1, done.2, actionHead)

/-- The function `addLine`: append a command to a command list. -/
def addLine (head : List CStr) (newLine : CStr) : List CStr := head ++ [newLine]

/-- The function `countColons`. -/
def countColons : CStr → Nat
  | [] => 0
  | c :: rest => (if c = ':' then 1 else 0) + countColons rest

/-- The loop of `fixLine` from the current read position; `started` is
`newIndex != 0`.  On a string of white space only, the C loop reads behind the
terminator; the parser never passes such a string. -/
def fixLineFrom : Bool → CStr → CStr
  | _, [] => []
  | started, c :: rest =>
    if !started && isspace c then fixLineFrom false rest
    else if isspace c && isspace (rest.headD '\x00') then fixLineFrom started rest
    else if rest.headD '\x00' = ':' then c :: ' ' :: fixLineFrom true rest
    else if c = ':' && !isspace (rest.headD '\x00') then c :: ' ' :: fixLineFrom true rest
    else c :: fixLineFrom true rest

/-- The function `fixLine`. -/
def fixLine (oldLine : CStr) : CStr := fixLineFrom false oldLine

/-- The blank-line scan of `parseMakeFileData` (lines 490-493): `isspace` is applied to
the truth value of `line[tempIndex] && line[tempIndex] != 0`, that is to the
byte 0 or 1. -/
def blankScan (line : CStr) : Nat → Nat → Nat
  | 0, tempIndex => tempIndex
  | fuel + 1, tempIndex =>
    if isspace (if charAt line tempIndex ≠ '\x00' ∧ charAt line tempIndex ≠ '\x00'
        then '\x01' else '\x00')
    then blankScan line fuel (tempIndex + 1) else tempIndex

/-- The variables of `parseMakeFileData` together with the globals it writes. -/
structure ParseState where
  headLL : List parentNode
  targetNode : Option CStr
  CMDS : List CStr
  temp : Option Nat
deriving DecidableEq, Repr

/-- The state before the first line is read. -/
def ParseState.init : ParseState := { headLL := [], targetNode := none, CMDS := [], temp := none }

/-- The assignment `temp->cmds = CMDS` guarded by `temp != NULL`. -/
def storeCmds (st : ParseState) : List parentNode :=
  match st.temp with
  | some t => updNode st.headLL t (parentNode.setCmds st.CMDS)
  | none => st.headLL

/-- One iteration of the `getline` loop of `parseMakeFileData`.  The colon error path
calls `freeLL()` and then `free(line)` before it prints its message. -/
def parseLine (st : ParseState) (buf : List Char) : Except ParseError ParseState :=
  let line := cstr buf
  if charAt line 0 = '\t' then
    if st.headLL = [] then .error .commandsFirst
    else
      let noSpace := (line.dropWhile isspace).takeWhile (fun c => c ≠ '\n')
      if noSpace.length > 0 then .ok { st with CMDS := addLine st.CMDS noSpace }
      else .ok st
  else
    let tempIndex := blankScan line line.length 0
    if charAt line tempIndex = '\x00' ∨ charAt line tempIndex = '\n' then .ok st
    else
      let stored := storeCmds st
      if countColons line ≠ 1 then .error (exitAfter (freeLL stored + 1) .colons)
      else
        match useActionLineAndAddNodes stored st.targetNode (fixLine line) with
        | .error e => .error e
        | .ok (headLL, targetNode, actionHead) =>
          .ok { headLL := headLL, targetNode := targetNode, CMDS := [], temp := some actionHead }

/-- The `getline` loop of `parseMakeFileData` over the remaining lines. -/
def parseLines : ParseState → List (List Char) → Except ParseError ParseState
  | st, [] => .ok st
  | st, line :: rest =>
    match parseLine st line with
    | .error e => .error e
    | .ok st1 => parseLines st1 rest

/-- The function `parseMakeFileData` on the lines of the rule file: after the loop the
pending commands are stored when `CMDS != NULL`. -/
def parseMakeFileData (lines : List (List Char)) : Except ParseError ParseState :=
  match parseLines ParseState.init lines with
  | .error e => .error e
  | .ok st => if st.CMDS ≠ [] then .ok { st with headLL := storeCmds st } else .ok st

/-! ## The traversal (`parseTargetFile.c`) -/

/-- The external routines used by the traversal, over a world of type `W`:
`stat(name, &fileData)` yields `st_mtime` when it returns 0 and `none` otherwise;
`system(cmd)` yields whether it returned 0.  Both yield the world they leave. -/
structure Env (W : Type) where
  stat : W → CStr → Option Int × W
  system : W → CStr → Bool × W

/-- What a run does to the outside, in order; a node position says which node's
activation of `POT` the action belongs to. -/
inductive Event where
  /-- A call of `stat` on the node's name, with its result. -/
  | stat (node : Nat) (name : CStr) (res : Option Int)
  /-- The cycle message printed for the edge from `node` to `child`. -/
  | cycle (node : Nat) (child : Nat)
  /-- A call `praseCMDS(node)`. -/
  | praseCMDS (node : Nat)
  /-- A call of `system` on a command of the node, with whether it returned 0. -/
  | system (node : Nat) (cmd : CStr) (ok : Bool)
  /-- The line printed after a command that succeeded. -/
  | echo (node : Nat) (cmd : CStr)
  /-- The line "<target> is up to date." -/
  | upToDate (target : CStr)
deriving DecidableEq, Repr

/-- The messages printed before `exit(1)` in `parseTargetFile.c`. -/
inductive Fatal where
  /-- Message `perror("stat")`. -/
  | stat
  /-- "Node Does not Exist." -/
  | nodeDoesNotExist
  /-- "Invalid Command was Given." -/
  | invalidCommand
  /-- "Target Was not Found and or Does not Exist." -/
  | targetNotFound
deriving DecidableEq, Repr

/-- The globals `headLL` and `CMDSused`, the world, and the events so far. -/
structure State (W : Type) where
  headLL : List parentNode
  world : W
  CMDSused : Nat
  trace : List Event

/-- How a call ends: it returns, it ends the process with `exit(1)`, the bound on
the recursion depth of the model was too small, or an edge points outside
`headLL`. -/
inductive Outcome (W : Type) where
  | ok (s : State W)
  | fatal (msg : Fatal) (s : State W)
  | outOfFuel
  | dangling

/-- The node behind a pointer. -/
def State.node {W : Type} (s : State W) (i : Nat) : parentNode := nodeAt s.headLL i

/-- Assignment to fields of a node. -/
def State.upd {W : Type} (s : State W) (i : Nat) (f : parentNode → parentNode) : State W :=
  { s with headLL := updNode s.headLL i f }

/-- Append an event. -/
def State.emit {W : Type} (s : State W) (e : Event) : State W :=
  { s with trace := s.trace ++ [e] }

/-- The state after a command of a node succeeded: `system` returned 0 and left the
given world, the command was printed, and `CMDSused` was incremented. -/
def State.ran {W : Type} (s : State W) (world : W) (node : Nat) (line : CStr) : State W :=
  { headLL := s.headLL, world := world, CMDSused := s.CMDSused + 1,
    trace := s.trace ++ [.system node line true, .echo node line] }

/-- The state after a command of a node failed: `system` returned a nonzero status
and left the given world. -/
def State.failed {W : Type} (s : State W) (world : W) (node : Nat) (line : CStr) : State W :=
  { headLL := s.headLL, world := world, CMDSused := s.CMDSused,
    trace := s.trace ++ [.system node line false] }

/-- The function `verifyTargetNode`. -/
def verifyTargetNode : List parentNode → CStr → Option Nat
  | [], _ => none
  | cur :: rest, name =>
    if cur.name = name then some 0 else (verifyTargetNode rest name).map (fun i => i + 1)

/-- The function `praseCMDS` from the command `cmdLine` on: a command whose first byte
is NUL is passed over. -/
def praseCMDS {W : Type} (env : Env W) (node : Nat) : List CStr → State W → Outcome W
  | [], s => .ok s
  | line :: rest, s =>
    if charAt line 0 ≠ '\x00' then
      let r := env.system s.world line
      if r.1 = false then
        .fatal .invalidCommand (s.failed r.2 node line)
      else
        praseCMDS env node rest (s.ran r.2 node line)
    else praseCMDS env node rest s

/-- The assignment `node->visited = 1`. -/
def parentNode.setVisited (n : parentNode) : parentNode := { n with visited := true }

/-- The assignments `node->fileDate = fileData.st_mtime; node->doesExist = 1`. -/
def parentNode.setExists (mtime : Int) (n : parentNode) : parentNode :=
  { n with fileDate := mtime, doesExist := true }

/-- The assignment `node->mustBuild = 1`. -/
def parentNode.setMustBuild (n : parentNode) : parentNode := { n with mustBuild := true }

/-- The assignment `node->completed = 1`. -/
def parentNode.setCompleted (n : parentNode) : parentNode := { n with completed := true }

/-- The call `stat(node->name, &fileData)` for the node `i`: its result and the state it
leaves. -/
def State.stat {W : Type} (env : Env W) (s : State W) (i : Nat) : Option Int × State W :=
  ((env.stat s.world (s.node i).name).1,
    { headLL := s.headLL, world := (env.stat s.world (s.node i).name).2, CMDSused := s.CMDSused,
      trace := s.trace ++ [.stat i (s.node i).name (env.stat s.world (s.node i).name).1] })

/-- Lines 144-152 of `POT`: a node without a file and without edges ends the run, a
node without a file and with edges must be built. -/
def POTexists {W : Type} (s : State W) (i : Nat) : Outcome W :=
  if (s.node i).doesExist = false then
    if (s.node i).children = [] then .fatal .nodeDoesNotExist s
    else .ok (s.upd i parentNode.setMustBuild)
  else .ok s

/-- Lines 128-152 of `POT`: mark the node visited, probe its file, and decide
whether it can be built at all. -/
def POTprobe {W : Type} (env : Env W) (s : State W) (i : Nat) : Outcome W :=
  match (s.upd i parentNode.setVisited).stat env i with
  | (some mtime, s2) => POTexists (s2.upd i (parentNode.setExists mtime)) i
  | (none, s2) =>
    if (s2.node i).target = false then .fatal .stat s2
    else POTexists (s2.upd i parentNode.setMustBuild) i

/-- Lines 157-165 of `POT`: what the loop does for the edge from `i` to `child` after
the recursive call returned.  An edge to a node that is visited and not completed
gets the cycle message; otherwise the edge can set `mustBuild`. -/
def POTedge {W : Type} (i child : Nat) (s1 : State W) : State W :=
  if (s1.node child).visited = true ∧ (s1.node child).completed = false then
    s1.emit (.cycle i child)
  else if (s1.node i).mustBuild = false then
    if (s1.node child).doesExist = false ∨ (s1.node child).fileDate > (s1.node i).fileDate then
      s1.upd i parentNode.setMustBuild
    else s1
  else s1

/-- The loop of `POT` over the remaining dependency edges of node `i` (lines
154-166); `call` is the recursive call of `POT`. -/
def POTchildren {W : Type} (call : State W → Nat → Outcome W) (i : Nat) :
    List Nat → State W → Outcome W
  | [], s => .ok s
  | child :: rest, s =>
    match call s child with
    | .ok s1 => POTchildren call i rest (POTedge i child s1)
    | other => other

/-- Lines 170-179 of `POT`: probe the file again after the commands. -/
def POTrestat {W : Type} (env : Env W) (s : State W) (i : Nat) : Outcome W :=
  match s.stat env i with
  | (some mtime, s2) => .ok (s2.upd i (parentNode.setExists mtime))
  | (none, s2) => if (s2.node i).target = false then .fatal .stat s2 else .ok s2

/-- Lines 168-182 of `POT`: run the commands when `mustBuild` is set, probe the file
again, and mark the node completed. -/
def POTrebuild {W : Type} (env : Env W) (s : State W) (i : Nat) : Outcome W :=
  if (s.node i).mustBuild = true then
    match praseCMDS env i (s.node i).cmds (s.emit (.praseCMDS i)) with
    | .ok s1 =>
      match POTrestat env s1 i with
      | .ok s2 => .ok (s2.upd i parentNode.setCompleted)
      | other => other
    | other => other
  else .ok (s.upd i parentNode.setCompleted)

/-- The body of `POT` for a node that is not yet visited. -/
def POTbody {W : Type} (env : Env W) (call : State W → Nat → Outcome W) (s : State W)
    (i : Nat) : Outcome W :=
  match POTprobe env s i with
  | .ok s1 =>
    match POTchildren call i (s1.node i).children s1 with
    | .ok s2 => POTrebuild env s2 i
    | other => other
  | other => other

/-- The function `POT`.  The first argument bounds the depth of the recursion; a
depth above the number of nodes is never reached. -/
def POT {W : Type} (env : Env W) : Nat → State W → Nat → Outcome W
  | 0, _, _ => .outOfFuel
  | fuel + 1, s, i =>
    if i < s.headLL.length then
      if (s.node i).visited = true then .ok s
      else POTbody env (POT env fuel) s i
    else .dangling

/-- The function `resetVisited`. -/
def resetVisited (headLL : List parentNode) : List parentNode :=
  headLL.map (fun n => { n with visited := false })

/-- The state after `resetVisited()`. -/
def State.reset {W : Type} (s : State W) : State W :=
  { headLL := resetVisited s.headLL, world := s.world, CMDSused := s.CMDSused, trace := s.trace }

/-- The function `parseTargetFileData` on the graph left by the parser. -/
def parseTargetFileData {W : Type} (env : Env W) (s : State W) (fp : CStr) : Outcome W :=
  match verifyTargetNode s.headLL fp with
  | none => .fatal .targetNotFound s
  | some target =>
    match POT env (s.headLL.length + 1) s target with
    | .ok s1 =>
      if s1.CMDSused = 0 then .ok ((s1.reset).emit (.upToDate fp)) else .ok s1.reset
    | other => other

/-- How the program ends. -/
inductive Run (W : Type) where
  /-- The parser ended the process. -/
  | parseError (e : ParseError)
  /-- No target was given and the rule file declared none. -/
  | noTarget
  /-- The parser returned and `parseTargetFileData` ended as given. -/
  | built (o : Outcome W)

/-- The part of `main` behind the option handling: parse the rule file, take the
target named on the command line or else `targetNode`, and build it. -/
def mymake2 {W : Type} (env : Env W) (world : W) (file : List Char) (arg : Option CStr) :
    Run W :=
  match parseMakeFileData (getlines file) with
  | .error e => .parseError e
  | .ok st =>
    match (match arg with
           | some a => some a
           | none => st.targetNode) with
    | none => .noTarget
    | some aTargetFile =>
      .built (parseTargetFileData env
        { headLL := st.headLL, world := world, CMDSused := 0, trace := [] } aTargetFile)

/-! ## Notions used in the statements -/

/-- The node an event belongs to. -/
def Event.tag : Event → Option Nat
  | .stat node _ _ => some node
  | .cycle node _ => some node
  | .praseCMDS node => some node
  | .system node _ _ => some node
  | .echo node _ => some node
  | .upToDate _ => none

/-- The number of commands that were run and succeeded, among some events. -/
def execCount : List Event → Nat
  | [] => 0
  | .system _ _ true :: rest => execCount rest + 1
  | _ :: rest => execCount rest

/-- How a state can differ from an earlier one after calls of `POT`: the list of nodes
keeps its length; names, commands, edges and target flags are kept; a node that
was visited before is untouched, and so is a node that is still not visited;
the trace is extended by events of nodes that were not visited before and are
visited now; and `CMDSused` grows by the number of commands run. -/
structure Frame {W : Type} (s s1 : State W) : Prop where
  len : s1.headLL.length = s.headLL.length
  name : ∀ j, (s1.node j).name = (s.node j).name
  cmds : ∀ j, (s1.node j).cmds = (s.node j).cmds
  children : ∀ j, (s1.node j).children = (s.node j).children
  target : ∀ j, (s1.node j).target = (s.node j).target
  visited : ∀ j, (s.node j).visited = true → s1.node j = s.node j
  unvisited : ∀ j, (s1.node j).visited = false → s1.node j = s.node j
  trace : ∃ evs, s1.trace = s.trace ++ evs ∧
    (∀ e ∈ evs, ∃ k, e.tag = some k ∧ k < s.headLL.length ∧ (s.node k).visited = false ∧
      (s1.node k).visited = true) ∧
    s1.CMDSused = s.CMDSused + execCount evs

/-- After a call of `POT` that returned, every node is as before or went from not
visited to completed. -/
def Done {W : Type} (s s1 : State W) : Prop :=
  ∀ j, s1.node j = s.node j ∨
    ((s.node j).visited = false ∧ (s1.node j).visited = true ∧ (s1.node j).completed = true)

/-- After a call of `POT` on another node, every node but `i` is as at the start or went
from not visited to completed. -/
def DoneEx {W : Type} (i : Nat) (s s1 : State W) : Prop :=
  ∀ j, j ≠ i → s1.node j = s.node j ∨
    ((s.node j).visited = false ∧ (s1.node j).visited = true ∧ (s1.node j).completed = true)

/-- What every call of `POT` guarantees: when it returns, the frame holds, every node
it touched is completed and the node it was called on is visited; when it ends the
run, the frame holds and at least one event was added. -/
def CallSpec {W : Type} (call : State W → Nat → Outcome W) : Prop :=
  ∀ s c, match call s c with
    | .ok s1 => Frame s s1 ∧ Done s s1 ∧ (s1.node c).visited = true
    | .fatal _ s1 => Frame s s1 ∧ s.trace.length < s1.trace.length
    | _ => True

/-- A state met inside the call of `POT` on node `i` that started in state `s`, after
the node was marked visited. -/
structure Active {W : Type} (i : Nat) (s cur : State W) : Prop where
  frame : Frame s cur
  done : DoneEx i s cur
  visited : (cur.node i).visited = true

/-- Every edge points to a node of the list. -/
def WellFormed (headLL : List parentNode) : Prop :=
  ∀ n ∈ headLL, ∀ c ∈ n.children, c < headLL.length

/-- The number of nodes that are not yet visited. -/
def unvisitedCount {W : Type} (s : State W) : Nat :=
  ((Finset.range s.headLL.length).filter (fun j => (s.node j).visited = false)).card

/-- The call returned or ended the run: the model neither ran out of recursion depth
nor followed an edge out of the list. -/
def Outcome.finished {W : Type} : Outcome W → Prop
  | .ok _ => True
  | .fatal _ _ => True
  | .outOfFuel => False
  | .dangling => False

/-- The node `b` is reachable from the node `a` along dependency edges of the graph
(in zero or more steps). -/
inductive Reach (headLL : List parentNode) : Nat → Nat → Prop where
  | refl (a : Nat) : Reach headLL a a
  | step {a b c : Nat} : Reach headLL a b → c ∈ (nodeAt headLL b).children → Reach headLL a c

/-- The state holds the graph `g`: same length, and every node has the name, commands,
edges and target flag it has in `g`. -/
structure SameGraph {W : Type} (g : List parentNode) (s : State W) : Prop where
  len : s.headLL.length = g.length
  name : ∀ j, (s.node j).name = (nodeAt g j).name
  cmds : ∀ j, (s.node j).cmds = (nodeAt g j).cmds
  children : ∀ j, (s.node j).children = (nodeAt g j).children
  target : ∀ j, (s.node j).target = (nodeAt g j).target

/-- The event belongs to the running of a command list. -/
def Event.isCommand : Event → Bool
  | .praseCMDS _ => true
  | .system _ _ _ => true
  | .echo _ _ => true
  | _ => false

/-- The invariant of a traversal in which everything is up to date: the world is one
of the worlds `I` in which every file keeps its time `ts`, no command was run, no
node is marked `mustBuild`, and every visited node has recorded its file with the
time `ts`. -/
structure Quiet {W : Type} (I : W → Prop) (ts : Nat → Int) (s : State W) : Prop where
  world : I s.world
  count : s.CMDSused = 0
  noBuild : ∀ j, (s.node j).mustBuild = false
  recorded : ∀ j, (s.node j).visited = true →
    (s.node j).doesExist = true ∧ (s.node j).fileDate = ts j
  noCommand : ∀ e ∈ s.trace, e.isCommand = false

/-- The result of the first probe of the file of node `j` recorded in a trace. -/
def firstProbe (j : Nat) : List Event → Option (Option Int)
  | [] => none
  | .stat k _ r :: rest => if k = j then some r else firstProbe j rest
  | _ :: rest => firstProbe j rest

/-- No dependency cycle passes through a node reachable from `root`: no edge from a
reachable node leads to a node from which the edge's source is reachable. -/
def AcyclicFrom (g : List parentNode) (root : Nat) : Prop :=
  ∀ a b, Reach g root a → b ∈ (nodeAt g a).children → ¬ Reach g b a

/-- The condition of the rebuild decision for node `j`, read off a state: the first
probe of the node reported its file absent, or some dependency has no file
recorded, or some dependency's recorded time is greater than the time the first
probe of the node reported. -/
def Stale {W : Type} (g : List parentNode) (s : State W) (j : Nat) : Prop :=
  firstProbe j s.trace = some none ∨
  ∃ c ∈ (nodeAt g j).children, (s.node c).doesExist = false ∨
    ∃ t, firstProbe j s.trace = some (some t) ∧ (s.node c).fileDate > t

/-- The node `j` was evaluated as the rebuild decision says: its dependencies are
completed and its command list was run exactly when the node is stale. -/
structure Decided {W : Type} (g : List parentNode) (s : State W) (j : Nat) : Prop where
  children : ∀ c ∈ (nodeAt g j).children,
    (s.node c).visited = true ∧ (s.node c).completed = true
  decision : Event.praseCMDS j ∈ s.trace ↔ Stale g s j

/-- The invariant of a traversal of the graph `g` between calls of `POT`: a node not yet
visited is as the parser left it and has no event, and a completed node was
evaluated as the rebuild decision says. -/
structure Settled {W : Type} (g : List parentNode) (s : State W) : Prop where
  graph : SameGraph g s
  fresh : ∀ j, (s.node j).visited = false →
    (s.node j).mustBuild = false ∧ (s.node j).doesExist = false ∧ (s.node j).completed = false
  silent : ∀ j, (s.node j).visited = false → ∀ e ∈ s.trace, e.tag ≠ some j
  decided : ∀ j, (s.node j).visited = true → (s.node j).completed = true → Decided g s j

/-- The invariant of the loop over the edges of node `i` inside the call of `POT` that
started in state `s`: `r` is what the probe of the node reported, `recd` the time
recorded for the node, and `seen` the edges examined so far. -/
structure Examining {W : Type} (g : List parentNode) (s : State W) (i : Nat) (r : Option Int)
    (recd : Int) (seen : List Nat) (cur : State W) : Prop where
  active : Active i s cur
  settled : Settled g cur
  date : (cur.node i).fileDate = recd
  notDone : (cur.node i).completed = false
  probe : firstProbe i cur.trace = some r
  quiet : Event.praseCMDS i ∉ cur.trace
  kids : ∀ c ∈ seen, (cur.node c).visited = true ∧ (cur.node c).completed = true
  must : (cur.node i).mustBuild = true ↔
    (r = none ∨ ∃ c ∈ seen, (cur.node c).doesExist = false ∨ (cur.node c).fileDate > recd)

/-- The line is treated as a target line by `parseMakeFileData`: its first byte is not a
tab, and it is not skipped as empty. -/
def isTargetLine (l : List Char) : Prop :=
  charAt (cstr l) 0 ≠ '\t' ∧ ¬ (charAt (cstr l) 0 = '\x00' ∨ charAt (cstr l) 0 = '\n')

/-- The whitespace-separated tokens of a text, in order. -/
def tokens : CStr → List CStr
  | [] => []
  | c :: rest =>
    if isspace c then tokens rest
    else if isspace (rest.headD ' ') then [c] :: tokens rest
    else match tokens rest with
      | [] => [[c]]
      | t :: ts => (c :: t) :: ts

/-- A list of names with every later repetition of an already listed name removed. -/
def removeRepeats : List CStr → List CStr
  | [] => []
  | d :: ds => d :: (removeRepeats ds).filter (fun x => x ≠ d)

/-- The names of the nodes the edges of node `a` point to, in the order of the edges. -/
def childNames (headLL : List parentNode) (a : Nat) : List CStr :=
  (nodeAt headLL a).children.map (fun c => (nodeAt headLL c).name)

/-- The dependency loop of `useActionLineAndAddNodes` on the list of tokens it converts:
each token is looked up or gets a new node, and the edge is added. -/
def linkDeps : List parentNode → Option CStr → Nat → List CStr → List parentNode × Option CStr
  | headLL, targetNode, _, [] => (headLL, targetNode)
  | headLL, targetNode, actionHead, tempPointer :: more =>
    let found := findParentNode headLL tempPointer
    let added := match found with
      | some _ => (headLL, targetNode)
      | none => addParentNode headLL targetNode (newNode tempPointer false)
    let action := match found with
      | some a => a
      | none => headLL.length
    let linked := updNode added.1 actionHead (parentNode.addChild action)
    linkDeps linked added.2 actionHead more

/-- A newline occurs in the text only as its last character, as in a line delivered by
`getline`. -/
def newlineOnlyLast : CStr → Prop
  | [] => True
  | c :: rest => (c = '\n' → rest = []) ∧ newlineOnlyLast rest

/-- The line is a rule line with target name `name` and the text `R` right of its colon:
`name` is a non-empty token without white space or colon, only white space stands
before it and between it and the colon, `R` holds no further colon, and a newline
occurs only at the end of the line. -/
def IsRule (l : List Char) (name R : CStr) : Prop :=
  ∃ W0 Wl, l = W0 ++ name ++ Wl ++ ':' :: R ∧ (∀ c ∈ W0, isspace c = true) ∧
    (∀ c ∈ Wl, isspace c = true) ∧ name ≠ [] ∧ (∀ c ∈ name, isspace c = false ∧ c ≠ ':') ∧
    ':' ∉ R ∧ newlineOnlyLast l

/-- The first step of `useActionLineAndAddNodes` behind the duplicate check: look the
target up or append a new target node; yields the new globals and `actionHead`. -/
def enterTarget (headLL : List parentNode) (targetNode : Option CStr) (target : CStr) :
    List parentNode × Option CStr × Nat :=
  match findParentNode headLL target with
  | some a => (headLL, targetNode, a)
  | none =>
    ((addParentNode headLL targetNode (newNode target true)).1,
     (addParentNode headLL targetNode (newNode target true)).2, headLL.length)

/-- One iteration of the dependency loop of `useActionLineAndAddNodes`, for the token
it converted. -/
def linkOne (headLL : List parentNode) (targetNode : Option CStr) (actionHead : Nat)
    (tempPointer : CStr) : List parentNode × Option CStr :=
  match findParentNode headLL tempPointer with
  | some action => (updNode headLL actionHead (parentNode.addChild action), targetNode)
  | none =>
    (updNode (addParentNode headLL targetNode (newNode tempPointer false)).1 actionHead
      (parentNode.addChild headLL.length),
     (addParentNode headLL targetNode (newNode tempPointer false)).2)

/-- A list of names extended by further names, each appended unless already listed. -/
def addNames (acc : List CStr) (names : List CStr) : List CStr :=
  names.foldl (fun acc t => if t ∈ acc then acc else acc ++ [t]) acc

/-- The edges of node `a` are in order: `a` is a node of the list and every edge points
to the first node of the list that carries its name. -/
def EdgesByName (headLL : List parentNode) (a : Nat) : Prop :=
  a < headLL.length ∧
    ∀ c ∈ (nodeAt headLL a).children, findParentNode headLL (nodeAt headLL c).name = some c

/-- A small file system: the files that exist with their modification times, and a
clock that gives the time of the next write. -/
structure DemoWorld where
  files : List (CStr × Int)
  clock : Int
deriving DecidableEq, Repr

/-- The modification time of a file, if it exists. -/
def DemoWorld.lookup (w : DemoWorld) (name : CStr) : Option Int :=
  (w.files.find? (fun f => f.1 = name)).map (fun f => f.2)

/-- Write a file at the current time. -/
def DemoWorld.touch (w : DemoWorld) (name : CStr) : DemoWorld :=
  { files := (name, w.clock) :: w.files.filter (fun f => f.1 ≠ name), clock := w.clock + 1 }

/-- A command runner for the scenarios: `false` fails, `touch f` and `cc -o f ...` write
the file `f`, every other command succeeds without writing. -/
def demoEnv : Env DemoWorld where
  stat := fun w name => (w.lookup name, w)
  system := fun w cmd =>
    if cmd = "false".toList then (false, w)
    else if cmd.take 6 = "touch ".toList then (true, w.touch (cmd.drop 6))
    else if cmd.take 6 = "cc -o ".toList then (true, w.touch (scanToken (cmd.drop 6)))
    else (true, w)

/-- The state in which the traversal starts on a graph. -/
def State.start {W : Type} (headLL : List parentNode) (world : W) : State W :=
  { headLL := headLL, world := world, CMDSused := 0, trace := [] }

/-- The rule file of scenario 1. -/
def scenario1File : List Char := "app : main.o\n\tcc -o app main.o\n".toList

/-- The graph the parser builds for scenario 1. -/
def scenario1Graph : List parentNode :=
  [{ newNode "app".toList true with cmds := ["cc -o app main.o".toList], children := [1] },
   newNode "main.o".toList false]

/-- The rule file of scenarios 2 and 3. -/
def scenario2File : List Char :=
  "app : main.o\n\tcc -o app main.o\nmain.o :\n\ttouch main.o\n".toList

/-- The graph the parser builds for scenarios 2 and 3. -/
def scenario2Graph : List parentNode :=
  [{ newNode "app".toList true with cmds := ["cc -o app main.o".toList], children := [1] },
   { newNode "main.o".toList false with cmds := ["touch main.o".toList] }]

/-- The file system of scenario 3: both files exist and `app` is newer than `main.o`. -/
def scenario3World : DemoWorld :=
  { files := [("app".toList, 5), ("main.o".toList, 3)], clock := 10 }

/-- A file system in which both files of scenario 2 exist and `main.o` is newer than
`app`. -/
def staleWorld : DemoWorld :=
  { files := [("app".toList, 3), ("main.o".toList, 5)], clock := 10 }

/-! ## Notions for line endings -/

/-- The node with a carriage return appended to each of its commands. -/
def parentNode.withCR (n : parentNode) : parentNode :=
  { n with cmds := n.cmds.map (fun c => c ++ ['\r']) }

/-- The parser state with a carriage return appended to every command, stored or
pending. -/
def ParseState.withCR (st : ParseState) : ParseState :=
  { headLL := st.headLL.map parentNode.withCR, targetNode := st.targetNode,
    CMDS := st.CMDS.map (fun c => c ++ ['\r']), temp := st.temp }

/-- The text of a file from its lines, each line written with the terminator `eol`. -/
def fileOf (eol : List Char) (bodies : List (List Char)) : List Char :=
  bodies.flatMap (fun b => b ++ eol)

/-! ## Notions for the history of a traversal -/

/-- The commands `praseCMDS` passes to `system`: those whose first byte is not NUL. -/
def runnable (cmds : List CStr) : List CStr :=
  cmds.filter (fun c => decide (charAt c 0 ≠ '\x00'))

/-- The events of commands of node `i` that were run and succeeded, in order. -/
def runEvents (i : Nat) (cmds : List CStr) : List Event :=
  cmds.flatMap (fun c => [Event.system i c true, Event.echo i c])

/-- No event of the list belongs to node `j`. -/
def Untagged (j : Nat) (l : List Event) : Prop := ∀ e ∈ l, e.tag ≠ some j

/-- The events of node `j` in the list are cycle messages. -/
def OnlyCycles (j : Nat) (l : List Event) : Prop :=
  ∀ e ∈ l, e.tag = some j → ∃ c, e = Event.cycle j c

/-- No command of the list failed. -/
def NoFail (l : List Event) : Prop := ∀ e ∈ l, ∀ i c, e ≠ Event.system i c false

/-- What follows the event `praseCMDS j` in a trace: either the events of all commands of
the node that are not empty, in order, and the second probe of the file, after
which no event belongs to the node; or the events of the commands before one
that failed, and the failure, which is the last event. -/
def Rebuilt (g : List parentNode) (j : Nat) (rest : List Event) : Prop :=
  (∃ r t3, rest = runEvents j (runnable (nodeAt g j).cmds) ++
      Event.stat j (nodeAt g j).name r :: t3 ∧ Untagged j t3) ∨
  (∃ pre ck post, runnable (nodeAt g j).cmds = pre ++ ck :: post ∧
      rest = runEvents j pre ++ [Event.system j ck false])

/-- The events of node `j` in a trace are those of at most one evaluation: none; or one
probe of the file, then cycle messages of the loop over the edges, and then at
most one run of the command list.  When the command list was run, every
dependency edge of the node either got the cycle message before, or no event of
the dependency follows the start of the run. -/
def Life (g : List parentNode) (t : List Event) (j : Nat) : Prop :=
  Untagged j t ∨
  ∃ t0 r t1, t = t0 ++ Event.stat j (nodeAt g j).name r :: t1 ∧ Untagged j t0 ∧
    (OnlyCycles j t1 ∨
      ∃ t1a rest, t1 = t1a ++ Event.praseCMDS j :: rest ∧ OnlyCycles j t1a ∧ Rebuilt g j rest ∧
        ∀ c ∈ (nodeAt g j).children, Event.cycle j c ∈ t1a ∨ Untagged c rest)

/-- The events of a node that is in the loop over its edges: one probe, then cycle
messages. -/
def Looping (g : List parentNode) (t : List Event) (j : Nat) : Prop :=
  ∃ t0 r t1, t = t0 ++ Event.stat j (nodeAt g j).name r :: t1 ∧ Untagged j t0 ∧ OnlyCycles j t1

/-- The events of a node that is completed, where `P` holds of the dependencies that were
completed when the command list of the node was run. -/
def Finished (g : List parentNode) (P : Nat → Prop) (t : List Event) (j : Nat) : Prop :=
  ∃ t0 r t1, t = t0 ++ Event.stat j (nodeAt g j).name r :: t1 ∧ Untagged j t0 ∧
    (OnlyCycles j t1 ∨
      ∃ t1a r2 t3, t1 = t1a ++ Event.praseCMDS j ::
          (runEvents j (runnable (nodeAt g j).cmds) ++ Event.stat j (nodeAt g j).name r2 :: t3) ∧
        OnlyCycles j t1a ∧ Untagged j t3 ∧
        ∀ c ∈ (nodeAt g j).children, Event.cycle j c ∈ t1a ∨
          (P c ∧ Untagged c (runEvents j (runnable (nodeAt g j).cmds) ++
            Event.stat j (nodeAt g j).name r2 :: t3)))

/-- The nodes whose command list was started, collected along a trace. -/
def builtBy : List Nat → List Event → List Nat
  | built, [] => built
  | built, Event.praseCMDS j :: rest => builtBy (j :: built) rest
  | built, _ :: rest => builtBy built rest

/-- The nodes at which the body of `POT` was entered, in order, read off a trace: every
probe of a file counts, except the probe that follows the run of the command
list of the node (lines 170-179). -/
def probes : List Nat → List Event → List Nat
  | _, [] => []
  | built, Event.praseCMDS j :: rest => probes (j :: built) rest
  | built, Event.stat j _ _ :: rest =>
    if j ∈ built then probes built rest else j :: probes built rest
  | built, _ :: rest => probes built rest

/-- How a run that ended with the message `m` shows in its trace: after "Invalid Command
was Given." the trace ends with the run of a command list up to the command that
failed, no command failed before, and no command of that node was run before;
after any other message no command failed. -/
def Failure (g : List parentNode) (m : Fatal) (t : List Event) : Prop :=
  (m = Fatal.invalidCommand ∧ ∃ t0 i pre ck post,
      t = t0 ++ Event.praseCMDS i :: runEvents i pre ++ [Event.system i ck false] ∧
      runnable (nodeAt g i).cmds = pre ++ ck :: post ∧ NoFail t0 ∧
      ∀ e ∈ t0, e.isCommand = true → e.tag ≠ some i) ∨
  (m ≠ Fatal.invalidCommand ∧ NoFail t)

/-- The state in which a call ended, if it returned or ended the run. -/
def Outcome.last {W : Type} : Outcome W → Option (State W)
  | .ok s => some s
  | .fatal _ s => some s
  | .outOfFuel => none
  | .dangling => none

/-- What holds of the trace of a traversal of the graph `g` that ended the run. -/
structure Ended (g : List parentNode) (m : Fatal) (t : List Event) : Prop where
  life : ∀ j, Life g t j
  probed : (probes [] t).Nodup ∧ ∀ j ∈ probes [] t, j < g.length
  failure : Failure g m t

/-- The invariant of a traversal of the graph `g` between the steps of `POT`, for any
graph: a node not yet visited is as the parser left it and has no event, a node
in the loop over its edges has its probe and cycle messages, a completed node
has the events of one evaluation, and no command failed. -/
structure Phase {W : Type} (g : List parentNode) (s : State W) : Prop where
  graph : SameGraph g s
  fresh : ∀ j, (s.node j).visited = false →
    (s.node j).mustBuild = false ∧ (s.node j).doesExist = false ∧ (s.node j).completed = false
  silent : ∀ j, (s.node j).visited = false → Untagged j s.trace
  noFail : NoFail s.trace
  looping : ∀ j, (s.node j).visited = true → (s.node j).completed = false → Looping g s.trace j
  done : ∀ j, (s.node j).visited = true → (s.node j).completed = true →
    Finished g (fun c => (s.node c).visited = true ∧ (s.node c).completed = true) s.trace j
  probed : (probes [] s.trace).Nodup ∧
    ∀ j ∈ probes [] s.trace, (s.node j).visited = true ∧ j < g.length

/-- The invariant of the loop over the edges of node `i`: the invariant of the traversal,
the node is not completed, and every edge examined so far got the cycle message
or leads to a completed node. -/
structure PhaseLoop {W : Type} (g : List parentNode) (i : Nat) (seen : List Nat) (cur : State W) :
    Prop where
  phase : Phase g cur
  notDone : (cur.node i).completed = false
  kids : ∀ c ∈ seen, Event.cycle i c ∈ cur.trace ∨
    ((cur.node c).visited = true ∧ (cur.node c).completed = true)

/-- What the parser guarantees of the graph it builds: every edge points into the list,
every node has the flags of a node that was never visited, and no command is
empty. -/
structure Parsed (g : List parentNode) : Prop where
  edges : WellFormed g
  fresh : ∀ n ∈ g, n.visited = false ∧ n.mustBuild = false ∧ n.doesExist = false ∧
    n.completed = false
  cmds : ∀ n ∈ g, ∀ c ∈ n.cmds, charAt c 0 ≠ '\x00'

/-! ## Fixtures for command failure and cycles -/

/-- The graph of the rules `a : b` and `b : a`. -/
def cycleGraph : List parentNode :=
  [{ newNode "a".toList true with children := [1] },
   { newNode "b".toList false with children := [0] }]

/-- A file system in which `a` and `b` exist, `a` newer than `b`. -/
def cycleWorld : DemoWorld := { files := [("a".toList, 5), ("b".toList, 3)], clock := 10 }

/-- A chain `a : b`, `b : c` in which both rules have a command. -/
def chainGraph : List parentNode :=
  [{ newNode "b".toList true with cmds := ["touch b".toList], children := [1] },
   newNode "c".toList false,
   { newNode "a".toList true with cmds := ["touch a".toList], children := [0] }]

/-- A file system in which only `c` exists. -/
def chainWorld : DemoWorld := { files := [("c".toList, 5)], clock := 10 }

/-! ## Notions for cycles and staleness on any graph -/

/-- The invariant of a traversal from `root` for cycles and staleness, on any graph: every
visited node is reachable; every cycle message stands for an edge whose target
reaches its source; every edge of a completed node got the cycle message or leads
to a completed node, and in the second case the node is marked `mustBuild` or
the dependency's recorded time is not greater than the node's; while no cycle
message was written, no edge of a completed node leads back to it; a completed
node marked `mustBuild` had its command list run; and a visited node not marked
`mustBuild` still holds the time its first probe reported. -/
structure Audit {W : Type} (g : List parentNode) (root : Nat) (s : State W) : Prop where
  graph : SameGraph g s
  fresh : ∀ j, (s.node j).visited = false →
    (s.node j).mustBuild = false ∧ (s.node j).doesExist = false ∧ (s.node j).completed = false
  silent : ∀ j, (s.node j).visited = false → Untagged j s.trace
  reach : ∀ j, (s.node j).visited = true → Reach g root j
  cycles : ∀ a b, Event.cycle a b ∈ s.trace →
    b ∈ (nodeAt g a).children ∧ Reach g root a ∧ Reach g b a
  closed : ∀ j, (s.node j).completed = true → ∀ c ∈ (nodeAt g j).children,
    Event.cycle j c ∈ s.trace ∨ ((s.node c).visited = true ∧ (s.node c).completed = true)
  acyclic : ∀ j, (s.node j).completed = true → (∀ a b, Event.cycle a b ∉ s.trace) →
    ∀ b ∈ (nodeAt g j).children, ¬ Reach g b j
  stale : ∀ j, (s.node j).completed = true → ∀ c ∈ (nodeAt g j).children,
    Event.cycle j c ∈ s.trace ∨ (s.node j).mustBuild = true ∨
      ¬ ((s.node c).fileDate > (s.node j).fileDate)
  built : ∀ j, (s.node j).completed = true → (s.node j).mustBuild = true →
    Event.praseCMDS j ∈ s.trace
  probeDate : ∀ j, (s.node j).visited = true → (s.node j).mustBuild = false →
    firstProbe j s.trace = some (some (s.node j).fileDate)

/-- The invariant of the loop over the edges of node `i` for cycles and staleness: the
node is reachable and not completed, every node that is visited and not
completed reaches it, and every edge examined so far got the cycle message or
leads to a completed node that did not make the node stale unnoticed. -/
structure AuditLoop {W : Type} (g : List parentNode) (root i : Nat) (seen : List Nat)
    (cur : State W) : Prop where
  audit : Audit g root cur
  notDone : (cur.node i).completed = false
  rooted : Reach g root i
  path : ∀ v, (cur.node v).visited = true → (cur.node v).completed = false → Reach g v i
  kids : ∀ c ∈ seen, Event.cycle i c ∈ cur.trace ∨
    ((cur.node c).visited = true ∧ (cur.node c).completed = true ∧
      ((cur.node i).mustBuild = true ∨ ¬ ((cur.node c).fileDate > (cur.node i).fileDate)))

/-! ## Notions for the normal form of a target line -/

/-- No two neighbouring characters of the text are both white space. -/
def noDoubleSpace (s : CStr) : Prop :=
  s.Chain' (fun a b => ¬ (isspace a = true ∧ isspace b = true))

/-! ## Notions for the names of the nodes -/

/-- The names of the nodes of the list, in list order. -/
def namesOf (headLL : List parentNode) : List CStr := headLL.map (fun n => n.name)

/-- The names a normalised target line mentions, in order: the target name and the
tokens of the dependency text, as `sscanf` converts them in
`useActionLineAndAddNodes`. -/
def lineNames (line : CStr) : List CStr :=
  match sscanfTarget line with
  | none => []
  | some (target, restPointers) => target :: tokens restPointers

/-- The names the lines of a rule file mention, in order; command lines and skipped
lines mention none. -/
def mentions (lines : List (List Char)) : List CStr :=
  lines.flatMap (fun l =>
    if charAt (cstr l) 0 = '\t' ∨ charAt (cstr l) 0 = '\x00' ∨ charAt (cstr l) 0 = '\n' then []
    else lineNames (fixLine (cstr l)))

/-- What a lookup by name yields in a list of nodes: the position of the one node with
that name, or nothing when no node has it. -/
def FindsUnique (headLL : List parentNode) : Prop :=
  ∀ name : CStr,
    match findParentNode headLL name with
    | some i => i < headLL.length ∧ (nodeAt headLL i).name = name ∧
        ∀ j, j < headLL.length → (nodeAt headLL j).name = name → j = i
    | none => ∀ x ∈ headLL, x.name ≠ name

/-! ## Fixtures for the probe after a rebuild -/

/-- Remove a file. -/
def DemoWorld.remove (w : DemoWorld) (name : CStr) : DemoWorld :=
  { files := w.files.filter (fun f => f.1 ≠ name), clock := w.clock }

/-- The command runner of the scenarios with one more command: `rm f` removes the file
`f` and succeeds. -/
def rmEnv : Env DemoWorld where
  stat := demoEnv.stat
  system := fun w cmd =>
    if cmd.take 3 = "rm ".toList then (true, w.remove (cmd.drop 3)) else demoEnv.system w cmd

/-- A rule file whose target `a` has a command that removes the file `a`. -/
def vanishFile : List Char := "a : b\n\trm a\ntop : a\n\ttouch top\n".toList

/-- The graph the parser builds for `vanishFile`. -/
def vanishGraph : List parentNode :=
  [{ newNode "a".toList true with cmds := ["rm a".toList], children := [1] },
   newNode "b".toList false,
   { newNode "top".toList true with cmds := ["touch top".toList], children := [0] }]

/-- A file system in which `a`, `b` and `top` exist, `b` is newer than `a`, and `top` is
newer than `a`. -/
def vanishWorld : DemoWorld :=
  { files := [("top".toList, 4), ("a".toList, 3), ("b".toList, 5)], clock := 10 }

/-! ## Basic facts about states -/

theorem length_updNode (g : List parentNode) (i : Nat) (f : parentNode → parentNode) :
    (updNode g i f).length = g.length := by
  simp [updNode]

theorem nodeAt_updNode (g : List parentNode) (i j : Nat) (f : parentNode → parentNode) :
    nodeAt (updNode g i f) j = if j = i ∧ i < g.length then f (nodeAt g i) else nodeAt g j := by
  unfold updNode nodeAt
  by_cases hji : j = i
  · subst hji
    by_cases hlt : j < g.length
    · simp [List.getD_eq_getElem?_getD, List.getElem?_set, hlt]
    · have hle : g.length ≤ j := Nat.le_of_not_lt hlt
      simp [List.getD_eq_getElem?_getD, List.getElem?_set, hlt, List.getElem?_eq_none hle]
  · have hij : ¬ i = j := fun h => hji h.symm
    simp [List.getD_eq_getElem?_getD, List.getElem?_set, hji, hij]

@[simp] theorem State.upd_length {W : Type} (s : State W) (i : Nat) (f : parentNode → parentNode) :
    (s.upd i f).headLL.length = s.headLL.length := by
  simp [State.upd, length_updNode]

@[simp] theorem State.upd_trace {W : Type} (s : State W) (i : Nat) (f : parentNode → parentNode) :
    (s.upd i f).trace = s.trace := rfl

@[simp] theorem State.upd_world {W : Type} (s : State W) (i : Nat) (f : parentNode → parentNode) :
    (s.upd i f).world = s.world := rfl

@[simp] theorem State.upd_CMDSused {W : Type} (s : State W) (i : Nat)
    (f : parentNode → parentNode) : (s.upd i f).CMDSused = s.CMDSused := rfl

theorem State.node_upd {W : Type} (s : State W) (i j : Nat) (f : parentNode → parentNode) :
    (s.upd i f).node j = if j = i ∧ i < s.headLL.length then f (s.node i) else s.node j := by
  simp [State.upd, State.node, nodeAt_updNode]

theorem State.node_upd_self {W : Type} (s : State W) (i : Nat) (f : parentNode → parentNode)
    (hi : i < s.headLL.length) : (s.upd i f).node i = f (s.node i) := by
  simp [State.node_upd, hi]

theorem State.node_upd_ne {W : Type} (s : State W) (i j : Nat) (f : parentNode → parentNode)
    (hji : j ≠ i) : (s.upd i f).node j = s.node j := by
  simp [State.node_upd, hji]

@[simp] theorem State.emit_headLL {W : Type} (s : State W) (e : Event) :
    (s.emit e).headLL = s.headLL := rfl

@[simp] theorem State.emit_node {W : Type} (s : State W) (e : Event) (j : Nat) :
    (s.emit e).node j = s.node j := rfl

@[simp] theorem State.emit_trace {W : Type} (s : State W) (e : Event) :
    (s.emit e).trace = s.trace ++ [e] := rfl

@[simp] theorem State.emit_world {W : Type} (s : State W) (e : Event) :
    (s.emit e).world = s.world := rfl

@[simp] theorem State.emit_CMDSused {W : Type} (s : State W) (e : Event) :
    (s.emit e).CMDSused = s.CMDSused := rfl

theorem execCount_append (a b : List Event) : execCount (a ++ b) = execCount a + execCount b := by
  induction a with
  | nil => simp [execCount]
  | cons e rest ih =>
    cases e <;> simp [execCount, ih]
    case system node cmd ok =>
      cases ok <;> simp [execCount, ih]
      omega

/-! ## The frame of a call of `POT` -/

theorem Frame.refl {W : Type} (s : State W) : Frame s s where
  len := rfl
  name := fun _ => rfl
  cmds := fun _ => rfl
  children := fun _ => rfl
  target := fun _ => rfl
  visited := fun _ _ => rfl
  unvisited := fun _ _ => rfl
  trace := ⟨[], by simp, by simp, by simp [execCount]⟩

theorem Frame.trans {W : Type} {a b c : State W} (hab : Frame a b) (hbc : Frame b c) :
    Frame a c where
  len := by rw [hbc.len, hab.len]
  name := fun j => by rw [hbc.name, hab.name]
  cmds := fun j => by rw [hbc.cmds, hab.cmds]
  children := fun j => by rw [hbc.children, hab.children]
  target := fun j => by rw [hbc.target, hab.target]
  visited := fun j hj => by
    have h1 := hab.visited j hj
    have h2 := hbc.visited j (by rw [h1]; exact hj)
    rw [h2, h1]
  unvisited := fun j hj => by
    have h1 := hbc.unvisited j hj
    have h2 := hab.unvisited j (by rw [← h1]; exact hj)
    rw [h1, h2]
  trace := by
    obtain ⟨e1, ht1, hg1, hc1⟩ := hab.trace
    obtain ⟨e2, ht2, hg2, hc2⟩ := hbc.trace
    refine ⟨e1 ++ e2, by rw [ht2, ht1, List.append_assoc], ?_, ?_⟩
    · intro e he
      rcases List.mem_append.mp he with h | h
      · obtain ⟨k, hk, hlt, hv, hv1⟩ := hg1 e h
        refine ⟨k, hk, hlt, hv, ?_⟩
        rw [hbc.visited k hv1]; exact hv1
      · obtain ⟨k, hk, hlt, hv, hv1⟩ := hg2 e h
        refine ⟨k, hk, by rw [← hab.len]; exact hlt, ?_, hv1⟩
        cases hvk : (a.node k).visited with
        | false => rfl
        | true =>
          have := hab.visited k hvk
          rw [this, hvk] at hv
          exact absurd hv (by simp)
    · rw [hc2, hc1, execCount_append, Nat.add_assoc]

/-- Writing fields other than the name, the commands, the edges and the target flag
of a node that was not visited at the start keeps the frame. -/
theorem Frame.upd {W : Type} {s0 cur : State W} (hF : Frame s0 cur) (i : Nat)
    (h0 : (s0.node i).visited = false) (f : parentNode → parentNode)
    (hname : ∀ n, (f n).name = n.name) (hcmds : ∀ n, (f n).cmds = n.cmds)
    (hchildren : ∀ n, (f n).children = n.children) (htarget : ∀ n, (f n).target = n.target)
    (hvis : (f (cur.node i)).visited = true) : Frame s0 (cur.upd i f) where
  len := by simp [hF.len]
  name := fun j => by
    rw [State.node_upd]; split
    · rename_i h; rw [hname, h.1, hF.name]
    · exact hF.name j
  cmds := fun j => by
    rw [State.node_upd]; split
    · rename_i h; rw [hcmds, h.1, hF.cmds]
    · exact hF.cmds j
  children := fun j => by
    rw [State.node_upd]; split
    · rename_i h; rw [hchildren, h.1, hF.children]
    · exact hF.children j
  target := fun j => by
    rw [State.node_upd]; split
    · rename_i h; rw [htarget, h.1, hF.target]
    · exact hF.target j
  visited := fun j hj => by
    have hji : j ≠ i := fun h => by rw [h, h0] at hj; exact absurd hj (by simp)
    rw [State.node_upd_ne _ _ _ _ hji]
    exact hF.visited j hj
  unvisited := fun j hj => by
    rw [State.node_upd] at hj ⊢
    split
    · rename_i h
      rw [if_pos h, hvis] at hj
      exact absurd hj (by simp)
    · rename_i h
      rw [if_neg h] at hj
      exact hF.unvisited j hj
  trace := by
    obtain ⟨e1, ht1, hg1, hc1⟩ := hF.trace
    refine ⟨e1, by simpa using ht1, ?_, by simpa using hc1⟩
    intro e he
    obtain ⟨k, hk, hlt, hv, hv1⟩ := hg1 e he
    refine ⟨k, hk, hlt, hv, ?_⟩
    rw [State.node_upd]; split
    · exact hvis
    · exact hv1

/-- Emitting an event of a node that was not visited at the start keeps the frame. -/
theorem Frame.emit {W : Type} {s0 cur : State W} (hF : Frame s0 cur) (i : Nat)
    (hi : i < s0.headLL.length) (h0 : (s0.node i).visited = false)
    (hv : (cur.node i).visited = true) (e : Event)
    (htag : e.tag = some i) (hex : execCount [e] = 0) : Frame s0 (cur.emit e) where
  len := hF.len
  name := hF.name
  cmds := hF.cmds
  children := hF.children
  target := hF.target
  visited := hF.visited
  unvisited := hF.unvisited
  trace := by
    obtain ⟨e1, ht1, hg1, hc1⟩ := hF.trace
    refine ⟨e1 ++ [e], by simp [ht1], ?_, ?_⟩
    · intro e2 he2
      rcases List.mem_append.mp he2 with h | h
      · exact hg1 e2 h
      · rw [List.mem_singleton] at h
        subst h
        exact ⟨i, htag, hi, h0, hv⟩
    · rw [execCount_append, hex]
      simpa using hc1

theorem State.stat_node {W : Type} (env : Env W) (s : State W) (i j : Nat) :
    (s.stat env i).2.node j = s.node j := rfl

theorem State.stat_headLL {W : Type} (env : Env W) (s : State W) (i : Nat) :
    (s.stat env i).2.headLL = s.headLL := rfl

theorem State.stat_trace {W : Type} (env : Env W) (s : State W) (i : Nat) :
    (s.stat env i).2.trace = s.trace ++ [.stat i (s.node i).name (s.stat env i).1] := rfl

theorem State.stat_CMDSused {W : Type} (env : Env W) (s : State W) (i : Nat) :
    (s.stat env i).2.CMDSused = s.CMDSused := rfl

/-- A call of `stat` for a node that was not visited at the start keeps the frame. -/
theorem Frame.stat {W : Type} {s0 cur : State W} (hF : Frame s0 cur) (env : Env W) (i : Nat)
    (hi : i < s0.headLL.length) (h0 : (s0.node i).visited = false)
    (hv : (cur.node i).visited = true) :
    Frame s0 (cur.stat env i).2 where
  len := hF.len
  name := hF.name
  cmds := hF.cmds
  children := hF.children
  target := hF.target
  visited := hF.visited
  unvisited := hF.unvisited
  trace := by
    obtain ⟨e1, ht1, hg1, hc1⟩ := hF.trace
    refine ⟨e1 ++ [.stat i (cur.node i).name (cur.stat env i).1], ?_, ?_, ?_⟩
    · rw [State.stat_trace, ht1, List.append_assoc]
    · intro e2 he2
      rcases List.mem_append.mp he2 with h | h
      · exact hg1 e2 h
      · rw [List.mem_singleton] at h
        subst h
        exact ⟨i, rfl, hi, h0, hv⟩
    · rw [execCount_append, State.stat_CMDSused, hc1]
      simp [execCount]

/-- A command of a node that was not visited at the start keeps the frame. -/
theorem Frame.ran {W : Type} {s0 cur : State W} (hF : Frame s0 cur) (w : W) (i : Nat)
    (hi : i < s0.headLL.length) (h0 : (s0.node i).visited = false)
    (hv : (cur.node i).visited = true) (line : CStr) :
    Frame s0 (cur.ran w i line) where
  len := hF.len
  name := hF.name
  cmds := hF.cmds
  children := hF.children
  target := hF.target
  visited := hF.visited
  unvisited := hF.unvisited
  trace := by
    obtain ⟨e1, ht1, hg1, hc1⟩ := hF.trace
    refine ⟨e1 ++ [.system i line true, .echo i line], by simp [State.ran, ht1], ?_, ?_⟩
    · intro e he
      rcases List.mem_append.mp he with h | h
      · exact hg1 e h
      · simp only [List.mem_cons, List.mem_singleton, List.not_mem_nil, or_false] at h
        rcases h with h | h <;> subst h <;> exact ⟨i, rfl, hi, h0, hv⟩
    · simp only [State.ran, execCount_append, execCount, hc1]
      omega

theorem Frame.failed {W : Type} {s0 cur : State W} (hF : Frame s0 cur) (w : W) (i : Nat)
    (hi : i < s0.headLL.length) (h0 : (s0.node i).visited = false)
    (hv : (cur.node i).visited = true) (line : CStr) :
    Frame s0 (cur.failed w i line) where
  len := hF.len
  name := hF.name
  cmds := hF.cmds
  children := hF.children
  target := hF.target
  visited := hF.visited
  unvisited := hF.unvisited
  trace := by
    obtain ⟨e1, ht1, hg1, hc1⟩ := hF.trace
    refine ⟨e1 ++ [.system i line false], by simp [State.failed, ht1], ?_, ?_⟩
    · intro e he
      rcases List.mem_append.mp he with h | h
      · exact hg1 e h
      · rw [List.mem_singleton] at h
        subst h
        exact ⟨i, rfl, hi, h0, hv⟩
    · simp only [State.failed, execCount_append, execCount, hc1]
      omega

/-- The four assignments of `POT` keep the frame of a node that was not visited at
the start, once the node is marked visited. -/
theorem Frame.setVisited {W : Type} {s0 cur : State W} (hF : Frame s0 cur) (i : Nat)
    (h0 : (s0.node i).visited = false) : Frame s0 (cur.upd i parentNode.setVisited) :=
  Frame.upd hF i h0 _ (fun _ => rfl) (fun _ => rfl) (fun _ => rfl) (fun _ => rfl) rfl

theorem Frame.setExists {W : Type} {s0 cur : State W} (hF : Frame s0 cur) (i : Nat)
    (h0 : (s0.node i).visited = false) (hv : (cur.node i).visited = true) (mtime : Int) :
    Frame s0 (cur.upd i (parentNode.setExists mtime)) :=
  Frame.upd hF i h0 _ (fun _ => rfl) (fun _ => rfl) (fun _ => rfl) (fun _ => rfl) hv

theorem Frame.setMustBuild {W : Type} {s0 cur : State W} (hF : Frame s0 cur) (i : Nat)
    (h0 : (s0.node i).visited = false) (hv : (cur.node i).visited = true) :
    Frame s0 (cur.upd i parentNode.setMustBuild) :=
  Frame.upd hF i h0 _ (fun _ => rfl) (fun _ => rfl) (fun _ => rfl) (fun _ => rfl) hv

theorem Frame.setCompleted {W : Type} {s0 cur : State W} (hF : Frame s0 cur) (i : Nat)
    (h0 : (s0.node i).visited = false) (hv : (cur.node i).visited = true) :
    Frame s0 (cur.upd i parentNode.setCompleted) :=
  Frame.upd hF i h0 _ (fun _ => rfl) (fun _ => rfl) (fun _ => rfl) (fun _ => rfl) hv

@[simp] theorem parentNode.setVisited_visited (n : parentNode) : n.setVisited.visited = true := rfl
@[simp] theorem parentNode.setVisited_doesExist (n : parentNode) :
    n.setVisited.doesExist = n.doesExist := rfl
@[simp] theorem parentNode.setVisited_mustBuild (n : parentNode) :
    n.setVisited.mustBuild = n.mustBuild := rfl
@[simp] theorem parentNode.setVisited_completed (n : parentNode) :
    n.setVisited.completed = n.completed := rfl
@[simp] theorem parentNode.setVisited_fileDate (n : parentNode) :
    n.setVisited.fileDate = n.fileDate := rfl
@[simp] theorem parentNode.setVisited_name (n : parentNode) : n.setVisited.name = n.name := rfl
@[simp] theorem parentNode.setVisited_cmds (n : parentNode) : n.setVisited.cmds = n.cmds := rfl
@[simp] theorem parentNode.setVisited_children (n : parentNode) :
    n.setVisited.children = n.children := rfl
@[simp] theorem parentNode.setVisited_target (n : parentNode) : n.setVisited.target = n.target := rfl

@[simp] theorem parentNode.setExists_visited (t : Int) (n : parentNode) :
    (n.setExists t).visited = n.visited := rfl
@[simp] theorem parentNode.setExists_doesExist (t : Int) (n : parentNode) :
    (n.setExists t).doesExist = true := rfl
@[simp] theorem parentNode.setExists_mustBuild (t : Int) (n : parentNode) :
    (n.setExists t).mustBuild = n.mustBuild := rfl
@[simp] theorem parentNode.setExists_completed (t : Int) (n : parentNode) :
    (n.setExists t).completed = n.completed := rfl
@[simp] theorem parentNode.setExists_fileDate (t : Int) (n : parentNode) :
    (n.setExists t).fileDate = t := rfl
@[simp] theorem parentNode.setExists_name (t : Int) (n : parentNode) :
    (n.setExists t).name = n.name := rfl
@[simp] theorem parentNode.setExists_cmds (t : Int) (n : parentNode) :
    (n.setExists t).cmds = n.cmds := rfl
@[simp] theorem parentNode.setExists_children (t : Int) (n : parentNode) :
    (n.setExists t).children = n.children := rfl
@[simp] theorem parentNode.setExists_target (t : Int) (n : parentNode) :
    (n.setExists t).target = n.target := rfl

@[simp] theorem parentNode.setMustBuild_visited (n : parentNode) :
    n.setMustBuild.visited = n.visited := rfl
@[simp] theorem parentNode.setMustBuild_doesExist (n : parentNode) :
    n.setMustBuild.doesExist = n.doesExist := rfl
@[simp] theorem parentNode.setMustBuild_mustBuild (n : parentNode) :
    n.setMustBuild.mustBuild = true := rfl
@[simp] theorem parentNode.setMustBuild_completed (n : parentNode) :
    n.setMustBuild.completed = n.completed := rfl
@[simp] theorem parentNode.setMustBuild_fileDate (n : parentNode) :
    n.setMustBuild.fileDate = n.fileDate := rfl
@[simp] theorem parentNode.setMustBuild_name (n : parentNode) : n.setMustBuild.name = n.name := rfl
@[simp] theorem parentNode.setMustBuild_cmds (n : parentNode) : n.setMustBuild.cmds = n.cmds := rfl
@[simp] theorem parentNode.setMustBuild_children (n : parentNode) :
    n.setMustBuild.children = n.children := rfl
@[simp] theorem parentNode.setMustBuild_target (n : parentNode) :
    n.setMustBuild.target = n.target := rfl

@[simp] theorem parentNode.setCompleted_visited (n : parentNode) :
    n.setCompleted.visited = n.visited := rfl
@[simp] theorem parentNode.setCompleted_doesExist (n : parentNode) :
    n.setCompleted.doesExist = n.doesExist := rfl
@[simp] theorem parentNode.setCompleted_mustBuild (n : parentNode) :
    n.setCompleted.mustBuild = n.mustBuild := rfl
@[simp] theorem parentNode.setCompleted_completed (n : parentNode) :
    n.setCompleted.completed = true := rfl
@[simp] theorem parentNode.setCompleted_fileDate (n : parentNode) :
    n.setCompleted.fileDate = n.fileDate := rfl
@[simp] theorem parentNode.setCompleted_name (n : parentNode) : n.setCompleted.name = n.name := rfl
@[simp] theorem parentNode.setCompleted_cmds (n : parentNode) : n.setCompleted.cmds = n.cmds := rfl
@[simp] theorem parentNode.setCompleted_children (n : parentNode) :
    n.setCompleted.children = n.children := rfl
@[simp] theorem parentNode.setCompleted_target (n : parentNode) :
    n.setCompleted.target = n.target := rfl

theorem praseCMDS_frame {W : Type} (env : Env W) (s0 : State W) (i : Nat)
    (hi : i < s0.headLL.length) (h0 : (s0.node i).visited = false) :
    ∀ (cmds : List CStr) (cur : State W), Frame s0 cur → (cur.node i).visited = true →
      match praseCMDS env i cmds cur with
      | .ok s1 => Frame s0 s1 ∧ s1.headLL = cur.headLL ∧ cur.trace.length ≤ s1.trace.length
      | .fatal _ s1 => Frame s0 s1 ∧ s1.headLL = cur.headLL ∧ cur.trace.length < s1.trace.length
      | _ => False := by
  intro cmds
  induction cmds with
  | nil => intro cur hF _; simp [praseCMDS, hF]
  | cons line rest ih =>
    intro cur hF hv
    unfold praseCMDS
    by_cases hline : charAt line 0 ≠ '\x00'
    · rw [if_pos hline]
      by_cases hr : (env.system cur.world line).1 = false
      · simp only [hr, if_true]
        exact ⟨Frame.failed hF _ i hi h0 hv line, rfl, by simp [State.failed]⟩
      · simp only [hr, if_false]
        have := ih _ (Frame.ran hF (env.system cur.world line).2 i hi h0 hv line) hv
        revert this
        cases praseCMDS env i rest _ with
        | ok s1 =>
          simp only; intro h
          exact ⟨h.1, h.2.1, by have := h.2.2; simp [State.ran] at this; omega⟩
        | fatal m s1 =>
          simp only; intro h
          exact ⟨h.1, h.2.1, by have := h.2.2; simp [State.ran] at this; omega⟩
        | outOfFuel => simp
        | dangling => simp
    · rw [if_neg hline]
      exact ih cur hF hv

theorem POTexists_frame {W : Type} (s0 cur : State W) (i : Nat) (hF : Frame s0 cur)
    (h0 : (s0.node i).visited = false) (hv : (cur.node i).visited = true) :
    match POTexists cur i with
    | .ok s1 => Frame s0 s1 ∧ (s1.node i).visited = true ∧ s1.trace = cur.trace ∧
        ∀ j, j ≠ i → s1.node j = cur.node j
    | .fatal _ s1 => Frame s0 s1 ∧ s1.trace = cur.trace ∧ ∀ j, s1.node j = cur.node j
    | _ => False := by
  unfold POTexists
  by_cases hd : (cur.node i).doesExist = false
  · rw [if_pos hd]
    by_cases hc : (cur.node i).children = []
    · rw [if_pos hc]; exact ⟨hF, rfl, fun _ => rfl⟩
    · rw [if_neg hc]
      refine ⟨Frame.setMustBuild hF i h0 hv, ?_, rfl, fun j hji => State.node_upd_ne _ _ _ _ hji⟩
      rw [State.node_upd]; split <;> simp [hv]
  · rw [if_neg hd]; exact ⟨hF, hv, rfl, fun _ _ => rfl⟩

theorem POTprobe_frame {W : Type} (env : Env W) (s : State W) (i : Nat)
    (hi : i < s.headLL.length) (h0 : (s.node i).visited = false) :
    match POTprobe env s i with
    | .ok s1 => Frame s s1 ∧ (s1.node i).visited = true ∧
        s1.trace = s.trace ++ [.stat i (s.node i).name (env.stat s.world (s.node i).name).1] ∧
        ∀ j, j ≠ i → s1.node j = s.node j
    | .fatal _ s1 => Frame s s1 ∧
        s1.trace = s.trace ++ [.stat i (s.node i).name (env.stat s.world (s.node i).name).1] ∧
        ∀ j, j ≠ i → s1.node j = s.node j
    | _ => False := by
  have hF1 : Frame s (s.upd i parentNode.setVisited) := Frame.setVisited (Frame.refl s) i h0
  have hv1 : ((s.upd i parentNode.setVisited).node i).visited = true := by
    rw [State.node_upd_self _ _ _ hi]; rfl
  have hF2 := Frame.stat hF1 env i hi h0 hv1
  have hv2 : (((s.upd i parentNode.setVisited).stat env i).2.node i).visited = true := hv1
  have ht2 : ((s.upd i parentNode.setVisited).stat env i).2.trace =
      s.trace ++ [.stat i (s.node i).name (env.stat s.world (s.node i).name).1] := by
    rw [State.stat_trace, State.upd_trace]
    simp [State.stat, State.node_upd_self _ _ _ hi]
  have hn2 : ∀ j, j ≠ i → ((s.upd i parentNode.setVisited).stat env i).2.node j = s.node j := by
    intro j hji
    rw [State.stat_node, State.node_upd_ne _ _ _ _ hji]
  unfold POTprobe
  revert hF2 hv2 ht2 hn2
  rcases (s.upd i parentNode.setVisited).stat env i with ⟨r, s2⟩
  intro hF2 hv2 ht2 hn2
  simp only at hF2 hv2 ht2 hn2
  have hi2 : i < s2.headLL.length := by rw [hF2.len]; exact hi
  have fin : ∀ s3 : State W, Frame s s3 → (s3.node i).visited = true → s3.trace = s2.trace →
      (∀ j, j ≠ i → s3.node j = s.node j) →
      match POTexists s3 i with
      | .ok s1 => Frame s s1 ∧ (s1.node i).visited = true ∧
          s1.trace = s.trace ++ [.stat i (s.node i).name (env.stat s.world (s.node i).name).1] ∧
          ∀ j, j ≠ i → s1.node j = s.node j
      | .fatal _ s1 => Frame s s1 ∧
          s1.trace = s.trace ++ [.stat i (s.node i).name (env.stat s.world (s.node i).name).1] ∧
          ∀ j, j ≠ i → s1.node j = s.node j
      | _ => False := by
    intro s3 hF3 hv3 ht3 hn3
    have := POTexists_frame s s3 i hF3 h0 hv3
    revert this
    cases POTexists s3 i with
    | ok s1 =>
      simp only; intro h
      exact ⟨h.1, h.2.1, by rw [h.2.2.1, ht3, ht2], fun j hji => by rw [h.2.2.2 j hji, hn3 j hji]⟩
    | fatal m s1 =>
      simp only; intro h
      exact ⟨h.1, by rw [h.2.1, ht3, ht2], fun j hji => by rw [h.2.2 j, hn3 j hji]⟩
    | outOfFuel => simp
    | dangling => simp
  cases r with
  | some mtime =>
    simp only
    refine fin _ (Frame.setExists hF2 i h0 hv2 mtime) ?_ rfl ?_
    · rw [State.node_upd_self _ _ _ hi2]; exact hv2
    · intro j hji; rw [State.node_upd_ne _ _ _ _ hji]; exact hn2 j hji
  | none =>
    simp only
    by_cases htg : (s2.node i).target = false
    · rw [if_pos htg]; exact ⟨hF2, ht2, hn2⟩
    · rw [if_neg htg]
      refine fin _ (Frame.setMustBuild hF2 i h0 hv2) ?_ rfl ?_
      · rw [State.node_upd_self _ _ _ hi2]; exact hv2
      · intro j hji; rw [State.node_upd_ne _ _ _ _ hji]; exact hn2 j hji

theorem Frame.trace_le {W : Type} {s s1 : State W} (hF : Frame s s1) :
    s.trace.length ≤ s1.trace.length := by
  obtain ⟨e, he, _⟩ := hF.trace
  rw [he]; simp

theorem Frame.visited_mono {W : Type} {s s1 : State W} (hF : Frame s s1) (j : Nat)
    (hj : (s.node j).visited = true) : (s1.node j).visited = true := by
  rw [hF.visited j hj]; exact hj

theorem Frame.unvisited_mono {W : Type} {s s1 : State W} (hF : Frame s s1) (j : Nat)
    (hj : (s1.node j).visited = false) : (s.node j).visited = false := by
  rw [← hF.unvisited j hj]; exact hj

theorem DoneEx.step {W : Type} {i : Nat} {s0 cur cur1 : State W} (hF : Frame s0 cur)
    (hD : DoneEx i s0 cur) (hD1 : Done cur cur1) : DoneEx i s0 cur1 := by
  intro j hji
  rcases hD1 j with h | ⟨h1, h2, h3⟩
  · rw [h]; exact hD j hji
  · exact Or.inr ⟨hF.unvisited_mono j h1, h2, h3⟩

theorem DoneEx.afterUpd {W : Type} {i : Nat} {s0 cur : State W} (hD : DoneEx i s0 cur)
    (f : parentNode → parentNode) : DoneEx i s0 (cur.upd i f) := by
  intro j hji
  rw [State.node_upd_ne _ _ _ _ hji]
  exact hD j hji

/-- The rule for the loop over the edges: a property of outcomes that holds for the
state before the loop, is kept by a returning call followed by the examination of
the edge, and holds for every other outcome of a call, holds for the loop. -/
theorem POTchildren_rule {W : Type} (call : State W → Nat → Outcome W) (i : Nat)
    (R : Outcome W → Prop) :
    ∀ (cs : List Nat) (cur : State W),
      (∀ cur c, c ∈ cs → R (.ok cur) →
        match call cur c with
        | .ok s1 => R (.ok (POTedge i c s1))
        | other => R other) →
      R (.ok cur) → R (POTchildren call i cs cur) := by
  intro cs
  induction cs with
  | nil => intro cur _ h; exact h
  | cons c rest ih =>
    intro cur hstep h
    unfold POTchildren
    have h1 := hstep cur c (List.mem_cons_self _ _) h
    revert h1
    cases call cur c with
    | ok s1 =>
      simp only
      intro h1
      exact ih _ (fun cur2 c2 hc2 => hstep cur2 c2 (List.mem_cons_of_mem _ hc2)) h1
    | fatal m s1 => simp only; exact id
    | outOfFuel => simp only; exact id
    | dangling => simp only; exact id

theorem Active.afterCall {W : Type} {i : Nat} {s0 cur s1 : State W} (hA : Active i s0 cur)
    (hF : Frame cur s1) (hD : Done cur s1) : Active i s0 s1 :=
  ⟨Frame.trans hA.frame hF, DoneEx.step hA.frame hA.done hD, hF.visited_mono i hA.visited⟩

theorem POTedge_trace_le {W : Type} (i c : Nat) (s1 : State W) :
    s1.trace.length ≤ (POTedge i c s1).trace.length := by
  unfold POTedge
  split
  · simp
  · split
    · split <;> simp
    · simp

theorem Active.afterEdge {W : Type} {i : Nat} {s0 s1 : State W} (hA : Active i s0 s1)
    (hi : i < s0.headLL.length) (h0 : (s0.node i).visited = false) (c : Nat) :
    Active i s0 (POTedge i c s1) := by
  unfold POTedge
  split
  · exact ⟨Frame.emit hA.frame i hi h0 hA.visited _ rfl (by simp [execCount]), hA.done,
      hA.visited⟩
  · split
    · split
      · refine ⟨Frame.setMustBuild hA.frame i h0 hA.visited, DoneEx.afterUpd hA.done _, ?_⟩
        rw [State.node_upd]; split <;> simp [hA.visited]
      · exact hA
    · exact hA

theorem POTchildren_frame {W : Type} (call : State W → Nat → Outcome W) (hcall : CallSpec call)
    (s0 : State W) (i : Nat) (hi : i < s0.headLL.length) (h0 : (s0.node i).visited = false)
    (cs : List Nat) (cur : State W) (hA : Active i s0 cur) :
    match POTchildren call i cs cur with
    | .ok s1 => Active i s0 s1 ∧ cur.trace.length ≤ s1.trace.length
    | .fatal _ s1 => Frame s0 s1 ∧ cur.trace.length < s1.trace.length
    | _ => True := by
  refine POTchildren_rule call i
    (fun o => match o with
      | .ok s1 => Active i s0 s1 ∧ cur.trace.length ≤ s1.trace.length
      | .fatal _ s1 => Frame s0 s1 ∧ cur.trace.length < s1.trace.length
      | _ => True) cs cur ?_ ⟨hA, Nat.le_refl _⟩
  intro cur1 c _ hR
  have hc := hcall cur1 c
  revert hc
  cases call cur1 c with
  | ok s1 =>
    simp only
    intro ⟨hF1, hD1, _⟩
    refine ⟨(hR.1.afterCall hF1 hD1).afterEdge hi h0 c, ?_⟩
    have h1 := hF1.trace_le
    have h2 := POTedge_trace_le i c s1
    have h3 := hR.2
    omega
  | fatal m s1 =>
    simp only
    intro ⟨hF1, hlt⟩
    exact ⟨Frame.trans hR.1.frame hF1, by have := hR.2; omega⟩
  | outOfFuel => simp
  | dangling => simp

theorem POTrestat_frame {W : Type} (env : Env W) (s0 cur : State W) (i : Nat)
    (hi : i < s0.headLL.length) (h0 : (s0.node i).visited = false) (hF : Frame s0 cur)
    (hv : (cur.node i).visited = true) :
    match POTrestat env cur i with
    | .ok s1 => Frame s0 s1 ∧ (∀ j, j ≠ i → s1.node j = cur.node j) ∧
        (s1.node i).visited = true ∧ cur.trace.length < s1.trace.length
    | .fatal _ s1 => Frame s0 s1 ∧ cur.trace.length < s1.trace.length
    | _ => False := by
  have hF2 := Frame.stat hF env i hi h0 hv
  have hv2 : ((cur.stat env i).2.node i).visited = true := hv
  have ht2 : cur.trace.length < (cur.stat env i).2.trace.length := by simp [State.stat_trace]
  have hn2 : ∀ j, (cur.stat env i).2.node j = cur.node j := fun _ => rfl
  unfold POTrestat
  revert hF2 hv2 ht2 hn2
  rcases cur.stat env i with ⟨r, s2⟩
  intro hF2 hv2 ht2 hn2
  simp only at hF2 hv2 ht2 hn2
  have hi2 : i < s2.headLL.length := by rw [hF2.len]; exact hi
  cases r with
  | some mtime =>
    simp only
    refine ⟨Frame.setExists hF2 i h0 hv2 mtime, ?_, ?_, by simpa using ht2⟩
    · intro j hji; rw [State.node_upd_ne _ _ _ _ hji]; exact hn2 j
    · rw [State.node_upd_self _ _ _ hi2]; exact hv2
  | none =>
    simp only
    by_cases htg : (s2.node i).target = false
    · rw [if_pos htg]; exact ⟨hF2, ht2⟩
    · rw [if_neg htg]; exact ⟨hF2, fun j _ => hn2 j, hv2, ht2⟩

theorem POTrebuild_frame {W : Type} (env : Env W) (s0 cur : State W) (i : Nat)
    (hi : i < s0.headLL.length) (h0 : (s0.node i).visited = false) (hF : Frame s0 cur)
    (hD : DoneEx i s0 cur) (hv : (cur.node i).visited = true) :
    match POTrebuild env cur i with
    | .ok s1 => Frame s0 s1 ∧ Done s0 s1 ∧ (s1.node i).visited = true ∧
        cur.trace.length ≤ s1.trace.length
    | .fatal _ s1 => Frame s0 s1 ∧ cur.trace.length < s1.trace.length
    | _ => False := by
  have fin : ∀ s2 : State W, Frame s0 s2 → (∀ j, j ≠ i → s2.node j = cur.node j) →
      (s2.node i).visited = true →
      Frame s0 (s2.upd i parentNode.setCompleted) ∧ Done s0 (s2.upd i parentNode.setCompleted) ∧
        ((s2.upd i parentNode.setCompleted).node i).visited = true := by
    intro s2 hF2 hn2 hv2
    have hi2 : i < s2.headLL.length := by rw [hF2.len]; exact hi
    refine ⟨Frame.setCompleted hF2 i h0 hv2, ?_, ?_⟩
    · intro j
      by_cases hji : j = i
      · subst hji
        refine Or.inr ⟨h0, ?_, ?_⟩ <;> rw [State.node_upd_self _ _ _ hi2]
        · exact hv2
        · rfl
      · rw [State.node_upd_ne _ _ _ _ hji, hn2 j hji]
        exact hD j hji
    · rw [State.node_upd_self _ _ _ hi2]; exact hv2
  unfold POTrebuild
  by_cases hmb : (cur.node i).mustBuild = true
  · rw [if_pos hmb]
    have hp := praseCMDS_frame env s0 i hi h0 (cur.node i).cmds (cur.emit (.praseCMDS i))
      (Frame.emit hF i hi h0 hv _ rfl (by simp [execCount])) hv
    revert hp
    cases praseCMDS env i (cur.node i).cmds (cur.emit (.praseCMDS i)) with
    | ok s1 =>
      simp only
      intro ⟨hF1, hh1, hl1⟩
      have hn1 : ∀ j, s1.node j = cur.node j := by
        intro j; unfold State.node; rw [hh1]; rfl
      have hr := POTrestat_frame env s0 s1 i hi h0 hF1 (by rw [hn1]; exact hv)
      revert hr
      cases POTrestat env s1 i with
      | ok s2 =>
        simp only
        intro ⟨hF2, hn2, hv2, hl2⟩
        have := fin s2 hF2 (fun j hji => by rw [hn2 j hji, hn1]) hv2
        refine ⟨this.1, this.2.1, this.2.2, ?_⟩
        simp at hl1 ⊢; omega
      | fatal m s2 =>
        simp only
        intro ⟨hF2, hl2⟩
        refine ⟨hF2, ?_⟩
        simp at hl1; omega
      | outOfFuel => simp
      | dangling => simp
    | fatal m s1 =>
      simp only
      intro ⟨hF1, _, hl1⟩
      refine ⟨hF1, ?_⟩
      simp at hl1; omega
    | outOfFuel => simp
    | dangling => simp
  · rw [if_neg hmb]
    have := fin cur hF (fun _ _ => rfl) hv
    exact ⟨this.1, this.2.1, this.2.2, by simp⟩

theorem POTbody_frame {W : Type} (env : Env W) (call : State W → Nat → Outcome W)
    (hcall : CallSpec call) (s : State W) (i : Nat) (hi : i < s.headLL.length)
    (h0 : (s.node i).visited = false) :
    match POTbody env call s i with
    | .ok s1 => Frame s s1 ∧ Done s s1 ∧ (s1.node i).visited = true
    | .fatal m s1 => Frame s s1 ∧ s.trace.length < s1.trace.length ∧
        (POTprobe env s i = .fatal m s1 ∨ s.trace.length + 2 ≤ s1.trace.length)
    | _ => True := by
  unfold POTbody
  have hp := POTprobe_frame env s i hi h0
  revert hp
  cases POTprobe env s i with
  | ok s1 =>
    simp only
    intro ⟨hF1, hv1, hl1, hn1⟩
    have hD1 : DoneEx i s s1 := fun j hji => Or.inl (hn1 j hji)
    have hlen : s1.trace.length = s.trace.length + 1 := by rw [hl1]; simp
    have hc := POTchildren_frame call hcall s i hi h0 (s1.node i).children s1 ⟨hF1, hD1, hv1⟩
    revert hc
    cases POTchildren call i (s1.node i).children s1 with
    | ok s2 =>
      simp only
      intro ⟨⟨hF2, hD2, hv2⟩, hl2⟩
      have hr := POTrebuild_frame env s s2 i hi h0 hF2 hD2 hv2
      revert hr
      cases POTrebuild env s2 i with
      | ok s3 => simp only; intro h; exact ⟨h.1, h.2.1, h.2.2.1⟩
      | fatal m s3 =>
        simp only; intro h
        exact ⟨h.1, by have := h.2; omega, Or.inr (by have := h.2; omega)⟩
      | outOfFuel => simp
      | dangling => simp
    | fatal m s2 =>
      simp only; intro h
      exact ⟨h.1, by have := h.2; omega, Or.inr (by have := h.2; omega)⟩
    | outOfFuel => simp
    | dangling => simp
  | fatal m s1 =>
    simp only; intro h
    exact ⟨h.1, by rw [h.2.1]; simp, Or.inl trivial⟩
  | outOfFuel => simp
  | dangling => simp

/-- Every call of `POT` keeps the frame. -/
theorem POT_frame {W : Type} (env : Env W) : ∀ fuel : Nat, CallSpec (POT env fuel) := by
  intro fuel
  induction fuel with
  | zero => intro s c; simp [POT]
  | succ fuel ih =>
    intro s c
    unfold POT
    by_cases hc : c < s.headLL.length
    · rw [if_pos hc]
      by_cases hv : (s.node c).visited = true
      · rw [if_pos hv]
        exact ⟨Frame.refl s, fun _ => Or.inl rfl, hv⟩
      · rw [if_neg hv]
        have := POTbody_frame env _ ih s c hc (by simpa using hv)
        revert this
        cases POTbody env (POT env fuel) s c with
        | ok s1 => simp only; exact id
        | fatal m s1 => simp only; intro h; exact ⟨h.1, h.2.1⟩
        | outOfFuel => simp
        | dangling => simp
    · rw [if_neg hc]
      trivial

/-! ## Termination of `POT` -/

theorem WellFormed.node {W : Type} {s : State W} (h : WellFormed s.headLL) (j c : Nat)
    (hc : c ∈ (s.node j).children) : c < s.headLL.length := by
  by_cases hj : j < s.headLL.length
  · have hmem : s.node j ∈ s.headLL := by
      unfold State.node nodeAt
      rw [List.getD_eq_getElem _ _ hj]
      exact List.getElem_mem _
    exact h _ hmem c hc
  · have hnil : (s.node j).children = [] := by
      unfold State.node nodeAt
      rw [List.getD_eq_default _ _ (Nat.le_of_not_lt hj)]
      rfl
    rw [hnil] at hc
    exact absurd hc (List.not_mem_nil _)

theorem Frame.edges_valid {W : Type} {s s1 : State W} (hF : Frame s s1)
    (h : ∀ j c, c ∈ (s.node j).children → c < s.headLL.length) :
    ∀ j c, c ∈ (s1.node j).children → c < s1.headLL.length := by
  intro j c hc
  rw [hF.children] at hc
  rw [hF.len]
  exact h j c hc

theorem Frame.unvisitedCount_le {W : Type} {s s1 : State W} (hF : Frame s s1) :
    unvisitedCount s1 ≤ unvisitedCount s := by
  unfold unvisitedCount
  apply Finset.card_le_card
  intro j hj
  rw [Finset.mem_filter, Finset.mem_range] at hj ⊢
  exact ⟨by rw [← hF.len]; exact hj.1, hF.unvisited_mono j hj.2⟩

theorem Active.unvisitedCount_lt {W : Type} {i : Nat} {s cur : State W} (hA : Active i s cur)
    (hi : i < s.headLL.length) (h0 : (s.node i).visited = false) :
    unvisitedCount cur < unvisitedCount s := by
  unfold unvisitedCount
  apply Finset.card_lt_card
  rw [Finset.ssubset_iff_of_subset]
  · refine ⟨i, ?_, ?_⟩
    · rw [Finset.mem_filter, Finset.mem_range]; exact ⟨hi, h0⟩
    · rw [Finset.mem_filter]
      intro h
      rw [hA.visited] at h
      exact absurd h.2 (by simp)
  · intro j hj
    rw [Finset.mem_filter, Finset.mem_range] at hj ⊢
    exact ⟨by rw [← hA.frame.len]; exact hj.1, hA.frame.unvisited_mono j hj.2⟩

/-- A call of `POT` whose depth bound exceeds the number of nodes not yet visited
returns or ends the run, provided every edge points into the list. -/
theorem POT_finished {W : Type} (env : Env W) :
    ∀ (fuel : Nat) (s : State W) (i : Nat),
      (∀ j c, c ∈ (s.node j).children → c < s.headLL.length) →
      i < s.headLL.length → unvisitedCount s < fuel → (POT env fuel s i).finished := by
  intro fuel
  induction fuel with
  | zero => intro s i _ _ h; exact absurd h (Nat.not_lt_zero _)
  | succ fuel ih =>
    intro s i hwf hi hfuel
    unfold POT
    rw [if_pos hi]
    by_cases hv : (s.node i).visited = true
    · rw [if_pos hv]; trivial
    · rw [if_neg hv]
      have h0 : (s.node i).visited = false := by simpa using hv
      unfold POTbody
      have hp := POTprobe_frame env s i hi h0
      revert hp
      cases POTprobe env s i with
      | ok s1 =>
        simp only
        intro ⟨hF1, hv1, _, hn1⟩
        have hA1 : Active i s s1 := ⟨hF1, fun j hji => Or.inl (hn1 j hji), hv1⟩
        have hloop := POTchildren_rule (POT env fuel) i
          (fun o => match o with
            | .ok cur => Active i s cur
            | .fatal _ _ => True
            | _ => False) (s1.node i).children s1 ?_ hA1
        · revert hloop
          cases POTchildren (POT env fuel) i (s1.node i).children s1 with
          | ok s2 =>
            simp only
            intro hA2
            have hr := POTrebuild_frame env s s2 i hi h0 hA2.frame hA2.done hA2.visited
            revert hr
            cases POTrebuild env s2 i with
            | ok s3 => intro _; trivial
            | fatal m s3 => intro _; trivial
            | outOfFuel => simp
            | dangling => simp
          | fatal m s2 => intro _; trivial
          | outOfFuel => simp
          | dangling => simp
        · intro cur c hc hA
          simp only at hA
          have hcv : c < cur.headLL.length := by
            rw [hA.frame.len]
            exact hwf i c (by rw [← hF1.children]; exact hc)
          have hfin := ih cur c (hA.frame.edges_valid hwf) hcv
            (by have := hA.unvisitedCount_lt hi h0; omega)
          have hfr := POT_frame env fuel cur c
          revert hfin hfr
          cases POT env fuel cur c with
          | ok s2 =>
            simp only
            intro _ ⟨hF2, hD2, _⟩
            exact (hA.afterCall hF2 hD2).afterEdge hi h0 c
          | fatal m s2 => intro _ _; trivial
          | outOfFuel => simp [Outcome.finished]
          | dangling => simp [Outcome.finished]
      | fatal m s1 => intro _; trivial
      | outOfFuel => simp
      | dangling => simp

theorem unvisitedCount_le_length {W : Type} (s : State W) :
    unvisitedCount s ≤ s.headLL.length := by
  unfold unvisitedCount
  calc ((Finset.range s.headLL.length).filter (fun j => (s.node j).visited = false)).card
      ≤ (Finset.range s.headLL.length).card := Finset.card_filter_le _ _
    _ = s.headLL.length := Finset.card_range _


/-! ## Resolution failure (C4) -/

/-- Lines 128-152 end the run exactly when the probe fails and the node is not a
target or has no edge (for a node whose `doesExist` is still 0). -/
theorem POTprobe_fatal_iff {W : Type} (env : Env W) (s : State W) (i : Nat)
    (hi : i < s.headLL.length) (hfresh : (s.node i).doesExist = false) :
    (∃ msg s1, POTprobe env s i = .fatal msg s1) ↔
      ((env.stat s.world (s.node i).name).1 = none ∧
        ((s.node i).target = false ∨ (s.node i).children = [])) := by
  have hn : (s.upd i parentNode.setVisited).node i = (s.node i).setVisited :=
    State.node_upd_self _ _ _ hi
  unfold POTprobe
  have hr : ((s.upd i parentNode.setVisited).stat env i).1 = (env.stat s.world (s.node i).name).1 := by
    simp [State.stat, hn]
  have hn2 : ((s.upd i parentNode.setVisited).stat env i).2.node i = (s.node i).setVisited := hn
  have hl2 : i < ((s.upd i parentNode.setVisited).stat env i).2.headLL.length := by
    rw [State.stat_headLL, State.upd_length]; exact hi
  revert hr hn2 hl2
  rcases (s.upd i parentNode.setVisited).stat env i with ⟨r, s2⟩
  intro hr hn2 hl2
  simp only at hr hn2 hl2
  rw [← hr]
  cases r with
  | some mtime =>
    simp only [POTexists]
    rw [State.node_upd_self _ _ _ hl2]
    simp
  | none =>
    simp only [POTexists]
    by_cases htg : (s.node i).target = false
    · simp [hn2, htg]
    · simp only [hn2, parentNode.setVisited_target, htg, if_false]
      rw [State.node_upd_self _ _ _ hl2, hn2]
      simp only [parentNode.setMustBuild_doesExist, parentNode.setVisited_doesExist, hfresh,
        if_true, parentNode.setMustBuild_children, parentNode.setVisited_children]
      by_cases hch : (s.node i).children = []
      · simp [hch]
      · simp [hch, htg]

theorem Frame.CMDSused_of_trace {W : Type} {s s1 : State W} (hF : Frame s s1) (evs : List Event)
    (ht : s1.trace = s.trace ++ evs) : s1.CMDSused = s.CMDSused + execCount evs := by
  obtain ⟨e, he, _, hc⟩ := hF.trace
  rw [he] at ht
  rw [hc, List.append_cancel_left ht]

/-- A call of `POT` on a node that is not yet visited (and whose `doesExist` is still
0) ends the run with nothing done but the probe of the node's file, if and only if
the probe reports the file absent and the node is not a declared target or has no
dependency edge; and then no other node was touched and no command was counted. -/
theorem POT_resolution_failure_iff {W : Type} (env : Env W) (fuel : Nat) (s : State W) (i : Nat)
    (hi : i < s.headLL.length) (h0 : (s.node i).visited = false)
    (hfresh : (s.node i).doesExist = false) :
    ((∃ msg s1, POT env (fuel + 1) s i = .fatal msg s1 ∧
        s1.trace = s.trace ++ [.stat i (s.node i).name (env.stat s.world (s.node i).name).1]) ↔
      ((env.stat s.world (s.node i).name).1 = none ∧
        ((s.node i).target = false ∨ (s.node i).children = []))) ∧
    (∀ msg s1, POT env (fuel + 1) s i = .fatal msg s1 →
        s1.trace = s.trace ++ [.stat i (s.node i).name (env.stat s.world (s.node i).name).1] →
        (∀ j, j ≠ i → s1.node j = s.node j) ∧ s1.CMDSused = s.CMDSused) := by
  have hPOT : POT env (fuel + 1) s i = POTbody env (POT env fuel) s i := by
    rw [POT, if_pos hi, if_neg (by simp [h0])]
  have hbody := POTbody_frame env (POT env fuel) (POT_frame env fuel) s i hi h0
  have hprobe := POTprobe_frame env s i hi h0
  have key : ∀ msg s1, POT env (fuel + 1) s i = .fatal msg s1 →
      s1.trace = s.trace ++ [.stat i (s.node i).name (env.stat s.world (s.node i).name).1] →
      POTprobe env s i = .fatal msg s1 := by
    intro msg s1 h ht
    rw [hPOT] at h
    rw [h] at hbody
    rcases hbody.2.2 with hp | hlen
    · exact hp
    · rw [ht] at hlen; simp at hlen
  refine ⟨⟨?_, ?_⟩, ?_⟩
  · rintro ⟨msg, s1, h, ht⟩
    exact (POTprobe_fatal_iff env s i hi hfresh).mp ⟨msg, s1, key msg s1 h ht⟩
  · intro h
    obtain ⟨msg, s1, hp⟩ := (POTprobe_fatal_iff env s i hi hfresh).mpr h
    rw [hp] at hprobe
    refine ⟨msg, s1, ?_, hprobe.2.1⟩
    rw [hPOT, POTbody, hp]
  · intro msg s1 h ht
    have hp := key msg s1 h ht
    rw [hp] at hprobe
    refine ⟨hprobe.2.2, ?_⟩
    rw [hprobe.1.CMDSused_of_trace _ ht]
    simp [execCount]

theorem scenario1_parse :
    parseMakeFileData (getlines scenario1File) = .ok
      { headLL := scenario1Graph, targetNode := some "app".toList,
        CMDS := ["cc -o app main.o".toList], temp := some 0 } := by
  rfl

/-- Scenario 1: whatever the file system says about `app`, when `main.o` is absent the run
ends at the probe of `main.o` and no command list is run. -/
theorem scenario1_fatal {W : Type} (env : Env W) (world : W)
    (habsent : ∀ w, (env.stat w "main.o".toList).1 = none) :
    ∃ s1, mymake2 env world scenario1File none = .built (.fatal .stat s1) ∧
      s1.CMDSused = 0 ∧ ∀ e ∈ s1.trace, ∀ k, e ≠ .praseCMDS k := by
  unfold mymake2
  rw [scenario1_parse]
  rcases happ : env.stat world ['a', 'p', 'p'] with ⟨r, w1⟩
  have hmain := habsent w1
  rcases hm : env.stat w1 ['m', 'a', 'i', 'n', '.', 'o'] with ⟨r2, w2⟩
  simp [hm] at hmain
  subst hmain
  cases r <;>
  simp [parseTargetFileData, verifyTargetNode, POT, POTbody, POTprobe, POTchildren, POTedge, State.stat,
    State.upd, State.node, nodeAt, updNode, POTexists, newNode, parentNode.setVisited,
    parentNode.setMustBuild, parentNode.setExists, happ, hm, scenario1Graph]

/-- C4: a call of `POT` on a node that is not yet visited (and whose `doesExist` is still
0, as the parser leaves it) ends the run with nothing done but the probe of the node
(no dependency visited, no command run) if and only if the probe reports the file
absent and the node is not a declared target or has no dependency edge.  In
scenario 1 (`app : main.o` with a command, `main.o` absent and never declared) the
run is fatal and no command list is run. -/
theorem C4_resolution_failure :
    (∀ (W : Type) (env : Env W) (fuel : Nat) (s : State W) (i : Nat),
      i < s.headLL.length → (s.node i).visited = false → (s.node i).doesExist = false →
      ((∃ msg s1, POT env (fuel + 1) s i = .fatal msg s1 ∧
          s1.trace =
            s.trace ++ [.stat i (s.node i).name (env.stat s.world (s.node i).name).1]) ↔
        ((env.stat s.world (s.node i).name).1 = none ∧
          ((s.node i).target = false ∨ (s.node i).children = []))) ∧
      (∀ msg s1, POT env (fuel + 1) s i = .fatal msg s1 →
          s1.trace =
            s.trace ++ [.stat i (s.node i).name (env.stat s.world (s.node i).name).1] →
          (∀ j, j ≠ i → s1.node j = s.node j) ∧ s1.CMDSused = s.CMDSused)) ∧
    (∀ (W : Type) (env : Env W) (world : W),
      (∀ w, (env.stat w "main.o".toList).1 = none) →
      ∃ s1, mymake2 env world scenario1File none = .built (.fatal .stat s1) ∧
        s1.CMDSused = 0 ∧ ∀ e ∈ s1.trace, ∀ k, e ≠ .praseCMDS k) :=
  ⟨fun _ env fuel s i hi h0 hfresh => POT_resolution_failure_iff env fuel s i hi h0 hfresh,
   fun _ env world habsent => scenario1_fatal env world habsent⟩

/-- C4 at a concrete input: in the graph of scenario 1 with no file present, the call
of `POT` on `main.o` (not a target, no file) is fatal right after the probe. -/
theorem C4_resolution_failure_witness :
    (1 < (State.start scenario1Graph (DemoWorld.mk [] 0)).headLL.length ∧
      ((State.start scenario1Graph (DemoWorld.mk [] 0)).node 1).visited = false ∧
      ((State.start scenario1Graph (DemoWorld.mk [] 0)).node 1).doesExist = false) ∧
    ∃ msg s1, POT demoEnv 1 (State.start scenario1Graph (DemoWorld.mk [] 0)) 1 = .fatal msg s1 ∧
      s1.trace = [.stat 1 "main.o".toList none] :=
  ⟨⟨by decide, by decide, by decide⟩,
   ((C4_resolution_failure.1 DemoWorld demoEnv 0 (State.start scenario1Graph (DemoWorld.mk [] 0)) 1
      (by decide) (by decide) (by decide)).1.mpr ⟨by decide, Or.inl (by decide)⟩)⟩
/-! ## The up-to-date case (C3) -/

theorem SameGraph.atStart {W : Type} (g : List parentNode) (world : W) :
    SameGraph g (State.start g world) :=
  ⟨rfl, fun _ => rfl, fun _ => rfl, fun _ => rfl, fun _ => rfl⟩

theorem SameGraph.ofFrame {W : Type} {g : List parentNode} {s s1 : State W} (h : SameGraph g s)
    (hF : Frame s s1) : SameGraph g s1 :=
  ⟨by rw [hF.len, h.len], fun j => by rw [hF.name, h.name], fun j => by rw [hF.cmds, h.cmds],
   fun j => by rw [hF.children, h.children], fun j => by rw [hF.target, h.target]⟩

/-- When the probe finds the file, lines 128-152 record it and return. -/
theorem POTprobe_some {W : Type} (env : Env W) (s : State W) (i : Nat) (hi : i < s.headLL.length)
    (t : Int) (hstat : (env.stat s.world (s.node i).name).1 = some t) :
    POTprobe env s i =
      .ok (((s.upd i parentNode.setVisited).stat env i).2.upd i (parentNode.setExists t)) := by
  have hn : (s.upd i parentNode.setVisited).node i = (s.node i).setVisited :=
    State.node_upd_self _ _ _ hi
  have hr : ((s.upd i parentNode.setVisited).stat env i).1 = some t := by
    simp [State.stat, hn, hstat]
  have hl2 : i < ((s.upd i parentNode.setVisited).stat env i).2.headLL.length := by
    rw [State.stat_headLL, State.upd_length]; exact hi
  unfold POTprobe
  revert hr hl2
  rcases (s.upd i parentNode.setVisited).stat env i with ⟨r, s2⟩
  intro hr hl2
  simp only at hr hl2
  subst hr
  simp only [POTexists]
  rw [State.node_upd_self _ _ _ hl2]
  simp

theorem Quiet.probe {W : Type} {I : W → Prop} {ts : Nat → Int} (env : Env W)
    (hIstat : ∀ w name, I w → I (env.stat w name).2) {s : State W} (hQ : Quiet I ts s) (i : Nat)
    (hi : i < s.headLL.length) :
    Quiet I ts (((s.upd i parentNode.setVisited).stat env i).2.upd i (parentNode.setExists (ts i))) where
  world := hIstat _ _ hQ.world
  count := hQ.count
  noBuild := fun j => by
    rw [State.node_upd]; split
    · rw [State.stat_node, State.node_upd_self _ _ _ hi]; exact hQ.noBuild i
    · rw [State.stat_node, State.node_upd]; split
      · exact hQ.noBuild i
      · exact hQ.noBuild j
  recorded := fun j hj => by
    rw [State.node_upd] at hj ⊢; split
    · exact ⟨rfl, by rename_i h; rw [h.1]; rfl⟩
    · rename_i h
      rw [if_neg h] at hj
      have hji : j ≠ i := fun hji => h ⟨hji, by rw [State.stat_headLL, State.upd_length]; exact hi⟩
      rw [State.stat_node, State.node_upd_ne _ _ _ _ hji] at hj ⊢
      exact hQ.recorded j hj
  noCommand := fun e he => by
    rw [State.upd_trace, State.stat_trace, State.upd_trace] at he
    rcases List.mem_append.mp he with h | h
    · exact hQ.noCommand e h
    · rw [List.mem_singleton] at h; subst h; rfl

theorem Quiet.acrossEdge {W : Type} {I : W → Prop} {ts : Nat → Int} {s : State W} (hQ : Quiet I ts s)
    (i c : Nat) (hvi : (s.node i).visited = true) (hvc : (s.node c).visited = true)
    (hle : ts c ≤ ts i) : Quiet I ts (POTedge i c s) := by
  unfold POTedge
  split
  · refine ⟨hQ.world, hQ.count, hQ.noBuild, hQ.recorded, ?_⟩
    intro e he
    rw [State.emit_trace] at he
    rcases List.mem_append.mp he with h | h
    · exact hQ.noCommand e h
    · rw [List.mem_singleton] at h; subst h; rfl
  · rw [if_pos (hQ.noBuild i)]
    have hc := hQ.recorded c hvc
    have hi := hQ.recorded i hvi
    rw [if_neg]
    · exact hQ
    · rw [hc.1, hc.2, hi.2]
      simp only [Bool.true_eq_false, false_or, gt_iff_lt, not_lt]
      exact hle

theorem Quiet.completed {W : Type} {I : W → Prop} {ts : Nat → Int} {s : State W}
    (hQ : Quiet I ts s) (i : Nat) : Quiet I ts (s.upd i parentNode.setCompleted) where
  world := hQ.world
  count := hQ.count
  noBuild := fun j => by
    rw [State.node_upd]; split
    · exact hQ.noBuild i
    · exact hQ.noBuild j
  recorded := fun j hj => by
    rw [State.node_upd] at hj ⊢; split
    · rename_i h
      rw [if_pos h] at hj
      rw [h.1]
      exact hQ.recorded i hj
    · rename_i h
      rw [if_neg h] at hj
      exact hQ.recorded j hj
  noCommand := hQ.noCommand

/-- In the up-to-date case every call of `POT` with enough depth returns and keeps the
invariant. -/
theorem POT_quiet {W : Type} (env : Env W) (g : List parentNode) (target : Nat)
    (hwf : WellFormed g) (I : W → Prop) (hIstat : ∀ w name, I w → I (env.stat w name).2)
    (ts : Nat → Int)
    (hexists : ∀ j, Reach g target j → ∀ w, I w → (env.stat w (nodeAt g j).name).1 = some (ts j))
    (hle : ∀ j c, Reach g target j → c ∈ (nodeAt g j).children → ts c ≤ ts j) :
    ∀ (fuel : Nat) (s : State W) (i : Nat), SameGraph g s → Quiet I ts s → Reach g target i →
      i < g.length → unvisitedCount s < fuel →
      ∃ s1, POT env fuel s i = .ok s1 ∧ Quiet I ts s1 := by
  intro fuel
  induction fuel with
  | zero => intro s i _ _ _ _ h; exact absurd h (Nat.not_lt_zero _)
  | succ fuel ih =>
    intro s i hG hQ hreach hig hfuel
    have hi : i < s.headLL.length := by rw [hG.len]; exact hig
    unfold POT
    rw [if_pos hi]
    by_cases hv : (s.node i).visited = true
    · rw [if_pos hv]; exact ⟨s, rfl, hQ⟩
    · rw [if_neg hv]
      have h0 : (s.node i).visited = false := by simpa using hv
      have hstat : (env.stat s.world (s.node i).name).1 = some (ts i) := by
        rw [hG.name]; exact hexists i hreach _ hQ.world
      have hp := POTprobe_frame env s i hi h0
      unfold POTbody
      rw [POTprobe_some env s i hi (ts i) hstat] at hp ⊢
      simp only at hp ⊢
      obtain ⟨hF1, hv1, _, hn1⟩ := hp
      have hQ1 := hQ.probe env hIstat i hi
      generalize ((s.upd i parentNode.setVisited).stat env i).2.upd i (parentNode.setExists (ts i))
        = s1 at hF1 hv1 hn1 hQ1 ⊢
      have hA1 : Active i s s1 := ⟨hF1, fun j hji => Or.inl (hn1 j hji), hv1⟩
      have hloop := POTchildren_rule (POT env fuel) i
        (fun o => match o with
          | .ok cur => Active i s cur ∧ Quiet I ts cur
          | _ => False) (s1.node i).children s1 ?_ ⟨hA1, hQ1⟩
      · revert hloop
        cases POTchildren (POT env fuel) i (s1.node i).children s1 with
        | ok s2 =>
          simp only
          intro ⟨hA2, hQ2⟩
          unfold POTrebuild
          rw [if_neg (by rw [hQ2.noBuild i]; simp)]
          exact ⟨_, rfl, hQ2.completed i⟩
        | fatal m s2 => simp
        | outOfFuel => simp
        | dangling => simp
      · intro cur c hc ⟨hA, hQc⟩
        have hGc := hG.ofFrame hA.frame
        have hcg : c ∈ (nodeAt g i).children := by
          rw [← hG.children, ← hF1.children]; exact hc
        have hcv : c < g.length := by
          have := hwf
          by_cases hlt : i < g.length
          · exact hwf (nodeAt g i) (by
              unfold nodeAt; rw [List.getD_eq_getElem _ _ hlt]; exact List.getElem_mem _) c hcg
          · exact absurd hig hlt
        obtain ⟨s2, hs2, hQ2⟩ := ih cur c hGc hQc (Reach.step hreach hcg) hcv
          (by have := hA.unvisitedCount_lt hi h0; omega)
        have hfr := POT_frame env fuel cur c
        rw [hs2] at hfr ⊢
        simp only at hfr ⊢
        obtain ⟨hF2, hD2, hvc⟩ := hfr
        have hA2 := hA.afterCall hF2 hD2
        exact ⟨hA2.afterEdge hi h0 c, hQ2.acrossEdge i c hA2.visited hvc (hle i c hreach hcg)⟩

theorem verifyTargetNode_lt (g : List parentNode) (fp : CStr) (i : Nat)
    (h : verifyTargetNode g fp = some i) : i < g.length := by
  induction g generalizing i with
  | nil => simp [verifyTargetNode] at h
  | cons n rest ih =>
    unfold verifyTargetNode at h
    split at h
    · simp at h; subst h; simp
    · cases hr : verifyTargetNode rest fp with
      | none => rw [hr] at h; simp at h
      | some k =>
        rw [hr] at h
        simp at h
        subst h
        simp [ih k hr]

theorem nodeAt_mem_or_default (g : List parentNode) (j : Nat) :
    nodeAt g j ∈ g ∨ nodeAt g j = default := by
  by_cases hj : j < g.length
  · left; unfold nodeAt; rw [List.getD_eq_getElem _ _ hj]; exact List.getElem_mem _
  · right; unfold nodeAt; exact List.getD_eq_default _ _ (Nat.le_of_not_lt hj)

/-- The up-to-date case for a returning traversal of the whole program. -/
theorem parseTargetFileData_quiet {W : Type} (env : Env W) (g : List parentNode) (world : W)
    (fp : CStr) (target : Nat) (I : W → Prop) (ts : Nat → Int) (hwf : WellFormed g)
    (hfresh : ∀ n ∈ g, n.visited = false ∧ n.mustBuild = false)
    (htarget : verifyTargetNode g fp = some target) (hI : I world)
    (hIstat : ∀ w name, I w → I (env.stat w name).2)
    (hexists : ∀ j, Reach g target j → ∀ w, I w → (env.stat w (nodeAt g j).name).1 = some (ts j))
    (hle : ∀ j c, Reach g target j → c ∈ (nodeAt g j).children → ts c ≤ ts j) :
    ∃ s1, parseTargetFileData env (State.start g world) fp = .ok s1 ∧ s1.CMDSused = 0 ∧
      (∀ e ∈ s1.trace, e.isCommand = false) ∧ Event.upToDate fp ∈ s1.trace := by
  have hQ0 : Quiet I ts (State.start g world) := by
    refine ⟨hI, rfl, ?_, ?_, ?_⟩
    · intro j
      rcases nodeAt_mem_or_default g j with h | h
      · exact (hfresh _ h).2
      · show (nodeAt g j).mustBuild = false
        rw [h]; rfl
    · intro j hj
      rcases nodeAt_mem_or_default g j with h | h
      · have := (hfresh _ h).1
        rw [show (State.start g world).node j = nodeAt g j from rfl, this] at hj
        exact absurd hj (by simp)
      · rw [show (State.start g world).node j = nodeAt g j from rfl, h] at hj
        exact absurd hj (by decide)
    · intro e he; exact absurd he (List.not_mem_nil _)
  obtain ⟨s1, hs1, hQ1⟩ := POT_quiet env g target hwf I hIstat ts hexists hle (g.length + 1)
    (State.start g world) target (SameGraph.atStart g world) hQ0 (Reach.refl target)
    (verifyTargetNode_lt g fp target htarget)
    (Nat.lt_succ_of_le (unvisitedCount_le_length (State.start g world)))
  unfold parseTargetFileData
  rw [show (State.start g world).headLL = g from rfl, htarget]
  simp only
  rw [hs1]
  simp only
  rw [if_pos hQ1.count]
  refine ⟨_, rfl, hQ1.count, ?_, by simp⟩
  intro e he
  rw [State.emit_trace] at he
  rcases List.mem_append.mp he with h | h
  · exact hQ1.noCommand e h
  · rw [List.mem_singleton] at h; subst h; rfl

/-- When `parseTargetFileData` returns, the notice was printed exactly when no command was
run. -/
theorem upToDate_iff {W : Type} (env : Env W) (g : List parentNode) (world : W) (fp : CStr)
    (s1 : State W) (h : parseTargetFileData env (State.start g world) fp = .ok s1) :
    Event.upToDate fp ∈ s1.trace ↔ execCount s1.trace = 0 := by
  unfold parseTargetFileData at h
  cases hv : verifyTargetNode (State.start g world).headLL fp with
  | none => rw [hv] at h; simp at h
  | some target =>
    rw [hv] at h
    simp only at h
    have hfr := POT_frame env ((State.start g world).headLL.length + 1) (State.start g world) target
    revert h hfr
    cases POT env ((State.start g world).headLL.length + 1) (State.start g world) target with
    | ok s2 =>
      simp only
      intro h ⟨hF, _, _⟩
      obtain ⟨evs, hev, htag, hcount⟩ := hF.trace
      have hev2 : s2.trace = evs := by rw [hev]; rfl
      have hcount2 : s2.CMDSused = execCount evs := by rw [hcount]; simp [State.start]
      have hno : Event.upToDate fp ∉ evs := by
        intro hmem
        obtain ⟨k, hk, _⟩ := htag _ hmem
        simp [Event.tag] at hk
      by_cases hc : s2.CMDSused = 0
      · rw [if_pos hc] at h
        injection h with h
        subst h
        rw [State.emit_trace, execCount_append]
        simp [State.reset, hev2, execCount, ← hcount2, hc]
      · rw [if_neg hc] at h
        injection h with h
        subst h
        simp only [State.reset, hev2]
        rw [← hcount2]
        exact ⟨fun hm => absurd hm hno, fun h0 => absurd h0 hc⟩
    | fatal m s2 => simp
    | outOfFuel => simp
    | dangling => simp

theorem scenario2_reach (j : Nat) (h : Reach scenario2Graph 0 j) : j = 0 ∨ j = 1 := by
  induction h with
  | refl => exact Or.inl rfl
  | step _ hc ih =>
    rcases ih with h | h
    · subst h
      simp [scenario2Graph, nodeAt, newNode] at hc
      exact Or.inr hc
    · subst h
      simp [scenario2Graph, nodeAt, newNode] at hc

/-- C3: on a graph as the parser leaves it (no node visited or marked `mustBuild`, every
edge inside the list), cyclic or not, if in every world the file system can be in
during the traversal every node reachable from the target has a file with time
`ts`, and along every edge from a reachable node the dependency's time is at most
the dependent's time, then `parseTargetFileData` returns, no command list is run,
`CMDSused` is 0 and the notice "<target> is up to date." is printed.  And whenever
`parseTargetFileData` returns, the notice was printed exactly when no command was
run. -/
theorem C3_up_to_date :
    (∀ (W : Type) (env : Env W) (g : List parentNode) (world : W) (fp : CStr) (target : Nat)
      (I : W → Prop) (ts : Nat → Int),
      WellFormed g → (∀ n ∈ g, n.visited = false ∧ n.mustBuild = false) →
      verifyTargetNode g fp = some target → I world →
      (∀ w name, I w → I (env.stat w name).2) →
      (∀ j, Reach g target j → ∀ w, I w → (env.stat w (nodeAt g j).name).1 = some (ts j)) →
      (∀ j c, Reach g target j → c ∈ (nodeAt g j).children → ts c ≤ ts j) →
      ∃ s1, parseTargetFileData env (State.start g world) fp = .ok s1 ∧ s1.CMDSused = 0 ∧
        (∀ e ∈ s1.trace, e.isCommand = false) ∧ Event.upToDate fp ∈ s1.trace) ∧
    (∀ (W : Type) (env : Env W) (g : List parentNode) (world : W) (fp : CStr) (s1 : State W),
      parseTargetFileData env (State.start g world) fp = .ok s1 →
      (Event.upToDate fp ∈ s1.trace ↔ execCount s1.trace = 0)) :=
  ⟨fun _ env g world fp target I ts hwf hfresh htarget hI hIstat hexists hle =>
      parseTargetFileData_quiet env g world fp target I ts hwf hfresh htarget hI hIstat hexists hle,
   fun _ env g world fp s1 h => upToDate_iff env g world fp s1 h⟩

/-- C3 at scenario 3: both files exist, `app` (time 5) is newer than `main.o` (time 3). -/
theorem C3_up_to_date_witness :
    (WellFormed scenario2Graph ∧
      (∀ n ∈ scenario2Graph, n.visited = false ∧ n.mustBuild = false) ∧
      verifyTargetNode scenario2Graph "app".toList = some 0) ∧
    ∃ s1, parseTargetFileData demoEnv (State.start scenario2Graph scenario3World) "app".toList =
        .ok s1 ∧ s1.CMDSused = 0 ∧
      (∀ e ∈ s1.trace, e.isCommand = false) ∧ Event.upToDate "app".toList ∈ s1.trace :=
  ⟨⟨by unfold WellFormed; decide, by decide, by decide⟩,
   C3_up_to_date.1 DemoWorld demoEnv scenario2Graph scenario3World "app".toList 0
    (fun w => w = scenario3World) (fun j => if j = 0 then 5 else 3)
    (by unfold WellFormed; decide) (by decide) (by decide) rfl
    (fun w _ hw => hw)
    (fun j hj w hw => by
      subst hw
      rcases scenario2_reach j hj with h | h <;> subst h <;> decide)
    (fun j c hj hc => by
      rcases scenario2_reach j hj with h | h
      · subst h
        simp [scenario2Graph, nodeAt, newNode] at hc
        subst hc
        decide
      · subst h
        simp [scenario2Graph, nodeAt, newNode] at hc)⟩

/-! ## The rebuild decision (C1) -/

theorem firstProbe_append (j : Nat) (a b : List Event) :
    firstProbe j (a ++ b) =
      match firstProbe j a with
      | some r => some r
      | none => firstProbe j b := by
  induction a with
  | nil => simp [firstProbe]
  | cons e rest ih =>
    cases e with
    | stat k name r =>
      simp only [List.cons_append, firstProbe]
      by_cases hk : k = j
      · simp [hk]
      · simp [hk, ih]
    | cycle _ _ => simpa [firstProbe] using ih
    | praseCMDS _ => simpa [firstProbe] using ih
    | system _ _ _ => simpa [firstProbe] using ih
    | echo _ _ => simpa [firstProbe] using ih
    | upToDate _ => simpa [firstProbe] using ih

theorem firstProbe_untagged (j : Nat) (b : List Event) (h : ∀ e ∈ b, e.tag ≠ some j) :
    firstProbe j b = none := by
  induction b with
  | nil => rfl
  | cons e rest ih =>
    have hrest := ih (fun e he => h e (List.mem_cons_of_mem _ he))
    cases e with
    | stat k name r =>
      have hk : k ≠ j := fun hk => h _ (List.mem_cons_self _ _) (by simp [Event.tag, hk])
      simp [firstProbe, hk, hrest]
    | cycle _ _ => simpa [firstProbe] using hrest
    | praseCMDS _ => simpa [firstProbe] using hrest
    | system _ _ _ => simpa [firstProbe] using hrest
    | echo _ _ => simpa [firstProbe] using hrest
    | upToDate _ => simpa [firstProbe] using hrest

theorem firstProbe_extend (j : Nat) (a b : List Event) (h : ∀ e ∈ b, e.tag ≠ some j) :
    firstProbe j (a ++ b) = firstProbe j a := by
  rw [firstProbe_append, firstProbe_untagged j b h]
  cases firstProbe j a <;> rfl

theorem firstProbe_keep (j : Nat) (a b : List Event) (r : Option Int)
    (h : firstProbe j a = some r) : firstProbe j (a ++ b) = some r := by
  rw [firstProbe_append, h]

/-- A decision stays as it is when the dependencies of the node are untouched and the
new events belong to other nodes. -/
theorem Decided.transfer {W : Type} {g : List parentNode} {s s1 : State W} {j : Nat}
    (hD : Decided g s j) (hkids : ∀ c ∈ (nodeAt g j).children, s1.node c = s.node c)
    (evs : List Event) (htr : s1.trace = s.trace ++ evs) (htag : ∀ e ∈ evs, e.tag ≠ some j) :
    Decided g s1 j := by
  have hfp : firstProbe j s1.trace = firstProbe j s.trace := by
    rw [htr]; exact firstProbe_extend j _ _ htag
  have hst : Stale g s1 j ↔ Stale g s j := by
    unfold Stale
    rw [hfp]
    constructor
    · rintro (h | ⟨c, hc, h⟩)
      · exact Or.inl h
      · exact Or.inr ⟨c, hc, by rw [← hkids c hc]; exact h⟩
    · rintro (h | ⟨c, hc, h⟩)
      · exact Or.inl h
      · exact Or.inr ⟨c, hc, by rw [hkids c hc]; exact h⟩
  refine ⟨fun c hc => by rw [hkids c hc]; exact hD.children c hc, ?_⟩
  rw [hst, ← hD.decision, htr, List.mem_append]
  constructor
  · rintro (h | h)
    · exact h
    · exact absurd rfl (htag _ h)
  · exact Or.inl

theorem Decided.keptByFrame {W : Type} {g : List parentNode} {s s1 : State W} {j : Nat}
    (hD : Decided g s j) (hv : (s.node j).visited = true) (hF : Frame s s1) :
    Decided g s1 j := by
  obtain ⟨evs, htr, htag, _⟩ := hF.trace
  refine hD.transfer (fun c hc => hF.visited c (hD.children c hc).1) evs htr ?_
  intro e he heq
  obtain ⟨k, hk, _, hk0, _⟩ := htag e he
  rw [hk] at heq
  injection heq with heq
  subst heq
  rw [hv] at hk0
  exact absurd hk0 (by simp)

/-- The invariant is kept by steps that touch only a node that is not completed, leave
it visited and not completed, and add only events of that node. -/
theorem Settled.touch {W : Type} {g : List parentNode} {s s1 : State W} (hS : Settled g s)
    (i : Nat) (hnc : (s.node i).completed = false) (hG : SameGraph g s1)
    (hsame : ∀ j, j ≠ i → s1.node j = s.node j) (hv1 : (s1.node i).visited = true)
    (hc1 : (s1.node i).completed = false) (evs : List Event) (htr : s1.trace = s.trace ++ evs)
    (htag : ∀ e ∈ evs, e.tag = some i) : Settled g s1 := by
  have hne : ∀ j, (s1.node j).visited = false → j ≠ i := by
    intro j hj hji
    rw [hji, hv1] at hj
    exact absurd hj (by simp)
  refine ⟨hG, ?_, ?_, ?_⟩
  · intro j hj
    have hji := hne j hj
    rw [hsame j hji] at hj ⊢
    exact hS.fresh j hj
  · intro j hj e he
    have hji := hne j hj
    rw [hsame j hji] at hj
    rw [htr] at he
    rcases List.mem_append.mp he with h | h
    · exact hS.silent j hj e h
    · rw [htag e h]
      intro heq
      injection heq with heq
      exact hji heq.symm
  · intro j hvj hcj
    have hji : j ≠ i := by
      intro hji
      rw [hji, hc1] at hcj
      exact absurd hcj (by simp)
    rw [hsame j hji] at hvj hcj
    have hD := hS.decided j hvj hcj
    refine hD.transfer ?_ evs htr ?_
    · intro c hc
      apply hsame
      intro hci
      have := (hD.children c hc).2
      rw [hci, hnc] at this
      exact absurd this (by simp)
    · intro e he
      rw [htag e he]
      intro heq
      injection heq with heq
      exact hji heq.symm

/-- What lines 128-152 leave when they return, for a node as the parser left it. -/
theorem POTprobe_ok_spec {W : Type} (env : Env W) (s : State W) (i : Nat)
    (hi : i < s.headLL.length) (hmb : (s.node i).mustBuild = false)
    (hde : (s.node i).doesExist = false) (p : State W) (hp : POTprobe env s i = .ok p) :
    ((p.node i).mustBuild = true ↔ (env.stat s.world (s.node i).name).1 = none) ∧
    (∀ t, (env.stat s.world (s.node i).name).1 = some t → (p.node i).fileDate = t) ∧
    (p.node i).completed = (s.node i).completed := by
  have hn : (s.upd i parentNode.setVisited).node i = (s.node i).setVisited :=
    State.node_upd_self _ _ _ hi
  have hr : ((s.upd i parentNode.setVisited).stat env i).1 = (env.stat s.world (s.node i).name).1 := by
    simp [State.stat, hn]
  have hn2 : ((s.upd i parentNode.setVisited).stat env i).2.node i = (s.node i).setVisited := hn
  have hl2 : i < ((s.upd i parentNode.setVisited).stat env i).2.headLL.length := by
    rw [State.stat_headLL, State.upd_length]; exact hi
  unfold POTprobe at hp
  revert hr hn2 hl2 hp
  rcases (s.upd i parentNode.setVisited).stat env i with ⟨r, s2⟩
  intro hp hr hn2 hl2
  simp only at hr hn2 hl2 hp
  rw [← hr]
  cases r with
  | some mtime =>
    simp only [POTexists] at hp
    rw [State.node_upd_self _ _ _ hl2] at hp
    simp only [parentNode.setExists_doesExist, Bool.true_eq_false, if_false] at hp
    injection hp with hp
    subst hp
    rw [State.node_upd_self _ _ _ hl2, hn2]
    simp [hmb]
  | none =>
    simp only [POTexists] at hp
    by_cases htg : (s2.node i).target = false
    · rw [if_pos htg] at hp; exact absurd hp (by simp)
    · rw [if_neg htg] at hp
      rw [State.node_upd_self _ _ _ hl2, hn2] at hp
      simp only [parentNode.setMustBuild_doesExist, parentNode.setVisited_doesExist, hde,
        if_true, parentNode.setMustBuild_children, parentNode.setVisited_children] at hp
      by_cases hch : (s.node i).children = []
      · rw [if_pos hch] at hp; exact absurd hp (by simp)
      · rw [if_neg hch] at hp
        injection hp with hp
        subst hp
        have hl3 : i < (s2.upd i parentNode.setMustBuild).headLL.length := by
          rw [State.upd_length]; exact hl2
        rw [State.node_upd_self _ _ _ hl3, State.node_upd_self _ _ _ hl2, hn2]
        simp

theorem SameGraph.keptByUpd {W : Type} {g : List parentNode} {s : State W} (h : SameGraph g s)
    (i : Nat) (f : parentNode → parentNode) (hname : ∀ n, (f n).name = n.name)
    (hcmds : ∀ n, (f n).cmds = n.cmds) (hchildren : ∀ n, (f n).children = n.children)
    (htarget : ∀ n, (f n).target = n.target) : SameGraph g (s.upd i f) where
  len := by rw [State.upd_length, h.len]
  name := fun j => by
    rw [State.node_upd]; split
    · rename_i hj; rw [hname, hj.1, h.name]
    · exact h.name j
  cmds := fun j => by
    rw [State.node_upd]; split
    · rename_i hj; rw [hcmds, hj.1, h.cmds]
    · exact h.cmds j
  children := fun j => by
    rw [State.node_upd]; split
    · rename_i hj; rw [hchildren, hj.1, h.children]
    · exact h.children j
  target := fun j => by
    rw [State.node_upd]; split
    · rename_i hj; rw [htarget, hj.1, h.target]
    · exact h.target j

theorem Active.visiting {W : Type} {i : Nat} {s cur : State W} (hA : Active i s cur) (v : Nat)
    (hv : (cur.node v).visited = true) (hc : (cur.node v).completed = false) :
    v = i ∨ ((s.node v).visited = true ∧ (s.node v).completed = false) := by
  by_cases hvi : v = i
  · exact Or.inl hvi
  · rcases hA.done v hvi with h | ⟨_, _, h⟩
    · rw [h] at hv hc; exact Or.inr ⟨hv, hc⟩
    · rw [h] at hc; exact absurd hc (by simp)

/-- The loop invariant is kept by a returning call on an edge. -/
theorem Examining.acrossCall {W : Type} {g : List parentNode} {s : State W} {i : Nat}
    {r : Option Int} {recd : Int} {seen : List Nat} {cur s2 : State W}
    (hE : Examining g s i r recd seen cur) (hF : Frame cur s2) (hD : Done cur s2)
    (hS : Settled g s2) : Examining g s i r recd seen s2 := by
  have hi2 : s2.node i = cur.node i := hF.visited i hE.active.visited
  obtain ⟨evs, htr, htag, _⟩ := hF.trace
  have hnot : ∀ e ∈ evs, e.tag ≠ some i := by
    intro e he heq
    obtain ⟨k, hk, _, hk0, _⟩ := htag e he
    rw [hk] at heq
    injection heq with heq
    subst heq
    rw [hE.active.visited] at hk0
    exact absurd hk0 (by simp)
  have hkid : ∀ c ∈ seen, s2.node c = cur.node c := fun c hc => hF.visited c (hE.kids c hc).1
  refine ⟨hE.active.afterCall hF hD, hS, by rw [hi2]; exact hE.date, by rw [hi2]; exact hE.notDone,
    ?_, ?_, ?_, ?_⟩
  · rw [htr, firstProbe_extend i _ _ hnot]; exact hE.probe
  · rw [htr, List.mem_append]
    rintro (h | h)
    · exact hE.quiet h
    · exact hnot _ h rfl
  · intro c hc; rw [hkid c hc]; exact hE.kids c hc
  · rw [hi2, hE.must]
    constructor
    · rintro (h | ⟨c, hc, h⟩)
      · exact Or.inl h
      · exact Or.inr ⟨c, hc, by rw [hkid c hc]; exact h⟩
    · rintro (h | ⟨c, hc, h⟩)
      · exact Or.inl h
      · exact Or.inr ⟨c, hc, by rw [← hkid c hc]; exact h⟩

/-- The loop invariant is kept by the examination of an edge to a completed node. -/
theorem Examining.examineEdge {W : Type} {g : List parentNode} {s : State W} {i : Nat}
    {r : Option Int} {recd : Int} {seen : List Nat} {s2 : State W}
    (hE : Examining g s i r recd seen s2) (hi : i < s.headLL.length)
    (h0 : (s.node i).visited = false) (c : Nat) (hvc : (s2.node c).visited = true)
    (hcc : (s2.node c).completed = true) :
    Examining g s i r recd (seen ++ [c]) (POTedge i c s2) := by
  have hci : c ≠ i := by
    intro hci
    rw [hci, hE.notDone] at hcc
    exact absurd hcc (by simp)
  have hi2 : i < s2.headLL.length := by rw [hE.active.frame.len]; exact hi
  have hA := hE.active.afterEdge hi h0 c
  have hmem : ∀ {P : Nat → Prop}, (∃ x ∈ seen ++ [c], P x) ↔ ((∃ x ∈ seen, P x) ∨ P c) := by
    intro P
    constructor
    · rintro ⟨x, hx, hP⟩
      rcases List.mem_append.mp hx with h | h
      · exact Or.inl ⟨x, h, hP⟩
      · rw [List.mem_singleton] at h; subst h; exact Or.inr hP
    · rintro (⟨x, hx, hP⟩ | hP)
      · exact ⟨x, List.mem_append_left _ hx, hP⟩
      · exact ⟨c, List.mem_append_right _ (List.mem_singleton_self c), hP⟩
  have hkids : ∀ x ∈ seen ++ [c], (s2.node x).visited = true ∧ (s2.node x).completed = true := by
    intro x hx
    rcases List.mem_append.mp hx with h | h
    · exact hE.kids x h
    · rw [List.mem_singleton] at h; subst h; exact ⟨hvc, hcc⟩
  have hxi : ∀ x ∈ seen ++ [c], x ≠ i := by
    intro x hx hxi
    have := (hkids x hx).2
    rw [hxi, hE.notDone] at this
    exact absurd this (by simp)
  unfold POTedge at hA ⊢
  rw [if_neg (by rw [hcc]; simp)] at hA ⊢
  by_cases hmb : (s2.node i).mustBuild = false
  · rw [if_pos hmb] at hA ⊢
    by_cases hcond : (s2.node c).doesExist = false ∨ (s2.node c).fileDate > (s2.node i).fileDate
    · rw [if_pos hcond] at hA ⊢
      have hsame : ∀ j, j ≠ i → (s2.upd i parentNode.setMustBuild).node j = s2.node j :=
        fun j hji => State.node_upd_ne _ _ _ _ hji
      have hself : (s2.upd i parentNode.setMustBuild).node i = (s2.node i).setMustBuild :=
        State.node_upd_self _ _ _ hi2
      refine ⟨hA, ?_, by rw [hself]; exact hE.date, by rw [hself]; exact hE.notDone,
        hE.probe, hE.quiet, ?_, ?_⟩
      · exact hE.settled.touch i hE.notDone
          (hE.settled.graph.keptByUpd i _ (fun _ => rfl) (fun _ => rfl) (fun _ => rfl) (fun _ => rfl))
          hsame (by rw [hself]; exact hE.active.visited)
          (by rw [hself]; exact hE.notDone) [] (by simp) (by simp)
      · intro x hx; rw [hsame x (hxi x hx)]; exact hkids x hx
      · rw [hself, hmem]
        simp only [parentNode.setMustBuild_mustBuild, true_iff]
        right; right
        rw [hsame c hci, ← hE.date]
        exact hcond
    · rw [if_neg hcond] at hA ⊢
      refine ⟨hA, hE.settled, hE.date, hE.notDone, hE.probe, hE.quiet, hkids, ?_⟩
      rw [hE.date] at hcond
      rw [hmem, ← or_assoc, ← hE.must]
      constructor
      · exact Or.inl
      · rintro (h | h)
        · exact h
        · exact absurd h hcond
  · rw [if_neg hmb] at hA ⊢
    refine ⟨hA, hE.settled, hE.date, hE.notDone, hE.probe, hE.quiet, hkids, ?_⟩
    rw [hmem, ← or_assoc, ← hE.must]
    have : (s2.node i).mustBuild = true := by simpa using hmb
    simp [this]

/-- The loop over the edges keeps the loop invariant when no cycle passes through a
reachable node. -/
theorem POTchildren_examining {W : Type} (g : List parentNode) (root : Nat)
    (hac : AcyclicFrom g root) (call : State W → Nat → Outcome W) (hcall : CallSpec call)
    (hsettle : ∀ cur c q, Settled g cur → Reach g root c →
      (∀ v, (cur.node v).visited = true → (cur.node v).completed = false → Reach g v c) →
      call cur c = .ok q → Settled g q)
    (s : State W) (i : Nat) (hi : i < s.headLL.length) (h0 : (s.node i).visited = false)
    (hreach : Reach g root i)
    (hanc : ∀ v, (s.node v).visited = true → (s.node v).completed = false → Reach g v i)
    (r : Option Int) (recd : Int) :
    ∀ (cs seen : List Nat) (cur q : State W), (∀ c ∈ cs, c ∈ (nodeAt g i).children) →
      Examining g s i r recd seen cur → POTchildren call i cs cur = .ok q →
      Examining g s i r recd (seen ++ cs) q := by
  intro cs
  induction cs with
  | nil =>
    intro seen cur q _ hE hq
    simp only [POTchildren] at hq
    injection hq with hq
    subst hq
    simpa using hE
  | cons c rest ih =>
    intro seen cur q hcs hE hq
    have hcg : c ∈ (nodeAt g i).children := hcs c (List.mem_cons_self _ _)
    unfold POTchildren at hq
    have hspec := hcall cur c
    cases hcl : call cur c with
    | ok s2 =>
      rw [hcl] at hq hspec
      simp only at hq hspec
      obtain ⟨hF, hD, hvc⟩ := hspec
      have hancc : ∀ v, (cur.node v).visited = true → (cur.node v).completed = false →
          Reach g v c := by
        intro v hv hc
        rcases hE.active.visiting v hv hc with h | ⟨h1, h2⟩
        · subst h; exact Reach.step (Reach.refl v) hcg
        · exact Reach.step (hanc v h1 h2) hcg
      have hS2 := hsettle cur c s2 hE.settled (Reach.step hreach hcg) hancc hcl
      have hcc : (s2.node c).completed = true := by
        cases hcomp : (s2.node c).completed with
        | true => rfl
        | false =>
          exfalso
          rcases hD c with h | ⟨_, _, h⟩
          · rw [h] at hvc hcomp
            have hback : Reach g c i := by
              rcases hE.active.visiting c hvc hcomp with h | ⟨h1, h2⟩
              · subst h; exact Reach.refl c
              · exact hanc c h1 h2
            exact hac i c hreach hcg hback
          · rw [h] at hcomp; exact absurd hcomp (by simp)
      have hE2 := (hE.acrossCall hF hD hS2).examineEdge hi h0 c hvc hcc
      have := ih (seen ++ [c]) _ q (fun x hx => hcs x (List.mem_cons_of_mem _ hx)) hE2 hq
      simpa using this
    | fatal m s2 => rw [hcl] at hq; simp at hq
    | outOfFuel => rw [hcl] at hq; simp at hq
    | dangling => rw [hcl] at hq; simp at hq

theorem praseCMDS_ok_trace {W : Type} (env : Env W) (i : Nat) :
    ∀ (cmds : List CStr) (cur s1 : State W), praseCMDS env i cmds cur = .ok s1 →
      s1.headLL = cur.headLL ∧ ∃ evs, s1.trace = cur.trace ++ evs ∧ ∀ e ∈ evs, e.tag = some i := by
  intro cmds
  induction cmds with
  | nil =>
    intro cur s1 h
    simp only [praseCMDS] at h
    injection h with h
    subst h
    exact ⟨rfl, [], by simp, by simp⟩
  | cons line rest ih =>
    intro cur s1 h
    unfold praseCMDS at h
    by_cases hline : charAt line 0 ≠ '\x00'
    · rw [if_pos hline] at h
      by_cases hr : (env.system cur.world line).1 = false
      · simp only [hr, if_true] at h
        exact absurd h (by simp)
      · simp only [hr, if_false] at h
        obtain ⟨hh, evs, htr, htag⟩ := ih _ s1 h
        refine ⟨hh, [.system i line true, .echo i line] ++ evs, ?_, ?_⟩
        · rw [htr]; simp [State.ran]
        · intro e he
          rcases List.mem_append.mp he with h1 | h1
          · simp only [List.mem_cons, List.mem_singleton, List.not_mem_nil, or_false] at h1
            rcases h1 with h1 | h1 <;> subst h1 <;> rfl
          · exact htag e h1
    · rw [if_neg hline] at h
      exact ih cur s1 h

theorem POTrestat_ok_spec {W : Type} (env : Env W) (cur s1 : State W) (i : Nat)
    (hi : i < cur.headLL.length) (h : POTrestat env cur i = .ok s1) :
    (∀ j, j ≠ i → s1.node j = cur.node j) ∧ (s1.node i).visited = (cur.node i).visited ∧
      (s1.node i).completed = (cur.node i).completed ∧ s1.headLL.length = cur.headLL.length ∧
      ∃ evs, s1.trace = cur.trace ++ evs ∧ ∀ e ∈ evs, e.tag = some i := by
  have hn2 : ∀ j, (cur.stat env i).2.node j = cur.node j := fun _ => rfl
  have hl2 : (cur.stat env i).2.headLL.length = cur.headLL.length := rfl
  have ht2 : (cur.stat env i).2.trace = cur.trace ++ [.stat i (cur.node i).name (cur.stat env i).1] :=
    rfl
  unfold POTrestat at h
  generalize (cur.stat env i).1 = r0 at ht2
  revert h hn2 hl2 ht2
  rcases cur.stat env i with ⟨r, s2⟩
  intro h hn2 hl2 ht2
  simp only at h hn2 hl2 ht2
  have htag : ∀ e ∈ [Event.stat i (cur.node i).name r0], e.tag = some i := by
    intro e he; rw [List.mem_singleton] at he; subst he; rfl
  cases r with
  | some mtime =>
    simp only at h
    injection h with h
    subst h
    refine ⟨fun j hji => by rw [State.node_upd_ne _ _ _ _ hji, hn2], ?_, ?_, by simp [hl2],
      _, by rw [State.upd_trace, ht2], htag⟩
    · rw [State.node_upd_self _ _ _ (by rw [hl2]; exact hi), parentNode.setExists_visited, hn2]
    · rw [State.node_upd_self _ _ _ (by rw [hl2]; exact hi), parentNode.setExists_completed, hn2]
  | none =>
    simp only at h
    by_cases htg : (s2.node i).target = false
    · rw [if_pos htg] at h; exact absurd h (by simp)
    · rw [if_neg htg] at h
      injection h with h
      subst h
      exact ⟨fun j _ => hn2 j, by rw [hn2], by rw [hn2], hl2, _, ht2, htag⟩

/-- What lines 168-182 leave when they return. -/
theorem POTrebuild_ok_spec {W : Type} (env : Env W) (cur s1 : State W) (i : Nat)
    (hi : i < cur.headLL.length) (h : POTrebuild env cur i = .ok s1) :
    (∀ j, j ≠ i → s1.node j = cur.node j) ∧ (s1.node i).visited = (cur.node i).visited ∧
      (s1.node i).completed = true ∧
      ∃ evs, s1.trace = cur.trace ++ evs ∧ (∀ e ∈ evs, e.tag = some i) ∧
        (Event.praseCMDS i ∈ evs ↔ (cur.node i).mustBuild = true) := by
  unfold POTrebuild at h
  by_cases hmb : (cur.node i).mustBuild = true
  · rw [if_pos hmb] at h
    cases hp : praseCMDS env i (cur.node i).cmds (cur.emit (.praseCMDS i)) with
    | ok s2 =>
      rw [hp] at h
      simp only at h
      obtain ⟨hh2, evs2, htr2, htag2⟩ := praseCMDS_ok_trace env i _ _ s2 hp
      have hn2 : ∀ j, s2.node j = cur.node j := by
        intro j; unfold State.node; rw [hh2]; rfl
      have hl2 : i < s2.headLL.length := by rw [hh2]; exact hi
      cases hr : POTrestat env s2 i with
      | ok s3 =>
        rw [hr] at h
        simp only at h
        injection h with h
        subst h
        obtain ⟨hn3, hv3, _, hl3, evs3, htr3, htag3⟩ := POTrestat_ok_spec env s2 s3 i hl2 hr
        have hi3 : i < s3.headLL.length := by rw [hl3]; exact hl2
        refine ⟨fun j hji => by rw [State.node_upd_ne _ _ _ _ hji, hn3 j hji, hn2], ?_, ?_,
          [.praseCMDS i] ++ evs2 ++ evs3, ?_, ?_, ?_⟩
        · rw [State.node_upd_self _ _ _ hi3, parentNode.setCompleted_visited, hv3, hn2]
        · rw [State.node_upd_self _ _ _ hi3]; rfl
        · rw [State.upd_trace, htr3, htr2]; simp
        · intro e he
          rcases List.mem_append.mp he with h1 | h1
          · rcases List.mem_append.mp h1 with h2 | h2
            · rw [List.mem_singleton] at h2; subst h2; rfl
            · exact htag2 e h2
          · exact htag3 e h1
        · simp [hmb]
      | fatal m s3 => rw [hr] at h; simp at h
      | outOfFuel => rw [hr] at h; simp at h
      | dangling => rw [hr] at h; simp at h
    | fatal m s2 => rw [hp] at h; simp at h
    | outOfFuel => rw [hp] at h; simp at h
    | dangling => rw [hp] at h; simp at h
  · rw [if_neg hmb] at h
    injection h with h
    subst h
    refine ⟨fun j hji => State.node_upd_ne _ _ _ _ hji, ?_, ?_, [], by simp, by simp, by simp [hmb]⟩
    · rw [State.node_upd_self _ _ _ hi]; rfl
    · rw [State.node_upd_self _ _ _ hi]; rfl

/-- On a graph without a cycle through a reachable node, every returning call of `POT`
keeps the invariant of the traversal. -/
theorem POT_settled {W : Type} (env : Env W) (g : List parentNode) (root : Nat)
    (hac : AcyclicFrom g root) :
    ∀ (fuel : Nat) (s : State W) (i : Nat) (s1 : State W), Settled g s → Reach g root i →
      (∀ v, (s.node v).visited = true → (s.node v).completed = false → Reach g v i) →
      POT env fuel s i = .ok s1 → Settled g s1 := by
  intro fuel
  induction fuel with
  | zero => intro s i s1 _ _ _ h; simp [POT] at h
  | succ fuel ih =>
    intro s i s1 hS hreach hanc h
    unfold POT at h
    by_cases hi : i < s.headLL.length
    · rw [if_pos hi] at h
      by_cases hv : (s.node i).visited = true
      · rw [if_pos hv] at h
        injection h with h
        subst h
        exact hS
      · rw [if_neg hv] at h
        have h0 : (s.node i).visited = false := by simpa using hv
        obtain ⟨hmb0, hde0, hc0⟩ := hS.fresh i h0
        have hbody := POTbody_frame env (POT env fuel) (POT_frame env fuel) s i hi h0
        rw [h] at hbody
        simp only at hbody
        unfold POTbody at h
        have hpf := POTprobe_frame env s i hi h0
        cases hp : POTprobe env s i with
        | ok p =>
          rw [hp] at h hpf
          simp only at h hpf
          obtain ⟨hFp, hvp, htp, hnp⟩ := hpf
          obtain ⟨hmust, hdate, hcp⟩ := POTprobe_ok_spec env s i hi hmb0 hde0 p hp
          have hsil : ∀ e ∈ s.trace, e.tag ≠ some i := hS.silent i h0
          have hE0 : Examining g s i (env.stat s.world (s.node i).name).1 (p.node i).fileDate [] p := by
            refine ⟨⟨hFp, fun j hji => Or.inl (hnp j hji), hvp⟩, ?_, rfl, by rw [hcp, hc0], ?_, ?_,
              by simp, by simpa using hmust⟩
            · refine hS.touch i hc0 (hS.graph.ofFrame hFp) hnp hvp (by rw [hcp, hc0]) _ htp ?_
              intro e he; rw [List.mem_singleton] at he; subst he; rfl
            · rw [htp, firstProbe_append, firstProbe_untagged i _ hsil]
              simp [firstProbe]
            · rw [htp, List.mem_append]
              rintro (h1 | h1)
              · exact hsil _ h1 rfl
              · simp at h1
          cases hq : POTchildren (POT env fuel) i (p.node i).children p with
          | ok q =>
            rw [hq] at h
            simp only at h
            have hE := POTchildren_examining g root hac (POT env fuel) (POT_frame env fuel)
              (fun cur c q2 hSc hrc hancc hcall => ih cur c q2 hSc hrc hancc hcall)
              s i hi h0 hreach hanc _ _ (p.node i).children [] p q
              (fun c hc => by rw [← (hS.graph.ofFrame hFp).children]; exact hc) hE0 hq
            rw [List.nil_append, (hS.graph.ofFrame hFp).children] at hE
            have hiq : i < q.headLL.length := by rw [hE.active.frame.len]; exact hi
            obtain ⟨hn1, hv1, hc1, evs, htr, htag, hpr⟩ := POTrebuild_ok_spec env q s1 i hiq h
            have hne : ∀ j, (s1.node j).visited = false → j ≠ i := by
              intro j hj hji
              rw [hji, hv1, hE.active.visited] at hj
              exact absurd hj (by simp)
            have hkid : ∀ c ∈ (nodeAt g i).children, s1.node c = q.node c := by
              intro c hc
              apply hn1
              intro hci
              have := (hE.kids c hc).2
              rw [hci, hE.notDone] at this
              exact absurd this (by simp)
            refine ⟨hS.graph.ofFrame hbody.1, ?_, ?_, ?_⟩
            · intro j hj
              have hji := hne j hj
              rw [hn1 j hji] at hj ⊢
              exact hE.settled.fresh j hj
            · intro j hj e he
              have hji := hne j hj
              rw [hn1 j hji] at hj
              rw [htr] at he
              rcases List.mem_append.mp he with h1 | h1
              · exact hE.settled.silent j hj e h1
              · rw [htag e h1]
                intro heq
                injection heq with heq
                exact hji heq.symm
            · intro j hvj hcj
              by_cases hji : j = i
              · subst hji
                refine ⟨fun c hc => by rw [hkid c hc]; exact hE.kids c hc, ?_⟩
                have hfp : firstProbe j s1.trace = some (env.stat s.world (s.node j).name).1 := by
                  rw [htr]; exact firstProbe_keep j _ _ _ hE.probe
                rw [htr, List.mem_append, hpr, hE.must]
                unfold Stale
                rw [hfp]
                constructor
                · rintro (h1 | h1 | ⟨c, hc, h1⟩)
                  · exact absurd h1 hE.quiet
                  · left; rw [h1]
                  · rcases h1 with h1 | h1
                    · exact Or.inr ⟨c, hc, Or.inl (by rw [hkid c hc]; exact h1)⟩
                    · cases hr : (env.stat s.world (s.node j).name).1 with
                      | none => left; rfl
                      | some t =>
                        right
                        refine ⟨c, hc, Or.inr ⟨t, rfl, ?_⟩⟩
                        rw [hkid c hc, ← hdate t hr]
                        exact h1
                · rintro (h1 | ⟨c, hc, h1⟩)
                  · right; left
                    injection h1
                  · right; right
                    refine ⟨c, hc, ?_⟩
                    rcases h1 with h1 | ⟨t, ht, h1⟩
                    · left; rw [← hkid c hc]; exact h1
                    · right
                      injection ht with ht
                      rw [← hkid c hc, hdate t ht]
                      exact h1
              · rw [hn1 j hji] at hvj hcj
                have hD := hE.settled.decided j hvj hcj
                refine hD.transfer ?_ evs htr ?_
                · intro c hc
                  apply hn1
                  intro hci
                  have := (hD.children c hc).2
                  rw [hci, hE.notDone] at this
                  exact absurd this (by simp)
                · intro e he
                  rw [htag e he]
                  intro heq
                  injection heq with heq
                  exact hji heq.symm
          | fatal m q => rw [hq] at h; simp at h
          | outOfFuel => rw [hq] at h; simp at h
          | dangling => rw [hq] at h; simp at h
        | fatal m p => rw [hp] at h; simp at h
        | outOfFuel => rw [hp] at h; simp at h
        | dangling => rw [hp] at h; simp at h
    · rw [if_neg hi] at h
      exact absurd h (by simp)

theorem Settled.atFreshStart {W : Type} (g : List parentNode) (world : W)
    (hfresh : ∀ n ∈ g, n.visited = false ∧ n.mustBuild = false ∧ n.doesExist = false ∧
      n.completed = false) : Settled g (State.start g world) := by
  have hall : ∀ j, (nodeAt g j).visited = false ∧ (nodeAt g j).mustBuild = false ∧
      (nodeAt g j).doesExist = false ∧ (nodeAt g j).completed = false := by
    intro j
    rcases nodeAt_mem_or_default g j with h | h
    · exact hfresh _ h
    · rw [h]; exact ⟨rfl, rfl, rfl, rfl⟩
  refine ⟨SameGraph.atStart g world, fun j _ => (hall j).2, ?_, ?_⟩
  · intro j _ e he; exact absurd he (List.not_mem_nil _)
  · intro j hj
    have := (hall j).1
    rw [show (State.start g world).node j = nodeAt g j from rfl, this] at hj
    exact absurd hj (by simp)

/-- The rebuild decision in terms of the recorded values: on a graph as the parser
leaves it, with no dependency cycle through a node reachable from the requested
node, when the traversal returns (no fatal error), the command list of a visited
node was run (`praseCMDS` was called on it) if and only if the first probe of the
node reported its file absent, or some dependency is recorded as not existing
(`doesExist = 0`) after its own visit, or some dependency's recorded time is
strictly greater than the time the probe of the node recorded. -/
theorem POT_rebuild_decision {W : Type} (env : Env W) (g : List parentNode) (world : W)
    (root fuel : Nat) (s1 : State W)
    (hfresh : ∀ n ∈ g, n.visited = false ∧ n.mustBuild = false ∧ n.doesExist = false ∧
      n.completed = false)
    (hacyclic : AcyclicFrom g root)
    (hrun : POT env fuel (State.start g world) root = .ok s1)
    (j : Nat) (hj : (s1.node j).visited = true) :
    Event.praseCMDS j ∈ s1.trace ↔
      (firstProbe j s1.trace = some none ∨
        ∃ c ∈ (nodeAt g j).children, (s1.node c).doesExist = false ∨
          ∃ t, firstProbe j s1.trace = some (some t) ∧ (s1.node c).fileDate > t) := by
  have hS0 := Settled.atFreshStart g world hfresh
  have hS1 := POT_settled env g root hacyclic fuel (State.start g world) root s1 hS0
    (Reach.refl root) (fun v hv _ => by
      have hv0 : (nodeAt g v).visited = false := by
        rcases nodeAt_mem_or_default g v with h | h
        · exact (hfresh _ h).1
        · rw [h]; rfl
      rw [show (State.start g world).node v = nodeAt g v from rfl, hv0] at hv
      exact absurd hv (by simp)) hrun
  have hfr := POT_frame env fuel (State.start g world) root
  rw [hrun] at hfr
  simp only at hfr
  have hcj : (s1.node j).completed = true := by
    rcases hfr.2.1 j with h | ⟨_, _, h⟩
    · have hv0 : (nodeAt g j).visited = false := by
        rcases nodeAt_mem_or_default g j with h | h
        · exact (hfresh _ h).1
        · rw [h]; rfl
      rw [h, show (State.start g world).node j = nodeAt g j from rfl, hv0] at hj
      exact absurd hj (by simp)
    · exact h
  exact (hS1.decided j hj hcj).decision

theorem scenario2_reach_leaf (x : Nat) (h : Reach scenario2Graph 1 x) : x = 1 := by
  induction h with
  | refl => rfl
  | step _ hc ih =>
    subst ih
    simp [scenario2Graph, nodeAt, newNode] at hc

theorem scenario2_acyclic : AcyclicFrom scenario2Graph 0 := by
  intro a b ha hb hback
  rcases scenario2_reach a ha with h | h
  · subst h
    simp [scenario2Graph, nodeAt, newNode] at hb
    subst hb
    have := scenario2_reach_leaf 0 hback
    exact absurd this (by decide)
  · subst h
    simp [scenario2Graph, nodeAt, newNode] at hb

theorem vanish_reach_leaf (x : Nat) (h : Reach vanishGraph 1 x) : x = 1 := by
  induction h with
  | refl => rfl
  | step _ hc ih =>
    subst ih
    simp [vanishGraph, nodeAt, newNode] at hc

theorem vanish_reach_mid (x : Nat) (h : Reach vanishGraph 0 x) : x = 0 ∨ x = 1 := by
  induction h with
  | refl => exact Or.inl rfl
  | step _ hc ih =>
    rcases ih with h | h
    · subst h
      simp [vanishGraph, nodeAt, newNode] at hc
      exact Or.inr hc
    · subst h
      simp [vanishGraph, nodeAt, newNode] at hc

theorem vanish_reach_top (x : Nat) (h : Reach vanishGraph 2 x) : x = 2 ∨ x = 0 ∨ x = 1 := by
  induction h with
  | refl => exact Or.inl rfl
  | step _ hc ih =>
    rcases ih with h | h | h
    · subst h
      simp [vanishGraph, nodeAt, newNode] at hc
      exact Or.inr (Or.inl hc)
    · subst h
      simp [vanishGraph, nodeAt, newNode] at hc
      exact Or.inr (Or.inr hc)
    · subst h
      simp [vanishGraph, nodeAt, newNode] at hc

theorem vanish_acyclic : AcyclicFrom vanishGraph 2 := by
  intro a b ha hb hback
  rcases vanish_reach_top a ha with h | h | h
  · subst h
    simp [vanishGraph, nodeAt, newNode] at hb
    subst hb
    rcases vanish_reach_mid 2 hback with h | h <;> exact absurd h (by decide)
  · subst h
    simp [vanishGraph, nodeAt, newNode] at hb
    subst hb
    exact absurd (vanish_reach_leaf 0 hback) (by decide)
  · subst h
    simp [vanishGraph, nodeAt, newNode] at hb

/-- C1 fails on a node whose dependency is flagged as target, has a file when it is
first probed, and has none after its commands.  In the graph of the rule file
`a : b`, `rm a`, `top : a`, `touch top`, which has no cycle, with `b` newer than `a`
and `top` newer than `a`, the traversal from `top` returns; the commands of `a`
remove the file `a`, the probe behind them fails, and from then on `a` has no file;
but the commands of `top` are not run, because `a` is still recorded as existing
with the time of its first probe.  In general the decision follows the recorded
values: the commands of a visited node are run if and only if its first probe
failed, or a dependency is recorded as not existing, or a dependency's recorded
time is strictly greater than the time recorded for the node. -/
theorem C1_rebuild_decision :
    (parseMakeFileData (getlines vanishFile) = .ok
        { headLL := vanishGraph, targetNode := some "a".toList, CMDS := ["touch top".toList],
          temp := some 2 } ∧
      AcyclicFrom vanishGraph 2 ∧
      (∀ n ∈ vanishGraph, n.visited = false ∧ n.mustBuild = false ∧ n.doesExist = false ∧
        n.completed = false) ∧
      ∃ s1, POT rmEnv 4 (State.start vanishGraph vanishWorld) 2 = .ok s1 ∧
        s1.trace = [.stat 2 "top".toList (some 4), .stat 0 "a".toList (some 3),
          .stat 1 "b".toList (some 5), .praseCMDS 0, .system 0 "rm a".toList true,
          .echo 0 "rm a".toList, .stat 0 "a".toList none] ∧
        (s1.node 2).visited = true ∧ 0 ∈ (nodeAt vanishGraph 2).children ∧
        (s1.node 0).completed = true ∧
        (rmEnv.stat s1.world (nodeAt vanishGraph 0).name).1 = none ∧
        Event.praseCMDS 2 ∉ s1.trace) ∧
    (∀ (W : Type) (env : Env W) (g : List parentNode) (world : W) (root fuel : Nat)
        (s1 : State W),
      (∀ n ∈ g, n.visited = false ∧ n.mustBuild = false ∧ n.doesExist = false ∧
        n.completed = false) →
      AcyclicFrom g root → POT env fuel (State.start g world) root = .ok s1 →
      ∀ j, (s1.node j).visited = true →
        (Event.praseCMDS j ∈ s1.trace ↔
          (firstProbe j s1.trace = some none ∨
            ∃ c ∈ (nodeAt g j).children, (s1.node c).doesExist = false ∨
              ∃ t, firstProbe j s1.trace = some (some t) ∧ (s1.node c).fileDate > t))) :=
  ⟨⟨rfl, vanish_acyclic, by decide, _, rfl, rfl, rfl, by decide, rfl, rfl, by decide⟩,
    fun _ env g world root fuel s1 hfresh hacyclic hrun j hj =>
      POT_rebuild_decision env g world root fuel s1 hfresh hacyclic hrun j hj⟩

/-- The general part of C1 at a concrete input: in the graph of scenario 2 with `main.o`
(time 5) newer than `app` (time 3), the traversal returns and the commands of `app`
are run. -/
theorem C1_rebuild_decision_witness :
    (∀ n ∈ scenario2Graph, n.visited = false ∧ n.mustBuild = false ∧ n.doesExist = false ∧
      n.completed = false) ∧
    ∃ s1, POT demoEnv 3 (State.start scenario2Graph staleWorld) 0 = .ok s1 ∧
      (s1.node 0).visited = true ∧
      (Event.praseCMDS 0 ∈ s1.trace ↔
        (firstProbe 0 s1.trace = some none ∨
          ∃ c ∈ (nodeAt scenario2Graph 0).children, (s1.node c).doesExist = false ∨
            ∃ t, firstProbe 0 s1.trace = some (some t) ∧ (s1.node c).fileDate > t)) :=
  ⟨by decide, _, rfl, rfl,
    C1_rebuild_decision.2 DemoWorld demoEnv scenario2Graph staleWorld 0 3 _ (by decide)
      scenario2_acyclic rfl 0 rfl⟩

/-! ## Scenario 2 (C2) -/

theorem scenario2_parse :
    parseMakeFileData (getlines scenario2File) = .ok
      { headLL := scenario2Graph, targetNode := some "app".toList,
        CMDS := ["touch main.o".toList], temp := some 1 } := by
  rfl

/-- C2 as stated fails: with neither file present, the run of scenario 2 ends with the
fatal `stat` error at the probe of `main.o`; no command was run. -/
theorem C2_scenario2_counterexample :
    ∃ s, mymake2 demoEnv (DemoWorld.mk [] 0) scenario2File none = .built (.fatal .stat s) ∧
      s.trace = [.stat 0 "app".toList none, .stat 1 "main.o".toList none] ∧ s.CMDSused = 0 :=
  ⟨_, rfl, rfl, rfl⟩

/-- Scenario 2 under every file system and command runner: when `main.o` is absent, the
run is fatal and no command list is run. -/
theorem scenario2_fatal {W : Type} (env : Env W) (world : W)
    (habsent : ∀ w, (env.stat w "main.o".toList).1 = none) :
    ∃ msg s1, mymake2 env world scenario2File none = .built (.fatal msg s1) ∧
      s1.CMDSused = 0 ∧ ∀ e ∈ s1.trace, e.isCommand = false := by
  unfold mymake2
  rw [scenario2_parse]
  rcases happ : env.stat world ['a', 'p', 'p'] with ⟨r, w1⟩
  have hmain := habsent w1
  rcases hm : env.stat w1 ['m', 'a', 'i', 'n', '.', 'o'] with ⟨r2, w2⟩
  simp [hm] at hmain
  subst hmain
  cases r <;>
  simp [parseTargetFileData, verifyTargetNode, POT, POTbody, POTprobe, POTchildren, POTedge,
    State.stat, State.upd, State.node, nodeAt, updNode, POTexists, newNode,
    parentNode.setVisited, parentNode.setMustBuild, parentNode.setExists, happ, hm,
    scenario2Graph] <;>
  refine ⟨_, _, ⟨rfl, rfl⟩, rfl, ?_⟩ <;>
  intro e he <;>
  simp only [List.mem_cons, List.mem_singleton, List.not_mem_nil, or_false] at he <;>
  rcases he with h | h <;> subst h <;> rfl

/-- A node that is not yet visited, has no file and has no dependency edge cannot be
built: the call of `POT` on it is fatal right after the probe. -/
theorem POT_leaf_fatal {W : Type} (env : Env W) (fuel : Nat) (s : State W) (i : Nat)
    (hi : i < s.headLL.length) (h0 : (s.node i).visited = false)
    (hfresh : (s.node i).doesExist = false)
    (habsent : (env.stat s.world (s.node i).name).1 = none)
    (hleaf : (s.node i).children = []) :
    ∃ msg s1, POT env (fuel + 1) s i = .fatal msg s1 ∧
      s1.trace = s.trace ++ [.stat i (s.node i).name none] ∧ s1.CMDSused = s.CMDSused := by
  have h := POT_resolution_failure_iff env fuel s i hi h0 hfresh
  obtain ⟨msg, s1, hrun, htr⟩ := h.1.mpr ⟨habsent, Or.inr hleaf⟩
  refine ⟨msg, s1, hrun, ?_, (h.2 msg s1 hrun htr).2⟩
  rw [htr, habsent]

/-- C2 as amended: in scenario 2, whenever `main.o` is absent the run ends in a fatal
error and no command is run; and in general a node whose file is absent and that
has no dependency edge is not buildable, whether or not it is a declared target:
the call of `POT` on it is fatal right after the probe. -/
theorem C2_scenario2_amended :
    (∀ (W : Type) (env : Env W) (world : W),
      (∀ w, (env.stat w "main.o".toList).1 = none) →
      ∃ msg s1, mymake2 env world scenario2File none = .built (.fatal msg s1) ∧
        s1.CMDSused = 0 ∧ ∀ e ∈ s1.trace, e.isCommand = false) ∧
    (∀ (W : Type) (env : Env W) (fuel : Nat) (s : State W) (i : Nat),
      i < s.headLL.length → (s.node i).visited = false → (s.node i).doesExist = false →
      (env.stat s.world (s.node i).name).1 = none → (s.node i).children = [] →
      ∃ msg s1, POT env (fuel + 1) s i = .fatal msg s1 ∧
        s1.trace = s.trace ++ [.stat i (s.node i).name none] ∧ s1.CMDSused = s.CMDSused) :=
  ⟨fun _ env world habsent => scenario2_fatal env world habsent,
   fun _ env fuel s i hi h0 hfresh habsent hleaf =>
     POT_leaf_fatal env fuel s i hi h0 hfresh habsent hleaf⟩

/-- C2 as amended, at a concrete input: a graph in which `main.o` is a declared target
without edges, no file present; the call of `POT` on it is fatal. -/
theorem C2_scenario2_amended_witness :
    (0 < (State.start [newNode "main.o".toList true] (DemoWorld.mk [] 0)).headLL.length ∧
      ((State.start [newNode "main.o".toList true] (DemoWorld.mk [] 0)).node 0).children = []) ∧
    ∃ msg s1, POT demoEnv 1 (State.start [newNode "main.o".toList true] (DemoWorld.mk [] 0)) 0 =
        .fatal msg s1 ∧
      s1.trace = [.stat 0 "main.o".toList none] ∧ s1.CMDSused = 0 :=
  ⟨⟨by decide, by decide⟩,
   C2_scenario2_amended.2 DemoWorld demoEnv 0
     (State.start [newNode "main.o".toList true] (DemoWorld.mk [] 0)) 0
     (by decide) (by decide) (by decide) (by decide) (by decide)⟩

/-! ## The parser: classification of lines -/

theorem cstr_of_text (l : List Char) (h : ∀ c ∈ l, c ≠ '\x00') : cstr l = l := by
  unfold cstr
  rw [List.takeWhile_eq_self_iff]
  intro c hc
  simpa using h c hc

theorem blankScan_eq (line : CStr) (fuel i : Nat) : blankScan line fuel i = i := by
  cases fuel with
  | zero => rfl
  | succ fuel =>
    unfold blankScan
    by_cases h : charAt line i ≠ '\x00' ∧ charAt line i ≠ '\x00'
    · rw [if_pos h, if_neg (by decide)]
    · rw [if_neg h, if_neg (by decide)]

theorem countColons_eq_count (l : CStr) : countColons l = l.count ':' := by
  induction l with
  | nil => rfl
  | cons c rest ih =>
    unfold countColons
    rw [ih, List.count_cons]
    by_cases hc : c = ':'
    · subst hc; simp; omega
    · have : (c == ':') = false := by simpa using hc
      simp [hc, this]

theorem charAt_zero (l : CStr) : charAt l 0 = l.headD '\x00' := by
  cases l <;> rfl

/-- A line whose first byte is a tab is a command line: an error when no node exists
yet, and otherwise the trimmed command is appended to the pending commands. -/
theorem parseLine_tab (st : ParseState) (l : List Char) (h : charAt (cstr l) 0 = '\t') :
    parseLine st l =
      if st.headLL = [] then .error .commandsFirst
      else if (((cstr l).dropWhile isspace).takeWhile (fun c => c ≠ '\n')).length > 0 then
        .ok { headLL := st.headLL, targetNode := st.targetNode,
              CMDS := addLine st.CMDS (((cstr l).dropWhile isspace).takeWhile (fun c => c ≠ '\n')),
              temp := st.temp }
      else .ok st := by
  unfold parseLine
  simp only [h, if_true]

/-- A line that is empty or starts with a newline is skipped. -/
theorem parseLine_blank (st : ParseState) (l : List Char)
    (h : charAt (cstr l) 0 = '\x00' ∨ charAt (cstr l) 0 = '\n') : parseLine st l = .ok st := by
  unfold parseLine
  have htab : charAt (cstr l) 0 ≠ '\t' := by
    rcases h with h | h <;> rw [h] <;> decide
  simp only [htab, if_false, blankScan_eq, h, if_true]

theorem freeLL_storeCmds (st : ParseState) : freeLL (storeCmds st) = st.headLL.length := by
  unfold freeLL storeCmds
  cases st.temp with
  | none => rfl
  | some t => exact length_updNode _ _ _

/-- The colon error path ends with its message on an empty graph only: with a node in
the graph the line buffer is freed by `freeLL()` and again by `free(line)`. -/
theorem exitAfter_colons (st : ParseState) :
    exitAfter (freeLL (storeCmds st) + 1) .colons =
      if st.headLL = [] then .colons else .doubleFree := by
  rw [freeLL_storeCmds]
  unfold exitAfter
  cases h : st.headLL with
  | nil => rfl
  | cons x rest =>
    rw [if_neg (by simp), if_neg (by simp)]

/-- An error path of `useActionLineAndAddNodes` ends with its message when the graph has at
most one node: with two nodes `freeLL()` frees the line buffer twice. -/
theorem exitAfter_freeLL (g : List parentNode) (e : ParseError) :
    exitAfter (freeLL g) e = if g.length ≤ 1 then e else .doubleFree := rfl

/-- Every other line is a target line. -/
theorem parseLine_target (st : ParseState) (l : List Char) (htab : charAt (cstr l) 0 ≠ '\t')
    (hblank : ¬ (charAt (cstr l) 0 = '\x00' ∨ charAt (cstr l) 0 = '\n')) :
    parseLine st l =
      if countColons (cstr l) ≠ 1 then .error (exitAfter (freeLL (storeCmds st) + 1) .colons)
      else
        match useActionLineAndAddNodes (storeCmds st) st.targetNode (fixLine (cstr l)) with
        | .error e => .error e
        | .ok (headLL, targetNode, actionHead) =>
          .ok { headLL := headLL, targetNode := targetNode, CMDS := [], temp := some actionHead } := by
  unfold parseLine
  simp only [htab, if_false, blankScan_eq, hblank]

/-- For a line of text, the three classes in terms of the text. -/
theorem text_classes (l : List Char) (hnul : ∀ c ∈ l, c ≠ '\x00') :
    (charAt (cstr l) 0 = '\t' ↔ l.head? = some '\t') ∧
    ((charAt (cstr l) 0 = '\x00' ∨ charAt (cstr l) 0 = '\n') ↔
      l.takeWhile (fun c => c ≠ '\n') = []) := by
  rw [cstr_of_text l hnul]
  cases l with
  | nil => simp [charAt]
  | cons c rest =>
    have hc : c ≠ '\x00' := hnul c (List.mem_cons_self _ _)
    simp [charAt, hc, List.takeWhile_cons]

theorem parseLines_append (st : ParseState) (a b : List (List Char)) :
    parseLines st (a ++ b) =
      match parseLines st a with
      | .error e => .error e
      | .ok st1 => parseLines st1 b := by
  induction a generalizing st with
  | nil => rfl
  | cons x rest ih =>
    simp only [List.cons_append, parseLines]
    cases parseLine st x with
    | error e => rfl
    | ok st1 => exact ih st1

/-! ## Colon count (C5) and commands before any target (C10) -/

theorem addParentNode_fst (g : List parentNode) (tn : Option CStr) (node : parentNode) :
    (addParentNode g tn node).1 = g ++ [node] := by
  cases g <;> rfl

theorem depLoop_length (fuel : Nat) :
    ∀ (g : List parentNode) (tn : Option CStr) (a : Nat) (rest : CStr),
      g.length ≤ (depLoop fuel g tn a rest).1.length := by
  induction fuel with
  | zero => intro g tn a rest; simp [depLoop]
  | succ fuel ih =>
    intro g tn a rest
    unfold depLoop
    simp only
    split
    · exact Nat.le_refl _
    · refine Nat.le_trans ?_ (ih _ _ _ _)
      rw [length_updNode]
      cases findParentNode g (scanToken rest) with
      | none => simp [addParentNode_fst]
      | some k => simp

theorem findParentNode_lt (g : List parentNode) (name : CStr) (i : Nat)
    (h : findParentNode g name = some i) : i < g.length := by
  induction g generalizing i with
  | nil => simp [findParentNode] at h
  | cons n rest ih =>
    unfold findParentNode at h
    split at h
    · simp at h; subst h; simp
    · cases hr : findParentNode rest name with
      | none => rw [hr] at h; simp at h
      | some k =>
        rw [hr] at h
        simp at h
        subst h
        simp [ih k hr]

/-- The node returned by `useActionLineAndAddNodes` is a node of the new list. -/
theorem useActionLineAndAddNodes_lt (g : List parentNode) (tn : Option CStr) (line : CStr)
    (g1 : List parentNode) (tn1 : Option CStr) (a : Nat)
    (h : useActionLineAndAddNodes g tn line = .ok (g1, tn1, a)) : a < g1.length := by
  unfold useActionLineAndAddNodes at h
  cases hs : sscanfTarget line with
  | none => rw [hs] at h; simp at h
  | some p =>
    obtain ⟨target, restPointers⟩ := p
    rw [hs] at h
    simp only at h
    split at h
    · simp at h
    · simp only [Except.ok.injEq, Prod.mk.injEq] at h
      obtain ⟨h1, _, h3⟩ := h
      subst h1 h3
      refine Nat.lt_of_lt_of_le ?_ (depLoop_length _ _ _ _ _)
      cases hf : findParentNode g target with
      | none => simp [addParentNode_fst]
      | some k => simpa using findParentNode_lt g target k hf

/-- After an accepted line the list of nodes is empty exactly when it was empty before
and the line is not a target line. -/
theorem parseLine_headLL_nil (st st1 : ParseState) (l : List Char)
    (h : parseLine st l = .ok st1) :
    st1.headLL = [] ↔ (st.headLL = [] ∧ ¬ isTargetLine l) := by
  by_cases htab : charAt (cstr l) 0 = '\t'
  · rw [parseLine_tab st l htab] at h
    have hnt : ¬ isTargetLine l := fun ht => ht.1 htab
    by_cases hnil : st.headLL = []
    · rw [if_pos hnil] at h; simp at h
    · rw [if_neg hnil] at h
      split at h <;> (injection h with h; subst h; simp [hnil])
  · by_cases hblank : charAt (cstr l) 0 = '\x00' ∨ charAt (cstr l) 0 = '\n'
    · rw [parseLine_blank st l hblank] at h
      injection h with h
      subst h
      have hnt : ¬ isTargetLine l := fun ht => ht.2 hblank
      simp [hnt]
    · rw [parseLine_target st l htab hblank] at h
      have ht : isTargetLine l := ⟨htab, hblank⟩
      split at h
      · simp at h
      · cases hu : useActionLineAndAddNodes (storeCmds st) st.targetNode (fixLine (cstr l)) with
        | error e => rw [hu] at h; simp at h
        | ok p =>
          obtain ⟨g1, tn1, a⟩ := p
          rw [hu] at h
          simp only at h
          injection h with h
          subst h
          have := useActionLineAndAddNodes_lt _ _ _ _ _ _ hu
          simp only [ht, not_true_eq_false, and_false, iff_false]
          intro hnil
          rw [hnil] at this
          exact absurd this (Nat.not_lt_zero _)

theorem parseLines_headLL_nil (pre : List (List Char)) :
    ∀ (st st1 : ParseState), parseLines st pre = .ok st1 →
      (st1.headLL = [] ↔ (st.headLL = [] ∧ ∀ x ∈ pre, ¬ isTargetLine x)) := by
  induction pre with
  | nil =>
    intro st st1 h
    simp only [parseLines] at h
    injection h with h
    subst h
    simp
  | cons x rest ih =>
    intro st st1 h
    simp only [parseLines] at h
    cases hx : parseLine st x with
    | error e => rw [hx] at h; simp at h
    | ok st2 =>
      rw [hx] at h
      simp only at h
      rw [ih st2 st1 h, parseLine_headLL_nil st st2 x hx]
      simp only [List.mem_cons, forall_eq_or_imp]
      tauto

/-- C10: when the lines before a tab-initial line were read without error, the line
makes `parseMakeFileData` end with "Commands Cannot be First" if none of the lines
before it is a target line; and if one of them is a target line (it was accepted,
as the lines were read without error), the tab-initial line is read without
error. -/
theorem C10_command_before_target (pre post : List (List Char)) (l : List Char)
    (st : ParseState) (hpre : parseLines ParseState.init pre = .ok st)
    (htab : charAt (cstr l) 0 = '\t') :
    ((∀ x ∈ pre, ¬ isTargetLine x) →
      parseMakeFileData (pre ++ l :: post) = .error .commandsFirst) ∧
    ((∃ x ∈ pre, isTargetLine x) → ∃ st1, parseLine st l = .ok st1 ∧
      parseLines ParseState.init (pre ++ [l]) = .ok st1) := by
  have hinv := parseLines_headLL_nil pre ParseState.init st hpre
  have hstep := parseLine_tab st l htab
  constructor
  · intro hno
    have hnil : st.headLL = [] := hinv.mpr ⟨rfl, hno⟩
    unfold parseMakeFileData
    rw [parseLines_append, hpre]
    simp only [parseLines]
    rw [hstep, if_pos hnil]
  · rintro ⟨x, hx, hxt⟩
    have hne : st.headLL ≠ [] := fun hnil => (hinv.mp hnil).2 x hx hxt
    rw [if_neg hne] at hstep
    have : ∃ st1, parseLine st l = .ok st1 := by
      rw [hstep]
      split
      · exact ⟨_, rfl⟩
      · exact ⟨_, rfl⟩
    obtain ⟨st1, hst1⟩ := this
    refine ⟨st1, hst1, ?_⟩
    rw [parseLines_append, hpre]
    simp only [parseLines, hst1]

/-- C10 at concrete inputs: a command line first is fatal; after `a : b` it is read. -/
theorem C10_command_before_target_witness :
    (parseLines ParseState.init ["\n".toList] = .ok ParseState.init ∧
      charAt (cstr "\tcmd\n".toList) 0 = '\t') ∧
    parseMakeFileData (["\n".toList] ++ "\tcmd\n".toList :: ["a : b\n".toList]) =
      .error .commandsFirst :=
  ⟨⟨rfl, by decide⟩,
   (C10_command_before_target ["\n".toList] ["a : b\n".toList] "\tcmd\n".toList ParseState.init
      rfl (by decide)).1 (by
        intro x hx ht
        rw [List.mem_singleton] at hx
        subst hx
        exact ht.2 (Or.inr (by decide)))⟩

/-- A target line whose colon count is not 1 ends the parse: with the colon error when
the graph is empty, and by the second `free` of the line buffer when it has a
node. -/
theorem parseLine_colons (st : ParseState) (l : List Char) (hnul : ∀ c ∈ l, c ≠ '\x00')
    (htab : l.head? ≠ some '\t') (hne : l.takeWhile (fun c => c ≠ '\n') ≠ [])
    (hcol : l.count ':' ≠ 1) :
    parseLine st l = .error (if st.headLL = [] then .colons else .doubleFree) := by
  have hcls := text_classes l hnul
  rw [parseLine_target st l (fun h => htab (hcls.1.mp h)) (fun h => hne (hcls.2.mp h)),
    cstr_of_text l hnul, countColons_eq_count, if_pos hcol, exitAfter_colons]

theorem useActionLineAndAddNodes_no_colons (g : List parentNode) (tn : Option CStr) (line : CStr)
    (h : useActionLineAndAddNodes g tn line = .error .colons) : False := by
  unfold useActionLineAndAddNodes at h
  cases hs : sscanfTarget line with
  | none =>
    rw [hs] at h
    simp only [exitAfter] at h
    split at h <;> simp at h
  | some p =>
    obtain ⟨target, restPointers⟩ := p
    rw [hs] at h
    simp only at h
    by_cases hd : searchHeadActionForDup g target = true
    · rw [if_pos hd] at h
      simp only [exitAfter] at h
      split at h <;> simp at h
    · rw [if_neg hd] at h; simp at h

/-- A line with exactly one colon never raises the colon error. -/
theorem parseLine_one_colon (st : ParseState) (l : List Char) (hcol : (cstr l).count ':' = 1) :
    parseLine st l ≠ .error .colons := by
  by_cases htab : charAt (cstr l) 0 = '\t'
  · rw [parseLine_tab st l htab]
    split
    · simp
    · split <;> simp
  · by_cases hblank : charAt (cstr l) 0 = '\x00' ∨ charAt (cstr l) 0 = '\n'
    · rw [parseLine_blank st l hblank]; simp
    · rw [parseLine_target st l htab hblank, countColons_eq_count, if_neg (by simp [hcol])]
      cases hu : useActionLineAndAddNodes (storeCmds st) st.targetNode (fixLine (cstr l)) with
      | error e =>
        simp only
        intro heq
        injection heq with heq
        subst heq
        exact useActionLineAndAddNodes_no_colons _ _ _ hu
      | ok p => simp

theorem parseLines_error_of_mem (lines : List (List Char)) (l : List Char) (hl : l ∈ lines)
    (hbad : ∀ st, ∃ e, parseLine st l = .error e) :
    ∀ st, ∃ e, parseLines st lines = .error e := by
  induction lines with
  | nil => exact absurd hl (List.not_mem_nil _)
  | cons x rest ih =>
    intro st
    simp only [parseLines]
    rcases List.mem_cons.mp hl with h | h
    · subst h
      obtain ⟨e, he⟩ := hbad st
      rw [he]
      exact ⟨e, rfl⟩
    · cases parseLine st x with
      | error e => exact ⟨e, rfl⟩
      | ok st1 => exact ih h st1

/-- C5 fails on a target line with a wrong colon count that comes after an accepted
target line: the colon error path calls `freeLL()`, which frees the line buffer
once for every node, and then `free(line)`, so with a node in the graph the buffer
is freed twice and the process is aborted before the message is printed.  The
rule file `x : y`, `a : b : c` ends this way; the line `a : b : c` alone ends with
the colon error.  In both cases the parse ends at that line, no graph is returned
and the program builds nothing; and a line with exactly one colon never raises
the colon error. -/
theorem C5_colon_count :
    (parseMakeFileData (getlines "x : y\na : b : c\n".toList) = .error .doubleFree ∧
      parseMakeFileData (getlines "a : b : c\n".toList) = .error .colons) ∧
    (∀ (pre post : List (List Char)) (l : List Char) (st : ParseState),
      parseLines ParseState.init pre = .ok st → (∀ c ∈ l, c ≠ '\x00') →
      l.head? ≠ some '\t' → l.takeWhile (fun c => c ≠ '\n') ≠ [] → l.count ':' ≠ 1 →
      parseMakeFileData (pre ++ l :: post) =
        .error (if st.headLL = [] then .colons else .doubleFree) ∧
      ∀ (W : Type) (env : Env W) (world : W) (file : List Char) (arg : Option CStr),
        getlines file = pre ++ l :: post →
        mymake2 env world file arg =
          .parseError (if st.headLL = [] then .colons else .doubleFree)) ∧
    (∀ (lines : List (List Char)) (l : List Char), l ∈ lines → (∀ c ∈ l, c ≠ '\x00') →
      l.head? ≠ some '\t' → l.takeWhile (fun c => c ≠ '\n') ≠ [] → l.count ':' ≠ 1 →
      ∃ e, parseMakeFileData lines = .error e) ∧
    (∀ (st : ParseState) (l : List Char), (cstr l).count ':' = 1 →
      parseLine st l ≠ .error .colons) := by
  refine ⟨⟨rfl, rfl⟩, ?_, ?_, parseLine_one_colon⟩
  · intro pre post l st hpre hnul htab hne hcol
    have hp : parseMakeFileData (pre ++ l :: post) =
        .error (if st.headLL = [] then .colons else .doubleFree) := by
      unfold parseMakeFileData
      rw [parseLines_append, hpre]
      simp only [parseLines]
      rw [parseLine_colons st l hnul htab hne hcol]
    refine ⟨hp, ?_⟩
    intro W env world file arg hfile
    unfold mymake2
    rw [hfile, hp]
  · intro lines l hl hnul htab hne hcol
    obtain ⟨e, he⟩ := parseLines_error_of_mem lines l hl
      (fun st => ⟨_, parseLine_colons st l hnul htab hne hcol⟩) ParseState.init
    unfold parseMakeFileData
    rw [he]
    exact ⟨e, rfl⟩

/-- The general part of C5 at the line `a : b : c` after the accepted rule `x : y`: the
graph has two nodes, and the parse ends without the message. -/
theorem C5_colon_count_witness :
    (parseLines ParseState.init ["x : y\n".toList] = .ok
        { headLL := [{ newNode "x".toList true with children := [1] }, newNode "y".toList false],
          targetNode := some "x".toList, CMDS := [], temp := some 0 } ∧
      "a : b : c\n".toList.count ':' ≠ 1) ∧
    parseMakeFileData (["x : y\n".toList] ++ "a : b : c\n".toList :: []) = .error .doubleFree :=
  ⟨⟨rfl, by decide⟩,
   (C5_colon_count.2.1 ["x : y\n".toList] [] "a : b : c\n".toList _ rfl (by decide) (by decide)
      (by decide) (by decide)).1⟩
/-! ## Tokens -/

theorem scanToken_cons_space (c : Char) (s : CStr) (h : isspace c = true) :
    scanToken (c :: s) = scanToken s := by
  simp [scanToken, List.dropWhile_cons, h]

theorem afterToken_cons_space (c : Char) (s : CStr) (h : isspace c = true) :
    afterToken (c :: s) = afterToken s := by
  simp [afterToken, List.dropWhile_cons, h]

theorem scanToken_cons_char (c : Char) (s : CStr) (h : isspace c = false) :
    scanToken (c :: s) = c :: s.takeWhile (fun x => !isspace x) := by
  simp [scanToken, List.dropWhile_cons, List.takeWhile_cons, h]

theorem afterToken_cons_char (c : Char) (s : CStr) (h : isspace c = false) :
    afterToken (c :: s) = s.dropWhile (fun x => !isspace x) := by
  simp [afterToken, List.dropWhile_cons, h]

theorem tokens_cons (c : Char) (rest : CStr) :
    tokens (c :: rest) =
      if isspace c then tokens rest
      else if isspace (rest.headD ' ') then [c] :: tokens rest
      else match tokens rest with
        | [] => [[c]]
        | t :: ts => (c :: t) :: ts := by
  rw [tokens]

theorem tokens_cons_space (c : Char) (rest : CStr) (h : isspace c = true) :
    tokens (c :: rest) = tokens rest := by
  rw [tokens_cons, if_pos h]

/-- The tokens of a text are what repeated `%s` conversions deliver. -/
theorem tokens_unfold (s : CStr) :
    tokens s = if scanToken s = [] then [] else scanToken s :: tokens (afterToken s) := by
  induction s with
  | nil => simp [tokens, scanToken]
  | cons c rest ih =>
    rw [tokens_cons]
    by_cases hc : isspace c = true
    · rw [if_pos hc, scanToken_cons_space c rest hc, afterToken_cons_space c rest hc]
      exact ih
    · have hc' : isspace c = false := by simpa using hc
      rw [if_neg hc, scanToken_cons_char c rest hc', afterToken_cons_char c rest hc']
      simp only [reduceCtorEq, if_false]
      cases rest with
      | nil => simp [tokens]
      | cons d rest' =>
        by_cases hd : isspace d = true
        · simp [List.headD, hd, List.takeWhile_cons, List.dropWhile_cons, tokens_cons_space]
        · have hd' : isspace d = false := by simpa using hd
          simp only [List.headD, hd', Bool.false_eq_true, if_false]
          rw [ih, scanToken_cons_char d rest' hd', afterToken_cons_char d rest' hd']
          simp [List.takeWhile_cons, List.dropWhile_cons, hd']

theorem tokens_dropWhile (s : CStr) : tokens (s.dropWhile isspace) = tokens s := by
  induction s with
  | nil => rfl
  | cons c rest ih =>
    by_cases hc : isspace c = true
    · rw [List.dropWhile_cons_of_pos hc, ih, tokens_cons_space c rest hc]
    · rw [List.dropWhile_cons_of_neg hc]

theorem drop_takeWhile_length (p : Char → Bool) (s : CStr) :
    s.drop (s.takeWhile p).length = s.dropWhile p := by
  induction s with
  | nil => rfl
  | cons c rest ih =>
    by_cases hc : p c = true
    · rw [List.takeWhile_cons_of_pos hc, List.dropWhile_cons_of_pos hc]
      simpa using ih
    · rw [List.takeWhile_cons_of_neg hc, List.dropWhile_cons_of_neg hc]
      rfl

theorem dropWhile_dropWhile (p : Char → Bool) (s : CStr) :
    (s.dropWhile p).dropWhile p = s.dropWhile p := by
  induction s with
  | nil => rfl
  | cons c rest ih =>
    by_cases hc : p c = true
    · rw [List.dropWhile_cons_of_pos hc, ih]
    · rw [List.dropWhile_cons_of_neg hc, List.dropWhile_cons_of_neg hc]

/-- On a text that does not begin with white space, advancing by the length of the
token is what the `%s` conversion consumes. -/
theorem drop_scanToken (s : CStr) (h : s.dropWhile isspace = s) :
    s.drop (scanToken s).length = afterToken s := by
  unfold scanToken afterToken
  rw [h]
  exact drop_takeWhile_length _ s

/-- The dependency loop does what `linkDeps` does on the tokens of the text. -/
theorem depLoop_eq_linkDeps (fuel : Nat) :
    ∀ (rest : CStr) (g : List parentNode) (tn : Option CStr) (a : Nat),
      rest.length ≤ fuel → rest.dropWhile isspace = rest →
      depLoop fuel g tn a rest = linkDeps g tn a (tokens rest) := by
  induction fuel with
  | zero =>
    intro rest g tn a hlen _
    have : rest = [] := List.eq_nil_of_length_eq_zero (Nat.le_zero.mp hlen)
    subst this
    rfl
  | succ fuel ih =>
    intro rest g tn a hlen hlead
    unfold depLoop
    rw [tokens_unfold rest]
    simp only
    by_cases htok : scanToken rest = []
    · rw [if_pos htok, if_pos htok]; rfl
    · rw [if_neg htok, if_neg htok]
      rw [drop_scanToken rest hlead]
      unfold linkDeps
      simp only
      have hlt : (afterToken rest).length < rest.length := by
        rw [← drop_scanToken rest hlead, List.length_drop]
        have : 0 < (scanToken rest).length := List.length_pos.mpr htok
        have : 0 < rest.length := by
          cases rest with
          | nil => simp [scanToken] at htok
          | cons _ _ => simp
        omega
      have hle : ((afterToken rest).dropWhile isspace).length ≤ fuel := by
        have := (List.dropWhile_sublist isspace (l := afterToken rest)).length_le
        omega
      rw [ih _ _ _ _ hle (dropWhile_dropWhile _ _), tokens_dropWhile]


/-! ## The normalisation `fixLine` on the text right of the colon -/

theorem fixLineFrom_cons (b : Bool) (c : Char) (rest : CStr) :
    fixLineFrom b (c :: rest) =
      if !b && isspace c then fixLineFrom false rest
      else if isspace c && isspace (rest.headD '\x00') then fixLineFrom b rest
      else if rest.headD '\x00' = ':' then c :: ' ' :: fixLineFrom true rest
      else if c = ':' && !isspace (rest.headD '\x00') then c :: ' ' :: fixLineFrom true rest
      else c :: fixLineFrom true rest := by
  rw [fixLineFrom]

/-- On a text without a colon, the loop of `fixLine` past the first output only drops
every white-space character that is followed by another one. -/
theorem fixLineFrom_true_cons (c : Char) (rest : CStr) (hc : c ≠ ':')
    (hrest : rest.headD '\x00' ≠ ':') :
    fixLineFrom true (c :: rest) =
      if isspace c && isspace (rest.headD '\x00') then fixLineFrom true rest
      else c :: fixLineFrom true rest := by
  rw [fixLineFrom_cons]
  have h4 : (decide (c = ':') && !isspace (rest.headD '\x00')) = false := by simp [hc]
  simp only [Bool.not_true, Bool.false_and, Bool.false_eq_true, if_false, if_neg hrest, h4]

theorem headD_ne_colon (s : CStr) (h : ':' ∉ s) : s.headD '\x00' ≠ ':' := by
  cases s with
  | nil => decide
  | cons c rest =>
    intro hc
    simp only [List.headD] at hc
    exact h (by rw [← hc]; exact List.mem_cons_self _ _)

theorem isspace_headD (s : CStr) : isspace (s.headD '\x00') = true ↔
    (s ≠ [] ∧ isspace (s.headD ' ') = true) := by
  cases s with
  | nil => simp [isspace]
  | cons c rest => simp [List.headD]

/-- The normalised text begins with white space or is empty exactly when the text
does. -/
theorem fixLineFrom_true_head (s : CStr) (h : ':' ∉ s) :
    ((fixLineFrom true s = [] ↔ s = []) ∧
      isspace ((fixLineFrom true s).headD ' ') = isspace (s.headD ' ')) := by
  induction s with
  | nil => simp [fixLineFrom]
  | cons c rest ih =>
    have hc : c ≠ ':' := fun hc => h (by rw [hc]; exact List.mem_cons_self _ _)
    have hr : ':' ∉ rest := fun hr => h (List.mem_cons_of_mem _ hr)
    have ih := ih hr
    rw [fixLineFrom_true_cons c rest hc (headD_ne_colon rest hr)]
    by_cases hsk : (isspace c && isspace (rest.headD '\x00')) = true
    · rw [if_pos hsk]
      simp only [Bool.and_eq_true] at hsk
      have hrest := (isspace_headD rest).mp hsk.2
      refine ⟨?_, ?_⟩
      · simp only [reduceCtorEq, iff_false]
        intro hnil
        exact hrest.1 (ih.1.mp hnil)
      · rw [ih.2, hrest.2]
        simp [List.headD, hsk.1]
    · rw [if_neg hsk]
      simp [List.headD]

theorem tokens_head_congr (c : Char) (x y : CStr) (ht : tokens x = tokens y)
    (hh : isspace (x.headD ' ') = isspace (y.headD ' ')) : tokens (c :: x) = tokens (c :: y) := by
  rw [tokens_cons, tokens_cons, ht, hh]

/-- The normalisation keeps the tokens of a text without a colon. -/
theorem tokens_fixLineFrom_true (s : CStr) (h : ':' ∉ s) :
    tokens (fixLineFrom true s) = tokens s := by
  induction s with
  | nil => simp [fixLineFrom]
  | cons c rest ih =>
    have hc : c ≠ ':' := fun hc => h (by rw [hc]; exact List.mem_cons_self _ _)
    have hr : ':' ∉ rest := fun hr => h (List.mem_cons_of_mem _ hr)
    rw [fixLineFrom_true_cons c rest hc (headD_ne_colon rest hr)]
    by_cases hsk : (isspace c && isspace (rest.headD '\x00')) = true
    · rw [if_pos hsk]
      simp only [Bool.and_eq_true] at hsk
      rw [ih hr, tokens_cons_space c rest hsk.1]
    · rw [if_neg hsk]
      exact tokens_head_congr c _ _ (ih hr) (fixLineFrom_true_head rest hr).2

theorem newlineOnlyLast_append (a b : CStr) (h : newlineOnlyLast (a ++ b)) :
    newlineOnlyLast b := by
  induction a with
  | nil => exact h
  | cons c rest ih => exact ih h.2

theorem newlineOnlyLast_dropWhile (p : Char → Bool) (s : CStr) (h : newlineOnlyLast s) :
    newlineOnlyLast (s.dropWhile p) := by
  induction s with
  | nil => exact h
  | cons c rest ih =>
    by_cases hc : p c = true
    · rw [List.dropWhile_cons_of_pos hc]; exact ih h.2
    · rw [List.dropWhile_cons_of_neg hc]; exact h

theorem newlineOnlyLast_fixLineFrom_true (s : CStr) (h : ':' ∉ s) (hn : newlineOnlyLast s) :
    newlineOnlyLast (fixLineFrom true s) := by
  induction s with
  | nil => simp [fixLineFrom, newlineOnlyLast]
  | cons c rest ih =>
    have hc : c ≠ ':' := fun hc => h (by rw [hc]; exact List.mem_cons_self _ _)
    have hr : ':' ∉ rest := fun hr => h (List.mem_cons_of_mem _ hr)
    rw [fixLineFrom_true_cons c rest hc (headD_ne_colon rest hr)]
    split
    · exact ih hr hn.2
    · refine ⟨?_, ih hr hn.2⟩
      intro hnl
      rw [hn.1 hnl]
      simp [fixLineFrom]

/-- Cutting a line at its newline keeps its tokens. -/
theorem tokens_takeWhile_newline (s : CStr) (hn : newlineOnlyLast s) :
    tokens (s.takeWhile (fun c => c ≠ '\n')) = tokens s ∧
      isspace ((s.takeWhile (fun c => c ≠ '\n')).headD ' ') = isspace (s.headD ' ') := by
  induction s with
  | nil => simp
  | cons c rest ih =>
    by_cases hc : c = '\n'
    · subst hc
      have := hn.1 rfl
      subst this
      simp only [List.takeWhile_cons, ne_eq, not_true_eq_false, decide_False]
      exact ⟨by decide, by decide⟩
    · have hcq : List.takeWhile (fun c => decide (c ≠ '\n')) (c :: rest) =
          c :: List.takeWhile (fun c => decide (c ≠ '\n')) rest := by
        simp [List.takeWhile_cons, hc]
      rw [hcq]
      exact ⟨tokens_head_congr c _ _ (ih hn.2).1 (ih hn.2).2, rfl⟩

/-- What the second conversion of `sscanf` takes from the normalised text right of the
colon has the tokens of that text. -/
theorem tokens_rest (R : CStr) (h : ':' ∉ R) (hn : newlineOnlyLast R) :
    tokens (((fixLineFrom true R).dropWhile isspace).takeWhile (fun c => c ≠ '\n')) =
      tokens R := by
  rw [(tokens_takeWhile_newline _ (newlineOnlyLast_dropWhile _ _
    (newlineOnlyLast_fixLineFrom_true R h hn))).1, tokens_dropWhile, tokens_fixLineFrom_true R h]

theorem takeWhile_dropWhile_lead (s : CStr) (q : Char → Bool) :
    ((s.dropWhile isspace).takeWhile q).dropWhile isspace =
      (s.dropWhile isspace).takeWhile q := by
  induction s with
  | nil => rfl
  | cons c rest ih =>
    by_cases hc : isspace c = true
    · rw [List.dropWhile_cons_of_pos hc]; exact ih
    · rw [List.dropWhile_cons_of_neg hc]
      by_cases hq : q c = true
      · rw [List.takeWhile_cons_of_pos hq, List.dropWhile_cons_of_neg hc]
      · rw [List.takeWhile_cons_of_neg hq]; rfl


/-! ## The normalisation `fixLine` on the text left of the colon -/

theorem isspace_ne_colon (c : Char) (h : isspace c = true) : c ≠ ':' := by
  intro hc; subst hc; exact absurd h (by decide)

/-- Leading white space is skipped. -/
theorem fixLineFrom_false_lead (W0 s : CStr) (hW : ∀ c ∈ W0, isspace c = true) :
    fixLineFrom false (W0 ++ s) = fixLineFrom false s := by
  induction W0 with
  | nil => rfl
  | cons c rest ih =>
    have hc := hW c (List.mem_cons_self _ _)
    rw [List.cons_append, fixLineFrom_cons]
    simp only [Bool.not_false, Bool.true_and, hc, if_true]
    exact ih (fun x hx => hW x (List.mem_cons_of_mem _ hx))

/-- The colon is copied, followed by a space unless white space follows it. -/
theorem fixLineFrom_colon (b : Bool) (R : CStr) (hR : R.headD '\x00' ≠ ':') :
    fixLineFrom b (':' :: R) =
      ':' :: (if isspace (R.headD '\x00') then fixLineFrom true R
              else ' ' :: fixLineFrom true R) := by
  rw [fixLineFrom_cons]
  have h1 : (!b && isspace ':') = false := by
    cases b <;> decide
  have h2 : (isspace ':' && isspace (R.headD '\x00')) = false := by
    have : isspace ':' = false := by decide
    rw [this]; rfl
  rw [h1, h2]
  simp only [Bool.false_eq_true, if_false, if_neg hR]
  by_cases hs : isspace (R.headD '\x00') = true
  · rw [hs]; simp
  · have hs' : isspace (R.headD '\x00') = false := by simpa using hs
    rw [hs']; simp

/-- White space before the colon is replaced by its last character and a space. -/
theorem fixLineFrom_before_colon (Wl : CStr) (hW : ∀ c ∈ Wl, isspace c = true) (R : CStr) :
    ∃ W1, (∀ c ∈ W1, isspace c = true) ∧ (Wl ≠ [] → W1 ≠ []) ∧
      fixLineFrom true (Wl ++ ':' :: R) = W1 ++ fixLineFrom true (':' :: R) := by
  induction Wl with
  | nil => exact ⟨[], by simp, by simp, rfl⟩
  | cons c rest ih =>
    have hc := hW c (List.mem_cons_self _ _)
    have hrest : ∀ x ∈ rest, isspace x = true := fun x hx => hW x (List.mem_cons_of_mem _ hx)
    obtain ⟨W2, hW2, hne2, heq2⟩ := ih hrest
    rw [List.cons_append, fixLineFrom_cons]
    simp only [Bool.not_true, Bool.false_and, Bool.false_eq_true, if_false]
    cases rest with
    | nil =>
      refine ⟨[c, ' '], ?_, by simp, ?_⟩
      · intro x hx
        simp only [List.mem_cons, List.mem_singleton, List.not_mem_nil, or_false] at hx
        rcases hx with h | h <;> subst h
        · exact hc
        · decide
      · have : isspace ':' = false := by decide
        simp [List.headD, this]
    | cons d rest2 =>
      have hd := hrest d (List.mem_cons_self _ _)
      refine ⟨W2, hW2, fun _ => hne2 (by simp), ?_⟩
      simp only [List.cons_append, List.headD, hc, hd, Bool.and_self, if_true]
      exact heq2

/-- The target name is copied, and at least one white-space character follows it. -/
theorem fixLineFrom_name (name : CStr) (hne : name ≠ [])
    (hname : ∀ c ∈ name, isspace c = false ∧ c ≠ ':') (Wl : CStr)
    (hW : ∀ c ∈ Wl, isspace c = true) (R : CStr) :
    ∀ b, ∃ W1, W1 ≠ [] ∧ (∀ c ∈ W1, isspace c = true) ∧
      fixLineFrom b (name ++ Wl ++ ':' :: R) = name ++ W1 ++ fixLineFrom true (':' :: R) := by
  induction name with
  | nil => exact absurd rfl hne
  | cons n rest ih =>
    intro b
    have hn := hname n (List.mem_cons_self _ _)
    have hrest : ∀ x ∈ rest, isspace x = false ∧ x ≠ ':' :=
      fun x hx => hname x (List.mem_cons_of_mem _ hx)
    have h1 : (!b && isspace n) = false := by rw [hn.1]; simp
    have h2 : ∀ x, (isspace n && x) = false := fun x => by rw [hn.1]; rfl
    have h4 : ∀ x, (decide (n = ':') && x) = false := fun x => by simp [hn.2]
    rw [List.cons_append, List.cons_append, fixLineFrom_cons, h1, h2, h4]
    simp only [Bool.false_eq_true, if_false]
    cases rest with
    | nil =>
      simp only [List.nil_append]
      cases Wl with
      | nil =>
        refine ⟨[' '], by simp, ?_, ?_⟩
        · intro x hx; rw [List.mem_singleton] at hx; subst hx; decide
        · simp [List.headD]
      | cons d Wl2 =>
        have hd := hW d (List.mem_cons_self _ _)
        obtain ⟨W2, hW2, hne2, heq2⟩ := fixLineFrom_before_colon (d :: Wl2) hW R
        refine ⟨W2, hne2 (by simp), hW2, ?_⟩
        rw [if_neg (by simpa [List.headD] using isspace_ne_colon d hd), heq2]
        simp
    | cons n2 rest2 =>
      obtain ⟨W2, hne2, hW2, heq2⟩ := ih (by simp) hrest true
      refine ⟨W2, hne2, hW2, ?_⟩
      have hn2 := (hrest n2 (List.mem_cons_self _ _)).2
      rw [if_neg (by simpa [List.headD] using hn2)]
      rw [heq2]
      simp

theorem dropWhile_isspace_name (name s : CStr) (hne : name ≠ [])
    (hname : ∀ c ∈ name, isspace c = false) : (name ++ s).dropWhile isspace = name ++ s := by
  cases name with
  | nil => exact absurd rfl hne
  | cons n rest =>
    have hn := hname n (List.mem_cons_self _ _)
    rw [List.cons_append, List.dropWhile_cons_of_neg (by simp [hn])]

theorem takeWhile_name (name W1 s : CStr) (hname : ∀ c ∈ name, isspace c = false)
    (hW1 : W1 ≠ []) (hW : ∀ c ∈ W1, isspace c = true) :
    (name ++ W1 ++ s).takeWhile (fun c => !isspace c) = name ∧
      (name ++ W1 ++ s).dropWhile (fun c => !isspace c) = W1 ++ s := by
  induction name with
  | nil =>
    cases W1 with
    | nil => exact absurd rfl hW1
    | cons w rest =>
      have hw := hW w (List.mem_cons_self _ _)
      simp [List.takeWhile_cons, List.dropWhile_cons, hw]
  | cons n rest ih =>
    have hn := hname n (List.mem_cons_self _ _)
    have ih := ih (fun x hx => hname x (List.mem_cons_of_mem _ hx))
    simp only [List.cons_append, List.takeWhile_cons, List.dropWhile_cons, hn, Bool.not_false,
      if_true]
    simp only [List.append_assoc] at ih
    simp only [List.append_assoc]
    exact ⟨by rw [ih.1], ih.2⟩

theorem dropWhile_isspace_all (W1 s : CStr) (hW : ∀ c ∈ W1, isspace c = true) :
    (W1 ++ s).dropWhile isspace = s.dropWhile isspace := by
  induction W1 with
  | nil => rfl
  | cons w rest ih =>
    rw [List.cons_append, List.dropWhile_cons_of_pos (hW w (List.mem_cons_self _ _))]
    exact ih (fun x hx => hW x (List.mem_cons_of_mem _ hx))

/-- The call of `sscanf` on a normalised rule line: the name, and the text behind the
colon without leading white space, up to the newline. -/
theorem sscanfTarget_rule (name W1 Z : CStr) (hne : name ≠ [])
    (hname : ∀ c ∈ name, isspace c = false) (hW1 : W1 ≠ [])
    (hW : ∀ c ∈ W1, isspace c = true) :
    sscanfTarget (name ++ W1 ++ ':' :: Z) =
      some (name, (Z.dropWhile isspace).takeWhile (fun c => c ≠ '\n')) := by
  have h1 := dropWhile_isspace_name name (W1 ++ ':' :: Z) hne hname
  have h2 := takeWhile_name name W1 (':' :: Z) hname hW1 hW
  have hscan : scanToken (name ++ W1 ++ ':' :: Z) = name := by
    unfold scanToken
    rw [List.append_assoc, h1, ← List.append_assoc]
    exact h2.1
  have hafter : afterToken (name ++ W1 ++ ':' :: Z) = W1 ++ ':' :: Z := by
    unfold afterToken
    rw [List.append_assoc, h1, ← List.append_assoc]
    exact h2.2
  unfold sscanfTarget
  rw [hscan, hafter, if_neg hne, dropWhile_isspace_all W1 _ hW,
    List.dropWhile_cons_of_neg (by decide)]
  rfl


/-! ## Rule lines -/

/-- The normalised rule line scans as its name and a text with the tokens of the text
right of the colon. -/
theorem sscanfTarget_fixLine (l : List Char) (name R : CStr) (h : IsRule l name R) :
    ∃ rest, sscanfTarget (fixLine l) = some (name, rest) ∧ tokens rest = tokens R ∧
      rest.dropWhile isspace = rest := by
  obtain ⟨W0, Wl, hl, hW0, hWl, hne, hname, hR, hnl⟩ := h
  obtain ⟨W1, hW1ne, hW1, hfix⟩ := fixLineFrom_name name hne hname Wl hWl R false
  have hRhead := headD_ne_colon R hR
  have hline : fixLine l = name ++ W1 ++ ':' ::
      (if isspace (R.headD '\x00') then fixLineFrom true R else ' ' :: fixLineFrom true R) := by
    unfold fixLine
    rw [hl, List.append_assoc, List.append_assoc, fixLineFrom_false_lead W0 _ hW0,
      ← List.append_assoc, hfix, fixLineFrom_colon true R hRhead]
  have hZ : (if isspace (R.headD '\x00') then fixLineFrom true R
      else ' ' :: fixLineFrom true R).dropWhile isspace = (fixLineFrom true R).dropWhile isspace := by
    split
    · rfl
    · rw [List.dropWhile_cons_of_pos (by decide)]
  have hnlR : newlineOnlyLast R := by
    have := newlineOnlyLast_append (W0 ++ name ++ Wl ++ [':']) R (by
      rw [List.append_assoc, List.singleton_append, ← hl]; exact hnl)
    exact this
  refine ⟨((fixLineFrom true R).dropWhile isspace).takeWhile (fun c => c ≠ '\n'), ?_,
    tokens_rest R hR hnlR, takeWhile_dropWhile_lead _ _⟩
  rw [hline, sscanfTarget_rule name W1 _ hne (fun c hc => (hname c hc).1) hW1ne hW1, hZ]

/-- The function `useActionLineAndAddNodes` on a normalised rule line. -/
theorem useActionLineAndAddNodes_rule (g : List parentNode) (tn : Option CStr) (l : List Char)
    (name R : CStr) (h : IsRule l name R) :
    useActionLineAndAddNodes g tn (fixLine l) =
      if searchHeadActionForDup g name = true then
        .error (exitAfter (freeLL g) .nodeAlreadyExists)
      else .ok ((linkDeps (enterTarget g tn name).1 (enterTarget g tn name).2.1
                  (enterTarget g tn name).2.2 (tokens R)).1,
                (linkDeps (enterTarget g tn name).1 (enterTarget g tn name).2.1
                  (enterTarget g tn name).2.2 (tokens R)).2,
                (enterTarget g tn name).2.2) := by
  obtain ⟨rest, hscan, htok, hlead⟩ := sscanfTarget_fixLine l name R h
  unfold useActionLineAndAddNodes
  rw [hscan]
  simp only
  split
  · rfl
  · rw [depLoop_eq_linkDeps rest.length rest _ _ _ (Nat.le_refl _) hlead, htok]
    unfold enterTarget
    cases findParentNode g name <;> rfl


/-! ## Nodes and edges added by a rule line -/

theorem addChildNode_eq (cs : List Nat) (c : Nat) :
    addChildNode cs c = if c ∈ cs then cs else cs ++ [c] := by
  induction cs with
  | nil => simp [addChildNode]
  | cons x rest ih =>
    cases rest with
    | nil =>
      simp only [addChildNode, List.mem_singleton]
      by_cases hx : x = c
      · simp [hx]
      · have : ¬ c = x := fun h => hx h.symm
        simp [hx, this]
    | cons y rest2 =>
      rw [addChildNode]
      by_cases hx : x = c
      · simp [hx]
      · have hcx : ¬ c = x := fun h => hx h.symm
        rw [if_neg hx, ih]
        by_cases hmem : c ∈ y :: rest2
        · simp [hmem]
        · rw [if_neg hmem, if_neg (by simp only [List.mem_cons, not_or] at hmem ⊢; exact ⟨hcx, hmem⟩)]
          rfl

theorem nodeAt_lt (g : List parentNode) (j : Nat) (h : j < g.length) : nodeAt g j = g[j] := by
  unfold nodeAt; exact List.getD_eq_getElem _ _ h

theorem nodeAt_append_left (g : List parentNode) (x : parentNode) (j : Nat) (h : j < g.length) :
    nodeAt (g ++ [x]) j = nodeAt g j := by
  unfold nodeAt
  rw [List.getD_eq_getElem?_getD, List.getD_eq_getElem?_getD, List.getElem?_append_left h]

theorem nodeAt_append_length (g : List parentNode) (x : parentNode) :
    nodeAt (g ++ [x]) g.length = x := by
  unfold nodeAt
  rw [List.getD_eq_getElem?_getD, List.getElem?_append_right (Nat.le_refl _)]
  simp

theorem findParentNode_some_name (g : List parentNode) (n : CStr) (i : Nat)
    (h : findParentNode g n = some i) : (nodeAt g i).name = n := by
  induction g generalizing i with
  | nil => simp [findParentNode] at h
  | cons x rest ih =>
    unfold findParentNode at h
    by_cases hx : x.name = n
    · rw [if_pos hx] at h
      injection h with h
      subst h
      exact hx
    · rw [if_neg hx] at h
      cases hr : findParentNode rest n with
      | none => rw [hr] at h; simp at h
      | some k =>
        rw [hr] at h
        simp only [Option.map_some', Option.some.injEq] at h
        subst h
        exact ih k hr

theorem findParentNode_none (g : List parentNode) (n : CStr) (h : findParentNode g n = none) :
    ∀ x ∈ g, x.name ≠ n := by
  induction g with
  | nil => intro x hx; exact absurd hx (List.not_mem_nil _)
  | cons y rest ih =>
    unfold findParentNode at h
    by_cases hy : y.name = n
    · rw [if_pos hy] at h; simp at h
    · rw [if_neg hy] at h
      have hr : findParentNode rest n = none := by
        cases hr : findParentNode rest n with
        | none => rfl
        | some k => rw [hr] at h; simp at h
      intro x hx
      rcases List.mem_cons.mp hx with hxy | hxr
      · rw [hxy]; exact hy
      · exact ih hr x hxr

theorem findParentNode_append (g : List parentNode) (x : parentNode) (n : CStr) :
    findParentNode (g ++ [x]) n =
      match findParentNode g n with
      | some i => some i
      | none => if x.name = n then some g.length else none := by
  induction g with
  | nil => simp [findParentNode]
  | cons y rest ih =>
    simp only [List.cons_append, findParentNode]
    by_cases hy : y.name = n
    · simp [hy]
    · rw [if_neg hy, if_neg hy]
      have ih2 : findParentNode (rest.append [x]) n =
          match findParentNode rest n with
          | some i => some i
          | none => if x.name = n then some rest.length else none := ih
      rw [ih2]
      cases findParentNode rest n with
      | some i => rfl
      | none =>
        simp only [Option.map_none']
        by_cases hx : x.name = n
        · simp [hx]
        · simp [hx]

theorem findParentNode_congr (g g1 : List parentNode) (n : CStr)
    (h : g1.map (fun x => x.name) = g.map (fun x => x.name)) :
    findParentNode g1 n = findParentNode g n := by
  induction g generalizing g1 with
  | nil =>
    cases g1 with
    | nil => rfl
    | cons _ _ => simp at h
  | cons y rest ih =>
    cases g1 with
    | nil => simp at h
    | cons y1 rest1 =>
      simp only [List.map_cons, List.cons.injEq] at h
      simp only [findParentNode, h.1, ih rest1 h.2]

theorem map_updNode (g : List parentNode) (i : Nat) (f : parentNode → parentNode) {β : Type}
    (p : parentNode → β) (hp : ∀ n, p (f n) = p n) : (updNode g i f).map p = g.map p := by
  unfold updNode
  apply List.ext_getElem?
  intro j
  rw [List.getElem?_map, List.getElem?_map, List.getElem?_set]
  by_cases hij : i = j
  · subst hij
    by_cases hlt : i < g.length
    · rw [nodeAt_lt g i hlt, List.getElem?_eq_getElem hlt]
      simp [hp, hlt]
    · simp [hlt, List.getElem?_eq_none (Nat.le_of_not_lt hlt)]
  · rw [if_neg hij]

theorem findParentNode_updNode (g : List parentNode) (i : Nat) (f : parentNode → parentNode)
    (hf : ∀ n, (f n).name = n.name) (n : CStr) :
    findParentNode (updNode g i f) n = findParentNode g n :=
  findParentNode_congr g _ n (map_updNode g i f (fun x => x.name) hf)

theorem nodeAt_name_updNode (g : List parentNode) (i j : Nat) (f : parentNode → parentNode)
    (hf : ∀ n, (f n).name = n.name) : (nodeAt (updNode g i f) j).name = (nodeAt g j).name := by
  rw [nodeAt_updNode]
  split
  · rename_i h; rw [hf, h.1]
  · rfl

theorem addNames_eq (names acc : List CStr) :
    addNames acc names = acc ++ (removeRepeats names).filter (fun x => x ∉ acc) := by
  unfold addNames
  induction names generalizing acc with
  | nil => simp [removeRepeats]
  | cons d ds ih =>
    simp only [List.foldl_cons, removeRepeats]
    rw [ih]
    by_cases hd : d ∈ acc
    · rw [if_pos hd, List.filter_cons_of_neg (by simpa using hd), List.filter_filter]
      congr 1
      apply List.filter_congr
      intro x _
      by_cases hx : x ∈ acc
      · simp [hx]
      · have : x ≠ d := fun h => hx (h ▸ hd)
        simp [hx, this]
    · rw [if_neg hd, List.filter_cons_of_pos (by simpa using hd), List.filter_filter,
        List.append_assoc, List.singleton_append]
      congr 2
      apply List.filter_congr
      intro x _
      simp only [List.mem_append, List.mem_singleton, not_or, decide_not, Bool.and_eq_true,
        Bool.not_eq_true', decide_eq_false_iff_not, ne_eq, decide_eq_true_eq]
      by_cases hx : x ∈ acc <;> by_cases hxd : x = d <;> simp [hx, hxd]

theorem addNames_nil (names : List CStr) : addNames [] names = removeRepeats names := by
  rw [addNames_eq]
  simp


theorem linkDeps_cons (g : List parentNode) (tn : Option CStr) (a : Nat) (tok : CStr)
    (more : List CStr) :
    linkDeps g tn a (tok :: more) = linkDeps (linkOne g tn a tok).1 (linkOne g tn a tok).2 a more := by
  rw [linkDeps]
  unfold linkOne
  cases findParentNode g tok <;> rfl

/-- One iteration of the dependency loop keeps the edges in order and appends the
name of the token to the names of the edges unless it is among them. -/
theorem linkOne_spec (g : List parentNode) (tn : Option CStr) (a : Nat) (tok : CStr)
    (h : EdgesByName g a) :
    EdgesByName (linkOne g tn a tok).1 a ∧
      childNames (linkOne g tn a tok).1 a =
        (if tok ∈ childNames g a then childNames g a else childNames g a ++ [tok]) ∧
      (nodeAt (linkOne g tn a tok).1 a).name = (nodeAt g a).name ∧
      (nodeAt (linkOne g tn a tok).1 a).target = (nodeAt g a).target ∧
      g.length ≤ (linkOne g tn a tok).1.length := by
  obtain ⟨ha, hcs⟩ := h
  have hclt : ∀ c ∈ (nodeAt g a).children, c < g.length :=
    fun c hc => findParentNode_lt g _ c (hcs c hc)
  unfold linkOne
  cases hf : findParentNode g tok with
  | some idx =>
    simp only
    have hname : ∀ j, (nodeAt (updNode g a (parentNode.addChild idx)) j).name =
        (nodeAt g j).name :=
      fun j => nodeAt_name_updNode g a j (parentNode.addChild idx) (fun _ => rfl)
    have hfind : ∀ n, findParentNode (updNode g a (parentNode.addChild idx)) n =
        findParentNode g n :=
      fun n => findParentNode_updNode g a (parentNode.addChild idx) (fun _ => rfl) n
    have hself : nodeAt (updNode g a (parentNode.addChild idx)) a =
        (nodeAt g a).addChild idx := by
      rw [nodeAt_updNode, if_pos ⟨rfl, ha⟩]
    have hidx : (nodeAt g idx).name = tok := findParentNode_some_name g tok idx hf
    have hmem : idx ∈ (nodeAt g a).children ↔ tok ∈ childNames g a := by
      unfold childNames
      rw [List.mem_map]
      constructor
      · intro hi; exact ⟨idx, hi, hidx⟩
      · rintro ⟨c, hc, hcn⟩
        have := hcs c hc
        rw [hcn, hf] at this
        injection this with this
        rw [this]; exact hc
    have hch : ((nodeAt g a).addChild idx).children =
        if idx ∈ (nodeAt g a).children then (nodeAt g a).children
        else (nodeAt g a).children ++ [idx] := addChildNode_eq _ _
    refine ⟨⟨by rw [length_updNode]; exact ha, ?_⟩, ?_, by rw [hself]; rfl, by rw [hself]; rfl,
      by rw [length_updNode]⟩
    · intro c hc
      rw [hself, hch] at hc
      rw [hname, hfind]
      by_cases hi : idx ∈ (nodeAt g a).children
      · rw [if_pos hi] at hc; exact hcs c hc
      · rw [if_neg hi] at hc
        rcases List.mem_append.mp hc with h1 | h1
        · exact hcs c h1
        · rw [List.mem_singleton] at h1
          rw [h1, hidx]; exact hf
    · have hcn : childNames (updNode g a (parentNode.addChild idx)) a =
          ((nodeAt g a).addChild idx).children.map (fun c => (nodeAt g c).name) := by
        unfold childNames
        rw [hself]
        exact List.map_congr_left (fun c _ => hname c)
      rw [hcn, hch]
      by_cases hi : idx ∈ (nodeAt g a).children
      · rw [if_pos hi, if_pos (hmem.mp hi)]; rfl
      · have : tok ∉ childNames g a := fun h => hi (hmem.mpr h)
        rw [if_neg hi, if_neg this, List.map_append]
        simp [childNames, hidx]
  | none =>
    simp only [addParentNode_fst]
    have hname : ∀ j, (nodeAt (updNode (g ++ [newNode tok false]) a
        (parentNode.addChild g.length)) j).name = (nodeAt (g ++ [newNode tok false]) j).name :=
      fun j => nodeAt_name_updNode _ a j (parentNode.addChild g.length) (fun _ => rfl)
    have hfind : ∀ n, findParentNode (updNode (g ++ [newNode tok false]) a
        (parentNode.addChild g.length)) n = findParentNode (g ++ [newNode tok false]) n :=
      fun n => findParentNode_updNode _ a (parentNode.addChild g.length) (fun _ => rfl) n
    have ha1 : a < (g ++ [newNode tok false]).length := by simp; omega
    have hself : nodeAt (updNode (g ++ [newNode tok false]) a (parentNode.addChild g.length)) a =
        (nodeAt g a).addChild g.length := by
      rw [nodeAt_updNode, if_pos ⟨rfl, ha1⟩, nodeAt_append_left g _ a ha]
    have hnotin : g.length ∉ (nodeAt g a).children :=
      fun h => absurd (hclt _ h) (Nat.lt_irrefl _)
    have hch : ((nodeAt g a).addChild g.length).children = (nodeAt g a).children ++ [g.length] := by
      show addChildNode _ _ = _
      rw [addChildNode_eq, if_neg hnotin]
    have hnew : tok ∉ childNames g a := by
      unfold childNames
      rw [List.mem_map]
      rintro ⟨c, hc, hcn⟩
      have hcl := hclt c hc
      have hmem : nodeAt g c ∈ g := by rw [nodeAt_lt g c hcl]; exact List.getElem_mem _
      exact findParentNode_none g tok hf _ hmem hcn
    refine ⟨⟨by rw [length_updNode]; exact ha1, ?_⟩, ?_, by rw [hself]; rfl, by rw [hself]; rfl,
      by rw [length_updNode]; simp⟩
    · intro c hc
      rw [hself, hch] at hc
      rw [hname, hfind, findParentNode_append]
      rcases List.mem_append.mp hc with h1 | h1
      · rw [nodeAt_append_left g _ c (hclt c h1), hcs c h1]
      · rw [List.mem_singleton] at h1
        subst h1
        rw [nodeAt_append_length]
        simp only [newNode]
        rw [hf]
        simp
    · have hcn : childNames (updNode (g ++ [newNode tok false]) a
          (parentNode.addChild g.length)) a =
          ((nodeAt g a).children ++ [g.length]).map
            (fun c => (nodeAt (g ++ [newNode tok false]) c).name) := by
        unfold childNames
        rw [hself, hch]
        exact List.map_congr_left (fun c _ => hname c)
      rw [hcn, if_neg hnew, List.map_append]
      congr 1
      · apply List.map_congr_left
        intro c hc
        rw [nodeAt_append_left g _ c (hclt c hc)]
      · simp [nodeAt_append_length, newNode]

/-- The dependency loop keeps the edges in order and appends the names of the tokens,
in order, each unless it is already among the names of the edges. -/
theorem linkDeps_spec (toks : List CStr) :
    ∀ (g : List parentNode) (tn : Option CStr) (a : Nat), EdgesByName g a →
      EdgesByName (linkDeps g tn a toks).1 a ∧
        childNames (linkDeps g tn a toks).1 a = addNames (childNames g a) toks ∧
        (nodeAt (linkDeps g tn a toks).1 a).name = (nodeAt g a).name ∧
        (nodeAt (linkDeps g tn a toks).1 a).target = (nodeAt g a).target ∧
        g.length ≤ (linkDeps g tn a toks).1.length := by
  induction toks with
  | nil => intro g tn a h; exact ⟨h, rfl, rfl, rfl, Nat.le_refl _⟩
  | cons tok more ih =>
    intro g tn a h
    rw [linkDeps_cons]
    obtain ⟨h1, h2, h3, h4, h5⟩ := linkOne_spec g tn a tok h
    obtain ⟨i1, i2, i3, i4, i5⟩ := ih (linkOne g tn a tok).1 (linkOne g tn a tok).2 a h1
    refine ⟨i1, ?_, by rw [i3, h3], by rw [i4, h4], Nat.le_trans h5 i5⟩
    rw [i2, h2]
    simp only [addNames, List.foldl_cons]


/-! ## Target lines (C6, C7, C8) and commands (C9) -/

theorem searchHeadActionForDup_eq (g : List parentNode) (n : CStr) :
    searchHeadActionForDup g n =
      match findParentNode g n with
      | some i => decide ((nodeAt g i).children ≠ [])
      | none => false := by
  induction g with
  | nil => rfl
  | cons x rest ih =>
    unfold searchHeadActionForDup findParentNode
    by_cases hx : x.name = n
    · rw [if_pos hx, if_pos hx]
      simp only [nodeAt, List.getD_cons_zero]
      by_cases hc : x.children ≠ []
      · simp [hc]
      · simp [hc]
    · rw [if_neg hx, if_neg hx, ih]
      cases findParentNode rest n with
      | none => rfl
      | some k => simp [nodeAt]

theorem storeCmds_name (st : ParseState) (j : Nat) :
    (nodeAt (storeCmds st) j).name = (nodeAt st.headLL j).name := by
  unfold storeCmds
  cases st.temp with
  | none => rfl
  | some t => exact nodeAt_name_updNode _ t j (parentNode.setCmds st.CMDS) (fun _ => rfl)

theorem storeCmds_children (st : ParseState) (j : Nat) :
    (nodeAt (storeCmds st) j).children = (nodeAt st.headLL j).children := by
  unfold storeCmds
  cases st.temp with
  | none => rfl
  | some t =>
    simp only
    rw [nodeAt_updNode]
    split
    · rename_i h; rw [h.1]; rfl
    · rfl

theorem storeCmds_length (st : ParseState) : (storeCmds st).length = st.headLL.length := by
  unfold storeCmds
  cases st.temp with
  | none => rfl
  | some t => exact length_updNode _ _ _

theorem storeCmds_find (st : ParseState) (n : CStr) :
    findParentNode (storeCmds st) n = findParentNode st.headLL n := by
  unfold storeCmds
  cases st.temp with
  | none => rfl
  | some t => exact findParentNode_updNode _ t (parentNode.setCmds st.CMDS) (fun _ => rfl) n

theorem storeCmds_dup (st : ParseState) (n : CStr) :
    searchHeadActionForDup (storeCmds st) n = searchHeadActionForDup st.headLL n := by
  rw [searchHeadActionForDup_eq, searchHeadActionForDup_eq, storeCmds_find]
  cases findParentNode st.headLL n with
  | none => rfl
  | some i => simp only [storeCmds_children]

theorem IsRule.count (l : List Char) (name R : CStr) (h : IsRule l name R) :
    l.count ':' = 1 := by
  obtain ⟨W0, Wl, hl, hW0, hWl, _, hname, hR, _⟩ := h
  have h0 : W0.count ':' = 0 :=
    List.count_eq_zero.mpr (fun hm => absurd (hW0 _ hm) (by decide))
  have h1 : Wl.count ':' = 0 :=
    List.count_eq_zero.mpr (fun hm => absurd (hWl _ hm) (by decide))
  have h2 : name.count ':' = 0 := List.count_eq_zero.mpr (fun hm => (hname _ hm).2 rfl)
  have h3 : R.count ':' = 0 := List.count_eq_zero.mpr hR
  rw [hl]
  simp [List.count_append, List.count_cons, h0, h1, h2, h3]

theorem IsRule.not_blank (l : List Char) (name R : CStr) (h : IsRule l name R) :
    l.takeWhile (fun c => c ≠ '\n') ≠ [] := by
  have hc := IsRule.count l name R h
  obtain ⟨_, _, _, _, _, _, _, _, hnl⟩ := h
  cases l with
  | nil => simp at hc
  | cons c rest =>
    by_cases hn : c = '\n'
    · have := hnl.1 hn
      subst this
      subst hn
      exact absurd hc (by decide)
    · simp [List.takeWhile_cons, hn]

/-- A rule line is rejected when its target already has an edge, and otherwise its
target is looked up or created and the tokens right of the colon are linked. -/
theorem parseLine_rule (st : ParseState) (l : List Char) (name R : CStr)
    (hnul : ∀ c ∈ l, c ≠ '\x00') (htab : l.head? ≠ some '\t') (h : IsRule l name R) :
    parseLine st l =
      if searchHeadActionForDup st.headLL name = true then
        .error (if st.headLL.length ≤ 1 then .nodeAlreadyExists else .doubleFree)
      else .ok
        { headLL := (linkDeps (enterTarget (storeCmds st) st.targetNode name).1
            (enterTarget (storeCmds st) st.targetNode name).2.1
            (enterTarget (storeCmds st) st.targetNode name).2.2 (tokens R)).1,
          targetNode := (linkDeps (enterTarget (storeCmds st) st.targetNode name).1
            (enterTarget (storeCmds st) st.targetNode name).2.1
            (enterTarget (storeCmds st) st.targetNode name).2.2 (tokens R)).2,
          CMDS := [],
          temp := some (enterTarget (storeCmds st) st.targetNode name).2.2 } := by
  have hcls := text_classes l hnul
  rw [parseLine_target st l (fun h1 => htab (hcls.1.mp h1))
      (fun h1 => IsRule.not_blank l name R h (hcls.2.mp h1)),
    cstr_of_text l hnul, countColons_eq_count, IsRule.count l name R h]
  simp only [ne_eq, not_true_eq_false, if_false]
  rw [useActionLineAndAddNodes_rule _ _ l name R h, storeCmds_dup]
  by_cases hd : searchHeadActionForDup st.headLL name = true
  · rw [if_pos hd, if_pos hd, exitAfter_freeLL, storeCmds_length]
  · rw [if_neg hd, if_neg hd]

/-- The target of a rule line that is not rejected: a node with the given name and
without edges. -/
theorem enterTarget_spec (g : List parentNode) (tn : Option CStr) (name : CStr)
    (hdup : ¬ searchHeadActionForDup g name = true) :
    EdgesByName (enterTarget g tn name).1 (enterTarget g tn name).2.2 ∧
      childNames (enterTarget g tn name).1 (enterTarget g tn name).2.2 = [] ∧
      (nodeAt (enterTarget g tn name).1 (enterTarget g tn name).2.2).name = name ∧
      (∀ i, findParentNode g name = some i → (enterTarget g tn name).2.2 = i) := by
  rw [searchHeadActionForDup_eq] at hdup
  unfold enterTarget
  cases hf : findParentNode g name with
  | some a =>
    rw [hf] at hdup
    simp only [ne_eq, decide_not, Bool.not_eq_true', decide_eq_false_iff_not, not_not] at hdup
    simp only
    refine ⟨⟨findParentNode_lt g name a hf, ?_⟩, ?_, findParentNode_some_name g name a hf, ?_⟩
    · intro c hc; rw [hdup] at hc; exact absurd hc (List.not_mem_nil _)
    · unfold childNames; rw [hdup]; rfl
    · intro i hi; injection hi
  | none =>
    simp only [addParentNode_fst]
    refine ⟨⟨by simp, ?_⟩, ?_, ?_, ?_⟩
    · intro c hc
      rw [nodeAt_append_length] at hc
      exact absurd hc (List.not_mem_nil _)
    · unfold childNames; rw [nodeAt_append_length]; rfl
    · rw [nodeAt_append_length]; rfl
    · intro i hi; exact absurd hi (by simp)

/-- An accepted rule line leaves as current target a node with the name of the rule
whose edges carry, in order, the names of the tokens right of the colon without
repetitions. -/
theorem parseLine_rule_ok (st : ParseState) (l : List Char) (name R : CStr)
    (hnul : ∀ c ∈ l, c ≠ '\x00') (htab : l.head? ≠ some '\t') (h : IsRule l name R)
    (hdup : ¬ searchHeadActionForDup st.headLL name = true) :
    ∃ st1 a, parseLine st l = .ok st1 ∧ st1.temp = some a ∧ st1.CMDS = [] ∧
      (nodeAt st1.headLL a).name = name ∧ a < st1.headLL.length ∧
      childNames st1.headLL a = removeRepeats (tokens R) ∧
      (∀ i, findParentNode st.headLL name = some i → a = i) := by
  have hdup2 : ¬ searchHeadActionForDup (storeCmds st) name = true := by
    rw [storeCmds_dup]; exact hdup
  obtain ⟨e1, e2, e3, e4⟩ := enterTarget_spec (storeCmds st) st.targetNode name hdup2
  obtain ⟨d1, d2, d3, _, _⟩ := linkDeps_spec (tokens R) _
    (enterTarget (storeCmds st) st.targetNode name).2.1 _ e1
  refine ⟨_, _, by rw [parseLine_rule st l name R hnul htab h, if_neg hdup], rfl, rfl, ?_, d1.1,
    ?_, ?_⟩
  · rw [d3, e3]
  · rw [d2, e2, addNames_nil]
  · intro i hi
    exact e4 i (by rw [storeCmds_find]; exact hi)


theorem mem_removeRepeats (l : List CStr) (t : CStr) : t ∈ removeRepeats l ↔ t ∈ l := by
  induction l with
  | nil => simp [removeRepeats]
  | cons d ds ih =>
    simp only [removeRepeats, List.mem_cons, List.mem_filter, ih]
    by_cases htd : t = d
    · simp [htd]
    · simp [htd]

theorem removeRepeats_nodup (l : List CStr) : (removeRepeats l).Nodup := by
  induction l with
  | nil => simp [removeRepeats]
  | cons d ds ih =>
    simp only [removeRepeats, List.nodup_cons, List.mem_filter]
    exact ⟨by simp, ih.filter _⟩

/-- C6 fails on a rule line that names a node with an edge when the graph has two or
more nodes: the duplicate-target path calls `freeLL()`, which frees the line
buffer once for every node, so the buffer is freed twice and the process is
aborted before the message is printed.  The rule `a : b` given twice ends this
way; the rule `a : a` given twice (one node) ends with the duplicate-target
error.  In general, when a rule line names a node that already exists (by a name
that fits the buffer of 65 bytes), the parse ends at that line if and only if
the node already has a dependency edge; if it
has none, the line is accepted, the node becomes the current target and its
edges carry the names of the tokens right of the colon, as for `a :` followed by
`a : b`. -/
theorem C6_duplicate_target :
    (parseMakeFileData ["a : b\n".toList, "a : b\n".toList] = .error .doubleFree ∧
      parseMakeFileData ["a : a\n".toList, "a : a\n".toList] = .error .nodeAlreadyExists) ∧
    (∀ (st : ParseState) (l : List Char) (name R : CStr) (i : Nat),
      (∀ c ∈ l, c ≠ '\x00') → l.head? ≠ some '\t' → IsRule l name R → name.length < 65 →
      findParentNode st.headLL name = some i →
      ((∃ e, parseLine st l = .error e) ↔ (nodeAt st.headLL i).children ≠ []) ∧
      ((nodeAt st.headLL i).children ≠ [] →
        parseLine st l =
          .error (if st.headLL.length ≤ 1 then .nodeAlreadyExists else .doubleFree)) ∧
      ((nodeAt st.headLL i).children = [] →
        ∃ st1, parseLine st l = .ok st1 ∧ st1.temp = some i ∧
          (nodeAt st1.headLL i).name = name ∧
          childNames st1.headLL i = removeRepeats (tokens R))) ∧
    (∃ st, parseMakeFileData ["a :\n".toList, "a : b\n".toList] = .ok st ∧
      st.headLL.map (fun n => n.name) = ["a".toList, "b".toList] ∧
      childNames st.headLL 0 = ["b".toList]) := by
  refine ⟨⟨rfl, rfl⟩, ?_, ⟨_, rfl, rfl, rfl⟩⟩
  intro st l name R i hnul htab hrule _ hfind
  have hdup : searchHeadActionForDup st.headLL name = decide ((nodeAt st.headLL i).children ≠ []) := by
    rw [searchHeadActionForDup_eq, hfind]
  have hacc : (nodeAt st.headLL i).children = [] →
      ∃ st1, parseLine st l = .ok st1 ∧ st1.temp = some i ∧
        (nodeAt st1.headLL i).name = name ∧
        childNames st1.headLL i = removeRepeats (tokens R) := by
    intro hc
    have hnd : ¬ searchHeadActionForDup st.headLL name = true := by
      rw [hdup]; simp [hc]
    obtain ⟨st1, a, h1, h2, _, h4, _, h6, h7⟩ :=
      parseLine_rule_ok st l name R hnul htab hrule hnd
    have := h7 i hfind
    subst this
    exact ⟨st1, h1, h2, h4, h6⟩
  have hrej : (nodeAt st.headLL i).children ≠ [] →
      parseLine st l =
        .error (if st.headLL.length ≤ 1 then .nodeAlreadyExists else .doubleFree) := by
    intro hc
    rw [parseLine_rule st l name R hnul htab hrule, hdup, if_pos (by simp [hc])]
  refine ⟨⟨?_, fun hc => ⟨_, hrej hc⟩⟩, hrej, hacc⟩
  intro ⟨e, he⟩ hc
  obtain ⟨st1, h1, _⟩ := hacc hc
  rw [h1] at he
  exact absurd he (by simp)

/-- The general part of C6 at a concrete input: after `a : b`, the line `a : c` names the
node `a`, which has an edge; the graph has two nodes, and the parse ends without
the message. -/
theorem C6_duplicate_target_witness :
    (findParentNode
        [{ newNode "a".toList true with children := [1] }, newNode "b".toList false]
        "a".toList = some 0) ∧
    parseLine
        { headLL := [{ newNode "a".toList true with children := [1] }, newNode "b".toList false],
          targetNode := some "a".toList, CMDS := [], temp := some 0 }
        "a : c\n".toList = .error .doubleFree :=
  ⟨rfl,
   (C6_duplicate_target.2.1
      { headLL := [{ newNode "a".toList true with children := [1] }, newNode "b".toList false],
        targetNode := some "a".toList, CMDS := [], temp := some 0 }
      "a : c\n".toList "a".toList " c\n".toList 0 (by decide) (by decide)
      ⟨[], " ".toList, rfl, by decide, by decide, by decide, by decide, by decide,
        by simp [newlineOnlyLast]⟩ (by decide) rfl).2.1 (by decide)⟩


/-- C8 as stated fails: for the line `a b : c` the target node is named `a`, not `a b`,
and the token `c` right of the colon does not become an edge. -/
theorem C8_target_line_counterexample :
    ∃ st, parseMakeFileData ["a b : c\n".toList] = .ok st ∧ st.temp = some 0 ∧
      st.headLL.map (fun n => (n.name, n.children)) = [("a".toList, [])] :=
  ⟨_, rfl, rfl, rfl⟩

/-- C8 as amended: for every line of text that does not begin with a tab and contains
exactly one colon, and in which the text left of the colon is a single token
(without white space) with only white space around it, when the line is accepted
the node looked up or created as the target of the rule is named by that token,
and every whitespace-separated token right of the colon is the name of a
dependency edge of that target. -/
theorem C8_target_line_amended (st st1 : ParseState) (l : List Char) (name R : CStr)
    (hnul : ∀ c ∈ l, c ≠ '\x00') (htab : l.head? ≠ some '\t') (hrule : IsRule l name R)
    (hok : parseLine st l = .ok st1) :
    l.count ':' = 1 ∧
    ∃ a, st1.temp = some a ∧ (nodeAt st1.headLL a).name = name ∧
      (∀ t ∈ tokens R, t ∈ childNames st1.headLL a) ∧
      childNames st1.headLL a = removeRepeats (tokens R) := by
  refine ⟨IsRule.count l name R hrule, ?_⟩
  by_cases hdup : searchHeadActionForDup st.headLL name = true
  · rw [parseLine_rule st l name R hnul htab hrule, if_pos hdup] at hok
    exact absurd hok (by simp)
  · obtain ⟨st2, a, h1, h2, _, h4, _, h6, _⟩ := parseLine_rule_ok st l name R hnul htab hrule hdup
    rw [h1] at hok
    injection hok with hok
    subst hok
    exact ⟨a, h2, h4, fun t ht => by rw [h6]; exact (mem_removeRepeats _ t).mpr ht, h6⟩

/-- C8 as amended, at the line `  a:b  c` with its newline. -/
theorem C8_target_line_amended_witness :
    (∃ st1, parseLine ParseState.init "  a:b  c\n".toList = .ok st1) ∧
    ∀ st1, parseLine ParseState.init "  a:b  c\n".toList = .ok st1 →
      ∃ a, st1.temp = some a ∧ (nodeAt st1.headLL a).name = "a".toList ∧
        (∀ t ∈ tokens "b  c\n".toList, t ∈ childNames st1.headLL a) ∧
        childNames st1.headLL a = removeRepeats (tokens "b  c\n".toList) :=
  ⟨⟨_, rfl⟩, fun st1 h =>
    (C8_target_line_amended ParseState.init st1 "  a:b  c\n".toList "a".toList "b  c\n".toList
      (by decide) (by decide)
      ⟨"  ".toList, [], rfl, by decide, by decide, by decide, by decide, by decide,
        by simp [newlineOnlyLast]⟩ h).2⟩

/-- C9 fails on a target that is declared again: the commands that followed the first
declaration of `a` are lost when commands follow the second one, and are lost
even without such commands once another target line follows. -/
theorem C9_commands_of_redeclared_target :
    (∃ st, parseMakeFileData (getlines "a :\n\tc1\na : b\n\tc2\n".toList) = .ok st ∧
      (nodeAt st.headLL 0).name = "a".toList ∧ (nodeAt st.headLL 0).cmds = ["c2".toList]) ∧
    (∃ st, parseMakeFileData (getlines "a :\n\tc1\na : b\nb :\n".toList) = .ok st ∧
      (nodeAt st.headLL 0).name = "a".toList ∧ (nodeAt st.headLL 0).cmds = []) ∧
    (∃ st, parseMakeFileData (getlines "a :\n\tc1\na : b\n".toList) = .ok st ∧
      (nodeAt st.headLL 0).name = "a".toList ∧ (nodeAt st.headLL 0).cmds = ["c1".toList]) :=
  ⟨⟨_, rfl, rfl, rfl⟩, ⟨_, rfl, rfl, rfl⟩, ⟨_, rfl, rfl, rfl⟩⟩

/-! ## Spacing, blank lines and the target flag -/

/-- C11: a target line with the target name `name` and the dependency tokens of `R`
gives, through `fixLine` and `useActionLineAndAddNodes` on the same graph, a result
that depends only on `name` and on the tokens: two lines with the same target
name and the same dependency tokens, whatever white space (none, one blank,
several blanks or tabs) stands before the name, around the colon and between
the dependencies, give the same graph, the same default target and the same
target node. -/
theorem C11_spacing_equivalence (g : List parentNode) (tn : Option CStr) (l1 l2 : List Char)
    (name R1 R2 : CStr) (h1 : IsRule l1 name R1) (h2 : IsRule l2 name R2)
    (htok : tokens R1 = tokens R2) :
    useActionLineAndAddNodes g tn (fixLine l1) = useActionLineAndAddNodes g tn (fixLine l2) := by
  rw [useActionLineAndAddNodes_rule g tn l1 name R1 h1,
    useActionLineAndAddNodes_rule g tn l2 name R2 h2, htok]

/-- C11 at the lines of the specification, on the empty graph: `a:b`, `a :b` and `a:  b`
give what `a : b` gives, the target `a` with the one dependency `b`. -/
theorem C11_spacing_equivalence_witness :
    useActionLineAndAddNodes [] none (fixLine "a : b".toList) =
        .ok ([{ newNode "a".toList true with children := [1] }, newNode "b".toList false],
          some "a".toList, 0) ∧
      useActionLineAndAddNodes [] none (fixLine "a:b".toList) =
        useActionLineAndAddNodes [] none (fixLine "a : b".toList) ∧
      useActionLineAndAddNodes [] none (fixLine "a :b".toList) =
        useActionLineAndAddNodes [] none (fixLine "a : b".toList) ∧
      useActionLineAndAddNodes [] none (fixLine "a:  b".toList) =
        useActionLineAndAddNodes [] none (fixLine "a : b".toList) ∧
      useActionLineAndAddNodes [] none (fixLine " a\t:b \t c\n".toList) =
        useActionLineAndAddNodes [] none (fixLine "a : b c".toList) :=
    ⟨rfl,
     C11_spacing_equivalence [] none "a:b".toList "a : b".toList "a".toList "b".toList " b".toList
        ⟨[], [], rfl, by decide, by decide, by decide, by decide, by decide,
          by simp [newlineOnlyLast]⟩
        ⟨[], " ".toList, rfl, by decide, by decide, by decide, by decide, by decide,
          by simp [newlineOnlyLast]⟩ (by rfl),
     C11_spacing_equivalence [] none "a :b".toList "a : b".toList "a".toList "b".toList " b".toList
        ⟨[], " ".toList, rfl, by decide, by decide, by decide, by decide, by decide,
          by simp [newlineOnlyLast]⟩
        ⟨[], " ".toList, rfl, by decide, by decide, by decide, by decide, by decide,
          by simp [newlineOnlyLast]⟩ (by rfl),
     C11_spacing_equivalence [] none "a:  b".toList "a : b".toList "a".toList "  b".toList
        " b".toList
        ⟨[], [], rfl, by decide, by decide, by decide, by decide, by decide,
          by simp [newlineOnlyLast]⟩
        ⟨[], " ".toList, rfl, by decide, by decide, by decide, by decide, by decide,
          by simp [newlineOnlyLast]⟩ (by rfl),
     C11_spacing_equivalence [] none " a\t:b \t c\n".toList "a : b c".toList "a".toList
        "b \t c\n".toList " b c".toList
        ⟨" ".toList, "\t".toList, rfl, by decide, by decide, by decide, by decide, by decide,
          by simp [newlineOnlyLast]⟩
        ⟨[], " ".toList, rfl, by decide, by decide, by decide, by decide, by decide,
          by simp [newlineOnlyLast]⟩ (by rfl)⟩

/-- C13 fails on a line of space characters: such a line is not skipped but taken as a
target line, and ends the parse on the colon error path, wherever it stands: with
the colon error when the graph is still empty, and by the second `free` of the line
buffer, without a message, when the graph has a node.  Only the line that
consists of its newline alone is skipped. -/
theorem C13_blank_line :
    (∀ (st : ParseState) (n : Nat),
      parseLine st (' ' :: List.replicate n ' ' ++ ['\n']) =
        .error (if st.headLL = [] then .colons else .doubleFree)) ∧
    (∀ st : ParseState, parseLine st ['\n'] = .ok st) ∧
    parseMakeFileData (getlines "a : b\n  \n".toList) = .error .doubleFree ∧
    parseMakeFileData (getlines "  \na : b\n".toList) = .error .colons ∧
    (∃ st, parseMakeFileData (getlines "a : b\n\n".toList) = .ok st ∧
      parseMakeFileData (getlines "a : b\n".toList) = .ok st) := by
  refine ⟨?_, fun st => parseLine_blank st _ (Or.inr rfl), rfl, rfl, ⟨_, rfl, rfl⟩⟩
  intro st n
  apply parseLine_colons
  · intro c hc
    simp only [List.mem_cons, List.mem_append, List.mem_replicate, List.mem_singleton,
      List.not_mem_nil, or_false] at hc
    rcases hc with (h | ⟨_, h⟩) | h <;> rw [h] <;> decide
  · simp
  · simp [List.takeWhile_cons]
  · have : (' ' :: List.replicate n ' ' ++ ['\n']).count ':' = 0 := by
      rw [List.count_eq_zero]
      simp
    rw [this]; decide

/-- C17 fails on a node that is first named as a dependency: in the rule file
`app : main.o`, `main.o :`, `touch main.o` the node `main.o` keeps the flag
`target = 0` although its name stands left of the colon of the second line; with
the two rules in the other order both flags are 1. -/
theorem C17_declared_target_flag :
    (∃ st, parseMakeFileData (getlines "app : main.o\nmain.o :\n\ttouch main.o\n".toList) = .ok st ∧
      st.headLL.map (fun n => (n.name, n.target)) =
        [("app".toList, true), ("main.o".toList, false)]) ∧
    (∃ st, parseMakeFileData (getlines "main.o :\n\ttouch main.o\napp : main.o\n".toList) = .ok st ∧
      st.headLL.map (fun n => (n.name, n.target)) =
        [("main.o".toList, true), ("app".toList, true)]) :=
  ⟨⟨_, rfl, rfl⟩, ⟨_, rfl, rfl⟩⟩
/-! ## Line endings -/

theorem getlines_append_newline (b : List Char) (hb : ∀ c ∈ b, c ≠ '\n') (rest : List Char) :
    getlines (b ++ '\n' :: rest) = (b ++ ['\n']) :: getlines rest := by
  induction b with
  | nil => simp [getlines]
  | cons c cs ih =>
    have hc : c ≠ '\n' := hb c (List.mem_cons_self _ _)
    have := ih (fun x hx => hb x (List.mem_cons_of_mem _ hx))
    rw [List.cons_append, getlines, if_neg hc, this]
    rfl

theorem getlines_fileOf (eol : List Char) (heol : ∀ c ∈ eol, c ≠ '\n') (bodies : List (List Char))
    (hb : ∀ b ∈ bodies, ∀ c ∈ b, c ≠ '\n') :
    getlines (fileOf (eol ++ ['\n']) bodies) = bodies.map (fun b => b ++ eol ++ ['\n']) := by
  induction bodies with
  | nil => rfl
  | cons b bs ih =>
    have h1 : ∀ c ∈ b ++ eol, c ≠ '\n' := by
      intro c hc
      rcases List.mem_append.mp hc with h | h
      · exact hb b (List.mem_cons_self _ _) c h
      · exact heol c h
    have h2 := ih (fun x hx => hb x (List.mem_cons_of_mem _ hx))
    unfold fileOf at h2 ⊢
    rw [List.flatMap_cons, List.map_cons, ← h2, ← List.append_assoc b eol, List.append_assoc,
      List.singleton_append]
    exact getlines_append_newline (b ++ eol) h1 _

theorem fixLineFrom_crlf (body : List Char) :
    ∀ started : Bool, fixLineFrom started (body ++ ['\r', '\n']) =
      fixLineFrom started (body ++ ['\n']) := by
  induction body with
  | nil => intro started; cases started <;> simp [fixLineFrom, isspace]
  | cons c cs ih =>
    intro started
    have hh : isspace ((cs ++ ['\r', '\n']).headD '\x00') = isspace ((cs ++ ['\n']).headD '\x00') ∧
        ((cs ++ ['\r', '\n']).headD '\x00' = ':' ↔ (cs ++ ['\n']).headD '\x00' = ':') := by
      cases cs with
      | nil => exact ⟨by decide, by decide⟩
      | cons d ds => exact ⟨rfl, Iff.rfl⟩
    rw [List.cons_append, List.cons_append, fixLineFrom_cons, fixLineFrom_cons, ih false, ih true,
      ih started, hh.1]
    simp only [hh.2]

theorem findParentNode_withCR (g : List parentNode) (n : CStr) :
    findParentNode (g.map parentNode.withCR) n = findParentNode g n :=
  findParentNode_congr g _ n (by rw [List.map_map]; rfl)

theorem nodeAt_withCR (g : List parentNode) (j : Nat) (h : j < g.length) :
    nodeAt (g.map parentNode.withCR) j = (nodeAt g j).withCR := by
  unfold nodeAt
  rw [List.getD_eq_getElem _ _ (by simpa using h), List.getD_eq_getElem _ _ h, List.getElem_map]

theorem searchHeadActionForDup_withCR (g : List parentNode) (n : CStr) :
    searchHeadActionForDup (g.map parentNode.withCR) n = searchHeadActionForDup g n := by
  induction g with
  | nil => rfl
  | cons x rest ih =>
    simp only [List.map_cons, searchHeadActionForDup]
    rw [ih]
    rfl

theorem updNode_withCR (g : List parentNode) (a : Nat) (f f1 : parentNode → parentNode)
    (hf : ∀ n, f1 n.withCR = (f n).withCR) :
    updNode (g.map parentNode.withCR) a f1 = (updNode g a f).map parentNode.withCR := by
  unfold updNode
  by_cases h : a < g.length
  · rw [nodeAt_withCR g a h, hf, List.map_set]
  · have h1 : g.length ≤ a := Nat.le_of_not_lt h
    rw [List.set_eq_of_length_le (by simpa using h1), List.set_eq_of_length_le h1]

theorem addParentNode_withCR (g : List parentNode) (tn : Option CStr) (name : CStr) (t : Bool) :
    addParentNode (g.map parentNode.withCR) tn (newNode name t) =
      ((addParentNode g tn (newNode name t)).1.map parentNode.withCR,
        (addParentNode g tn (newNode name t)).2) := by
  cases g with
  | nil => rfl
  | cons x rest => simp [addParentNode]; rfl

theorem depLoop_withCR (fuel : Nat) :
    ∀ (g : List parentNode) (tn : Option CStr) (a : Nat) (rest : CStr),
      depLoop fuel (g.map parentNode.withCR) tn a rest =
        ((depLoop fuel g tn a rest).1.map parentNode.withCR, (depLoop fuel g tn a rest).2) := by
  induction fuel with
  | zero => intro g tn a rest; rfl
  | succ fuel ih =>
    intro g tn a rest
    unfold depLoop
    simp only
    by_cases ht : scanToken rest = []
    · rw [if_pos ht, if_pos ht]
    · rw [if_neg ht, if_neg ht, findParentNode_withCR, List.length_map]
      cases hf : findParentNode g (scanToken rest) with
      | some i =>
        simp only
        rw [updNode_withCR g a (parentNode.addChild i) (parentNode.addChild i) (fun _ => rfl)]
        exact ih _ _ _ _
      | none =>
        simp only
        rw [addParentNode_withCR,
          updNode_withCR _ a (parentNode.addChild g.length) (parentNode.addChild g.length)
            (fun _ => rfl)]
        exact ih _ _ _ _

theorem freeLL_withCR (g : List parentNode) : freeLL (g.map parentNode.withCR) = freeLL g :=
  List.length_map _ _

theorem useActionLineAndAddNodes_withCR (g : List parentNode) (tn : Option CStr) (line : CStr) :
    useActionLineAndAddNodes (g.map parentNode.withCR) tn line =
      match useActionLineAndAddNodes g tn line with
      | .error e => .error e
      | .ok (g1, tn1, a) => .ok (g1.map parentNode.withCR, tn1, a) := by
  unfold useActionLineAndAddNodes
  rw [freeLL_withCR]
  cases sscanfTarget line with
  | none => rfl
  | some p =>
    obtain ⟨target, restPointers⟩ := p
    simp only
    rw [searchHeadActionForDup_withCR]
    by_cases hd : searchHeadActionForDup g target = true
    · rw [if_pos hd, if_pos hd]
    · rw [if_neg hd, if_neg hd, findParentNode_withCR, List.length_map]
      cases hf : findParentNode g target with
      | some i => simp only; rw [depLoop_withCR]
      | none => simp only; rw [addParentNode_withCR, depLoop_withCR]

theorem storeCmds_withCR (st : ParseState) :
    storeCmds st.withCR = (storeCmds st).map parentNode.withCR := by
  unfold storeCmds ParseState.withCR
  cases st.temp with
  | none => rfl
  | some t =>
    exact updNode_withCR st.headLL t (parentNode.setCmds st.CMDS)
      (parentNode.setCmds (st.CMDS.map (fun c => c ++ ['\r']))) (fun _ => rfl)

theorem dropWhile_append_of_ne (p : Char → Bool) (b X : List Char) (h : b.dropWhile p ≠ []) :
    (b ++ X).dropWhile p = b.dropWhile p ++ X := by
  induction b with
  | nil => exact absurd rfl h
  | cons c cs ih =>
    by_cases hc : p c = true
    · rw [List.cons_append, List.dropWhile_cons_of_pos hc, List.dropWhile_cons_of_pos hc]
      rw [List.dropWhile_cons_of_pos hc] at h
      exact ih h
    · rw [List.cons_append, List.dropWhile_cons_of_neg hc, List.dropWhile_cons_of_neg hc]
      rfl

theorem dropWhile_append_of_nil (p : Char → Bool) (b X : List Char) (h : b.dropWhile p = []) :
    (b ++ X).dropWhile p = X.dropWhile p := by
  induction b with
  | nil => rfl
  | cons c cs ih =>
    by_cases hc : p c = true
    · rw [List.cons_append, List.dropWhile_cons_of_pos hc]
      rw [List.dropWhile_cons_of_pos hc] at h
      exact ih h
    · rw [List.dropWhile_cons_of_neg hc] at h
      exact absurd h (List.cons_ne_nil _ _)

theorem takeWhile_newline_append (d X : List Char) (hd : ∀ c ∈ d, c ≠ '\n') :
    (d ++ X).takeWhile (fun c => c ≠ '\n') = d ++ X.takeWhile (fun c => c ≠ '\n') := by
  induction d with
  | nil => rfl
  | cons c cs ih =>
    have hc : c ≠ '\n' := hd c (List.mem_cons_self _ _)
    have h2 := ih (fun x hx => hd x (List.mem_cons_of_mem _ hx))
    simp only [List.cons_append, List.takeWhile_cons, hc, ne_eq, not_false_eq_true, decide_True,
      if_true] at h2 ⊢
    rw [h2]

/-- The command read from a tab line, with either line terminator. -/
theorem command_crlf (b : List Char) (hb : ∀ c ∈ b, c ≠ '\n') :
    ((b ++ ['\n']).dropWhile isspace).takeWhile (fun c => c ≠ '\n') = b.dropWhile isspace ∧
    ((b ++ ['\r', '\n']).dropWhile isspace).takeWhile (fun c => c ≠ '\n') =
      if b.dropWhile isspace = [] then [] else b.dropWhile isspace ++ ['\r'] := by
  have hd : ∀ c ∈ b.dropWhile isspace, c ≠ '\n' :=
    fun c hc => hb c ((List.dropWhile_sublist _).subset hc)
  by_cases h : b.dropWhile isspace = []
  · rw [dropWhile_append_of_nil _ _ _ h, dropWhile_append_of_nil _ _ _ h, if_pos h, h]
    exact ⟨rfl, rfl⟩
  · rw [dropWhile_append_of_ne _ _ _ h, dropWhile_append_of_ne _ _ _ h, if_neg h,
      takeWhile_newline_append _ _ hd, takeWhile_newline_append _ _ hd]
    exact ⟨by simp, rfl⟩

theorem headLL_withCR_nil (st : ParseState) : st.withCR.headLL = [] ↔ st.headLL = [] := by
  unfold ParseState.withCR
  simp

/-- One line with either terminator: the parser goes the same way, and differs only in
the carriage return it keeps at the end of a command. -/
theorem parseLine_crlf (st : ParseState) (b : List Char) (hne : b ≠ [])
    (hb : ∀ c ∈ b, c ≠ '\n' ∧ c ≠ '\x00') :
    parseLine st.withCR (b ++ ['\r', '\n']) =
      match parseLine st (b ++ ['\n']) with
      | .error e => .error e
      | .ok st1 => .ok st1.withCR := by
  have hn1 : ∀ c ∈ b ++ ['\n'], c ≠ '\x00' := by
    intro c hc
    rcases List.mem_append.mp hc with h | h
    · exact (hb c h).2
    · rw [List.mem_singleton.mp h]; decide
  have hn2 : ∀ c ∈ b ++ ['\r', '\n'], c ≠ '\x00' := by
    intro c hc
    rcases List.mem_append.mp hc with h | h
    · exact (hb c h).2
    · simp only [List.mem_cons, List.mem_singleton, List.not_mem_nil, or_false] at h
      rcases h with h | h <;> rw [h] <;> decide
  obtain ⟨c0, cs, rfl⟩ := List.exists_cons_of_ne_nil hne
  have h0 := hb c0 (List.mem_cons_self _ _)
  have hc1 : charAt (cstr (c0 :: cs ++ ['\n'])) 0 = c0 := by rw [cstr_of_text _ hn1]; rfl
  have hc2 : charAt (cstr (c0 :: cs ++ ['\r', '\n'])) 0 = c0 := by rw [cstr_of_text _ hn2]; rfl
  by_cases htab : c0 = '\t'
  · rw [parseLine_tab _ _ (by rw [hc2]; exact htab), parseLine_tab _ _ (by rw [hc1]; exact htab),
      cstr_of_text _ hn1, cstr_of_text _ hn2]
    obtain ⟨e1, e2⟩ := command_crlf (c0 :: cs) (fun c hc => (hb c hc).1)
    rw [e1, e2]
    by_cases hnil : st.headLL = []
    · rw [if_pos hnil, if_pos ((headLL_withCR_nil st).mpr hnil)]
    · rw [if_neg hnil, if_neg (fun h => hnil ((headLL_withCR_nil st).mp h))]
      by_cases hd : (c0 :: cs).dropWhile isspace = []
      · rw [hd]; rfl
      · have hl : ((c0 :: cs).dropWhile isspace).length > 0 := List.length_pos.mpr hd
        rw [if_neg hd, if_pos hl, if_pos (by simp)]
        simp [ParseState.withCR, addLine]
  · have hb1 : ¬ (charAt (cstr (c0 :: cs ++ ['\n'])) 0 = '\x00' ∨
        charAt (cstr (c0 :: cs ++ ['\n'])) 0 = '\n') := by
      rw [hc1]; exact fun h => h.elim h0.2 h0.1
    have hb2 : ¬ (charAt (cstr (c0 :: cs ++ ['\r', '\n'])) 0 = '\x00' ∨
        charAt (cstr (c0 :: cs ++ ['\r', '\n'])) 0 = '\n') := by
      rw [hc2]; exact fun h => h.elim h0.2 h0.1
    rw [parseLine_target _ _ (by rw [hc2]; exact htab) hb2,
      parseLine_target _ _ (by rw [hc1]; exact htab) hb1, cstr_of_text _ hn1, cstr_of_text _ hn2]
    have hcount : countColons (c0 :: cs ++ ['\r', '\n']) = countColons (c0 :: cs ++ ['\n']) := by
      rw [countColons_eq_count, countColons_eq_count, List.count_append, List.count_append]
      rfl
    have hfix : fixLine (c0 :: cs ++ ['\r', '\n']) = fixLine (c0 :: cs ++ ['\n']) :=
      fixLineFrom_crlf (c0 :: cs) false
    rw [hcount, hfix]
    by_cases hcol : countColons (c0 :: cs ++ ['\n']) ≠ 1
    · rw [if_pos hcol, if_pos hcol, storeCmds_withCR, freeLL_withCR]
    · rw [if_neg hcol, if_neg hcol, storeCmds_withCR, useActionLineAndAddNodes_withCR,
        show st.withCR.targetNode = st.targetNode from rfl]
      cases useActionLineAndAddNodes (storeCmds st) st.targetNode (fixLine (c0 :: cs ++ ['\n'])) with
      | error e => rfl
      | ok r => rfl

theorem parseLines_crlf (bodies : List (List Char))
    (hb : ∀ b ∈ bodies, b ≠ [] ∧ ∀ c ∈ b, c ≠ '\n' ∧ c ≠ '\x00') :
    ∀ st : ParseState,
      parseLines st.withCR (bodies.map (fun b => b ++ ['\r'] ++ ['\n'])) =
        match parseLines st (bodies.map (fun b => b ++ [] ++ ['\n'])) with
        | .error e => .error e
        | .ok st1 => .ok st1.withCR := by
  induction bodies with
  | nil => intro st; rfl
  | cons b bs ih =>
    intro st
    have h1 := hb b (List.mem_cons_self _ _)
    have h2 := ih (fun x hx => hb x (List.mem_cons_of_mem _ hx))
    simp only [List.map_cons, parseLines, List.append_nil, List.append_assoc, List.singleton_append]
    rw [parseLine_crlf st b h1.1 h1.2]
    cases parseLine st (b ++ ['\n']) with
    | error e => rfl
    | ok st1 =>
      simp only
      have := h2 st1
      simp only [List.append_nil, List.append_assoc, List.singleton_append] at this
      exact this

/-- A rule file without empty lines, written once with newline and once with carriage
return and newline as the line terminator: the parser goes the same way on
both. -/
theorem parseMakeFileData_crlf (bodies : List (List Char))
    (hb : ∀ b ∈ bodies, b ≠ [] ∧ ∀ c ∈ b, c ≠ '\n' ∧ c ≠ '\x00') :
    parseMakeFileData (getlines (fileOf ['\r', '\n'] bodies)) =
      match parseMakeFileData (getlines (fileOf ['\n'] bodies)) with
      | .error e => .error e
      | .ok st => .ok st.withCR := by
  have hbn : ∀ b ∈ bodies, ∀ c ∈ b, c ≠ '\n' := fun b h c hc => ((hb b h).2 c hc).1
  have g1 := getlines_fileOf ['\r'] (by decide) bodies hbn
  have g2 := getlines_fileOf [] (by simp) bodies hbn
  rw [List.nil_append] at g2
  rw [show (['\r', '\n'] : List Char) = ['\r'] ++ ['\n'] from rfl, g1, g2]
  unfold parseMakeFileData
  have h := parseLines_crlf bodies hb ParseState.init
  rw [show ParseState.init.withCR = ParseState.init from rfl] at h
  rw [h]
  cases parseLines ParseState.init (bodies.map (fun b => b ++ [] ++ ['\n'])) with
  | error e => rfl
  | ok st =>
    simp only
    by_cases hc : st.CMDS ≠ []
    · have hc2 : st.withCR.CMDS ≠ [] := by
        unfold ParseState.withCR; simpa using hc
      rw [if_pos hc, if_pos hc2]
      simp only [ParseState.withCR, Except.ok.injEq, ParseState.mk.injEq, and_true, true_and]
      exact storeCmds_withCR st
    · have hc2 : ¬ st.withCR.CMDS ≠ [] := by
        unfold ParseState.withCR; simpa using hc
      rw [if_neg hc, if_neg hc2]

theorem nodeAt_map_withCR (g : List parentNode) (j : Nat) :
    nodeAt (g.map parentNode.withCR) j = (nodeAt g j).withCR := by
  by_cases h : j < g.length
  · exact nodeAt_withCR g j h
  · have h1 : g.length ≤ j := Nat.le_of_not_lt h
    unfold nodeAt
    rw [List.getD_eq_default _ _ (by simpa using h1), List.getD_eq_default _ _ h1]
    rfl

/-- C12 as stated fails: the command read from a line that ends in carriage return and
newline keeps the carriage return, so the command strings of the two parses
differ. -/
theorem C12_line_endings_counterexample :
    (∃ st, parseMakeFileData (getlines "a : b\n\tcc b\n".toList) = .ok st ∧
      (nodeAt st.headLL 0).cmds = ["cc b".toList]) ∧
    (∃ st, parseMakeFileData (getlines "a : b\r\n\tcc b\r\n".toList) = .ok st ∧
      (nodeAt st.headLL 0).cmds = ["cc b\r".toList]) :=
  ⟨⟨_, rfl, rfl⟩, ⟨_, rfl, rfl⟩⟩

/-- C12 as amended: for a rule file of non-empty lines of text, each ended by a newline,
that parses without error, the same lines ended by carriage return and newline
parse without error too, and give the same default target and the same nodes in
the same order with the same names, dependency edges and target flags; every
command of the second parse is the command of the first followed by a carriage
return. -/
theorem C12_line_endings_amended (bodies : List (List Char))
    (hb : ∀ b ∈ bodies, b ≠ [] ∧ ∀ c ∈ b, c ≠ '\n' ∧ c ≠ '\x00') (st : ParseState)
    (h : parseMakeFileData (getlines (fileOf ['\n'] bodies)) = .ok st) :
    ∃ st1, parseMakeFileData (getlines (fileOf ['\r', '\n'] bodies)) = .ok st1 ∧
      st1.targetNode = st.targetNode ∧ st1.headLL.length = st.headLL.length ∧
      ∀ j, (nodeAt st1.headLL j).name = (nodeAt st.headLL j).name ∧
        (nodeAt st1.headLL j).children = (nodeAt st.headLL j).children ∧
        (nodeAt st1.headLL j).target = (nodeAt st.headLL j).target ∧
        (nodeAt st1.headLL j).cmds = (nodeAt st.headLL j).cmds.map (fun c => c ++ ['\r']) := by
  refine ⟨st.withCR, ?_, rfl, by simp [ParseState.withCR], ?_⟩
  · rw [parseMakeFileData_crlf bodies hb, h]
  · intro j
    rw [show st.withCR.headLL = st.headLL.map parentNode.withCR from rfl, nodeAt_map_withCR]
    exact ⟨rfl, rfl, rfl, rfl⟩

theorem C12_line_endings_amended_witness :
    ∃ st1, parseMakeFileData (getlines (fileOf ['\r', '\n'] ["a : b".toList, "\tcc b".toList])) =
        .ok st1 ∧
      st1.targetNode = some "a".toList ∧ st1.headLL.length = 2 ∧
      ∀ j, (nodeAt st1.headLL j).name =
          (nodeAt [{ newNode "a".toList true with cmds := ["cc b".toList], children := [1] },
            newNode "b".toList false] j).name ∧
        (nodeAt st1.headLL j).children =
          (nodeAt [{ newNode "a".toList true with cmds := ["cc b".toList], children := [1] },
            newNode "b".toList false] j).children ∧
        (nodeAt st1.headLL j).target =
          (nodeAt [{ newNode "a".toList true with cmds := ["cc b".toList], children := [1] },
            newNode "b".toList false] j).target ∧
        (nodeAt st1.headLL j).cmds =
          (nodeAt [{ newNode "a".toList true with cmds := ["cc b".toList], children := [1] },
            newNode "b".toList false] j).cmds.map (fun c => c ++ ['\r']) :=
  C12_line_endings_amended ["a : b".toList, "\tcc b".toList] (by decide)
    { headLL := [{ newNode "a".toList true with cmds := ["cc b".toList], children := [1] },
        newNode "b".toList false],
      targetNode := some "a".toList, CMDS := ["cc b".toList], temp := some 0 } rfl
/-! ## A rule for proving invariants of the traversal -/

/-- The loop over the edges of node `i`, with the edges examined so far: a loop invariant
`L` that is kept by a returning call followed by the examination of the edge
holds after the loop for the whole list, and a call that ends the run leaves
what calls leave then. -/
theorem POTchildren_seen {W : Type} (call : State W → Nat → Outcome W) (hcall : CallSpec call)
    (s : State W) (i : Nat) (hi : i < s.headLL.length) (h0 : (s.node i).visited = false)
    (Pre : State W → Nat → Prop) (Post : State W → Nat → State W → Prop)
    (L : List Nat → State W → Prop) (Q : Fatal → State W → Prop)
    (hpre : ∀ seen cur c, Active i s cur → L seen cur → c ∈ (s.node i).children → Pre cur c)
    (hpost : ∀ cur c, Pre cur c →
      match call cur c with
      | .ok s1 => Post cur c s1
      | .fatal m s1 => Q m s1
      | _ => True)
    (hedge : ∀ seen cur c s1, Active i s cur → L seen cur → c ∈ (s.node i).children →
      Frame cur s1 → Done cur s1 → (s1.node c).visited = true → Post cur c s1 →
      L (seen ++ [c]) (POTedge i c s1)) :
    ∀ (rest seen : List Nat) (cur : State W), (∀ c ∈ rest, c ∈ (s.node i).children) →
      Active i s cur → L seen cur →
      match POTchildren call i rest cur with
      | .ok q => Active i s q ∧ L (seen ++ rest) q
      | .fatal m q => Q m q
      | _ => True := by
  intro rest
  induction rest with
  | nil =>
    intro seen cur _ hA hL
    simp only [POTchildren, List.append_nil]
    exact ⟨hA, hL⟩
  | cons c rest ih =>
    intro seen cur hcs hA hL
    have hc : c ∈ (s.node i).children := hcs c (List.mem_cons_self _ _)
    unfold POTchildren
    have hsp := hcall cur c
    have hpo := hpost cur c (hpre seen cur c hA hL hc)
    revert hsp hpo
    cases call cur c with
    | ok s1 =>
      simp only
      intro ⟨hF, hD, hv⟩ hP
      have hA1 : Active i s (POTedge i c s1) := (hA.afterCall hF hD).afterEdge hi h0 c
      have := ih (seen ++ [c]) (POTedge i c s1) (fun x hx => hcs x (List.mem_cons_of_mem _ hx))
        hA1 (hedge seen cur c s1 hA hL hc hF hD hv hP)
      simpa using this
    | fatal m s1 => simp only; intro _ hQ; exact hQ
    | outOfFuel => simp
    | dangling => simp

/-- The rule for `POT`: with a precondition `Pre` of calls, a postcondition `Post` of
calls that return, a condition `Q` of the state in which a run ends, and an
invariant `L` of the loop over the edges, it suffices to look at the probe, at
the examination of one edge, and at the rebuild step. -/
theorem POT_rule {W : Type} (env : Env W)
    (Pre : State W → Nat → Prop) (Post : State W → Nat → State W → Prop)
    (L : State W → Nat → List Nat → State W → Prop) (Q : Fatal → State W → Prop)
    (hskip : ∀ s i, Pre s i → (s.node i).visited = true → Post s i s)
    (hprobe : ∀ s i, Pre s i → i < s.headLL.length → (s.node i).visited = false →
      match POTprobe env s i with
      | .ok s1 => L s i [] s1
      | .fatal m s1 => Q m s1
      | _ => True)
    (hpre : ∀ s i seen cur c, Pre s i → i < s.headLL.length → (s.node i).visited = false →
      Active i s cur → L s i seen cur → c ∈ (s.node i).children → Pre cur c)
    (hedge : ∀ s i seen cur c s1, Pre s i → i < s.headLL.length → (s.node i).visited = false →
      Active i s cur → L s i seen cur → c ∈ (s.node i).children →
      Frame cur s1 → Done cur s1 → (s1.node c).visited = true → Post cur c s1 →
      L s i (seen ++ [c]) (POTedge i c s1))
    (hrebuild : ∀ s i cur, Pre s i → i < s.headLL.length → (s.node i).visited = false →
      Active i s cur → L s i (s.node i).children cur →
      match POTrebuild env cur i with
      | .ok s1 => Post s i s1
      | .fatal m s1 => Q m s1
      | _ => True) :
    ∀ (fuel : Nat) (s : State W) (i : Nat), Pre s i →
      match POT env fuel s i with
      | .ok s1 => Post s i s1
      | .fatal m s1 => Q m s1
      | _ => True := by
  intro fuel
  induction fuel with
  | zero => intro s i _; simp [POT]
  | succ fuel ih =>
    intro s i hP
    unfold POT
    by_cases hi : i < s.headLL.length
    · rw [if_pos hi]
      by_cases hv : (s.node i).visited = true
      · rw [if_pos hv]; exact hskip s i hP hv
      · rw [if_neg hv]
        have h0 : (s.node i).visited = false := by simpa using hv
        unfold POTbody
        have hpf := POTprobe_frame env s i hi h0
        have hpr := hprobe s i hP hi h0
        revert hpf hpr
        cases POTprobe env s i with
        | ok s1 =>
          simp only
          intro ⟨hF1, hv1, _, hn1⟩ hL1
          have hA1 : Active i s s1 := ⟨hF1, fun j hji => Or.inl (hn1 j hji), hv1⟩
          have hloop := POTchildren_seen (POT env fuel) (POT_frame env fuel) s i hi h0 Pre Post
            (L s i) Q (fun seen cur c hA hL hc => hpre s i seen cur c hP hi h0 hA hL hc) ih
            (fun seen cur c q hA hL hc hF hD hvc hPo =>
              hedge s i seen cur c q hP hi h0 hA hL hc hF hD hvc hPo)
            (s1.node i).children [] s1 (fun c hc => by rw [← hF1.children]; exact hc) hA1 hL1
          revert hloop
          cases POTchildren (POT env fuel) i (s1.node i).children s1 with
          | ok s2 =>
            simp only [List.nil_append]
            intro ⟨hA2, hL2⟩
            rw [hF1.children] at hL2
            exact hrebuild s i s2 hP hi h0 hA2 hL2
          | fatal m s2 => simp only; exact id
          | outOfFuel => simp
          | dangling => simp
        | fatal m s1 => simp only; intro _ hQ; exact hQ
        | outOfFuel => simp
        | dangling => simp
    · rw [if_neg hi]; trivial
/-! ## What the steps of `POT` do, exactly -/

theorem runnable_cons (line : CStr) (rest : List CStr) :
    runnable (line :: rest) =
      if charAt line 0 ≠ '\x00' then line :: runnable rest else runnable rest := by
  unfold runnable
  by_cases h : charAt line 0 ≠ '\x00'
  · rw [if_pos h, List.filter_cons_of_pos (by simpa using h)]
  · rw [if_neg h, List.filter_cons_of_neg (by simpa using h)]

theorem runEvents_cons (i : Nat) (c : CStr) (rest : List CStr) :
    runEvents i (c :: rest) = Event.system i c true :: Event.echo i c :: runEvents i rest := by
  simp [runEvents]

theorem runEvents_tag (i : Nat) (cmds : List CStr) : ∀ e ∈ runEvents i cmds, e.tag = some i := by
  intro e he
  unfold runEvents at he
  rw [List.mem_flatMap] at he
  obtain ⟨c, _, hc⟩ := he
  simp only [List.mem_cons, List.mem_singleton, List.not_mem_nil, or_false] at hc
  rcases hc with h | h <;> subst h <;> rfl

theorem runEvents_kind (i : Nat) (cmds : List CStr) :
    ∀ e ∈ runEvents i cmds, ∃ c, e = .system i c true ∨ e = .echo i c := by
  intro e he
  unfold runEvents at he
  rw [List.mem_flatMap] at he
  obtain ⟨c, _, hc⟩ := he
  simp only [List.mem_cons, List.mem_singleton, List.not_mem_nil, or_false] at hc
  exact ⟨c, hc⟩

/-- The call `praseCMDS(node)`: either every command that is not empty was run and
succeeded, or the commands before one that failed were run, and the run ends
with "Invalid Command was Given.". -/
theorem praseCMDS_exact {W : Type} (env : Env W) (i : Nat) :
    ∀ (cmds : List CStr) (cur : State W),
      match praseCMDS env i cmds cur with
      | .ok s1 => s1.headLL = cur.headLL ∧ s1.trace = cur.trace ++ runEvents i (runnable cmds)
      | .fatal m s1 => m = .invalidCommand ∧ s1.headLL = cur.headLL ∧
          ∃ pre ck post, runnable cmds = pre ++ ck :: post ∧
            s1.trace = cur.trace ++ runEvents i pre ++ [.system i ck false]
      | _ => False := by
  intro cmds
  induction cmds with
  | nil => intro cur; simp [praseCMDS, runnable, runEvents]
  | cons line rest ih =>
    intro cur
    unfold praseCMDS
    rw [runnable_cons]
    by_cases hline : charAt line 0 ≠ '\x00'
    · rw [if_pos hline, if_pos hline]
      by_cases hr : (env.system cur.world line).1 = false
      · rw [if_pos hr]
        exact ⟨rfl, rfl, [], line, runnable rest, rfl, by simp [State.failed, runEvents]⟩
      · rw [if_neg hr]
        have := ih (cur.ran (env.system cur.world line).2 i line)
        revert this
        cases praseCMDS env i rest (cur.ran (env.system cur.world line).2 i line) with
        | ok s1 =>
          simp only
          intro ⟨h1, h2⟩
          exact ⟨h1, by rw [h2, runEvents_cons]; simp [State.ran]⟩
        | fatal m s1 =>
          simp only
          intro ⟨h1, h2, pre, ck, post, h3, h4⟩
          refine ⟨h1, h2, line :: pre, ck, post, by rw [h3]; rfl, ?_⟩
          rw [h4, runEvents_cons]; simp [State.ran]
        | outOfFuel => simp
        | dangling => simp
    · rw [if_neg hline, if_neg hline]
      exact ih cur

/-- Lines 170-179 of `POT`: the file is probed once more, and the run ends when the
probe fails for a node that is not flagged as target. -/
theorem POTrestat_exact {W : Type} (env : Env W) (cur : State W) (i : Nat)
    (hi : i < cur.headLL.length) :
    match POTrestat env cur i with
    | .ok s1 => s1.headLL.length = cur.headLL.length ∧ (∀ j, j ≠ i → s1.node j = cur.node j) ∧
        (s1.node i).visited = (cur.node i).visited ∧
        (s1.node i).completed = (cur.node i).completed ∧
        (s1.node i).mustBuild = (cur.node i).mustBuild ∧
        ∃ r, s1.trace = cur.trace ++ [.stat i (cur.node i).name r]
    | .fatal m s1 => m = .stat ∧ (∀ j, s1.node j = cur.node j) ∧
        s1.trace = cur.trace ++ [.stat i (cur.node i).name none]
    | _ => False := by
  have hn2 : ∀ j, (cur.stat env i).2.node j = cur.node j := fun _ => rfl
  have hl2 : (cur.stat env i).2.headLL.length = cur.headLL.length := rfl
  have ht2 : (cur.stat env i).2.trace = cur.trace ++ [.stat i (cur.node i).name (cur.stat env i).1] :=
    rfl
  unfold POTrestat
  revert hn2 hl2 ht2
  rcases cur.stat env i with ⟨r, s2⟩
  intro hn2 hl2 ht2
  simp only at hn2 hl2 ht2
  have hi2 : i < s2.headLL.length := by rw [hl2]; exact hi
  cases r with
  | some mtime =>
    simp only
    refine ⟨by simp [hl2], fun j hji => by rw [State.node_upd_ne _ _ _ _ hji, hn2], ?_, ?_, ?_,
      some mtime, by rw [State.upd_trace, ht2]⟩ <;>
    rw [State.node_upd_self _ _ _ hi2, ← hn2 i] <;> rfl
  | none =>
    simp only
    by_cases htg : (s2.node i).target = false
    · rw [if_pos htg]; exact ⟨rfl, hn2, ht2⟩
    · rw [if_neg htg]
      exact ⟨hl2, fun j _ => hn2 j, by rw [hn2], by rw [hn2], by rw [hn2], none, ht2⟩

/-- Lines 168-182 of `POT`: a node that need not be built is marked completed; for a node
that must be built the command list is run, the file is probed again and the
node is marked completed, unless a command or the probe ends the run. -/
theorem POTrebuild_exact {W : Type} (env : Env W) (cur : State W) (i : Nat)
    (hi : i < cur.headLL.length) :
    match POTrebuild env cur i with
    | .ok s1 => s1.headLL.length = cur.headLL.length ∧ (∀ j, j ≠ i → s1.node j = cur.node j) ∧
        (s1.node i).visited = (cur.node i).visited ∧ (s1.node i).completed = true ∧
        (s1.node i).mustBuild = (cur.node i).mustBuild ∧
        (((cur.node i).mustBuild = false ∧ s1.trace = cur.trace ∧
            (s1.node i).fileDate = (cur.node i).fileDate) ∨
          ((cur.node i).mustBuild = true ∧ ∃ r, s1.trace = cur.trace ++
            .praseCMDS i :: runEvents i (runnable (cur.node i).cmds) ++
              [.stat i (cur.node i).name r]))
    | .fatal m s1 => (∀ j, s1.node j = cur.node j) ∧ (cur.node i).mustBuild = true ∧
        ((m = .invalidCommand ∧ ∃ pre ck post, runnable (cur.node i).cmds = pre ++ ck :: post ∧
            s1.trace = cur.trace ++ .praseCMDS i :: runEvents i pre ++ [.system i ck false]) ∨
          (m = .stat ∧ s1.trace = cur.trace ++
            .praseCMDS i :: runEvents i (runnable (cur.node i).cmds) ++
              [.stat i (cur.node i).name none]))
    | _ => False := by
  unfold POTrebuild
  by_cases hmb : (cur.node i).mustBuild = true
  · rw [if_pos hmb]
    have hp := praseCMDS_exact env i (cur.node i).cmds (cur.emit (.praseCMDS i))
    revert hp
    cases praseCMDS env i (cur.node i).cmds (cur.emit (.praseCMDS i)) with
    | ok s2 =>
      simp only
      intro ⟨hh2, ht2⟩
      have hn2 : ∀ j, s2.node j = cur.node j := by
        intro j; unfold State.node; rw [hh2]; rfl
      have hl2 : i < s2.headLL.length := by rw [hh2]; exact hi
      have hr := POTrestat_exact env s2 i hl2
      revert hr
      cases POTrestat env s2 i with
      | ok s3 =>
        simp only
        intro ⟨hl3, hn3, hv3, hc3, hm3, r, ht3⟩
        have hi3 : i < s3.headLL.length := by rw [hl3]; exact hl2
        refine ⟨by simp [hl3, hh2], fun j hji => by rw [State.node_upd_ne _ _ _ _ hji, hn3 j hji, hn2],
          ?_, ?_, ?_, Or.inr ⟨hmb, r, ?_⟩⟩
        · rw [State.node_upd_self _ _ _ hi3, parentNode.setCompleted_visited, hv3, hn2]
        · rw [State.node_upd_self _ _ _ hi3]; rfl
        · rw [State.node_upd_self _ _ _ hi3, parentNode.setCompleted_mustBuild, hm3, hn2]
        · rw [State.upd_trace, ht3, ht2, hn2]; simp
      | fatal m s3 =>
        simp only
        intro ⟨hm, hn3, ht3⟩
        refine ⟨fun j => by rw [hn3, hn2], hmb, Or.inr ⟨hm, ?_⟩⟩
        rw [ht3, ht2, hn2]; simp
      | outOfFuel => simp
      | dangling => simp
    | fatal m s2 =>
      simp only
      intro ⟨hm, hh2, pre, ck, post, hrun, ht2⟩
      refine ⟨fun j => by unfold State.node; rw [hh2]; rfl, hmb, Or.inl ⟨hm, pre, ck, post, hrun, ?_⟩⟩
      rw [ht2]; simp
    | outOfFuel => simp
    | dangling => simp
  · rw [if_neg hmb]
    have hmb2 : (cur.node i).mustBuild = false := by simpa using hmb
    refine ⟨by simp, fun j hji => State.node_upd_ne _ _ _ _ hji, ?_, ?_, ?_, Or.inl ⟨hmb2, rfl, ?_⟩⟩ <;>
    rw [State.node_upd_self _ _ _ hi] <;> rfl

/-- Lines 157-165 of `POT`: the examination of the edge from `i` to `child` writes the
cycle message and nothing else when the child is visited and not completed, and
otherwise writes at most the flag `mustBuild` of node `i`. -/
theorem POTedge_exact {W : Type} (i child : Nat) (s1 : State W) (hi : i < s1.headLL.length) :
    ((s1.node child).visited = true ∧ (s1.node child).completed = false ∧
      POTedge i child s1 = s1.emit (.cycle i child)) ∨
    (¬ ((s1.node child).visited = true ∧ (s1.node child).completed = false) ∧
      (POTedge i child s1).trace = s1.trace ∧
      (∀ j, j ≠ i → (POTedge i child s1).node j = s1.node j) ∧
      (POTedge i child s1).headLL.length = s1.headLL.length ∧
      (POTedge i child s1).world = s1.world ∧
      ((POTedge i child s1).node i).visited = (s1.node i).visited ∧
      ((POTedge i child s1).node i).completed = (s1.node i).completed ∧
      ((POTedge i child s1).node i).doesExist = (s1.node i).doesExist ∧
      ((POTedge i child s1).node i).fileDate = (s1.node i).fileDate ∧
      (((POTedge i child s1).node i).mustBuild = true ↔
        ((s1.node i).mustBuild = true ∨ (s1.node child).doesExist = false ∨
          (s1.node child).fileDate > (s1.node i).fileDate))) := by
  unfold POTedge
  by_cases hcy : (s1.node child).visited = true ∧ (s1.node child).completed = false
  · rw [if_pos hcy]; exact Or.inl ⟨hcy.1, hcy.2, rfl⟩
  · rw [if_neg hcy]
    refine Or.inr ⟨hcy, ?_⟩
    by_cases hmb : (s1.node i).mustBuild = false
    · rw [if_pos hmb]
      by_cases hst : (s1.node child).doesExist = false ∨
          (s1.node child).fileDate > (s1.node i).fileDate
      · rw [if_pos hst]
        refine ⟨rfl, fun j hji => State.node_upd_ne _ _ _ _ hji, by simp, rfl, ?_, ?_, ?_, ?_, ?_⟩ <;>
        rw [State.node_upd_self _ _ _ hi]
        · rfl
        · rfl
        · rfl
        · rfl
        · simp [hst]
      · rw [if_neg hst]
        refine ⟨rfl, fun _ _ => rfl, rfl, rfl, rfl, rfl, rfl, rfl, ?_⟩
        rw [hmb]
        simp only [Bool.false_eq_true, false_or]
        exact ⟨fun h => absurd h (by simp), fun h => absurd h hst⟩
    · rw [if_neg hmb]
      have : (s1.node i).mustBuild = true := by simpa using hmb
      exact ⟨rfl, fun _ _ => rfl, rfl, rfl, rfl, rfl, rfl, rfl, by simp [this]⟩
/-! ## The events of one node in a trace -/

theorem Untagged_append {j : Nat} {a b : List Event} (ha : Untagged j a) (hb : Untagged j b) :
    Untagged j (a ++ b) := by
  intro e he
  rcases List.mem_append.mp he with h | h
  · exact ha e h
  · exact hb e h

theorem Untagged_nil (j : Nat) : Untagged j [] := fun _ h => absurd h (List.not_mem_nil _)

theorem Untagged_of_tagged {i j : Nat} (hij : i ≠ j) {l : List Event}
    (h : ∀ e ∈ l, e.tag = some i) : Untagged j l := by
  intro e he heq
  rw [h e he] at heq
  injection heq with heq
  exact hij heq

theorem Untagged_onlyCycles {j : Nat} {l : List Event} (h : Untagged j l) : OnlyCycles j l :=
  fun e he ht => absurd ht (h e he)

theorem OnlyCycles_append {j : Nat} {a b : List Event} (ha : OnlyCycles j a)
    (hb : OnlyCycles j b) : OnlyCycles j (a ++ b) := by
  intro e he
  rcases List.mem_append.mp he with h | h
  · exact ha e h
  · exact hb e h

theorem OnlyCycles_nil (j : Nat) : OnlyCycles j [] := fun _ h => absurd h (List.not_mem_nil _)

theorem OnlyCycles_single (j c : Nat) : OnlyCycles j [Event.cycle j c] := by
  intro e he _
  rw [List.mem_singleton] at he
  exact ⟨c, he⟩

theorem NoFail_append {a b : List Event} (ha : NoFail a) (hb : NoFail b) : NoFail (a ++ b) := by
  intro e he
  rcases List.mem_append.mp he with h | h
  · exact ha e h
  · exact hb e h

theorem NoFail_runEvents (i : Nat) (cmds : List CStr) : NoFail (runEvents i cmds) := by
  intro e he k c heq
  obtain ⟨c1, h | h⟩ := runEvents_kind i cmds e he <;> rw [h] at heq <;> simp at heq

theorem NoFail_rebuilt (i : Nat) (cmds : List CStr) (n : CStr) (r : Option Int) :
    NoFail (Event.praseCMDS i :: runEvents i cmds ++ [Event.stat i n r]) := by
  intro e he k c heq
  simp only [List.cons_append, List.mem_cons, List.mem_append, List.mem_singleton,
    List.not_mem_nil, or_false] at he
  rcases he with h | h | h
  · rw [h] at heq; simp at heq
  · exact NoFail_runEvents i cmds e h k c heq
  · rw [h] at heq; simp at heq

theorem tagged_rebuilt (i : Nat) (cmds : List CStr) (tail : List Event)
    (ht : ∀ e ∈ tail, e.tag = some i) :
    ∀ e ∈ Event.praseCMDS i :: runEvents i cmds ++ tail, e.tag = some i := by
  intro e he
  simp only [List.cons_append, List.mem_cons, List.mem_append] at he
  rcases he with h | h | h
  · rw [h]; rfl
  · exact runEvents_tag i cmds e h
  · exact ht e h

theorem Looping_start (g : List parentNode) (t : List Event) (j : Nat) (r : Option Int)
    (h : Untagged j t) : Looping g (t ++ [Event.stat j (nodeAt g j).name r]) j :=
  ⟨t, r, [], rfl, h, OnlyCycles_nil j⟩

theorem Looping_extend {g : List parentNode} {t : List Event} {j : Nat} (h : Looping g t j)
    (evs : List Event) (hevs : OnlyCycles j evs) : Looping g (t ++ evs) j := by
  obtain ⟨t0, r, t1, ht, h0, h1⟩ := h
  exact ⟨t0, r, t1 ++ evs, by rw [ht]; simp, h0, OnlyCycles_append h1 hevs⟩

theorem Looping_noCommand {g : List parentNode} {t : List Event} {j : Nat} (h : Looping g t j) :
    ∀ e ∈ t, e.isCommand = true → e.tag ≠ some j := by
  obtain ⟨t0, r, t1, ht, h0, h1⟩ := h
  intro e he hcmd htag
  rw [ht] at he
  simp only [List.mem_append, List.mem_cons] at he
  rcases he with h | h | h
  · exact h0 e h htag
  · rw [h] at hcmd; simp [Event.isCommand] at hcmd
  · obtain ⟨c, hc⟩ := h1 e h htag
    rw [hc] at hcmd
    simp [Event.isCommand] at hcmd

theorem Looping_life {g : List parentNode} {t : List Event} {j : Nat} (h : Looping g t j) :
    Life g t j := by
  obtain ⟨t0, r, t1, ht, h0, h1⟩ := h
  exact Or.inr ⟨t0, r, t1, ht, h0, Or.inl h1⟩

/-- A node that is completed without a run of its command list. -/
theorem Looping_finishQuiet {g : List parentNode} {t : List Event} {j : Nat}
    (h : Looping g t j) (P : Nat → Prop) : Finished g P t j := by
  obtain ⟨t0, r, t1, ht, h0, h1⟩ := h
  exact ⟨t0, r, t1, ht, h0, Or.inl h1⟩

/-- A cycle message of node `j` in the trace of a node in its loop stands behind the
probe. -/
theorem mem_behind_probe {t t0 t1 : List Event} {j c : Nat} {n : CStr} {r : Option Int}
    (ht : t = t0 ++ Event.stat j n r :: t1) (h0 : Untagged j t0) (hc : Event.cycle j c ∈ t) :
    Event.cycle j c ∈ t1 := by
  rw [ht] at hc
  simp only [List.mem_append, List.mem_cons] at hc
  rcases hc with h | h | h
  · exact absurd rfl (h0 _ h)
  · exact absurd h (by simp)
  · exact h

/-- A node that is completed after a run of its command list. -/
theorem Looping_finishBuilt {g : List parentNode} {t : List Event} {j : Nat}
    (h : Looping g t j) (P : Nat → Prop) (r2 : Option Int)
    (hkids : ∀ c ∈ (nodeAt g j).children, Event.cycle j c ∈ t ∨ (P c ∧ c ≠ j)) :
    Finished g P (t ++ Event.praseCMDS j :: runEvents j (runnable (nodeAt g j).cmds) ++
      [Event.stat j (nodeAt g j).name r2]) j := by
  obtain ⟨t0, r, t1, ht, h0, h1⟩ := h
  refine ⟨t0, r, t1 ++ Event.praseCMDS j :: (runEvents j (runnable (nodeAt g j).cmds) ++
    [Event.stat j (nodeAt g j).name r2]), by rw [ht]; simp, h0, Or.inr ⟨t1, r2, [], rfl, h1,
    Untagged_nil j, ?_⟩⟩
  intro c hc
  rcases hkids c hc with hcy | ⟨hP, hne⟩
  · exact Or.inl (mem_behind_probe ht h0 hcy)
  · refine Or.inr ⟨hP, Untagged_of_tagged (Ne.symm hne) ?_⟩
    intro e he
    rcases List.mem_append.mp he with h | h
    · exact runEvents_tag j _ e h
    · rw [List.mem_singleton] at h; rw [h]; rfl

theorem Looping_lifeBuilt {g : List parentNode} {t : List Event} {j : Nat}
    (h : Looping g t j) (r2 : Option Int)
    (hkids : ∀ c ∈ (nodeAt g j).children, Event.cycle j c ∈ t ∨ c ≠ j) :
    Life g (t ++ Event.praseCMDS j :: runEvents j (runnable (nodeAt g j).cmds) ++
      [Event.stat j (nodeAt g j).name r2]) j := by
  obtain ⟨t0, r, t1, ht, h0, h1⟩ := h
  refine Or.inr ⟨t0, r, t1 ++ Event.praseCMDS j :: (runEvents j (runnable (nodeAt g j).cmds) ++
    [Event.stat j (nodeAt g j).name r2]), by rw [ht]; simp, h0, Or.inr ⟨t1, _, rfl, h1,
    Or.inl ⟨r2, [], rfl, Untagged_nil j⟩, ?_⟩⟩
  intro c hc
  rcases hkids c hc with hcy | hne
  · exact Or.inl (mem_behind_probe ht h0 hcy)
  · refine Or.inr (Untagged_of_tagged (Ne.symm hne) ?_)
    intro e he
    rcases List.mem_append.mp he with h | h
    · exact runEvents_tag j _ e h
    · rw [List.mem_singleton] at h; rw [h]; rfl

theorem Looping_lifeFailed {g : List parentNode} {t : List Event} {j : Nat}
    (h : Looping g t j) (pre : List CStr) (ck : CStr) (post : List CStr)
    (hrun : runnable (nodeAt g j).cmds = pre ++ ck :: post)
    (hkids : ∀ c ∈ (nodeAt g j).children, Event.cycle j c ∈ t ∨ c ≠ j) :
    Life g (t ++ Event.praseCMDS j :: runEvents j pre ++ [Event.system j ck false]) j := by
  obtain ⟨t0, r, t1, ht, h0, h1⟩ := h
  refine Or.inr ⟨t0, r, t1 ++ Event.praseCMDS j :: (runEvents j pre ++
    [Event.system j ck false]), by rw [ht]; simp, h0, Or.inr ⟨t1, _, rfl, h1,
    Or.inr ⟨pre, ck, post, hrun, rfl⟩, ?_⟩⟩
  intro c hc
  rcases hkids c hc with hcy | hne
  · exact Or.inl (mem_behind_probe ht h0 hcy)
  · refine Or.inr (Untagged_of_tagged (Ne.symm hne) ?_)
    intro e he
    rcases List.mem_append.mp he with h | h
    · exact runEvents_tag j _ e h
    · rw [List.mem_singleton] at h; rw [h]; rfl

theorem Finished_extend {g : List parentNode} {P : Nat → Prop} {t : List Event} {j : Nat}
    (h : Finished g P t j) (P1 : Nat → Prop) (evs : List Event) (hevs : Untagged j evs)
    (hP : ∀ c, P c → P1 c ∧ Untagged c evs) : Finished g P1 (t ++ evs) j := by
  obtain ⟨t0, r, t1, ht, h0, h1⟩ := h
  refine ⟨t0, r, t1 ++ evs, by rw [ht]; simp, h0, ?_⟩
  rcases h1 with h1 | ⟨t1a, r2, t3, ht1, h1a, h3, hk⟩
  · exact Or.inl (OnlyCycles_append h1 (Untagged_onlyCycles hevs))
  · refine Or.inr ⟨t1a, r2, t3 ++ evs, by rw [ht1]; simp, h1a, Untagged_append h3 hevs, ?_⟩
    intro c hc
    rcases hk c hc with hcy | ⟨hPc, hun⟩
    · exact Or.inl hcy
    · refine Or.inr ⟨(hP c hPc).1, ?_⟩
      have := Untagged_append hun (hP c hPc).2
      simpa using this

theorem Finished_life {g : List parentNode} {P : Nat → Prop} {t : List Event} {j : Nat}
    (h : Finished g P t j) : Life g t j := by
  obtain ⟨t0, r, t1, ht, h0, h1⟩ := h
  refine Or.inr ⟨t0, r, t1, ht, h0, ?_⟩
  rcases h1 with h1 | ⟨t1a, r2, t3, ht1, h1a, h3, hk⟩
  · exact Or.inl h1
  · refine Or.inr ⟨t1a, _, ht1, h1a, Or.inl ⟨r2, t3, rfl, h3⟩, ?_⟩
    intro c hc
    rcases hk c hc with hcy | ⟨_, hun⟩
    · exact Or.inl hcy
    · exact Or.inr hun

/-! ## Counting the activations in a trace -/

theorem probes_append (a b : List Event) :
    ∀ built : List Nat, probes built (a ++ b) = probes built a ++ probes (builtBy built a) b := by
  induction a with
  | nil => intro built; rfl
  | cons e rest ih =>
    intro built
    cases e with
    | stat j n r =>
      simp only [List.cons_append, probes, builtBy, List.append_eq]
      by_cases hj : j ∈ built
      · rw [if_pos hj, if_pos hj]; exact ih built
      · rw [if_neg hj, if_neg hj, ih built]; rfl
    | praseCMDS j => simp only [List.cons_append, probes, builtBy, List.append_eq]; exact ih _
    | cycle j c => simp only [List.cons_append, probes, builtBy, List.append_eq]; exact ih _
    | system j c ok => simp only [List.cons_append, probes, builtBy, List.append_eq]; exact ih _
    | echo j c => simp only [List.cons_append, probes, builtBy, List.append_eq]; exact ih _
    | upToDate n => simp only [List.cons_append, probes, builtBy, List.append_eq]; exact ih _

theorem mem_builtBy (j : Nat) (a : List Event) :
    ∀ built : List Nat, j ∈ builtBy built a ↔ (j ∈ built ∨ Event.praseCMDS j ∈ a) := by
  induction a with
  | nil => intro built; simp [builtBy]
  | cons e rest ih =>
    intro built
    cases e with
    | praseCMDS k =>
      simp only [builtBy, ih, List.mem_cons, Event.praseCMDS.injEq]
      constructor
      · rintro ((h | h) | h)
        · exact Or.inr (Or.inl h)
        · exact Or.inl h
        · exact Or.inr (Or.inr h)
      · rintro (h | h | h)
        · exact Or.inl (Or.inr h)
        · exact Or.inl (Or.inl h)
        · exact Or.inr h
    | stat k n r => simp [builtBy, ih]
    | cycle k c => simp [builtBy, ih]
    | system k c ok => simp [builtBy, ih]
    | echo k c => simp [builtBy, ih]
    | upToDate n => simp [builtBy, ih]

theorem probes_runEvents (i : Nat) (cmds : List CStr) (tail : List Event) :
    ∀ built : List Nat, probes built (runEvents i cmds ++ tail) = probes built tail := by
  induction cmds with
  | nil => intro built; rfl
  | cons c rest ih =>
    intro built
    rw [runEvents_cons]
    simp only [List.cons_append, probes]
    exact ih built

/-- The events of a run of the command list of node `i` hold no entry of the body. -/
theorem probes_rebuilt (i : Nat) (cmds : List CStr) (tail : List Event)
    (ht : tail = [] ∨ (∃ n r, tail = [Event.stat i n r]) ∨ ∃ c, tail = [Event.system i c false])
    (built : List Nat) : probes built (Event.praseCMDS i :: runEvents i cmds ++ tail) = [] := by
  rw [List.cons_append]
  simp only [probes]
  rw [probes_runEvents]
  rcases ht with h | ⟨n, r, h⟩ | ⟨c, h⟩ <;> subst h <;> simp [probes]

/-! ## The invariant of the traversal on any graph -/

/-- Lines 128-152 of `POT` leave the flag `completed` alone, and end the run only with
the messages of a failed probe. -/
theorem POTprobe_kind {W : Type} (env : Env W) (s : State W) (i : Nat)
    (hi : i < s.headLL.length) :
    match POTprobe env s i with
    | .ok s1 => (s1.node i).completed = (s.node i).completed
    | .fatal m _ => m = .stat ∨ m = .nodeDoesNotExist
    | _ => True := by
  have hn2 : ((s.upd i parentNode.setVisited).stat env i).2.node i = (s.node i).setVisited :=
    State.node_upd_self _ _ _ hi
  have hl2 : i < ((s.upd i parentNode.setVisited).stat env i).2.headLL.length := by
    rw [State.stat_headLL, State.upd_length]; exact hi
  unfold POTprobe
  revert hn2 hl2
  rcases (s.upd i parentNode.setVisited).stat env i with ⟨r, s2⟩
  intro hn2 hl2
  simp only at hn2 hl2
  have fin : ∀ s3 : State W, i < s3.headLL.length → (s3.node i).completed = (s.node i).completed →
      match POTexists s3 i with
      | .ok s1 => (s1.node i).completed = (s.node i).completed
      | .fatal m _ => m = .stat ∨ m = .nodeDoesNotExist
      | _ => True := by
    intro s3 hl3 hc3
    unfold POTexists
    by_cases hd : (s3.node i).doesExist = false
    · rw [if_pos hd]
      by_cases hc : (s3.node i).children = []
      · rw [if_pos hc]; exact Or.inr rfl
      · rw [if_neg hc]
        show ((s3.upd i parentNode.setMustBuild).node i).completed = _
        rw [State.node_upd_self _ _ _ hl3]; exact hc3
    · rw [if_neg hd]; exact hc3
  cases r with
  | some mtime =>
    simp only
    refine fin _ (by rw [State.upd_length]; exact hl2) ?_
    rw [State.node_upd_self _ _ _ hl2, hn2]; rfl
  | none =>
    simp only
    by_cases htg : (s2.node i).target = false
    · rw [if_pos htg]; exact Or.inl rfl
    · rw [if_neg htg]
      refine fin _ (by rw [State.upd_length]; exact hl2) ?_
      rw [State.node_upd_self _ _ _ hl2, hn2]; rfl

theorem praseCMDS_untagged {i : Nat} {t : List Event} (h : Untagged i t) :
    Event.praseCMDS i ∉ t := fun hm => h _ hm rfl

/-- The events of the other nodes after a step of the activation of node `i`. -/
theorem Phase_life_extend {W : Type} {g : List parentNode} {s : State W} (hP : Phase g s)
    (i : Nat) (hnc : (s.node i).completed = false) (evs : List Event)
    (htag : ∀ e ∈ evs, e.tag = some i) (j : Nat) (hji : j ≠ i) :
    Life g (s.trace ++ evs) j := by
  have hun : Untagged j evs := Untagged_of_tagged (Ne.symm hji) htag
  cases hv : (s.node j).visited with
  | false => exact Or.inl (Untagged_append (hP.silent j hv) hun)
  | true =>
    cases hc : (s.node j).completed with
    | false => exact Looping_life (Looping_extend (hP.looping j hv hc) evs (Untagged_onlyCycles hun))
    | true =>
      refine Finished_life (Finished_extend (hP.done j hv hc) (fun _ => True) evs hun ?_)
      intro c hcP
      refine ⟨trivial, Untagged_of_tagged ?_ htag⟩
      intro hic
      rw [← hic, hnc] at hcP
      exact absurd hcP.2 (by simp)

/-- The count of activations after a step of the activation of node `i`. -/
theorem Phase_probes_extend {W : Type} {g : List parentNode} {s : State W} (hP : Phase g s)
    (i : Nat) (evs : List Event)
    (hpr : probes (builtBy [] s.trace) evs = [] ∨
      (probes (builtBy [] s.trace) evs = [i] ∧ (s.node i).visited = false ∧ i < g.length)) :
    (probes [] (s.trace ++ evs)).Nodup ∧ ∀ j ∈ probes [] (s.trace ++ evs),
      (j = i ∨ (s.node j).visited = true) ∧ j < g.length := by
  rw [probes_append]
  rcases hpr with h | ⟨h, hv, hlt⟩
  · rw [h, List.append_nil]
    exact ⟨hP.probed.1, fun j hj => ⟨Or.inr (hP.probed.2 j hj).1, (hP.probed.2 j hj).2⟩⟩
  · rw [h]
    refine ⟨?_, ?_⟩
    · rw [List.nodup_append]
      refine ⟨hP.probed.1, List.nodup_singleton i, ?_⟩
      intro x hx hx2
      rw [List.mem_singleton] at hx2
      subst hx2
      rw [(hP.probed.2 x hx).1] at hv
      exact absurd hv (by simp)
    · intro j hj
      rcases List.mem_append.mp hj with h1 | h1
      · exact ⟨Or.inr (hP.probed.2 j h1).1, (hP.probed.2 j h1).2⟩
      · rw [List.mem_singleton] at h1; rw [h1]; exact ⟨Or.inl rfl, hlt⟩

/-- A step of the activation of node `i`: it adds events of the node, none of them a
failure, and changes no other node. -/
theorem Phase_step {W : Type} {g : List parentNode} {s s1 : State W} (i : Nat)
    (evs : List Event) (hP : Phase g s) (hG : SameGraph g s1)
    (htr : s1.trace = s.trace ++ evs) (htag : ∀ e ∈ evs, e.tag = some i) (hnf : NoFail evs)
    (hoth : ∀ j, j ≠ i → s1.node j = s.node j) (hnc : (s.node i).completed = false)
    (hv1 : (s1.node i).visited = true)
    (hloop : (s1.node i).completed = false → Looping g s1.trace i)
    (hdone : (s1.node i).completed = true →
      Finished g (fun c => (s1.node c).visited = true ∧ (s1.node c).completed = true) s1.trace i)
    (hpr : probes (builtBy [] s.trace) evs = [] ∨
      (probes (builtBy [] s.trace) evs = [i] ∧ (s.node i).visited = false ∧ i < g.length)) :
    Phase g s1 where
  graph := hG
  fresh := by
    intro j hj
    have hji : j ≠ i := fun h => by rw [h, hv1] at hj; exact absurd hj (by simp)
    rw [hoth j hji] at hj ⊢
    exact hP.fresh j hj
  silent := by
    intro j hj
    have hji : j ≠ i := fun h => by rw [h, hv1] at hj; exact absurd hj (by simp)
    rw [hoth j hji] at hj
    rw [htr]
    exact Untagged_append (hP.silent j hj) (Untagged_of_tagged (Ne.symm hji) htag)
  noFail := by rw [htr]; exact NoFail_append hP.noFail hnf
  looping := by
    intro j hv hc
    by_cases hji : j = i
    · subst hji; exact hloop hc
    · rw [hoth j hji] at hv hc
      rw [htr]
      exact Looping_extend (hP.looping j hv hc) evs
        (Untagged_onlyCycles (Untagged_of_tagged (Ne.symm hji) htag))
  done := by
    intro j hv hc
    by_cases hji : j = i
    · subst hji; exact hdone hc
    · rw [hoth j hji] at hv hc
      rw [htr]
      refine Finished_extend (hP.done j hv hc) _ evs (Untagged_of_tagged (Ne.symm hji) htag) ?_
      intro c hcP
      have hci : c ≠ i := by
        intro hci
        rw [hci, hnc] at hcP
        exact absurd hcP.2 (by simp)
      refine ⟨?_, Untagged_of_tagged (Ne.symm hci) htag⟩
      rw [hoth c hci]
      exact hcP
  probed := by
    rw [htr]
    obtain ⟨h1, h2⟩ := Phase_probes_extend hP i evs hpr
    refine ⟨h1, fun j hj => ⟨?_, (h2 j hj).2⟩⟩
    rcases (h2 j hj).1 with h | h
    · rw [h]; exact hv1
    · by_cases hji : j = i
      · rw [hji]; exact hv1
      · rw [hoth j hji]; exact h

/-- A step of the activation of node `i` that ends the run. -/
theorem Ended_step {W : Type} {g : List parentNode} {s : State W} (i : Nat) (evs : List Event)
    (m : Fatal) (hP : Phase g s) (htag : ∀ e ∈ evs, e.tag = some i)
    (hnc : (s.node i).completed = false) (hlife : Life g (s.trace ++ evs) i)
    (hpr : probes (builtBy [] s.trace) evs = [] ∨
      (probes (builtBy [] s.trace) evs = [i] ∧ (s.node i).visited = false ∧ i < g.length))
    (hfail : Failure g m (s.trace ++ evs)) : Ended g m (s.trace ++ evs) where
  life := by
    intro j
    by_cases hji : j = i
    · subst hji; exact hlife
    · exact Phase_life_extend hP i hnc evs htag j hji
  probed := by
    obtain ⟨h1, h2⟩ := Phase_probes_extend hP i evs hpr
    exact ⟨h1, fun j hj => (h2 j hj).2⟩
  failure := hfail

theorem Phase_probe {W : Type} (env : Env W) (g : List parentNode) (s : State W) (i : Nat)
    (hP : Phase g s) (hi : i < s.headLL.length) (h0 : (s.node i).visited = false) :
    match POTprobe env s i with
    | .ok s1 => PhaseLoop g i [] s1
    | .fatal m s1 => Ended g m s1.trace
    | _ => True := by
  have hpf := POTprobe_frame env s i hi h0
  have hpk := POTprobe_kind env s i hi
  have hc0 : (s.node i).completed = false := (hP.fresh i h0).2.2
  have hsil := hP.silent i h0
  have hilt : i < g.length := by rw [← hP.graph.len]; exact hi
  have hpr : probes (builtBy [] s.trace)
      [Event.stat i (s.node i).name (env.stat s.world (s.node i).name).1] = [] ∨
      (probes (builtBy [] s.trace)
        [Event.stat i (s.node i).name (env.stat s.world (s.node i).name).1] = [i] ∧
        (s.node i).visited = false ∧ i < g.length) := by
    refine Or.inr ⟨?_, h0, hilt⟩
    have : i ∉ builtBy [] s.trace := by
      rw [mem_builtBy]
      rintro (h | h)
      · exact absurd h (List.not_mem_nil _)
      · exact praseCMDS_untagged hsil h
    simp [probes, this]
  have htag : ∀ e ∈ [Event.stat i (s.node i).name (env.stat s.world (s.node i).name).1],
      e.tag = some i := by
    intro e he; rw [List.mem_singleton] at he; rw [he]; rfl
  have hloop : Looping g (s.trace ++
      [Event.stat i (s.node i).name (env.stat s.world (s.node i).name).1]) i := by
    rw [hP.graph.name]
    exact Looping_start g s.trace i _ hsil
  revert hpf hpk
  cases POTprobe env s i with
  | ok s1 =>
    simp only
    intro ⟨hF, hv1, htr, hoth⟩ hcomp
    have hc1 : (s1.node i).completed = false := by rw [hcomp]; exact hc0
    refine ⟨Phase_step i _ hP (hP.graph.ofFrame hF) htr htag ?_ hoth hc0 hv1
      (fun _ => by rw [htr]; exact hloop) (fun h => by rw [hc1] at h; exact absurd h (by simp)) hpr,
      hc1, fun c hc => absurd hc (List.not_mem_nil _)⟩
    intro e he k c heq
    rw [List.mem_singleton] at he
    rw [he] at heq
    simp at heq
  | fatal m s1 =>
    simp only
    intro ⟨_, htr, _⟩ hm
    rw [htr]
    refine Ended_step i _ m hP htag hc0 (Looping_life hloop) hpr (Or.inr ⟨?_, ?_⟩)
    · rcases hm with h | h <;> rw [h] <;> simp
    · refine NoFail_append hP.noFail ?_
      intro e he k c heq
      rw [List.mem_singleton] at he
      rw [he] at heq
      simp at heq
  | outOfFuel => simp
  | dangling => simp

theorem SameGraph_emit {W : Type} {g : List parentNode} {s : State W} (h : SameGraph g s)
    (e : Event) : SameGraph g (s.emit e) :=
  ⟨h.len, h.name, h.cmds, h.children, h.target⟩

theorem Phase_edge {W : Type} (g : List parentNode) (s cur s1 : State W) (i c : Nat)
    (seen : List Nat) (hi : i < s.headLL.length) (hA : Active i s cur)
    (hL : PhaseLoop g i seen cur) (hF : Frame cur s1) (hvc : (s1.node c).visited = true)
    (hP1 : Phase g s1) (hG : SameGraph g (POTedge i c s1)) :
    PhaseLoop g i (seen ++ [c]) (POTedge i c s1) := by
  have hi1 : i < s1.headLL.length := by rw [hF.len, hA.frame.len]; exact hi
  have hni : s1.node i = cur.node i := hF.visited i hA.visited
  have hv1 : (s1.node i).visited = true := by rw [hni]; exact hA.visited
  have hc1 : (s1.node i).completed = false := by rw [hni]; exact hL.notDone
  have hkids1 : ∀ x ∈ seen, Event.cycle i x ∈ s1.trace ∨
      ((s1.node x).visited = true ∧ (s1.node x).completed = true) := by
    intro x hx
    rcases hL.kids x hx with h | ⟨h1, h2⟩
    · obtain ⟨evs, he, _⟩ := hF.trace
      exact Or.inl (by rw [he]; exact List.mem_append_left _ h)
    · rw [hF.visited x h1]; exact Or.inr ⟨h1, h2⟩
  rcases POTedge_exact i c s1 hi1 with ⟨_, _, he⟩ | ⟨hncy, htr, hoth, _, _, hve, hce, _, _, _⟩
  · rw [he]
    refine ⟨Phase_step i [Event.cycle i c] hP1 (SameGraph_emit hP1.graph _) rfl ?_ ?_
      (fun _ _ => rfl) hc1 hv1 (fun _ => Looping_extend (hP1.looping i hv1 hc1) _
        (OnlyCycles_single i c)) (fun h => ?_) (Or.inl rfl), hc1, ?_⟩
    · intro e he; rw [List.mem_singleton] at he; rw [he]; rfl
    · intro e he k x heq
      rw [List.mem_singleton] at he
      rw [he] at heq
      simp at heq
    · rw [State.emit_node, hc1] at h; exact absurd h (by simp)
    · intro x hx
      rcases List.mem_append.mp hx with h | h
      · rcases hkids1 x h with h2 | h2
        · exact Or.inl (by rw [State.emit_trace]; exact List.mem_append_left _ h2)
        · exact Or.inr h2
      · rw [List.mem_singleton] at h
        subst h
        exact Or.inl (by simp)
  · have hve1 : ((POTedge i c s1).node i).visited = true := by rw [hve]; exact hv1
    have hce1 : ((POTedge i c s1).node i).completed = false := by rw [hce]; exact hc1
    refine ⟨Phase_step i [] hP1 hG (by rw [htr]; simp) (fun _ h => absurd h (List.not_mem_nil _))
      (fun _ h => absurd h (List.not_mem_nil _)) hoth hc1 hve1
      (fun _ => by rw [htr]; exact hP1.looping i hv1 hc1)
      (fun h => by rw [hce1] at h; exact absurd h (by simp)) (Or.inl rfl), hce1, ?_⟩
    have hflag : ∀ x, (s1.node x).visited = true → (s1.node x).completed = true →
        ((POTedge i c s1).node x).visited = true ∧ ((POTedge i c s1).node x).completed = true := by
      intro x h1 h2
      have hxi : x ≠ i := fun h => by rw [h, hc1] at h2; exact absurd h2 (by simp)
      rw [hoth x hxi]; exact ⟨h1, h2⟩
    intro x hx
    rcases List.mem_append.mp hx with h | h
    · rcases hkids1 x h with h2 | ⟨h2, h3⟩
      · exact Or.inl (by rw [htr]; exact h2)
      · exact Or.inr (hflag x h2 h3)
    · rw [List.mem_singleton] at h
      subst h
      have hcc : (s1.node x).completed = true := by
        cases hcc : (s1.node x).completed with
        | true => rfl
        | false => exact absurd ⟨hvc, hcc⟩ hncy
      exact Or.inr (hflag x hvc hcc)

theorem Phase_rebuild {W : Type} (env : Env W) (g : List parentNode) (s cur : State W) (i : Nat)
    (hi : i < s.headLL.length) (h0 : (s.node i).visited = false) (hGs : SameGraph g s)
    (hA : Active i s cur) (hL : PhaseLoop g i (nodeAt g i).children cur) :
    match POTrebuild env cur i with
    | .ok s1 => Phase g s1
    | .fatal m s1 => Ended g m s1.trace
    | _ => True := by
  have hic : i < cur.headLL.length := by rw [hA.frame.len]; exact hi
  have hfr := POTrebuild_frame env s cur i hi h0 hA.frame hA.done hA.visited
  have hex := POTrebuild_exact env cur i hic
  have hP := hL.phase
  have hloop := hP.looping i hA.visited hL.notDone
  have hname : (cur.node i).name = (nodeAt g i).name := hP.graph.name i
  have hcmds : (cur.node i).cmds = (nodeAt g i).cmds := hP.graph.cmds i
  have hne : ∀ c, (cur.node c).visited = true ∧ (cur.node c).completed = true → c ≠ i := by
    intro c hc hci
    rw [hci, hL.notDone] at hc
    exact absurd hc.2 (by simp)
  revert hfr hex
  cases POTrebuild env cur i with
  | ok s1 =>
    simp only
    intro ⟨hF, _, _, _⟩ ⟨_, hoth, hv1, hc1, _, hcase⟩
    have hv1t : (s1.node i).visited = true := by rw [hv1]; exact hA.visited
    have hG1 : SameGraph g s1 := hGs.ofFrame hF
    rcases hcase with ⟨_, htr, _⟩ | ⟨_, r, htr⟩
    · exact Phase_step i [] hP hG1 (by rw [htr]; simp) (fun _ h => absurd h (List.not_mem_nil _))
        (fun _ h => absurd h (List.not_mem_nil _)) hoth hL.notDone hv1t
        (fun h => by rw [hc1] at h; exact absurd h (by simp))
        (fun _ => by rw [htr]; exact Looping_finishQuiet hloop _) (Or.inl rfl)
    · rw [hname, hcmds] at htr
      refine Phase_step i (Event.praseCMDS i :: runEvents i (runnable (nodeAt g i).cmds) ++
          [Event.stat i (nodeAt g i).name r]) hP hG1 (by rw [htr, List.append_assoc])
        (tagged_rebuilt i (runnable (nodeAt g i).cmds) [Event.stat i (nodeAt g i).name r]
          (fun e he => by rw [List.mem_singleton] at he; rw [he]; rfl))
        (NoFail_rebuilt i _ _ r) hoth hL.notDone hv1t
        (fun h => by rw [hc1] at h; exact absurd h (by simp))
        (fun _ => ?_) (Or.inl (probes_rebuilt i (runnable (nodeAt g i).cmds)
          [Event.stat i (nodeAt g i).name r] (Or.inr (Or.inl ⟨_, _, rfl⟩)) _))
      rw [htr]
      refine Looping_finishBuilt hloop _ r ?_
      intro c hc
      rcases hL.kids c hc with h | h
      · exact Or.inl h
      · have hci := hne c h
        exact Or.inr ⟨by rw [hoth c hci]; exact h, hci⟩
  | fatal m s1 =>
    simp only
    intro _ ⟨_, _, hcase⟩
    have hkids : ∀ c ∈ (nodeAt g i).children, Event.cycle i c ∈ cur.trace ∨ c ≠ i := by
      intro c hc
      rcases hL.kids c hc with h | h
      · exact Or.inl h
      · exact Or.inr (hne c h)
    rcases hcase with ⟨hm, pre, ck, post, hrun, htr⟩ | ⟨hm, htr⟩
    · rw [hcmds] at hrun
      rw [htr, List.append_assoc]
      exact Ended_step i (Event.praseCMDS i :: runEvents i pre ++ [Event.system i ck false]) m hP
        (tagged_rebuilt i pre [Event.system i ck false]
          (fun e he => by rw [List.mem_singleton] at he; rw [he]; rfl))
        hL.notDone (by rw [← List.append_assoc]; exact Looping_lifeFailed hloop pre ck post hrun hkids)
        (Or.inl (probes_rebuilt i pre [Event.system i ck false] (Or.inr (Or.inr ⟨_, rfl⟩)) _))
        (Or.inl ⟨hm, cur.trace, i, pre, ck, post, (List.append_assoc _ _ _).symm, hrun, hP.noFail,
          Looping_noCommand hloop⟩)
    · rw [hname, hcmds] at htr
      rw [htr, List.append_assoc]
      exact Ended_step i (Event.praseCMDS i :: runEvents i (runnable (nodeAt g i).cmds) ++
          [Event.stat i (nodeAt g i).name none]) m hP
        (tagged_rebuilt i (runnable (nodeAt g i).cmds) [Event.stat i (nodeAt g i).name none]
          (fun e he => by rw [List.mem_singleton] at he; rw [he]; rfl))
        hL.notDone (by rw [← List.append_assoc]; exact Looping_lifeBuilt hloop none hkids)
        (Or.inl (probes_rebuilt i (runnable (nodeAt g i).cmds)
          [Event.stat i (nodeAt g i).name none] (Or.inr (Or.inl ⟨_, _, rfl⟩)) _))
        (Or.inr ⟨by rw [hm]; simp, NoFail_append hP.noFail (NoFail_rebuilt i _ _ none)⟩)
  | outOfFuel => simp
  | dangling => simp

/-- Every call of `POT` keeps the invariant of the traversal, and a call that ends the run
leaves a trace as described by `Ended`. -/
theorem POT_phase {W : Type} (env : Env W) (g : List parentNode) :
    ∀ (fuel : Nat) (s : State W) (i : Nat), Phase g s →
      match POT env fuel s i with
      | .ok s1 => Phase g s1
      | .fatal m s1 => Ended g m s1.trace
      | _ => True := by
  refine POT_rule env (fun s _ => Phase g s) (fun _ _ s1 => Phase g s1)
    (fun _ i seen cur => PhaseLoop g i seen cur) (fun m s1 => Ended g m s1.trace) ?_ ?_ ?_ ?_ ?_
  · intro s i hP _; exact hP
  · intro s i hP hi h0; exact Phase_probe env g s i hP hi h0
  · intro s i seen cur c _ _ _ _ hL _; exact hL.phase
  · intro s i seen cur c s1 hP hi h0 hA hL _ hF hD hvc hP1
    exact Phase_edge g s cur s1 i c seen hi hA hL hF hvc hP1
      (hP.graph.ofFrame ((hA.afterCall hF hD).afterEdge hi h0 c).frame)
  · intro s i cur hP hi h0 hA hL
    rw [hP.graph.children] at hL
    exact Phase_rebuild env g s cur i hi h0 hP.graph hA hL

/-- The invariant of the traversal holds at the start, when no node is marked visited. -/
theorem Phase_start {W : Type} (g : List parentNode) (world : W)
    (hfresh : ∀ n ∈ g, n.visited = false ∧ n.mustBuild = false ∧ n.doesExist = false ∧
      n.completed = false) : Phase g (State.start g world) where
  graph := SameGraph.atStart g world
  fresh := by
    intro j _
    have hn : (State.start g world).node j = nodeAt g j := rfl
    rw [hn]
    rcases nodeAt_mem_or_default g j with h | h
    · exact ⟨(hfresh _ h).2.1, (hfresh _ h).2.2.1, (hfresh _ h).2.2.2⟩
    · rw [h]; exact ⟨rfl, rfl, rfl⟩
  silent := fun _ _ _ h => absurd h (List.not_mem_nil _)
  noFail := fun _ h => absurd h (List.not_mem_nil _)
  looping := by
    intro j hv
    rcases nodeAt_mem_or_default g j with h | h
    · rw [show (State.start g world).node j = nodeAt g j from rfl, (hfresh _ h).1] at hv
      exact absurd hv (by simp)
    · rw [show (State.start g world).node j = nodeAt g j from rfl, h] at hv
      exact absurd hv (by decide)
  done := by
    intro j hv
    rcases nodeAt_mem_or_default g j with h | h
    · rw [show (State.start g world).node j = nodeAt g j from rfl, (hfresh _ h).1] at hv
      exact absurd hv (by simp)
    · rw [show (State.start g world).node j = nodeAt g j from rfl, h] at hv
      exact absurd hv (by decide)
  probed := ⟨List.nodup_nil, fun _ h => absurd h (List.not_mem_nil _)⟩

/-- The events of every node after a traversal that returned. -/
theorem Phase_life {W : Type} {g : List parentNode} {s : State W} (hP : Phase g s) (j : Nat) :
    Life g s.trace j := by
  cases hv : (s.node j).visited with
  | false => exact Or.inl (hP.silent j hv)
  | true =>
    cases hc : (s.node j).completed with
    | false => exact Looping_life (hP.looping j hv hc)
    | true => exact Finished_life (hP.done j hv hc)
/-! ## What the parser guarantees of the graph -/

theorem Parsed_nil : Parsed [] :=
  ⟨fun _ h => absurd h (List.not_mem_nil _), fun _ h => absurd h (List.not_mem_nil _),
   fun _ h => absurd h (List.not_mem_nil _)⟩

theorem Parsed_append {g : List parentNode} (h : Parsed g) (name : CStr) (t : Bool) :
    Parsed (g ++ [newNode name t]) where
  edges := by
    intro n hn c hc
    rw [List.length_append]
    rcases List.mem_append.mp hn with h1 | h1
    · exact Nat.lt_of_lt_of_le (h.edges n h1 c hc) (Nat.le_add_right _ _)
    · rw [List.mem_singleton] at h1
      rw [h1] at hc
      exact absurd hc (List.not_mem_nil _)
  fresh := by
    intro n hn
    rcases List.mem_append.mp hn with h1 | h1
    · exact h.fresh n h1
    · rw [List.mem_singleton] at h1
      rw [h1]; exact ⟨rfl, rfl, rfl, rfl⟩
  cmds := by
    intro n hn c hc
    rcases List.mem_append.mp hn with h1 | h1
    · exact h.cmds n h1 c hc
    · rw [List.mem_singleton] at h1
      rw [h1] at hc
      exact absurd hc (List.not_mem_nil _)

theorem mem_updNode {g : List parentNode} {a : Nat} {f : parentNode → parentNode} {n : parentNode}
    (h : n ∈ updNode g a f) : n ∈ g ∨ (n = f (nodeAt g a) ∧ a < g.length) := by
  unfold updNode at h
  by_cases ha : a < g.length
  · rcases List.mem_or_eq_of_mem_set h with h1 | h1
    · exact Or.inl h1
    · exact Or.inr ⟨h1, ha⟩
  · rw [List.set_eq_of_length_le (Nat.le_of_not_lt ha)] at h
    exact Or.inl h

theorem nodeAt_mem {g : List parentNode} {a : Nat} (ha : a < g.length) : nodeAt g a ∈ g := by
  rw [nodeAt_lt g a ha]; exact List.getElem_mem _

theorem Parsed_addChild {g : List parentNode} (h : Parsed g) (a c : Nat) (hc : c < g.length) :
    Parsed (updNode g a (parentNode.addChild c)) where
  edges := by
    intro n hn x hx
    rw [length_updNode]
    rcases mem_updNode hn with h1 | ⟨h1, ha⟩
    · exact h.edges n h1 x hx
    · rw [h1] at hx
      simp only [parentNode.addChild, addChildNode_eq] at hx
      split at hx
      · exact h.edges _ (nodeAt_mem ha) x hx
      · rcases List.mem_append.mp hx with h2 | h2
        · exact h.edges _ (nodeAt_mem ha) x h2
        · rw [List.mem_singleton] at h2; rw [h2]; exact hc
  fresh := by
    intro n hn
    rcases mem_updNode hn with h1 | ⟨h1, ha⟩
    · exact h.fresh n h1
    · rw [h1]; exact h.fresh (nodeAt g a) (nodeAt_mem ha)
  cmds := by
    intro n hn x hx
    rcases mem_updNode hn with h1 | ⟨h1, ha⟩
    · exact h.cmds n h1 x hx
    · rw [h1] at hx; exact h.cmds _ (nodeAt_mem ha) x hx

theorem Parsed_setCmds {g : List parentNode} (h : Parsed g) (a : Nat) (CMDS : List CStr)
    (hC : ∀ c ∈ CMDS, charAt c 0 ≠ '\x00') : Parsed (updNode g a (parentNode.setCmds CMDS)) where
  edges := by
    intro n hn x hx
    rw [length_updNode]
    rcases mem_updNode hn with h1 | ⟨h1, ha⟩
    · exact h.edges n h1 x hx
    · rw [h1] at hx; exact h.edges _ (nodeAt_mem ha) x hx
  fresh := by
    intro n hn
    rcases mem_updNode hn with h1 | ⟨h1, ha⟩
    · exact h.fresh n h1
    · rw [h1]; exact h.fresh (nodeAt g a) (nodeAt_mem ha)
  cmds := by
    intro n hn x hx
    rcases mem_updNode hn with h1 | ⟨h1, _⟩
    · exact h.cmds n h1 x hx
    · rw [h1] at hx; exact hC x hx

theorem depLoop_parsed (fuel : Nat) :
    ∀ (g : List parentNode) (tn : Option CStr) (a : Nat) (rest : CStr), Parsed g →
      Parsed (depLoop fuel g tn a rest).1 := by
  induction fuel with
  | zero => intro g tn a rest h; exact h
  | succ fuel ih =>
    intro g tn a rest h
    unfold depLoop
    simp only
    by_cases ht : scanToken rest = []
    · rw [if_pos ht]; exact h
    · rw [if_neg ht]
      cases hf : findParentNode g (scanToken rest) with
      | some idx =>
        simp only
        exact ih _ _ _ _ (Parsed_addChild h a idx (findParentNode_lt g _ idx hf))
      | none =>
        simp only
        rw [addParentNode_fst]
        exact ih _ _ _ _ (Parsed_addChild (Parsed_append h _ false) a g.length (by simp))

theorem useActionLineAndAddNodes_parsed (g : List parentNode) (tn : Option CStr) (line : CStr)
    (g1 : List parentNode) (tn1 : Option CStr) (a : Nat) (h : Parsed g)
    (hu : useActionLineAndAddNodes g tn line = .ok (g1, tn1, a)) : Parsed g1 := by
  unfold useActionLineAndAddNodes at hu
  cases hs : sscanfTarget line with
  | none => rw [hs] at hu; simp at hu
  | some p =>
    obtain ⟨target, restPointers⟩ := p
    rw [hs] at hu
    simp only at hu
    by_cases hd : searchHeadActionForDup g target = true
    · rw [if_pos hd] at hu; simp at hu
    · rw [if_neg hd] at hu
      injection hu with hu
      injection hu with hg _
      rw [← hg]
      cases hf : findParentNode g target with
      | some idx => exact depLoop_parsed _ _ _ _ _ h
      | none =>
        simp only
        rw [addParentNode_fst]
        exact depLoop_parsed _ _ _ _ _ (Parsed_append h _ true)

theorem cstr_no_nul (l : List Char) : ∀ c ∈ cstr l, c ≠ '\x00' := by
  intro c hc
  unfold cstr at hc
  have := List.mem_takeWhile_imp hc
  simpa using this

/-- One line keeps the guarantees, for the graph and for the commands read so far. -/
theorem parseLine_parsed (st st1 : ParseState) (l : List Char)
    (h : Parsed st.headLL) (hC : ∀ c ∈ st.CMDS, charAt c 0 ≠ '\x00')
    (hp : parseLine st l = .ok st1) :
    Parsed st1.headLL ∧ ∀ c ∈ st1.CMDS, charAt c 0 ≠ '\x00' := by
  by_cases htab : charAt (cstr l) 0 = '\t'
  · rw [parseLine_tab st l htab] at hp
    by_cases hnil : st.headLL = []
    · rw [if_pos hnil] at hp; simp at hp
    · rw [if_neg hnil] at hp
      split at hp
      · rename_i hlen
        injection hp with hp
        subst hp
        refine ⟨h, ?_⟩
        intro c hc
        simp only [addLine, List.mem_append, List.mem_singleton] at hc
        rcases hc with hc | hc
        · exact hC c hc
        · rw [hc]
          have hne : ((cstr l).dropWhile isspace).takeWhile (fun c => c ≠ '\n') ≠ [] :=
            List.length_pos.mp hlen
          obtain ⟨x, xs, hx⟩ := List.exists_cons_of_ne_nil hne
          rw [hx]
          have hmem : x ∈ ((cstr l).dropWhile isspace).takeWhile (fun c => c ≠ '\n') := by
            rw [hx]; exact List.mem_cons_self _ _
          have h1 := (List.takeWhile_sublist _).subset hmem
          have h2 := (List.dropWhile_sublist _).subset h1
          exact cstr_no_nul l x h2
      · injection hp with hp
        subst hp
        exact ⟨h, hC⟩
  · by_cases hblank : charAt (cstr l) 0 = '\x00' ∨ charAt (cstr l) 0 = '\n'
    · rw [parseLine_blank st l hblank] at hp
      injection hp with hp
      subst hp
      exact ⟨h, hC⟩
    · rw [parseLine_target st l htab hblank] at hp
      split at hp
      · simp at hp
      · have hstored : Parsed (storeCmds st) := by
          unfold storeCmds
          cases st.temp with
          | none => exact h
          | some t => exact Parsed_setCmds h t st.CMDS hC
        cases hu : useActionLineAndAddNodes (storeCmds st) st.targetNode (fixLine (cstr l)) with
        | error e => rw [hu] at hp; simp at hp
        | ok r =>
          obtain ⟨g1, tn1, a⟩ := r
          rw [hu] at hp
          simp only at hp
          injection hp with hp
          subst hp
          exact ⟨useActionLineAndAddNodes_parsed _ _ _ g1 tn1 a hstored hu,
            fun _ hc => absurd hc (List.not_mem_nil _)⟩

theorem parseLines_parsed (lines : List (List Char)) :
    ∀ (st st1 : ParseState), Parsed st.headLL → (∀ c ∈ st.CMDS, charAt c 0 ≠ '\x00') →
      parseLines st lines = .ok st1 →
      Parsed st1.headLL ∧ ∀ c ∈ st1.CMDS, charAt c 0 ≠ '\x00' := by
  induction lines with
  | nil =>
    intro st st1 h hC hp
    simp only [parseLines] at hp
    injection hp with hp
    subst hp
    exact ⟨h, hC⟩
  | cons l rest ih =>
    intro st st1 h hC hp
    simp only [parseLines] at hp
    cases hl : parseLine st l with
    | error e => rw [hl] at hp; simp at hp
    | ok st2 =>
      rw [hl] at hp
      simp only at hp
      obtain ⟨h2, hC2⟩ := parseLine_parsed st st2 l h hC hl
      exact ih st2 st1 h2 hC2 hp

/-- The graph of a rule file that was read without error: every edge points into the
list, no node is marked, and no command is empty. -/
theorem parseMakeFileData_parsed (lines : List (List Char)) (st : ParseState)
    (h : parseMakeFileData lines = .ok st) : Parsed st.headLL := by
  unfold parseMakeFileData at h
  cases hl : parseLines ParseState.init lines with
  | error e => rw [hl] at h; simp at h
  | ok st1 =>
    rw [hl] at h
    simp only at h
    obtain ⟨h1, hC1⟩ := parseLines_parsed lines ParseState.init st1 Parsed_nil
      (fun _ hc => absurd hc (List.not_mem_nil _)) hl
    by_cases hc : st1.CMDS ≠ []
    · rw [if_pos hc] at h
      injection h with h
      subst h
      simp only
      unfold storeCmds
      cases st1.temp with
      | none => exact h1
      | some t => exact Parsed_setCmds h1 t st1.CMDS hC1
    · rw [if_neg hc] at h
      injection h with h
      subst h
      exact h1
/-! ## Memoization, command failure, execution order, termination -/

/-- A traversal from the start, with a depth bound above the number of nodes, returns
or ends the run, and keeps the invariant of the traversal. -/
theorem POT_history {W : Type} (env : Env W) (g : List parentNode) (world : W) (root fuel : Nat)
    (hwf : WellFormed g)
    (hfresh : ∀ n ∈ g, n.visited = false ∧ n.mustBuild = false ∧ n.doesExist = false ∧
      n.completed = false)
    (hroot : root < g.length) (hfuel : g.length < fuel) :
    match POT env fuel (State.start g world) root with
    | .ok s1 => Phase g s1
    | .fatal m s1 => Ended g m s1.trace
    | _ => False := by
  have hfin := POT_finished env fuel (State.start g world) root
    (fun j c hc => WellFormed.node (s := State.start g world) hwf j c hc) hroot
    (Nat.lt_of_le_of_lt (unvisitedCount_le_length _) hfuel)
  have hph := POT_phase env g fuel (State.start g world) root (Phase_start g world hfresh)
  revert hfin hph
  cases POT env fuel (State.start g world) root with
  | ok s1 => simp only; exact fun _ h => h
  | fatal m s1 => simp only; exact fun _ h => h
  | outOfFuel => simp [Outcome.finished]
  | dangling => simp [Outcome.finished]

/-- A node whose command list was started: where the call stands in the trace. -/
theorem Life_started {g : List parentNode} {t : List Event} {i : Nat} (h : Life g t i)
    (hs : Event.praseCMDS i ∈ t) :
    ∃ t0 rest, t = t0 ++ Event.praseCMDS i :: rest ∧
      (∀ e ∈ t0, e.isCommand = true → e.tag ≠ some i) ∧ Rebuilt g i rest ∧
      ∀ c ∈ (nodeAt g i).children, Event.cycle i c ∈ t0 ∨ Untagged c rest := by
  rcases h with h | ⟨t0, r, t1, ht, h0, h1⟩
  · exact absurd hs (praseCMDS_untagged h)
  · rcases h1 with h1 | ⟨t1a, rest, ht1, h1a, hR, hk⟩
    · exact absurd hs (fun hm => by
        have := Looping_noCommand ⟨t0, r, t1, ht, h0, h1⟩ _ hm rfl
        exact this rfl)
    · refine ⟨t0 ++ Event.stat i (nodeAt g i).name r :: t1a, rest, by rw [ht, ht1]; simp, ?_, hR, ?_⟩
      · exact Looping_noCommand ⟨t0, r, t1a, rfl, h0, h1a⟩
      · intro c hc
        rcases hk c hc with h2 | h2
        · exact Or.inl (List.mem_append_right _ (List.mem_cons_of_mem _ h2))
        · exact Or.inr h2

/-- A node whose command list was not started has no command event. -/
theorem Life_idle {g : List parentNode} {t : List Event} {i : Nat} (h : Life g t i)
    (hs : Event.praseCMDS i ∉ t) : ∀ e ∈ t, e.isCommand = true → e.tag ≠ some i := by
  rcases h with h | ⟨t0, r, t1, ht, h0, h1⟩
  · exact fun e he _ => h e he
  · rcases h1 with h1 | ⟨t1a, rest, ht1, _, _, _⟩
    · exact Looping_noCommand ⟨t0, r, t1, ht, h0, h1⟩
    · exact absurd (by rw [ht, ht1]; simp) hs

theorem Rebuilt_no_praseCMDS {g : List parentNode} {i : Nat} {rest : List Event}
    (h : Rebuilt g i rest) : Event.praseCMDS i ∉ rest := by
  intro hm
  rcases h with ⟨r, t3, hr, h3⟩ | ⟨pre, ck, post, _, hr⟩
  · rw [hr] at hm
    simp only [List.mem_append, List.mem_cons] at hm
    rcases hm with h | h | h
    · obtain ⟨c, hc | hc⟩ := runEvents_kind i _ _ h <;> simp at hc
    · simp at h
    · exact praseCMDS_untagged h3 h
  · rw [hr] at hm
    simp only [List.mem_append, List.mem_singleton] at hm
    rcases hm with h | h
    · obtain ⟨c, hc | hc⟩ := runEvents_kind i _ _ h <;> simp at hc
    · simp at h

/-- The command list of a node is started at most once. -/
theorem Life_count {g : List parentNode} {t : List Event} {i : Nat} (h : Life g t i) :
    t.count (Event.praseCMDS i) ≤ 1 := by
  by_cases hs : Event.praseCMDS i ∈ t
  · obtain ⟨t0, rest, ht, h0, hR, _⟩ := Life_started h hs
    have c0 : t0.count (Event.praseCMDS i) = 0 :=
      List.count_eq_zero.mpr (fun hm => h0 _ hm rfl rfl)
    have c1 : rest.count (Event.praseCMDS i) = 0 :=
      List.count_eq_zero.mpr (Rebuilt_no_praseCMDS hR)
    rw [ht, List.count_append, List.count_cons_self, c0, c1]
  · rw [List.count_eq_zero.mpr hs]; exact Nat.zero_le _

theorem Rebuilt_has_event {g : List parentNode} {i : Nat} {rest : List Event}
    (h : Rebuilt g i rest) : ∃ e ∈ rest, e.tag = some i := by
  rcases h with ⟨r, t3, hr, _⟩ | ⟨pre, ck, post, _, hr⟩
  · exact ⟨Event.stat i (nodeAt g i).name r, by rw [hr]; simp, rfl⟩
  · exact ⟨Event.system i ck false, by rw [hr]; simp, rfl⟩

/-- No command of a node stands in the trace before an event of a dependency whose edge
did not get the cycle message. -/
theorem Life_order {g : List parentNode} {t : List Event} {i c : Nat} (h : Life g t i)
    (hc : c ∈ (nodeAt g i).children) (hncy : Event.cycle i c ∉ t) (ta : List Event) (e1 : Event)
    (tb : List Event) (ht : t = ta ++ e1 :: tb) (he1 : e1.tag = some c) :
    ∀ e2 ∈ ta, e2.isCommand = true → e2.tag ≠ some i := by
  intro e2 he2
  by_cases hs : Event.praseCMDS i ∈ t
  · obtain ⟨t0, rest, ht0, h0, hR, hk⟩ := Life_started h hs
    rcases hk c hc with hcy | hun
    · exact absurd (by rw [ht0]; exact List.mem_append_left _ hcy) hncy
    · rw [ht] at ht0
      rcases List.append_eq_append_iff.mp ht0 with ⟨a1, h1, _⟩ | ⟨c1, h1, h2⟩
      · exact h0 e2 (by rw [h1]; exact List.mem_append_left _ he2)
      · exfalso
        cases c1 with
        | nil =>
          simp only [List.nil_append, List.cons.injEq] at h2
          rw [← h2.1] at he1
          injection he1 with he1
          subst he1
          obtain ⟨e, he, hte⟩ := Rebuilt_has_event hR
          exact hun e he hte
        | cons x xs =>
          simp only [List.cons_append, List.cons.injEq] at h2
          exact hun e1 (by rw [h2.2]; simp) he1
  · exact Life_idle h hs e2 (by rw [ht]; exact List.mem_append_left _ he2)

theorem POTchildren_append {W : Type} (call : State W → Nat → Outcome W) (i : Nat)
    (pre post : List Nat) (c : Nat) :
    ∀ s : State W, POTchildren call i (pre ++ c :: post) s =
      match POTchildren call i pre s with
      | .ok sa =>
        (match call sa c with
         | .ok sb => POTchildren call i post (POTedge i c sb)
         | other => other)
      | other => other := by
  induction pre with
  | nil => intro s; rfl
  | cons x rest ih =>
    intro s
    simp only [List.cons_append, POTchildren]
    cases call s x with
    | ok s1 => exact ih _
    | fatal m s1 => rfl
    | outOfFuel => rfl
    | dangling => rfl

/-- C19: on any graph as the parser leaves it, cyclic or not, a traversal returns or
ends the run, and then the events of every node in the trace are those of at
most one evaluation: nothing, or one probe of the file on arrival, the cycle
messages of the loop over the edges, and at most one run of the command list
(which ends with the probe of lines 170-179); the body of `POT` was entered at
most once for the node, and `praseCMDS` was called at most once for it.  A call of
`POT` on a node that is marked visited, completed or not, returns the state it was
given: no probe, no field written, no command run. -/
theorem C19_memoization {W : Type} (env : Env W) (g : List parentNode) (world : W)
    (root fuel : Nat) (hwf : WellFormed g)
    (hfresh : ∀ n ∈ g, n.visited = false ∧ n.mustBuild = false ∧ n.doesExist = false ∧
      n.completed = false)
    (hroot : root < g.length) (hfuel : g.length < fuel) :
    (∃ s1, (POT env fuel (State.start g world) root).last = some s1 ∧
      ∀ j, Life g s1.trace j ∧ (probes [] s1.trace).count j ≤ 1 ∧
        s1.trace.count (Event.praseCMDS j) ≤ 1) ∧
    (∀ (s : State W) (i : Nat), i < s.headLL.length → (s.node i).visited = true →
      POT env fuel s i = .ok s) := by
  constructor
  · have h := POT_history env g world root fuel hwf hfresh hroot hfuel
    revert h
    cases POT env fuel (State.start g world) root with
    | ok s1 =>
      simp only
      intro hP
      exact ⟨s1, rfl, fun j => ⟨Phase_life hP j, List.nodup_iff_count_le_one.mp hP.probed.1 j,
        Life_count (Phase_life hP j)⟩⟩
    | fatal m s1 =>
      simp only
      intro hE
      exact ⟨s1, rfl, fun j => ⟨hE.life j, List.nodup_iff_count_le_one.mp hE.probed.1 j,
        Life_count (hE.life j)⟩⟩
    | outOfFuel => simp
    | dangling => simp
  · intro s i hi hv
    obtain ⟨k, hk⟩ : ∃ k, fuel = k + 1 := ⟨fuel - 1, by omega⟩
    rw [hk]
    unfold POT
    rw [if_pos hi, if_pos hv]

/-- C20: for the graph of every rule file that was read without error, cyclic or not,
for every probe and every command runner, a call of `POT` on any node with a
depth bound above the number of nodes returns or ends the run; in its trace no
node occurs twice among the entries into the body of `POT`, so that the number of
these entries is at most the number of nodes. -/
theorem C20_termination {W : Type} (env : Env W) (lines : List (List Char)) (st : ParseState)
    (world : W) (i fuel : Nat) (hparse : parseMakeFileData lines = .ok st)
    (hi : i < st.headLL.length) (hfuel : st.headLL.length < fuel) :
    ∃ s1, (POT env fuel (State.start st.headLL world) i).last = some s1 ∧
      (probes [] s1.trace).Nodup ∧ (probes [] s1.trace).length ≤ st.headLL.length := by
  have hpg := parseMakeFileData_parsed lines st hparse
  have h := POT_history env st.headLL world i fuel hpg.edges hpg.fresh hi hfuel
  have hlen : ∀ l : List Nat, l.Nodup → (∀ j ∈ l, j < st.headLL.length) →
      l.length ≤ st.headLL.length := by
    intro l hn hl
    have h1 : l.toFinset ⊆ Finset.range st.headLL.length := by
      intro x hx
      rw [List.mem_toFinset] at hx
      exact Finset.mem_range.mpr (hl x hx)
    have h2 := Finset.card_le_card h1
    rw [List.toFinset_card_of_nodup hn, Finset.card_range] at h2
    exact h2
  revert h
  cases POT env fuel (State.start st.headLL world) i with
  | ok s1 =>
    simp only
    intro hP
    exact ⟨s1, rfl, hP.probed.1, hlen _ hP.probed.1 (fun j hj => (hP.probed.2 j hj).2)⟩
  | fatal m s1 =>
    simp only
    intro hE
    exact ⟨s1, rfl, hE.probed.1, hlen _ hE.probed.1 hE.probed.2⟩
  | outOfFuel => simp
  | dangling => simp

/-- C19 on the graph of `a : b`, `b : a` with both files present. -/
theorem C19_memoization_witness :
    (WellFormed cycleGraph ∧
      (∀ n ∈ cycleGraph, n.visited = false ∧ n.mustBuild = false ∧ n.doesExist = false ∧
        n.completed = false) ∧ 0 < cycleGraph.length ∧ cycleGraph.length < 3) ∧
    (∃ s1, (POT demoEnv 3 (State.start cycleGraph cycleWorld) 0).last = some s1 ∧
      ∀ j, Life cycleGraph s1.trace j ∧ (probes [] s1.trace).count j ≤ 1 ∧
        s1.trace.count (Event.praseCMDS j) ≤ 1) ∧
    (∀ (s : State DemoWorld) (i : Nat), i < s.headLL.length → (s.node i).visited = true →
      POT demoEnv 3 s i = .ok s) :=
  ⟨⟨by unfold WellFormed; decide, by decide, by decide, by decide⟩,
    C19_memoization demoEnv cycleGraph cycleWorld 0 3 (by unfold WellFormed; decide) (by decide)
      (by decide) (by decide)⟩

/-- C20 on the rule file `a : b`, `b : a` with both files present. -/
theorem C20_termination_witness :
    (parseMakeFileData (getlines "a : b\nb : a\n".toList) = .ok
        { headLL := cycleGraph, targetNode := some "a".toList, CMDS := [], temp := some 1 } ∧
      0 < cycleGraph.length ∧ cycleGraph.length < 3) ∧
    ∃ s1, (POT demoEnv 3 (State.start cycleGraph cycleWorld) 0).last = some s1 ∧
      (probes [] s1.trace).Nodup ∧ (probes [] s1.trace).length ≤ cycleGraph.length :=
  ⟨⟨rfl, by decide, by decide⟩,
    C20_termination demoEnv (getlines "a : b\nb : a\n".toList)
      { headLL := cycleGraph, targetNode := some "a".toList, CMDS := [], temp := some 1 }
      cycleWorld 0 3 rfl (by decide) (by decide)⟩

/-- C18: on any graph as the parser leaves it, a traversal returns or ends the run, and
in its trace, for every dependency edge from `i` to `c` that did not get the cycle
message, no command event of `i` stands before an event of `c`: every command of
the dependency was run before every command of the node.  In detail, for every
node `i` whose command list was started: the call
`praseCMDS i` is followed directly by the events of the commands of the node, in
the order of its command list (all of those that are not empty and then the
second probe, or those before a command that failed); no command event of the
node stands elsewhere; and for every dependency edge from `i` to `c`, either the
cycle message for the edge stands before the call, or no event of `c` follows
the call, so that every command of `c` was run before every command of `i`.  A
node whose command list was not started has no command event.  The loop over
the edges takes them in the order of the list: the call for an edge is made in
the state the loop over the edges before it left, and the edges behind it are
taken after it was examined. -/
theorem C18_bottom_up_order {W : Type} (env : Env W) (g : List parentNode) (world : W)
    (root fuel : Nat) (hwf : WellFormed g)
    (hfresh : ∀ n ∈ g, n.visited = false ∧ n.mustBuild = false ∧ n.doesExist = false ∧
      n.completed = false)
    (hroot : root < g.length) (hfuel : g.length < fuel) :
    (∃ s1, (POT env fuel (State.start g world) root).last = some s1 ∧
      (∀ i c, c ∈ (nodeAt g i).children → Event.cycle i c ∉ s1.trace →
        ∀ (ta : List Event) (e1 : Event) (tb : List Event), s1.trace = ta ++ e1 :: tb →
          e1.tag = some c → ∀ e2 ∈ ta, e2.isCommand = true → e2.tag ≠ some i) ∧
      ∀ i, (Event.praseCMDS i ∈ s1.trace →
          ∃ t0 rest, s1.trace = t0 ++ Event.praseCMDS i :: rest ∧
            (∀ e ∈ t0, e.isCommand = true → e.tag ≠ some i) ∧ Rebuilt g i rest ∧
            ∀ c ∈ (nodeAt g i).children, Event.cycle i c ∈ t0 ∨ Untagged c rest) ∧
        (Event.praseCMDS i ∉ s1.trace → ∀ e ∈ s1.trace, e.isCommand = true → e.tag ≠ some i)) ∧
    (∀ (call : State W → Nat → Outcome W) (i : Nat) (pre post : List Nat) (c : Nat) (s : State W),
      POTchildren call i (pre ++ c :: post) s =
        match POTchildren call i pre s with
        | .ok sa =>
          (match call sa c with
           | .ok sb => POTchildren call i post (POTedge i c sb)
           | other => other)
        | other => other) := by
  refine ⟨?_, fun call i pre post c s => POTchildren_append call i pre post c s⟩
  have h := POT_history env g world root fuel hwf hfresh hroot hfuel
  revert h
  cases POT env fuel (State.start g world) root with
  | ok s1 =>
    simp only
    intro hP
    exact ⟨s1, rfl, fun i c hc hncy => Life_order (Phase_life hP i) hc hncy,
      fun i => ⟨Life_started (Phase_life hP i), Life_idle (Phase_life hP i)⟩⟩
  | fatal m s1 =>
    simp only
    intro hE
    exact ⟨s1, rfl, fun i c hc hncy => Life_order (hE.life i) hc hncy,
      fun i => ⟨Life_started (hE.life i), Life_idle (hE.life i)⟩⟩
  | outOfFuel => simp
  | dangling => simp

/-- C18 on the chain `a : b`, `b : c` where only `c` has a file: the command of `b` is run
before the command of `a`. -/
theorem C18_bottom_up_order_witness :
    parseMakeFileData (getlines "b : c\n\ttouch b\na : b\n\ttouch a\n".toList) = .ok
      { headLL := chainGraph, targetNode := some "b".toList, CMDS := ["touch a".toList],
        temp := some 2 } ∧
    (WellFormed chainGraph ∧
      (∀ n ∈ chainGraph, n.visited = false ∧ n.mustBuild = false ∧ n.doesExist = false ∧
        n.completed = false) ∧ 2 < chainGraph.length ∧ chainGraph.length < 4) ∧
    (∃ s1, POT demoEnv 4 (State.start chainGraph chainWorld) 2 = .ok s1 ∧
      s1.trace = [.stat 2 "a".toList none, .stat 0 "b".toList none, .stat 1 "c".toList (some 5),
        .praseCMDS 0, .system 0 "touch b".toList true, .echo 0 "touch b".toList,
        .stat 0 "b".toList (some 10),
        .praseCMDS 2, .system 2 "touch a".toList true, .echo 2 "touch a".toList,
        .stat 2 "a".toList (some 11)]) ∧
    (∃ s1, (POT demoEnv 4 (State.start chainGraph chainWorld) 2).last = some s1 ∧
      (∀ i c, c ∈ (nodeAt chainGraph i).children → Event.cycle i c ∉ s1.trace →
        ∀ (ta : List Event) (e1 : Event) (tb : List Event), s1.trace = ta ++ e1 :: tb →
          e1.tag = some c → ∀ e2 ∈ ta, e2.isCommand = true → e2.tag ≠ some i) ∧
      ∀ i, (Event.praseCMDS i ∈ s1.trace →
          ∃ t0 rest, s1.trace = t0 ++ Event.praseCMDS i :: rest ∧
            (∀ e ∈ t0, e.isCommand = true → e.tag ≠ some i) ∧ Rebuilt chainGraph i rest ∧
            ∀ c ∈ (nodeAt chainGraph i).children, Event.cycle i c ∈ t0 ∨ Untagged c rest) ∧
        (Event.praseCMDS i ∉ s1.trace →
          ∀ e ∈ s1.trace, e.isCommand = true → e.tag ≠ some i)) :=
  ⟨rfl, ⟨by unfold WellFormed; decide, by decide, by decide, by decide⟩, ⟨_, rfl, rfl⟩,
    (C18_bottom_up_order demoEnv chainGraph chainWorld 2 4 (by unfold WellFormed; decide)
      (by decide) (by decide) (by decide)).1⟩
/-! ## Cycles and staleness on any graph -/

/-- While no cycle message was written, everything reachable from a completed node is
completed. -/
theorem Audit_complete {W : Type} {g : List parentNode} {root : Nat} {s : State W}
    (hA : Audit g root s) (hno : ∀ a b, Event.cycle a b ∉ s.trace) (b : Nat)
    (hb : (s.node b).completed = true) (v : Nat) (hr : Reach g b v) :
    (s.node v).completed = true := by
  induction hr with
  | refl => exact hb
  | step _ hc ih =>
    rcases hA.closed _ ih _ hc with h | h
    · exact absurd h (hno _ _)
    · exact h.2

/-- A step of the activation of node `i` for the invariant of cycles and staleness. -/
theorem Audit_step {W : Type} {g : List parentNode} {root : Nat} {s s1 : State W} (i : Nat)
    (evs : List Event) (hA : Audit g root s) (hG : SameGraph g s1)
    (htr : s1.trace = s.trace ++ evs) (htag : ∀ e ∈ evs, e.tag = some i)
    (hoth : ∀ j, j ≠ i → s1.node j = s.node j) (hnc : (s.node i).completed = false)
    (hv1 : (s1.node i).visited = true) (hreach : Reach g root i)
    (hcyc : ∀ a b, Event.cycle a b ∈ evs →
      b ∈ (nodeAt g a).children ∧ Reach g root a ∧ Reach g b a)
    (hdone : (s1.node i).completed = true →
      (∀ c ∈ (nodeAt g i).children, Event.cycle i c ∈ s1.trace ∨
        ((s1.node c).visited = true ∧ (s1.node c).completed = true)) ∧
      ((∀ a b, Event.cycle a b ∉ s1.trace) → ∀ b ∈ (nodeAt g i).children, ¬ Reach g b i) ∧
      (∀ c ∈ (nodeAt g i).children, Event.cycle i c ∈ s1.trace ∨ (s1.node i).mustBuild = true ∨
        ¬ ((s1.node c).fileDate > (s1.node i).fileDate)) ∧
      ((s1.node i).mustBuild = true → Event.praseCMDS i ∈ s1.trace))
    (hdate : (s1.node i).mustBuild = false →
      firstProbe i s1.trace = some (some (s1.node i).fileDate)) : Audit g root s1 where
  graph := hG
  fresh := by
    intro j hj
    have hji : j ≠ i := fun h => by rw [h, hv1] at hj; exact absurd hj (by simp)
    rw [hoth j hji] at hj ⊢
    exact hA.fresh j hj
  silent := by
    intro j hj
    have hji : j ≠ i := fun h => by rw [h, hv1] at hj; exact absurd hj (by simp)
    rw [hoth j hji] at hj
    rw [htr]
    exact Untagged_append (hA.silent j hj) (Untagged_of_tagged (Ne.symm hji) htag)
  reach := by
    intro j hj
    by_cases hji : j = i
    · rw [hji]; exact hreach
    · rw [hoth j hji] at hj; exact hA.reach j hj
  cycles := by
    intro a b hab
    rw [htr] at hab
    rcases List.mem_append.mp hab with h | h
    · exact hA.cycles a b h
    · exact hcyc a b h
  closed := by
    intro j hj c hc
    by_cases hji : j = i
    · subst hji; exact (hdone hj).1 c hc
    · rw [hoth j hji] at hj
      rcases hA.closed j hj c hc with h | h
      · exact Or.inl (by rw [htr]; exact List.mem_append_left _ h)
      · have hci : c ≠ i := fun h2 => by rw [h2, hnc] at h; exact absurd h.2 (by simp)
        rw [hoth c hci]; exact Or.inr h
  acyclic := by
    intro j hj hno b hb
    by_cases hji : j = i
    · subst hji; exact (hdone hj).2.1 hno b hb
    · rw [hoth j hji] at hj
      exact hA.acyclic j hj (fun a b h => hno a b (by rw [htr]; exact List.mem_append_left _ h))
        b hb
  stale := by
    intro j hj c hc
    by_cases hji : j = i
    · subst hji; exact (hdone hj).2.2.1 c hc
    · rw [hoth j hji] at hj ⊢
      rcases hA.closed j hj c hc with h | h
      · exact Or.inl (by rw [htr]; exact List.mem_append_left _ h)
      · have hci : c ≠ i := fun h2 => by rw [h2, hnc] at h; exact absurd h.2 (by simp)
        rw [hoth c hci]
        rcases hA.stale j hj c hc with h2 | h2
        · exact Or.inl (by rw [htr]; exact List.mem_append_left _ h2)
        · exact Or.inr h2
  built := by
    intro j hj hm
    by_cases hji : j = i
    · subst hji; exact (hdone hj).2.2.2 hm
    · rw [hoth j hji] at hj hm
      rw [htr]; exact List.mem_append_left _ (hA.built j hj hm)
  probeDate := by
    intro j hj hm
    by_cases hji : j = i
    · subst hji; exact hdate hm
    · rw [hoth j hji] at hj hm ⊢
      rw [htr]
      exact firstProbe_keep j _ _ _ (hA.probeDate j hj hm)

theorem Audit_probe {W : Type} (env : Env W) (g : List parentNode) (root : Nat) (s : State W)
    (i : Nat) (hA : Audit g root s) (hreach : Reach g root i)
    (hpath : ∀ v, (s.node v).visited = true → (s.node v).completed = false → Reach g v i)
    (hi : i < s.headLL.length) (h0 : (s.node i).visited = false) :
    match POTprobe env s i with
    | .ok s1 => AuditLoop g root i [] s1
    | .fatal _ _ => True
    | _ => True := by
  have hpf := POTprobe_frame env s i hi h0
  obtain ⟨hmb0, hde0, hc0⟩ := hA.fresh i h0
  cases hp : POTprobe env s i with
  | ok s1 =>
    rw [hp] at hpf
    simp only at hpf ⊢
    obtain ⟨hF, hv1, htr, hoth⟩ := hpf
    obtain ⟨hmust, hdate, hcomp⟩ := POTprobe_ok_spec env s i hi hmb0 hde0 s1 hp
    have hc1 : (s1.node i).completed = false := by rw [hcomp]; exact hc0
    refine ⟨Audit_step i _ hA (hA.graph.ofFrame hF) htr ?_ hoth hc0 hv1 hreach ?_
      (fun h => by rw [hc1] at h; exact absurd h (by simp)) ?_, hc1, hreach, ?_,
      fun c hc => absurd hc (List.not_mem_nil _)⟩
    · intro e he; rw [List.mem_singleton] at he; rw [he]; rfl
    · intro a b hab
      rw [List.mem_singleton] at hab
      exact absurd hab (by simp)
    · intro hm
      cases hr : (env.stat s.world (s.node i).name).1 with
      | none =>
        rw [hmust.mpr hr] at hm
        exact absurd hm (by simp)
      | some t =>
        rw [htr, hr, firstProbe_append, firstProbe_untagged i _ (hA.silent i h0), hdate t hr]
        simp [firstProbe]
    · intro v hv hc
      by_cases hvi : v = i
      · rw [hvi]; exact Reach.refl i
      · rw [hoth v hvi] at hv hc
        exact hpath v hv hc
  | fatal m s1 => trivial
  | outOfFuel => trivial
  | dangling => trivial

theorem Audit_edge {W : Type} (g : List parentNode) (root : Nat) (s cur s1 : State W)
    (i c : Nat) (seen : List Nat) (hi : i < s.headLL.length) (hA : Active i s cur)
    (hL : AuditLoop g root i seen cur) (hc : c ∈ (nodeAt g i).children) (hF : Frame cur s1)
    (hD : Done cur s1) (hvc : (s1.node c).visited = true) (hA1 : Audit g root s1)
    (hG : SameGraph g (POTedge i c s1)) :
    AuditLoop g root i (seen ++ [c]) (POTedge i c s1) := by
  have hi1 : i < s1.headLL.length := by rw [hF.len, hA.frame.len]; exact hi
  have hni : s1.node i = cur.node i := hF.visited i hA.visited
  have hv1 : (s1.node i).visited = true := by rw [hni]; exact hA.visited
  have hc1 : (s1.node i).completed = false := by rw [hni]; exact hL.notDone
  have hpath1 : ∀ v, (s1.node v).visited = true → (s1.node v).completed = false →
      Reach g v i := by
    intro v hv hcv
    rcases hD v with h | ⟨_, _, h⟩
    · rw [h] at hv hcv; exact hL.path v hv hcv
    · rw [h] at hcv; exact absurd hcv (by simp)
  have hkids1 : ∀ x ∈ seen, Event.cycle i x ∈ s1.trace ∨
      ((s1.node x).visited = true ∧ (s1.node x).completed = true ∧
        ((s1.node i).mustBuild = true ∨ ¬ ((s1.node x).fileDate > (s1.node i).fileDate))) := by
    intro x hx
    rcases hL.kids x hx with h | ⟨h1, h2, h3⟩
    · obtain ⟨evs, he, _⟩ := hF.trace
      exact Or.inl (by rw [he]; exact List.mem_append_left _ h)
    · rw [hF.visited x h1, hni]; exact Or.inr ⟨h1, h2, h3⟩
  rcases POTedge_exact i c s1 hi1 with ⟨hcv, hcc, he⟩ |
    ⟨hncy, htr, hoth, _, _, hve, hce, _, hfe, hme⟩
  · rw [he]
    refine ⟨Audit_step i [Event.cycle i c] hA1 (SameGraph_emit hA1.graph _) rfl ?_
      (fun _ _ => rfl) hc1 hv1 hL.rooted ?_ (fun h => ?_) ?_, hc1, hL.rooted, hpath1, ?_⟩
    · intro e he; rw [List.mem_singleton] at he; rw [he]; rfl
    · intro a b hab
      rw [List.mem_singleton] at hab
      injection hab with h1 h2
      subst h1; subst h2
      exact ⟨hc, hL.rooted, hpath1 b hcv hcc⟩
    · rw [State.emit_node, hc1] at h; exact absurd h (by simp)
    · intro hm
      rw [State.emit_trace]
      exact firstProbe_keep i _ _ _ (hA1.probeDate i hv1 hm)
    · intro x hx
      rcases List.mem_append.mp hx with h | h
      · rcases hkids1 x h with h2 | h2
        · exact Or.inl (by rw [State.emit_trace]; exact List.mem_append_left _ h2)
        · exact Or.inr h2
      · rw [List.mem_singleton] at h
        subst h
        exact Or.inl (by simp)
  · have hve1 : ((POTedge i c s1).node i).visited = true := by rw [hve]; exact hv1
    have hce1 : ((POTedge i c s1).node i).completed = false := by rw [hce]; exact hc1
    have hcc : (s1.node c).completed = true := by
      cases hcc : (s1.node c).completed with
      | true => rfl
      | false => exact absurd ⟨hvc, hcc⟩ hncy
    have hsame : ∀ x, (s1.node x).completed = true → (POTedge i c s1).node x = s1.node x := by
      intro x h2
      have hxi : x ≠ i := fun h => by rw [h, hc1] at h2; exact absurd h2 (by simp)
      exact hoth x hxi
    refine ⟨Audit_step i [] hA1 hG (by rw [htr]; simp) (fun _ h => absurd h (List.not_mem_nil _))
      hoth hc1 hve1 hL.rooted (fun _ _ h => absurd h (List.not_mem_nil _))
      (fun h => by rw [hce1] at h; exact absurd h (by simp)) ?_, hce1, hL.rooted, ?_, ?_⟩
    · intro hm
      have hm1 : (s1.node i).mustBuild = false := by
        cases hm1 : (s1.node i).mustBuild with
        | false => rfl
        | true =>
          rw [hme.mpr (Or.inl hm1)] at hm
          exact absurd hm (by simp)
      rw [htr, hfe]
      exact hA1.probeDate i hv1 hm1
    · intro v hv hcv
      by_cases hvi : v = i
      · rw [hvi]; exact Reach.refl i
      · rw [hoth v hvi] at hv hcv
        exact hpath1 v hv hcv
    · intro x hx
      rcases List.mem_append.mp hx with h | h
      · rcases hkids1 x h with h2 | ⟨h2, h3, h4⟩
        · exact Or.inl (by rw [htr]; exact h2)
        · refine Or.inr ⟨by rw [hsame x h3]; exact h2, by rw [hsame x h3]; exact h3, ?_⟩
          rw [hsame x h3, hfe]
          rcases h4 with h4 | h4
          · exact Or.inl (hme.mpr (Or.inl h4))
          · exact Or.inr h4
      · rw [List.mem_singleton] at h
        subst h
        refine Or.inr ⟨by rw [hsame x hcc]; exact hvc, by rw [hsame x hcc]; exact hcc, ?_⟩
        rw [hsame x hcc, hfe]
        by_cases hgt : (s1.node x).fileDate > (s1.node i).fileDate
        · exact Or.inl (hme.mpr (Or.inr (Or.inr hgt)))
        · exact Or.inr hgt

theorem Audit_rebuild {W : Type} (env : Env W) (g : List parentNode) (root : Nat)
    (s cur : State W) (i : Nat) (hi : i < s.headLL.length) (h0 : (s.node i).visited = false)
    (hGs : SameGraph g s) (hA : Active i s cur)
    (hL : AuditLoop g root i (nodeAt g i).children cur) :
    match POTrebuild env cur i with
    | .ok s1 => Audit g root s1
    | .fatal _ _ => True
    | _ => True := by
  have hic : i < cur.headLL.length := by rw [hA.frame.len]; exact hi
  have hfr := POTrebuild_frame env s cur i hi h0 hA.frame hA.done hA.visited
  have hex := POTrebuild_exact env cur i hic
  have hAu := hL.audit
  revert hfr hex
  cases POTrebuild env cur i with
  | ok s1 =>
    simp only
    intro ⟨hF, _, _, _⟩ ⟨_, hoth, hv1, hc1, hm1, hcase⟩
    have hv1t : (s1.node i).visited = true := by rw [hv1]; exact hA.visited
    have hG1 : SameGraph g s1 := hGs.ofFrame hF
    have hsame : ∀ x, (cur.node x).completed = true → s1.node x = cur.node x := by
      intro x h2
      have hxi : x ≠ i := fun h => by rw [h, hL.notDone] at h2; exact absurd h2 (by simp)
      exact hoth x hxi
    obtain ⟨evs, htr, htag, hkind⟩ : ∃ evs, s1.trace = cur.trace ++ evs ∧
        (∀ e ∈ evs, e.tag = some i) ∧ (∀ a b, Event.cycle a b ∉ evs) := by
      rcases hcase with ⟨_, htr, _⟩ | ⟨_, r, htr⟩
      · exact ⟨[], by rw [htr]; simp, fun _ h => absurd h (List.not_mem_nil _),
          fun _ _ h => absurd h (List.not_mem_nil _)⟩
      · refine ⟨Event.praseCMDS i :: runEvents i (runnable (cur.node i).cmds) ++
          [Event.stat i (cur.node i).name r], by rw [htr, List.append_assoc],
          tagged_rebuilt i _ _ (fun e he => by rw [List.mem_singleton] at he; rw [he]; rfl), ?_⟩
        intro a b hab
        simp only [List.cons_append, List.mem_cons, List.mem_append, List.mem_singleton,
          List.not_mem_nil, or_false] at hab
        rcases hab with h | h | h
        · simp at h
        · obtain ⟨c1, hc | hc⟩ := runEvents_kind i _ _ h <;> simp at hc
        · simp at h
    refine Audit_step i evs hAu hG1 htr htag hoth hL.notDone hv1t hL.rooted
      (fun a b h => absurd h (hkind a b)) (fun _ => ⟨?_, ?_, ?_, ?_⟩) ?_
    · intro c hc
      rcases hL.kids c hc with h | ⟨h1, h2, _⟩
      · exact Or.inl (by rw [htr]; exact List.mem_append_left _ h)
      · rw [hsame c h2]; exact Or.inr ⟨h1, h2⟩
    · intro hno b hb hback
      have hno1 : ∀ a b, Event.cycle a b ∉ cur.trace :=
        fun a b h => hno a b (by rw [htr]; exact List.mem_append_left _ h)
      rcases hL.kids b hb with h | ⟨_, h2, _⟩
      · exact hno1 _ _ h
      · have := Audit_complete hAu hno1 b h2 i hback
        rw [hL.notDone] at this
        exact absurd this (by simp)
    · intro c hc
      rcases hL.kids c hc with h | ⟨_, h2, h3⟩
      · exact Or.inl (by rw [htr]; exact List.mem_append_left _ h)
      · rw [hsame c h2, hm1]
        rcases h3 with h3 | h3
        · exact Or.inr (Or.inl h3)
        · rcases hcase with ⟨_, _, hfd⟩ | ⟨hmb, _⟩
          · rw [hfd]; exact Or.inr (Or.inr h3)
          · exact Or.inr (Or.inl hmb)
    · intro hm
      rw [hm1] at hm
      rcases hcase with ⟨hmb, _⟩ | ⟨_, r, htr2⟩
      · rw [hmb] at hm; exact absurd hm (by simp)
      · rw [htr2]; simp
    · intro hm
      rw [hm1] at hm
      rcases hcase with ⟨_, htr2, hfd⟩ | ⟨hmb, _⟩
      · rw [htr2, hfd]; exact hAu.probeDate i hA.visited hm
      · rw [hmb] at hm; exact absurd hm (by simp)
  | fatal m s1 => simp
  | outOfFuel => simp
  | dangling => simp

/-- Every returning call of `POT` on a reachable node keeps the invariant of cycles and
staleness. -/
theorem POT_audit {W : Type} (env : Env W) (g : List parentNode) (root : Nat) :
    ∀ (fuel : Nat) (s : State W) (i : Nat),
      (Audit g root s ∧ Reach g root i ∧
        ∀ v, (s.node v).visited = true → (s.node v).completed = false → Reach g v i) →
      match POT env fuel s i with
      | .ok s1 => Audit g root s1
      | .fatal _ _ => True
      | _ => True := by
  refine POT_rule env
    (fun s i => Audit g root s ∧ Reach g root i ∧
      ∀ v, (s.node v).visited = true → (s.node v).completed = false → Reach g v i)
    (fun _ _ s1 => Audit g root s1)
    (fun _ i seen cur => AuditLoop g root i seen cur) (fun _ _ => True) ?_ ?_ ?_ ?_ ?_
  · intro s i hP _; exact hP.1
  · intro s i hP hi h0
    have := Audit_probe env g root s i hP.1 hP.2.1 hP.2.2 hi h0
    revert this
    cases POTprobe env s i <;> simp
  · intro s i seen cur c hP _ _ _ hL hc
    rw [hP.1.graph.children] at hc
    refine ⟨hL.audit, Reach.step hL.rooted hc, fun v hv hcv => Reach.step (hL.path v hv hcv) hc⟩
  · intro s i seen cur c s1 hP hi h0 hA hL hc hF hD hvc hA1
    rw [hP.1.graph.children] at hc
    exact Audit_edge g root s cur s1 i c seen hi hA hL hc hF hD hvc hA1
      (hP.1.graph.ofFrame ((hA.afterCall hF hD).afterEdge hi h0 c).frame)
  · intro s i cur hP hi h0 hA hL
    rw [hP.1.graph.children] at hL
    have := Audit_rebuild env g root s cur i hi h0 hP.1.graph hA hL
    revert this
    cases POTrebuild env cur i <;> simp

theorem Audit_start {W : Type} (g : List parentNode) (root : Nat) (world : W)
    (hfresh : ∀ n ∈ g, n.visited = false ∧ n.mustBuild = false ∧ n.doesExist = false ∧
      n.completed = false) : Audit g root (State.start g world) := by
  have hn : ∀ j, (State.start g world).node j = nodeAt g j := fun _ => rfl
  have hall : ∀ j, (nodeAt g j).visited = false ∧ (nodeAt g j).mustBuild = false ∧
      (nodeAt g j).doesExist = false ∧ (nodeAt g j).completed = false := by
    intro j
    rcases nodeAt_mem_or_default g j with h | h
    · exact hfresh _ h
    · rw [h]; exact ⟨rfl, rfl, rfl, rfl⟩
  refine ⟨SameGraph.atStart g world, ?_, ?_, ?_, ?_, ?_, ?_, ?_, ?_, ?_⟩
  · intro j _; rw [hn]; exact ⟨(hall j).2.1, (hall j).2.2.1, (hall j).2.2.2⟩
  · intro j _ e he; exact absurd he (List.not_mem_nil _)
  · intro j hj; rw [hn, (hall j).1] at hj; exact absurd hj (by simp)
  · intro a b h; exact absurd h (List.not_mem_nil _)
  · intro j hj; rw [hn, (hall j).2.2.2] at hj; exact absurd hj (by simp)
  · intro j hj; rw [hn, (hall j).2.2.2] at hj; exact absurd hj (by simp)
  · intro j hj; rw [hn, (hall j).2.2.2] at hj; exact absurd hj (by simp)
  · intro j hj; rw [hn, (hall j).2.2.2] at hj; exact absurd hj (by simp)
  · intro j hj; rw [hn, (hall j).1] at hj; exact absurd hj (by simp)

/-- After a traversal from the start that returned, the invariant of cycles and
staleness holds, and every visited node is completed. -/
theorem POT_audit_run {W : Type} (env : Env W) (g : List parentNode) (world : W)
    (root fuel : Nat) (s1 : State W)
    (hfresh : ∀ n ∈ g, n.visited = false ∧ n.mustBuild = false ∧ n.doesExist = false ∧
      n.completed = false)
    (hrun : POT env fuel (State.start g world) root = .ok s1) :
    Audit g root s1 ∧ (s1.node root).completed = true ∧
      ∀ j, (s1.node j).visited = true → (s1.node j).completed = true := by
  have hv0 : ∀ j, ((State.start g world).node j).visited = false := by
    intro j
    rw [show (State.start g world).node j = nodeAt g j from rfl]
    rcases nodeAt_mem_or_default g j with h | h
    · exact (hfresh _ h).1
    · rw [h]; rfl
  have hA := POT_audit env g root fuel (State.start g world) root
    ⟨Audit_start g root world hfresh, Reach.refl root, fun v hv _ => by
      rw [hv0 v] at hv; exact absurd hv (by simp)⟩
  have hfr := POT_frame env fuel (State.start g world) root
  rw [hrun] at hA hfr
  simp only at hA hfr
  have hall : ∀ j, (s1.node j).visited = true → (s1.node j).completed = true := by
    intro j hj
    rcases hfr.2.1 j with h | ⟨_, _, h⟩
    · rw [h, hv0 j] at hj; exact absurd hj (by simp)
    · exact h
  exact ⟨hA, hall root hfr.2.2, hall⟩

/-- C15: on any graph as the parser leaves it, when the traversal from `root` returns:
every cycle message stands for a dependency edge of a node reachable from `root`
whose target reaches the source of the edge (the target is the node itself or an
ancestor on the path), and a cycle message was written if and only if some edge
from a reachable node leads to a node that reaches it back, that is, if and only
if a directed cycle lies in the part of the graph reachable from `root`.  The
examination of an edge writes the cycle message exactly when the target of the
edge is visited and not completed; it then writes nothing else, so the flag
`mustBuild` of the node stays as it is, and the loop goes on with the next
edge. -/
theorem C15_cycle_detection {W : Type} (env : Env W) (g : List parentNode) (world : W)
    (root fuel : Nat) (s1 : State W)
    (hfresh : ∀ n ∈ g, n.visited = false ∧ n.mustBuild = false ∧ n.doesExist = false ∧
      n.completed = false)
    (hrun : POT env fuel (State.start g world) root = .ok s1) :
    (∀ a b, Event.cycle a b ∈ s1.trace →
      b ∈ (nodeAt g a).children ∧ Reach g root a ∧ Reach g b a) ∧
    ((∃ a b, Event.cycle a b ∈ s1.trace) ↔ ¬ AcyclicFrom g root) ∧
    (∀ (i c : Nat) (s : State W),
      ((s.node c).visited = true ∧ (s.node c).completed = false →
        POTedge i c s = s.emit (Event.cycle i c) ∧
        ((POTedge i c s).node i).mustBuild = (s.node i).mustBuild) ∧
      (¬ ((s.node c).visited = true ∧ (s.node c).completed = false) →
        (POTedge i c s).trace = s.trace)) ∧
    (∀ (call : State W → Nat → Outcome W) (i c : Nat) (rest : List Nat) (s sa : State W),
      call s c = .ok sa →
      POTchildren call i (c :: rest) s = POTchildren call i rest (POTedge i c sa)) := by
  obtain ⟨hA, hroot, _⟩ := POT_audit_run env g world root fuel s1 hfresh hrun
  refine ⟨hA.cycles, ⟨?_, ?_⟩, ?_, ?_⟩
  · rintro ⟨a, b, hab⟩ hac
    obtain ⟨h1, h2, h3⟩ := hA.cycles a b hab
    exact hac a b h2 h1 h3
  · intro hnac
    by_contra hne
    have hno : ∀ a b, Event.cycle a b ∉ s1.trace := fun a b h => hne ⟨a, b, h⟩
    apply hnac
    intro a b hra hb
    exact hA.acyclic a (Audit_complete hA hno root hroot a hra) hno b hb
  · intro i c s
    constructor
    · intro hcy
      have : POTedge i c s = s.emit (Event.cycle i c) := by
        unfold POTedge; rw [if_pos hcy]
      rw [this]
      exact ⟨rfl, rfl⟩
    · intro hcy
      unfold POTedge
      rw [if_neg hcy]
      split
      · split <;> rfl
      · rfl
  · intro call i c rest s sa hcall
    rw [POTchildren, hcall]

/-- C15 on the rules `a : b`, `b : a` with both files present: the traversal returns, and
the cycle message is written once, for the edge from `b` to `a`. -/
theorem C15_cycle_detection_witness :
    (∀ n ∈ cycleGraph, n.visited = false ∧ n.mustBuild = false ∧ n.doesExist = false ∧
      n.completed = false) ∧
    ∃ s1, POT demoEnv 3 (State.start cycleGraph cycleWorld) 0 = .ok s1 ∧
      s1.trace = [.stat 0 "a".toList (some 5), .stat 1 "b".toList (some 3), .cycle 1 0] ∧
      (∀ a b, Event.cycle a b ∈ s1.trace →
        b ∈ (nodeAt cycleGraph a).children ∧ Reach cycleGraph 0 a ∧ Reach cycleGraph b a) ∧
      ((∃ a b, Event.cycle a b ∈ s1.trace) ↔ ¬ AcyclicFrom cycleGraph 0) :=
  ⟨by decide, _, rfl, rfl,
    (C15_cycle_detection demoEnv cycleGraph cycleWorld 0 3 _ (by decide) rfl).1,
    (C15_cycle_detection demoEnv cycleGraph cycleWorld 0 3 _ (by decide) rfl).2.1⟩

/-- C16 as stated fails on a cycle: with the rules `a : b`, `b : a`, both files present and
`a` newer than `b`, the traversal returns; the node `b` was visited, its dependency
`a` has the recorded time 5, which is greater than the recorded time 3 of `b`, and
`b` is not marked `mustBuild` and its command list was not run. -/
theorem C16_staleness_counterexample :
    ∃ s1, POT demoEnv 3 (State.start cycleGraph cycleWorld) 0 = .ok s1 ∧
      (s1.node 1).visited = true ∧ 0 ∈ (nodeAt cycleGraph 1).children ∧
      (s1.node 0).fileDate = 5 ∧ (s1.node 1).fileDate = 3 ∧
      (s1.node 0).fileDate > (s1.node 1).fileDate ∧
      (s1.node 1).mustBuild = false ∧ Event.praseCMDS 1 ∉ s1.trace :=
  ⟨_, rfl, rfl, by decide, rfl, rfl, by decide, rfl, by decide⟩

/-- C16 as amended: on any graph as the parser leaves it, when the traversal returns, for
every visited node `j` and every dependency edge from `j` to `c` that did not get
the cycle message: the dependency is completed, and if its recorded time is
greater than the recorded time of `j`, or greater than the time the first probe
of `j` reported, then `j` is marked `mustBuild` and its command list was run,
whatever the other edges of `j` are and wherever the edge stands in the list. -/
theorem C16_staleness_amended {W : Type} (env : Env W) (g : List parentNode) (world : W)
    (root fuel : Nat) (s1 : State W)
    (hfresh : ∀ n ∈ g, n.visited = false ∧ n.mustBuild = false ∧ n.doesExist = false ∧
      n.completed = false)
    (hrun : POT env fuel (State.start g world) root = .ok s1)
    (j c : Nat) (hj : (s1.node j).visited = true) (hc : c ∈ (nodeAt g j).children)
    (hncy : Event.cycle j c ∉ s1.trace) :
    ((s1.node c).visited = true ∧ (s1.node c).completed = true) ∧
    ((s1.node c).fileDate > (s1.node j).fileDate →
      (s1.node j).mustBuild = true ∧ Event.praseCMDS j ∈ s1.trace) ∧
    (∀ t, firstProbe j s1.trace = some (some t) → (s1.node c).fileDate > t →
      (s1.node j).mustBuild = true ∧ Event.praseCMDS j ∈ s1.trace) := by
  obtain ⟨hA, _, hall⟩ := POT_audit_run env g world root fuel s1 hfresh hrun
  have hcj := hall j hj
  have hfirst : (s1.node c).fileDate > (s1.node j).fileDate →
      (s1.node j).mustBuild = true ∧ Event.praseCMDS j ∈ s1.trace := by
    intro hgt
    rcases hA.stale j hcj c hc with h | h | h
    · exact absurd h hncy
    · exact ⟨h, hA.built j hcj h⟩
    · exact absurd hgt h
  refine ⟨?_, hfirst, ?_⟩
  · rcases hA.closed j hcj c hc with h | h
    · exact absurd h hncy
    · exact h
  · intro t ht hgt
    cases hm : (s1.node j).mustBuild with
    | true => exact ⟨rfl, hA.built j hcj hm⟩
    | false =>
      have hp := hA.probeDate j hj hm
      rw [ht] at hp
      injection hp with hp
      injection hp with hp
      rw [hp] at hgt
      have := hfirst hgt
      rw [hm] at this
      exact absurd this.1 (by simp)

/-- C16 as amended, on the graph of scenario 2 with `main.o` (time 5) newer than `app`
(time 3). -/
theorem C16_staleness_amended_witness :
    ((∀ n ∈ scenario2Graph, n.visited = false ∧ n.mustBuild = false ∧ n.doesExist = false ∧
        n.completed = false) ∧
      1 ∈ (nodeAt scenario2Graph 0).children) ∧
    ∃ s1, POT demoEnv 3 (State.start scenario2Graph staleWorld) 0 = .ok s1 ∧
      (s1.node 0).visited = true ∧ Event.cycle 0 1 ∉ s1.trace ∧
      firstProbe 0 s1.trace = some (some 3) ∧ (s1.node 1).fileDate = 5 ∧
      ((s1.node 1).visited = true ∧ (s1.node 1).completed = true) ∧
      ((s1.node 1).fileDate > (s1.node 0).fileDate →
        (s1.node 0).mustBuild = true ∧ Event.praseCMDS 0 ∈ s1.trace) ∧
      (∀ t, firstProbe 0 s1.trace = some (some t) → (s1.node 1).fileDate > t →
        (s1.node 0).mustBuild = true ∧ Event.praseCMDS 0 ∈ s1.trace) :=
  ⟨⟨by decide, by decide⟩, _, rfl, rfl, by decide, rfl, rfl,
    C16_staleness_amended demoEnv scenario2Graph staleWorld 0 3 _ (by decide) rfl 0 1 rfl
      (by decide) (by decide)⟩
/-! ## The normal form produced by `fixLine` -/

theorem noDoubleSpace_cons (a : Char) (s : CStr) (h : noDoubleSpace s)
    (ha : isspace a = true → s ≠ [] → isspace (s.headD ' ') = false) :
    noDoubleSpace (a :: s) := by
  cases s with
  | nil => exact List.chain'_singleton _
  | cons b t =>
    refine List.chain'_cons.2 ⟨?_, h⟩
    intro ⟨h1, h2⟩
    have := ha h1 (by simp)
    simp only [List.headD] at this
    rw [this] at h2
    exact absurd h2 (by decide)

/-- Right of the colon the loop of `fixLine` leaves no two neighbouring white-space
characters and no colon. -/
theorem fixLineFrom_true_noDoubleSpace (s : CStr) (h : ':' ∉ s) :
    noDoubleSpace (fixLineFrom true s) ∧ ':' ∉ fixLineFrom true s := by
  induction s with
  | nil => exact ⟨List.chain'_nil, by simp [fixLineFrom]⟩
  | cons c rest ih =>
    have hc : c ≠ ':' := fun hc => h (by rw [hc]; exact List.mem_cons_self _ _)
    have hr : ':' ∉ rest := fun hr => h (List.mem_cons_of_mem _ hr)
    have ih := ih hr
    rw [fixLineFrom_true_cons c rest hc (headD_ne_colon rest hr)]
    by_cases hsk : (isspace c && isspace (rest.headD '\x00')) = true
    · rw [if_pos hsk]; exact ih
    · rw [if_neg hsk]
      refine ⟨noDoubleSpace_cons c _ ih.1 ?_, ?_⟩
      · intro hcs hne
        have hhead := fixLineFrom_true_head rest hr
        rw [hhead.2]
        have hrne : rest ≠ [] := fun e => hne (hhead.1.mpr e)
        cases hb : isspace (rest.headD ' ') with
        | false => rfl
        | true =>
          exact absurd (by rw [Bool.and_eq_true]; exact ⟨hcs, (isspace_headD rest).mpr ⟨hrne, hb⟩⟩) hsk
      · intro hm
        rcases List.mem_cons.1 hm with e | e
        · exact hc e.symm
        · exact ih.2 e

/-- Left of a colon that directly follows a character `x` other than white space, the
loop of `fixLine` copies the text without its leading white space (when nothing
was written yet) and with every run of white space cut to its last character,
and writes one space between `x` and the colon. -/
theorem fixLineFrom_word_colon (x : Char) (hx : isspace x = false) (hxc : x ≠ ':') (R : CStr) :
    ∀ (P : CStr), ':' ∉ P → ∀ b : Bool,
      ∃ A, fixLineFrom b (P ++ x :: ':' :: R) = A ++ x :: ' ' :: fixLineFrom true (':' :: R) ∧
        ':' ∉ A ∧ noDoubleSpace (A ++ [x]) ∧
        (isspace ((A ++ [x]).headD ' ') = true →
          b = true ∧ isspace ((P ++ [x]).headD ' ') = true) := by
  intro P
  induction P with
  | nil =>
    intro _ b
    refine ⟨[], ?_, by simp, List.chain'_singleton _, ?_⟩
    · rw [List.nil_append, fixLineFrom_cons]
      simp [hx]
    · intro h
      simp only [List.nil_append, List.headD] at h
      rw [hx] at h
      exact absurd h (by decide)
  | cons c rest ih =>
    intro hP b
    have hc : c ≠ ':' := fun hc => hP (by rw [hc]; exact List.mem_cons_self _ _)
    have hr : ':' ∉ rest := fun hr => hP (List.mem_cons_of_mem _ hr)
    have hhead : (rest ++ x :: ':' :: R).headD '\x00' = (rest ++ [x]).headD ' ' := by
      cases rest <;> rfl
    have hne : (rest ++ [x]).headD ' ' ≠ ':' := by
      cases rest with
      | nil => exact hxc
      | cons d r =>
        intro e
        exact hr (by simp only [List.cons_append, List.headD] at e; rw [e]; exact List.mem_cons_self _ _)
    rw [List.cons_append, fixLineFrom_cons, hhead]
    by_cases h1 : (!b && isspace c) = true
    · rw [if_pos h1]
      obtain ⟨A, hA, hcA, hdA, hhA⟩ := ih hr false
      refine ⟨A, hA, hcA, hdA, fun h => ?_⟩
      exact absurd (hhA h).1 (by decide)
    · rw [if_neg h1]
      by_cases h2 : (isspace c && isspace ((rest ++ [x]).headD ' ')) = true
      · rw [if_pos h2]
        obtain ⟨A, hA, hcA, hdA, hhA⟩ := ih hr b
        refine ⟨A, hA, hcA, hdA, fun h => ⟨(hhA h).1, ?_⟩⟩
        rw [Bool.and_eq_true] at h2
        simpa [List.headD] using h2.1
      · rw [if_neg h2, if_neg hne]
        have h4 : (decide (c = ':') && !isspace ((rest ++ [x]).headD ' ')) = false := by
          simp [hc]
        rw [h4]
        simp only [Bool.false_eq_true, if_false]
        obtain ⟨A, hA, hcA, hdA, hhA⟩ := ih hr true
        refine ⟨c :: A, by rw [hA]; rfl, ?_, ?_, ?_⟩
        · intro hm
          rcases List.mem_cons.1 hm with e | e
          · exact hc e.symm
          · exact hcA e
        · rw [List.cons_append]
          refine noDoubleSpace_cons c _ hdA ?_
          intro hcs _
          cases hb : isspace ((A ++ [x]).headD ' ') with
          | false => rfl
          | true =>
            exact absurd (by rw [Bool.and_eq_true]; exact ⟨hcs, (hhA hb).2⟩) h2
        · intro h
          simp only [List.cons_append, List.headD] at h ⊢
          refine ⟨?_, h⟩
          cases b with
          | true => rfl
          | false => rw [h] at h1; exact absurd rfl h1

theorem noDoubleSpace_append (A : CStr) (x : Char) (B : CStr) (hA : noDoubleSpace (A ++ [x]))
    (hB : noDoubleSpace (x :: B)) : noDoubleSpace (A ++ x :: B) :=
  List.chain'_split.2 ⟨hA, hB⟩

/-- On a line with exactly one colon that directly follows a character other than
white space, `fixLine` returns a text that does not begin with white space, in
which the colon is preceded by exactly one space (with a character other than
white space before it) and followed by exactly one white-space character, and
in which no two neighbouring characters are white space. -/
theorem fixLine_after_word (P R : CStr) (x : Char) (hP : ':' ∉ P) (hR : ':' ∉ R)
    (hx : isspace x = false) (hxc : x ≠ ':') :
    ∃ A w B, fixLine (P ++ x :: ':' :: R) = A ++ x :: ' ' :: ':' :: w :: B ∧
      ':' ∉ A ∧ ':' ∉ B ∧ isspace ((A ++ [x]).headD ' ') = false ∧
      isspace w = true ∧ (B ≠ [] → isspace (B.headD ' ') = false) ∧
      noDoubleSpace (fixLine (P ++ x :: ':' :: R)) := by
  obtain ⟨A, hA, hcA, hdA, hhA⟩ := fixLineFrom_word_colon x hx hxc R P hP false
  have hhead : isspace ((A ++ [x]).headD ' ') = false := by
    cases hb : isspace ((A ++ [x]).headD ' ') with
    | false => rfl
    | true => exact absurd (hhA hb).1 (by decide)
  have hR2 := fixLineFrom_true_noDoubleSpace R hR
  have hR3 := fixLineFrom_true_head R hR
  unfold fixLine
  rw [hA, fixLineFrom_colon true R (headD_ne_colon R hR)]
  have key : ∃ w B, (if isspace (R.headD '\x00') = true then fixLineFrom true R
        else ' ' :: fixLineFrom true R) = w :: B ∧ ':' ∉ B ∧ isspace w = true ∧
        (B ≠ [] → isspace (B.headD ' ') = false) ∧ noDoubleSpace (w :: B) := by
    by_cases hs : isspace (R.headD '\x00') = true
    · rw [if_pos hs]
      have hne := (isspace_headD R).mp hs
      cases hout : fixLineFrom true R with
      | nil => exact absurd (hR3.1.mp hout) hne.1
      | cons w B =>
        rw [hout] at hR2 hR3
        refine ⟨w, B, rfl, fun hm => hR2.2 (List.mem_cons_of_mem _ hm), ?_, ?_, hR2.1⟩
        · have := hR3.2
          simp only [List.headD] at this
          rw [this]; exact hne.2
        · intro hB
          have hw : isspace w = true := by
            have := hR3.2
            simp only [List.headD] at this
            rw [this]; exact hne.2
          cases B with
          | nil => exact absurd rfl hB
          | cons b B2 =>
            have hch := (List.chain'_cons.1 hR2.1).1
            simp only [List.headD]
            cases hb : isspace b with
            | false => rfl
            | true => exact absurd ⟨hw, hb⟩ hch
    · rw [if_neg hs]
      refine ⟨' ', fixLineFrom true R, rfl, hR2.2, by decide, ?_, ?_⟩
      · intro hB
        rw [hR3.2]
        have hRne : R ≠ [] := fun e => hB (hR3.1.mpr e)
        cases hb : isspace (R.headD ' ') with
        | false => rfl
        | true => exact absurd ((isspace_headD R).mpr ⟨hRne, hb⟩) hs
      · refine noDoubleSpace_cons ' ' _ hR2.1 ?_
        intro _ hB
        rw [hR3.2]
        have hRne : R ≠ [] := fun e => hB (hR3.1.mpr e)
        cases hb : isspace (R.headD ' ') with
        | false => rfl
        | true => exact absurd ((isspace_headD R).mpr ⟨hRne, hb⟩) hs
  obtain ⟨w, B, hwB, hcB, hw, hB, hdB⟩ := key
  rw [hwB]
  refine ⟨A, w, B, rfl, hcA, hcB, hhead, hw, hB, ?_⟩
  refine noDoubleSpace_append A x _ hdA ?_
  refine noDoubleSpace_cons x _ (noDoubleSpace_cons ' ' _ (noDoubleSpace_cons ':' _ hdB ?_) ?_) ?_
  · intro h; exact absurd h (by decide)
  · intro _ _
    show isspace ':' = false
    decide
  · intro h; rw [hx] at h; exact absurd h (by decide)

/-- A name is copied up to the white space behind it. -/
theorem fixLineFrom_name_copy (w : Char) (hw : isspace w = true) (T : CStr) :
    ∀ (name : CStr), name ≠ [] → (∀ c ∈ name, isspace c = false ∧ c ≠ ':') → ∀ b : Bool,
      fixLineFrom b (name ++ w :: T) = name ++ fixLineFrom true (w :: T) := by
  intro name
  induction name with
  | nil => intro hne; exact absurd rfl hne
  | cons n rest ih =>
    intro _ hname b
    have hn := hname n (List.mem_cons_self _ _)
    have hrest : ∀ x ∈ rest, isspace x = false ∧ x ≠ ':' :=
      fun x hx => hname x (List.mem_cons_of_mem _ hx)
    have h1 : (!b && isspace n) = false := by rw [hn.1]; simp
    have h2 : ∀ x, (isspace n && x) = false := fun x => by rw [hn.1]; rfl
    have h4 : ∀ x, (decide (n = ':') && x) = false := fun x => by simp [hn.2]
    have h3 : (rest ++ w :: T).headD '\x00' ≠ ':' := by
      cases rest with
      | nil => exact isspace_ne_colon w hw
      | cons d r => exact (hrest d (List.mem_cons_self _ _)).2
    rw [List.cons_append, fixLineFrom_cons, h1, h2, h4]
    simp only [Bool.false_eq_true, if_false, if_neg h3]
    cases rest with
    | nil => rfl
    | cons d r => rw [ih (by simp) hrest true]; rfl

/-- White space before the colon is cut to its last character, and a space is added
behind it. -/
theorem fixLineFrom_space_colon (R : CStr) :
    ∀ (Wl : CStr), Wl ≠ [] → (∀ c ∈ Wl, isspace c = true) →
      ∃ w, isspace w = true ∧
        fixLineFrom true (Wl ++ ':' :: R) = w :: ' ' :: fixLineFrom true (':' :: R) := by
  intro Wl
  induction Wl with
  | nil => intro hne; exact absurd rfl hne
  | cons c rest ih =>
    intro _ hW
    have hc := hW c (List.mem_cons_self _ _)
    have hrest : ∀ x ∈ rest, isspace x = true := fun x hx => hW x (List.mem_cons_of_mem _ hx)
    rw [List.cons_append, fixLineFrom_cons]
    simp only [Bool.not_true, Bool.false_and, Bool.false_eq_true, if_false]
    cases rest with
    | nil =>
      refine ⟨c, hc, ?_⟩
      have : isspace ':' = false := by decide
      simp [List.headD, this]
    | cons d rest2 =>
      have hd := hrest d (List.mem_cons_self _ _)
      obtain ⟨w, hw, heq⟩ := ih (by simp) hrest
      refine ⟨w, hw, ?_⟩
      simp only [List.cons_append, List.headD, hc, hd, Bool.and_self, if_true]
      exact heq

/-- On a rule line with white space between the name and the colon, `fixLine` writes two
white-space characters before the colon. -/
theorem fixLine_space_before_colon (W0 name Wl R : CStr) (hW0 : ∀ c ∈ W0, isspace c = true)
    (hne : name ≠ []) (hname : ∀ c ∈ name, isspace c = false ∧ c ≠ ':') (hWl : Wl ≠ [])
    (hW : ∀ c ∈ Wl, isspace c = true) (hR : ':' ∉ R) :
    ∃ w Z, isspace w = true ∧
      fixLine (W0 ++ name ++ Wl ++ ':' :: R) = name ++ w :: ' ' :: ':' :: Z := by
  obtain ⟨w, hw, heq⟩ := fixLineFrom_space_colon R Wl hWl hW
  obtain ⟨c, rest, hcr⟩ := List.exists_cons_of_ne_nil hWl
  have hc : isspace c = true := hW c (by rw [hcr]; exact List.mem_cons_self _ _)
  refine ⟨w, (if isspace (R.headD '\x00') = true then fixLineFrom true R
    else ' ' :: fixLineFrom true R), hw, ?_⟩
  unfold fixLine
  rw [List.append_assoc, List.append_assoc, fixLineFrom_false_lead W0 _ hW0]
  have e : Wl ++ ':' :: R = c :: (rest ++ ':' :: R) := by rw [hcr]; rfl
  rw [e, fixLineFrom_name_copy c hc _ name hne hname false, ← e, heq,
    fixLineFrom_colon true R (headD_ne_colon R hR)]

/-- C23 fails on every rule line with white space between the name and the colon, as
`a : b` and `a :b`: `fixLine` keeps the last of these white-space characters and
adds a space, so two white-space characters stand before the colon, and `a : b`
becomes `a  : b`.  (On a line whose colon stands first, as `:b`, no space is written
before the colon.)  On a line whose colon directly follows a character other
than white space, as `a:b` and `a:  b`, the normal form holds: the text does not
begin with white space, one space stands before the colon and one white-space
character behind it, and no two neighbouring characters are white space. -/
theorem C23_fixLine_normal_form :
    (fixLine "a : b".toList = "a  : b".toList ∧
      fixLine "a :b".toList = "a  : b".toList ∧
      ¬ noDoubleSpace (fixLine "a : b".toList) ∧
      fixLine "a:b".toList = "a : b".toList ∧
      fixLine "a:  b".toList = "a : b".toList ∧
      fixLine ":b".toList = ": b".toList) ∧
    (∀ (W0 name Wl R : CStr), (∀ c ∈ W0, isspace c = true) → name ≠ [] →
      (∀ c ∈ name, isspace c = false ∧ c ≠ ':') → Wl ≠ [] → (∀ c ∈ Wl, isspace c = true) →
      ':' ∉ R →
      ∃ w Z, isspace w = true ∧
        fixLine (W0 ++ name ++ Wl ++ ':' :: R) = name ++ w :: ' ' :: ':' :: Z) ∧
    (∀ (P R : CStr) (x : Char), ':' ∉ P → ':' ∉ R → isspace x = false → x ≠ ':' →
      ∃ A w B, fixLine (P ++ x :: ':' :: R) = A ++ x :: ' ' :: ':' :: w :: B ∧
        ':' ∉ A ∧ ':' ∉ B ∧ isspace ((A ++ [x]).headD ' ') = false ∧
        isspace w = true ∧ (B ≠ [] → isspace (B.headD ' ') = false) ∧
        noDoubleSpace (fixLine (P ++ x :: ':' :: R))) := by
  refine ⟨⟨by decide, by decide, ?_, by decide, by decide, by decide⟩,
    fixLine_space_before_colon, fixLine_after_word⟩
  intro h
  have e : fixLine "a : b".toList = ['a', ' ', ' ', ':', ' ', 'b'] := by decide
  rw [e] at h
  exact (List.chain'_cons.1 (List.chain'_cons.1 h).2).1 ⟨by decide, by decide⟩

/-- The general parts of C23 at the lines `app \t: main.o` and `  app:main.o   util.o`. -/
theorem C23_fixLine_normal_form_witness :
    (∃ w Z, isspace w = true ∧
      fixLine ([] ++ "app".toList ++ " \t".toList ++ ':' :: " main.o\n".toList) =
        "app".toList ++ w :: ' ' :: ':' :: Z) ∧
    fixLine "app \t: main.o\n".toList = "app\t : main.o\n".toList ∧
    fixLine "  app:main.o   util.o\n".toList = "app : main.o util.o\n".toList ∧
    ∃ A w B, fixLine ("  ap".toList ++ 'p' :: ':' :: "main.o   util.o\n".toList) =
        A ++ 'p' :: ' ' :: ':' :: w :: B ∧
      ':' ∉ A ∧ ':' ∉ B ∧ isspace ((A ++ ['p']).headD ' ') = false ∧
      isspace w = true ∧ (B ≠ [] → isspace (B.headD ' ') = false) ∧
      noDoubleSpace (fixLine ("  ap".toList ++ 'p' :: ':' :: "main.o   util.o\n".toList)) :=
  ⟨C23_fixLine_normal_form.2.1 [] "app".toList " \t".toList " main.o\n".toList (by decide)
      (by decide) (by decide) (by decide) (by decide) (by decide),
   by decide, by decide,
   C23_fixLine_normal_form.2.2 "  ap".toList "main.o   util.o\n".toList 'p' (by decide) (by decide)
    (by decide) (by decide)⟩

/-! ## Unique names -/

theorem findParentNode_eq_none (g : List parentNode) (n : CStr) :
    findParentNode g n = none ↔ n ∉ namesOf g := by
  induction g with
  | nil => simp [findParentNode, namesOf]
  | cons x rest ih =>
    unfold findParentNode
    by_cases hx : x.name = n
    · rw [if_pos hx]
      simp [namesOf, hx]
    · rw [if_neg hx, Option.map_eq_none', ih]
      have hx2 : ¬ n = x.name := fun e => hx e.symm
      simp [namesOf, hx2]

theorem namesOf_updNode (g : List parentNode) (i : Nat) (f : parentNode → parentNode)
    (hf : ∀ n, (f n).name = n.name) : namesOf (updNode g i f) = namesOf g :=
  map_updNode g i f (fun x => x.name) hf

theorem namesOf_storeCmds (st : ParseState) : namesOf (storeCmds st) = namesOf st.headLL := by
  unfold storeCmds
  cases st.temp with
  | none => rfl
  | some t => exact namesOf_updNode _ _ _ (fun _ => rfl)

theorem addNames_cons (acc : List CStr) (t : CStr) (more : List CStr) :
    addNames acc (t :: more) = addNames (if t ∈ acc then acc else acc ++ [t]) more := by
  simp only [addNames, List.foldl_cons]

theorem addNames_append (acc a b : List CStr) :
    addNames acc (a ++ b) = addNames (addNames acc a) b := by
  simp only [addNames, List.foldl_append]

theorem addNames_prefix (names acc : List CStr) : acc <+: addNames acc names := by
  rw [addNames_eq]
  exact List.prefix_append _ _

theorem addNames_nodup (names acc : List CStr) (h : acc.Nodup) : (addNames acc names).Nodup := by
  rw [addNames_eq]
  refine List.Nodup.append h ((removeRepeats_nodup names).filter _) ?_
  intro x hx hf
  have := (List.mem_filter.1 hf).2
  simp only [decide_not, Bool.not_eq_true', decide_eq_false_iff_not] at this
  exact this hx

/-- One iteration of the dependency loop appends the name of the token unless a node
carries it. -/
theorem namesOf_linkOne (g : List parentNode) (tn : Option CStr) (a : Nat) (tok : CStr) :
    namesOf (linkOne g tn a tok).1 = if tok ∈ namesOf g then namesOf g else namesOf g ++ [tok] := by
  unfold linkOne
  cases hf : findParentNode g tok with
  | some idx =>
    have hmem : tok ∈ namesOf g := by
      by_contra hn
      rw [(findParentNode_eq_none g tok).2 hn] at hf
      exact absurd hf (by simp)
    rw [if_pos hmem]
    exact namesOf_updNode _ _ _ (fun _ => rfl)
  | none =>
    rw [if_neg ((findParentNode_eq_none g tok).1 hf)]
    simp only
    rw [namesOf_updNode _ a (parentNode.addChild g.length) (fun _ => rfl), addParentNode_fst]
    simp [namesOf, newNode]

theorem namesOf_linkDeps (toks : List CStr) :
    ∀ (g : List parentNode) (tn : Option CStr) (a : Nat),
      namesOf (linkDeps g tn a toks).1 = addNames (namesOf g) toks := by
  induction toks with
  | nil => intro g tn a; rfl
  | cons tok more ih =>
    intro g tn a
    rw [linkDeps_cons, ih, namesOf_linkOne, addNames_cons]

theorem sscanfTarget_lead (line target rest : CStr) (h : sscanfTarget line = some (target, rest)) :
    rest.dropWhile isspace = rest := by
  unfold sscanfTarget at h
  split at h
  · simp at h
  · split at h
    · injection h with h
      injection h with _ h
      rw [← h]
      exact takeWhile_dropWhile_lead _ _
    · injection h with h
      injection h with _ h
      rw [← h]
      rfl

/-- A call of `useActionLineAndAddNodes` that returns appends to the names of the nodes the
names the line mentions, in order, each unless a node carries it. -/
theorem namesOf_useActionLineAndAddNodes (g : List parentNode) (tn : Option CStr) (line : CStr)
    (g1 : List parentNode) (tn1 : Option CStr) (a : Nat)
    (hu : useActionLineAndAddNodes g tn line = .ok (g1, tn1, a)) :
    namesOf g1 = addNames (namesOf g) (lineNames line) := by
  unfold useActionLineAndAddNodes at hu
  unfold lineNames
  cases hs : sscanfTarget line with
  | none => rw [hs] at hu; simp at hu
  | some p =>
    obtain ⟨target, restPointers⟩ := p
    have hlead := sscanfTarget_lead line target restPointers hs
    rw [hs] at hu
    simp only at hu ⊢
    by_cases hd : searchHeadActionForDup g target = true
    · rw [if_pos hd] at hu; simp at hu
    · rw [if_neg hd] at hu
      injection hu with hu
      injection hu with hg _
      rw [← hg, depLoop_eq_linkDeps _ _ _ _ _ (Nat.le_refl _) hlead, namesOf_linkDeps,
        addNames_cons]
      cases hf : findParentNode g target with
      | some idx =>
        have hmem : target ∈ namesOf g := by
          by_contra hn
          rw [(findParentNode_eq_none g target).2 hn] at hf
          exact absurd hf (by simp)
        rw [if_pos hmem]
      | none =>
        rw [if_neg ((findParentNode_eq_none g target).1 hf)]
        simp only
        rw [addParentNode_fst]
        simp [namesOf, newNode]

/-- One line of the rule file appends the names it mentions, each unless a node carries
it. -/
theorem namesOf_parseLine (st st1 : ParseState) (l : List Char) (hp : parseLine st l = .ok st1) :
    namesOf st1.headLL = addNames (namesOf st.headLL) (mentions [l]) := by
  have hm : mentions [l] =
      if charAt (cstr l) 0 = '\t' ∨ charAt (cstr l) 0 = '\x00' ∨ charAt (cstr l) 0 = '\n' then []
      else lineNames (fixLine (cstr l)) := by
    simp [mentions]
  rw [hm]
  by_cases htab : charAt (cstr l) 0 = '\t'
  · rw [if_pos (Or.inl htab)]
    rw [parseLine_tab st l htab] at hp
    by_cases hnil : st.headLL = []
    · rw [if_pos hnil] at hp; simp at hp
    · rw [if_neg hnil] at hp
      split at hp
      · injection hp with hp
        subst hp
        rfl
      · injection hp with hp
        subst hp
        rfl
  · by_cases hblank : charAt (cstr l) 0 = '\x00' ∨ charAt (cstr l) 0 = '\n'
    · rw [if_pos (Or.inr hblank)]
      rw [parseLine_blank st l hblank] at hp
      injection hp with hp
      subst hp
      rfl
    · rw [if_neg (by rintro (h | h); exact htab h; exact hblank h)]
      rw [parseLine_target st l htab hblank] at hp
      split at hp
      · simp at hp
      · cases hu : useActionLineAndAddNodes (storeCmds st) st.targetNode (fixLine (cstr l)) with
        | error e => rw [hu] at hp; simp at hp
        | ok r =>
          obtain ⟨g1, tn1, a⟩ := r
          rw [hu] at hp
          simp only at hp
          injection hp with hp
          subst hp
          rw [← namesOf_storeCmds st]
          exact namesOf_useActionLineAndAddNodes _ _ _ g1 tn1 a hu

theorem mentions_cons (l : List Char) (rest : List (List Char)) :
    mentions (l :: rest) = mentions [l] ++ mentions rest := by
  simp [mentions]

theorem namesOf_parseLines (lines : List (List Char)) :
    ∀ (st st1 : ParseState), parseLines st lines = .ok st1 →
      namesOf st1.headLL = addNames (namesOf st.headLL) (mentions lines) := by
  induction lines with
  | nil =>
    intro st st1 hp
    simp only [parseLines] at hp
    injection hp with hp
    subst hp
    rfl
  | cons l rest ih =>
    intro st st1 hp
    simp only [parseLines] at hp
    cases hl : parseLine st l with
    | error e => rw [hl] at hp; simp at hp
    | ok st2 =>
      rw [hl] at hp
      simp only at hp
      rw [ih st2 st1 hp, mentions_cons l rest, addNames_append, namesOf_parseLine st st2 l hl]

/-- The nodes of a rule file that was read without error carry the names the file
mentions, each once, in the order of first mention. -/
theorem namesOf_parseMakeFileData (lines : List (List Char)) (st : ParseState)
    (h : parseMakeFileData lines = .ok st) :
    namesOf st.headLL = removeRepeats (mentions lines) := by
  unfold parseMakeFileData at h
  cases hl : parseLines ParseState.init lines with
  | error e => rw [hl] at h; simp at h
  | ok st1 =>
    rw [hl] at h
    simp only at h
    have h1 := namesOf_parseLines lines ParseState.init st1 hl
    rw [show namesOf ParseState.init.headLL = [] from rfl, addNames_nil] at h1
    by_cases hc : st1.CMDS ≠ []
    · rw [if_pos hc] at h
      injection h with h
      subst h
      simp only
      rw [namesOf_storeCmds, h1]
    · rw [if_neg hc] at h
      injection h with h
      subst h
      exact h1

/-- In a list whose nodes carry different names, a lookup by name yields the one node
with that name, or nothing when no node has it. -/
theorem findsUnique_of_nodup (g : List parentNode) (h : (namesOf g).Nodup) : FindsUnique g := by
  intro name
  cases hf : findParentNode g name with
  | none => exact findParentNode_none g name hf
  | some i =>
    have hi := findParentNode_lt g name i hf
    have hn := findParentNode_some_name g name i hf
    refine ⟨hi, hn, ?_⟩
    intro j hj hjn
    have hj2 : j < (namesOf g).length := by simpa [namesOf] using hj
    have hi2 : i < (namesOf g).length := by simpa [namesOf] using hi
    have e1 : (namesOf g)[j] = name := by
      simp only [namesOf, List.getElem_map]
      rw [← nodeAt_lt g j hj]; exact hjn
    have e2 : (namesOf g)[i] = name := by
      simp only [namesOf, List.getElem_map]
      rw [← nodeAt_lt g i hi]; exact hn
    exact (List.Nodup.getElem_inj_iff h).1 (e1.trans e2.symm)

/-- The names a rule line mentions are its target name and the tokens right of its
colon. -/
theorem mentions_rule (l : List Char) (name R : CStr) (hnul : ∀ c ∈ l, c ≠ '\x00')
    (htab : l.head? ≠ some '\t') (h : IsRule l name R) : mentions [l] = name :: tokens R := by
  have hcls := text_classes l hnul
  have h1 : ¬ charAt (cstr l) 0 = '\t' := fun e => htab (hcls.1.mp e)
  have h2 : ¬ (charAt (cstr l) 0 = '\x00' ∨ charAt (cstr l) 0 = '\n') :=
    fun e => IsRule.not_blank l name R h (hcls.2.mp e)
  have hm : mentions [l] =
      if charAt (cstr l) 0 = '\t' ∨ charAt (cstr l) 0 = '\x00' ∨ charAt (cstr l) 0 = '\n' then []
      else lineNames (fixLine (cstr l)) := by
    simp [mentions]
  rw [hm, if_neg (by rintro (e | e); exact h1 e; exact h2 e), cstr_of_text l hnul]
  obtain ⟨rest, hs, ht, _⟩ := sscanfTarget_fixLine l name R h
  unfold lineNames
  rw [hs]
  simp only
  rw [ht]

/-- C22: a call of `useActionLineAndAddNodes` that returns, on a list whose nodes carry
different names, leaves a list whose nodes carry different names; the names
of the old list are a prefix of the new names (no node is removed or moved), the
names the line mentions are appended in order, each unless a node carries it, and
`findParentNode` yields the one node with the name asked for, or nothing when no
node has it. The same holds for every line read by `parseMakeFileData`, so after any
number of lines, and after a parse without error, the names of the nodes are the
names the file mentions, each once, in the order of first mention; a rule line
mentions its target name and then the tokens right of its colon. -/
theorem C22_unique_names :
    (∀ (g : List parentNode) (tn : Option CStr) (line : CStr) (g1 : List parentNode)
        (tn1 : Option CStr) (a : Nat),
      useActionLineAndAddNodes g tn line = .ok (g1, tn1, a) → (namesOf g).Nodup →
      (namesOf g1).Nodup ∧ namesOf g <+: namesOf g1 ∧
        namesOf g1 = addNames (namesOf g) (lineNames line) ∧ FindsUnique g1) ∧
    (∀ (st st1 : ParseState) (l : List Char),
      parseLine st l = .ok st1 → (namesOf st.headLL).Nodup →
      (namesOf st1.headLL).Nodup ∧ namesOf st.headLL <+: namesOf st1.headLL ∧
        namesOf st1.headLL = addNames (namesOf st.headLL) (mentions [l]) ∧
        FindsUnique st1.headLL) ∧
    (∀ (lines : List (List Char)) (st : ParseState),
      parseLines ParseState.init lines = .ok st →
      (namesOf st.headLL).Nodup ∧ namesOf st.headLL = removeRepeats (mentions lines) ∧
        FindsUnique st.headLL) ∧
    (∀ (lines : List (List Char)) (st : ParseState),
      parseMakeFileData lines = .ok st →
      (namesOf st.headLL).Nodup ∧ namesOf st.headLL = removeRepeats (mentions lines) ∧
        FindsUnique st.headLL) ∧
    (∀ (l : List Char) (name R : CStr), (∀ c ∈ l, c ≠ '\x00') → l.head? ≠ some '\t' →
      IsRule l name R → mentions [l] = name :: tokens R) := by
  refine ⟨?_, ?_, ?_, ?_, mentions_rule⟩
  · intro g tn line g1 tn1 a hu hn
    have e := namesOf_useActionLineAndAddNodes g tn line g1 tn1 a hu
    have hn1 : (namesOf g1).Nodup := by rw [e]; exact addNames_nodup _ _ hn
    exact ⟨hn1, by rw [e]; exact addNames_prefix _ _, e, findsUnique_of_nodup g1 hn1⟩
  · intro st st1 l hp hn
    have e := namesOf_parseLine st st1 l hp
    have hn1 : (namesOf st1.headLL).Nodup := by rw [e]; exact addNames_nodup _ _ hn
    exact ⟨hn1, by rw [e]; exact addNames_prefix _ _, e, findsUnique_of_nodup _ hn1⟩
  · intro lines st hp
    have e := namesOf_parseLines lines ParseState.init st hp
    rw [show namesOf ParseState.init.headLL = [] from rfl, addNames_nil] at e
    have hn1 : (namesOf st.headLL).Nodup := by rw [e]; exact removeRepeats_nodup _
    exact ⟨hn1, e, findsUnique_of_nodup _ hn1⟩
  · intro lines st hp
    have e := namesOf_parseMakeFileData lines st hp
    have hn1 : (namesOf st.headLL).Nodup := by rw [e]; exact removeRepeats_nodup _
    exact ⟨hn1, e, findsUnique_of_nodup _ hn1⟩

/-- C22 at the rule file `app : main.o util.o`, `util.o : main.o x`: four nodes, in
the order of first mention. -/
theorem C22_unique_names_witness :
    ∃ st, parseMakeFileData (getlines "app : main.o util.o\nutil.o : main.o x\n".toList) = .ok st ∧
      namesOf st.headLL = ["app".toList, "main.o".toList, "util.o".toList, "x".toList] ∧
      findParentNode st.headLL "util.o".toList = some 2 ∧
      findParentNode st.headLL "y".toList = none ∧
      (namesOf st.headLL).Nodup ∧
      namesOf st.headLL =
        removeRepeats (mentions (getlines "app : main.o util.o\nutil.o : main.o x\n".toList)) ∧
      FindsUnique st.headLL :=
  ⟨_, rfl, rfl, rfl, rfl, C22_unique_names.2.2.2.1 _ _ rfl⟩

/-! ## The probe after a rebuild -/

/-- Lines 170-179 of `POT` and the cached values: a probe that finds the file stores
its time and sets `doesExist`; a probe that fails writes nothing when the node is
flagged as target, and ends the run otherwise. -/
theorem POTrestat_cache {W : Type} (env : Env W) (s : State W) (i : Nat)
    (hi : i < s.headLL.length) :
    match (env.stat s.world (s.node i).name).1 with
    | some t => ∃ s1, POTrestat env s i = .ok s1 ∧ (s1.node i).doesExist = true ∧
        (s1.node i).fileDate = t ∧ s1.world = (env.stat s.world (s.node i).name).2
    | none =>
      if (s.node i).target = true then
        ∃ s1, POTrestat env s i = .ok s1 ∧ (∀ j, s1.node j = s.node j) ∧
          s1.world = (env.stat s.world (s.node i).name).2
      else ∃ s1, POTrestat env s i = .fatal .stat s1 := by
  unfold POTrestat
  have e1 : (s.stat env i).1 = (env.stat s.world (s.node i).name).1 := rfl
  have e2 : s.stat env i = ((s.stat env i).1, (s.stat env i).2) := rfl
  rw [e2, e1]
  cases hr : (env.stat s.world (s.node i).name).1 with
  | some t =>
    simp only
    refine ⟨_, rfl, ?_, ?_, rfl⟩
    · rw [State.node_upd_self _ _ _ (by rw [State.stat_headLL]; exact hi)]; rfl
    · rw [State.node_upd_self _ _ _ (by rw [State.stat_headLL]; exact hi)]; rfl
  | none =>
    simp only
    rw [State.stat_node]
    by_cases ht : (s.node i).target = true
    · rw [if_pos ht, if_neg (by rw [ht]; decide)]
      exact ⟨_, rfl, fun _ => rfl, rfl⟩
    · have ht2 : (s.node i).target = false := by simpa using ht
      rw [if_neg ht, if_pos ht2]
      exact ⟨_, rfl⟩

/-- Lines 168-182 of `POT` and the cached values, for a node that must be built and
whose commands all succeeded: when the probe behind the commands finds the file,
the node gets `doesExist = 1` and the time found; when it fails, a node flagged as
target keeps the values it had before the commands, and for any other node
the run ends with the message of `perror("stat")`. -/
theorem POTrebuild_cache {W : Type} (env : Env W) (cur : State W) (i : Nat)
    (hi : i < cur.headLL.length) (hmb : (cur.node i).mustBuild = true) (s' : State W)
    (hp : praseCMDS env i (cur.node i).cmds (cur.emit (.praseCMDS i)) = .ok s') :
    match (env.stat s'.world (cur.node i).name).1 with
    | some t => ∃ s1, POTrebuild env cur i = .ok s1 ∧ (s1.node i).doesExist = true ∧
        (s1.node i).fileDate = t ∧ (s1.node i).completed = true
    | none =>
      if (cur.node i).target = true then
        ∃ s1, POTrebuild env cur i = .ok s1 ∧ (s1.node i).doesExist = (cur.node i).doesExist ∧
          (s1.node i).fileDate = (cur.node i).fileDate ∧ (s1.node i).completed = true
      else ∃ s1, POTrebuild env cur i = .fatal .stat s1 := by
  have hx := praseCMDS_exact env i (cur.node i).cmds (cur.emit (.praseCMDS i))
  rw [hp] at hx
  simp only [State.emit_headLL] at hx
  have hnode : ∀ j, s'.node j = cur.node j := fun j => by unfold State.node; rw [hx.1]
  have hi' : i < s'.headLL.length := by rw [hx.1]; exact hi
  have hr := POTrestat_cache env s' i hi'
  rw [hnode i] at hr
  unfold POTrebuild
  rw [if_pos hmb, hp]
  simp only
  revert hr
  cases (env.stat s'.world (cur.node i).name).1 with
  | some t =>
    simp only
    intro ⟨s1, h1, h2, h3, _⟩
    have hl : i < s1.headLL.length := by
      have := POTrestat_exact env s' i hi'
      rw [h1] at this
      rw [this.1]; exact hi'
    rw [h1]
    refine ⟨_, rfl, ?_, ?_, ?_⟩ <;> rw [State.node_upd_self _ _ _ hl]
    · exact h2
    · exact h3
    · rfl
  | none =>
    simp only
    by_cases ht : (cur.node i).target = true
    · rw [if_pos ht, if_pos ht]
      intro ⟨s1, h1, h2, _⟩
      have hl : i < s1.headLL.length := by
        have := POTrestat_exact env s' i hi'
        rw [h1] at this
        rw [this.1]; exact hi'
      rw [h1]
      refine ⟨_, rfl, ?_, ?_, ?_⟩ <;> rw [State.node_upd_self _ _ _ hl]
      · show (s1.node i).doesExist = _
        rw [h2 i, hnode i]
      · show (s1.node i).fileDate = _
        rw [h2 i, hnode i]
      · rfl
    · rw [if_neg ht, if_neg ht]
      intro ⟨s1, h1⟩
      rw [h1]
      exact ⟨_, rfl⟩

/-- C21 fails on a node flagged as target whose file exists when the node is first
probed and is gone after its commands: the probe behind the commands fails, and
lines 170-179 of `POT` then write nothing, so the node keeps `doesExist = 1` and the
time of the first probe. In the rule file `a : b`, `rm a`, `top : a`, `touch top`
with `b` newer than `a`, the run for `top` removes `a`, leaves `a` cached as existing
with time 3 although a probe of `a` finds no file, and `top`, which compares
against these values, is not rebuilt. Whenever the probe finds the file, the
cached values are the ones it reports, and later calls of `POT` leave them as they
are. -/
theorem C21_reprobe_after_rebuild :
    (parseMakeFileData (getlines vanishFile) = .ok
        { headLL := vanishGraph, targetNode := some "a".toList, CMDS := ["touch top".toList],
          temp := some 2 } ∧
      ∃ s, mymake2 rmEnv vanishWorld vanishFile (some "top".toList) = .built (.ok s) ∧
        s.trace = [.stat 2 "top".toList (some 4), .stat 0 "a".toList (some 3),
          .stat 1 "b".toList (some 5), .praseCMDS 0, .system 0 "rm a".toList true,
          .echo 0 "rm a".toList, .stat 0 "a".toList none] ∧
        (s.node 0).name = "a".toList ∧ (s.node 0).completed = true ∧
        (s.node 0).doesExist = true ∧ (s.node 0).fileDate = 3 ∧
        (rmEnv.stat s.world "a".toList).1 = none ∧
        (s.node 2).name = "top".toList ∧ (s.node 2).mustBuild = false ∧
        (s.node 2).fileDate = 4) ∧
    (∀ (W : Type) (env : Env W) (cur : State W) (i : Nat) (s' : State W),
      i < cur.headLL.length → (cur.node i).mustBuild = true →
      praseCMDS env i (cur.node i).cmds (cur.emit (.praseCMDS i)) = .ok s' →
      match (env.stat s'.world (cur.node i).name).1 with
      | some t => ∃ s1, POTrebuild env cur i = .ok s1 ∧ (s1.node i).doesExist = true ∧
          (s1.node i).fileDate = t ∧ (s1.node i).completed = true
      | none =>
        if (cur.node i).target = true then
          ∃ s1, POTrebuild env cur i = .ok s1 ∧ (s1.node i).doesExist = (cur.node i).doesExist ∧
            (s1.node i).fileDate = (cur.node i).fileDate ∧ (s1.node i).completed = true
        else ∃ s1, POTrebuild env cur i = .fatal .stat s1) ∧
    (∀ (W : Type) (env : Env W) (fuel : Nat) (s s2 : State W) (j i : Nat),
      POT env fuel s j = .ok s2 → (s.node i).visited = true → s2.node i = s.node i) ∧
    (∀ (W : Type) (s : State W) (p c : Nat), p < s.headLL.length → p ≠ c →
      ¬ ((s.node c).visited = true ∧ (s.node c).completed = false) →
      (POTedge p c s).node c = s.node c ∧
      (((POTedge p c s).node p).mustBuild = true ↔
        ((s.node p).mustBuild = true ∨ (s.node c).doesExist = false ∨
          (s.node c).fileDate > (s.node p).fileDate))) := by
  refine ⟨⟨rfl, _, rfl, rfl, rfl, rfl, rfl, rfl, rfl, rfl, rfl, rfl⟩, ?_, ?_, ?_⟩
  · intro W env cur i s' hi hmb hp
    exact POTrebuild_cache env cur i hi hmb s' hp
  · intro W env fuel s s2 j i hp hv
    have := POT_frame env fuel s j
    rw [hp] at this
    exact this.1.visited i hv
  · intro W s p c hp hpc hcy
    rcases POTedge_exact p c s hp with h | h
    · exact absurd ⟨h.1, h.2.1⟩ hcy
    · exact ⟨h.2.2.1 c (fun e => hpc e.symm), h.2.2.2.2.2.2.2.2.2⟩

/-- The step of C21 at node `a` of `vanishGraph`, cached as existing with time 3 and
marked to be built: the command `rm a` succeeds, the probe fails, and the node
keeps the cached values. -/
theorem C21_reprobe_after_rebuild_witness :
    ∃ s1, POTrebuild rmEnv (((State.start vanishGraph vanishWorld).upd 0
        (parentNode.setExists 3)).upd 0 parentNode.setMustBuild) 0 = .ok s1 ∧
      (s1.node 0).doesExist = true ∧ (s1.node 0).fileDate = 3 ∧ (s1.node 0).completed = true ∧
      (rmEnv.stat s1.world "a".toList).1 = none :=
  match C21_reprobe_after_rebuild.2.1 DemoWorld rmEnv (((State.start vanishGraph vanishWorld).upd 0
      (parentNode.setExists 3)).upd 0 parentNode.setMustBuild) 0 _ (by decide) rfl rfl with
  | ⟨s1, h1, h2, h3, h4⟩ => ⟨s1, h1, h2, h3, h4, by
      have e : POTrebuild rmEnv (((State.start vanishGraph vanishWorld).upd 0
        (parentNode.setExists 3)).upd 0 parentNode.setMustBuild) 0 = .ok _ := rfl
      rw [e] at h1
      injection h1 with h1
      rw [← h1]
      rfl⟩

end UnixMakefileModel
